import Mathlib

/-!
# Redis 3.2.12 : `rio.h` stream transport and `adlist.c` doubly linked list

A shallow embedding of the inline functions of `src/rio.h` (`rioWrite`,
`rioRead`) and of the list operations of `src/adlist.c`, followed by the
properties proved about them.

Conventions of the embedding

* `size_t` values are natural numbers; the one `size_t` addition whose
  wrap-around is observable (`r->processed_bytes += n`) is taken modulo `2^64`.
* A buffer `(buf, len)` is a `List Byte`; `buf + n` is `List.drop n` and the
  first `n` bytes are `List.take n`.
* The backend function pointers `read`/`write` act on the backend specific
  part `io` of the transport and report zero (failure) or non zero (success).
* Every embedded function additionally returns a ghost trace of the
  observable steps it performed, in program order.  The trace does not
  influence the computation.
-/

namespace Rio

/-- One byte of a buffer. -/
abbrev Byte := Fin 256

/-- Number of values of a `size_t` (64 bit target). -/
def SIZE_T_MOD : Nat := 2 ^ 64

/-- The fields of `struct _rio` used by `rioWrite` and `rioRead` (`tell` and
`flush` are not used by them).  The type parameter `σ` is the backend specific
union `io`.  `write` returns the `size_t` result of the backend and the new
backend state; `read` returns `none` for a zero result and `some bytes` when
the backend filled the buffer with `bytes`.  `update_cksum`, when set, is
called with the current checksum and the new block of data and gives the new
checksum (as `rioGenericUpdateChecksum` does with `crc64`). -/
structure rio (σ : Type) where
  read : σ → Nat → Option (List Byte) × σ
  write : σ → List Byte → Nat × σ
  update_cksum : Option (Nat → List Byte → Nat)
  cksum : Nat
  processed_bytes : Nat
  max_processing_chunk : Nat
  io : σ

/-- Ghost trace entries, one per observable step of `rioWrite`/`rioRead`. -/
inductive rioEvent where
  /-- The call `r->update_cksum(r,buf,n)` was made on the chunk. -/
  | cksum (chunk : List Byte)
  /-- The call `r->write(r,buf,n)` was made on the chunk and returned `ret`. -/
  | write (chunk : List Byte) (ret : Nat)
  /-- The call `r->read(r,buf,n)` was made and delivered `got`. -/
  | read (n : Nat) (got : Option (List Byte))
  /-- The statement `r->processed_bytes += n` was executed for the chunk. -/
  | processed (chunk : List Byte)
  deriving DecidableEq, Repr

/-- The call `if (r->update_cksum) r->update_cksum(r,buf,n)`. -/
def rioUpdateCksum {σ : Type} (r : rio σ) (chunk : List Byte) : rio σ :=
  match r.update_cksum with
  | some f => { r with cksum := f r.cksum chunk }
  | none => r

/-- Ghost trace of `if (r->update_cksum) r->update_cksum(r,buf,n)`. -/
def rioUpdateCksumTrace {σ : Type} (r : rio σ) (chunk : List Byte) : List rioEvent :=
  match r.update_cksum with
  | some _ => [rioEvent.cksum chunk]
  | none => []

/-- The expression
`(r->max_processing_chunk && r->max_processing_chunk < len) ? r->max_processing_chunk : len`
shared by `rioWrite` and `rioRead`. -/
def rioChunkSize {σ : Type} (r : rio σ) (len : Nat) : Nat :=
  if r.max_processing_chunk ≠ 0 ∧ r.max_processing_chunk < len
  then r.max_processing_chunk else len

/-- Embedding of `rioWrite` (rio.h lines 104 to 117): result, transport after
the call, ghost trace. -/
def rioWrite {σ : Type} (r : rio σ) (buf : List Byte) : Nat × rio σ × List rioEvent :=
  if buf.length = 0 then (1, r, [])
  else
    let bytes_to_write := rioChunkSize r buf.length
    let chunk := buf.take bytes_to_write
    -- if (r->update_cksum) r->update_cksum(r,buf,bytes_to_write);
    let r1 := rioUpdateCksum r chunk
    -- if (r->write(r,buf,bytes_to_write) == 0) return 0;
    let w := r1.write r1.io chunk
    let r2 := { r1 with io := w.2 }
    if w.1 = 0 then
      (0, r2, rioUpdateCksumTrace r chunk ++ [rioEvent.write chunk w.1])
    else
      -- buf += bytes_to_write; len -= bytes_to_write;
      -- r->processed_bytes += bytes_to_write;
      let r3 := { r2 with
        processed_bytes := (r2.processed_bytes + bytes_to_write) % SIZE_T_MOD }
      let rest := rioWrite r3 (buf.drop bytes_to_write)
      (rest.1, rest.2.1,
        rioUpdateCksumTrace r chunk
          ++ [rioEvent.write chunk w.1, rioEvent.processed chunk] ++ rest.2.2)
termination_by buf.length
decreasing_by
  simp only [List.length_drop, rioChunkSize]
  split <;> omega

/-- Embedding of `rioRead` (rio.h lines 120 to 131): result, transport after
the call, bytes stored in the caller's buffer by the successful chunk reads,
ghost trace. -/
def rioRead {σ : Type} (r : rio σ) (len : Nat) :
    Nat × rio σ × List Byte × List rioEvent :=
  if len = 0 then (1, r, [], [])
  else
    let bytes_to_read := rioChunkSize r len
    -- if (r->read(r,buf,bytes_to_read) == 0) return 0;
    let rd := r.read r.io bytes_to_read
    let r1 := { r with io := rd.2 }
    match rd.1 with
    | none => (0, r1, [], [rioEvent.read bytes_to_read none])
    | some chunk =>
      -- if (r->update_cksum) r->update_cksum(r,buf,bytes_to_read);
      let r2 := rioUpdateCksum r1 chunk
      -- buf += bytes_to_read; len -= bytes_to_read;
      -- r->processed_bytes += bytes_to_read;
      let r3 := { r2 with
        processed_bytes := (r2.processed_bytes + bytes_to_read) % SIZE_T_MOD }
      let rest := rioRead r3 (len - bytes_to_read)
      (rest.1, rest.2.1, chunk ++ rest.2.2.1,
        [rioEvent.read bytes_to_read (some chunk)] ++ rioUpdateCksumTrace r1 chunk
          ++ [rioEvent.processed chunk] ++ rest.2.2.2)
termination_by len
decreasing_by
  simp only [rioChunkSize]
  split <;> omega

/-- The backend write calls of a trace, in call order: chunk and result. -/
def writeCalls : List rioEvent → List (List Byte × Nat)
  | [] => []
  | rioEvent.write c ret :: t => (c, ret) :: writeCalls t
  | _ :: t => writeCalls t

/-- The backend read calls of a trace, in call order: requested length and
delivered bytes. -/
def readCalls : List rioEvent → List (Nat × Option (List Byte))
  | [] => []
  | rioEvent.read n got :: t => (n, got) :: readCalls t
  | _ :: t => readCalls t

/-- The bytes handed to `update_cksum`, in call order. -/
def foldedBytes : List rioEvent → List Byte
  | [] => []
  | rioEvent.cksum c :: t => c ++ foldedBytes t
  | _ :: t => foldedBytes t

/-- The chunks handed to `update_cksum`, in call order. -/
def foldedChunks : List rioEvent → List (List Byte)
  | [] => []
  | rioEvent.cksum c :: t => c :: foldedChunks t
  | _ :: t => foldedChunks t

/-- The bytes counted by the executions of `r->processed_bytes += n`, in
program order. -/
def countedBytes : List rioEvent → List Byte
  | [] => []
  | rioEvent.processed c :: t => c ++ countedBytes t
  | _ :: t => countedBytes t

/-- The chunks counted by the executions of `r->processed_bytes += n`. -/
def countedChunks : List rioEvent → List (List Byte)
  | [] => []
  | rioEvent.processed c :: t => c :: countedChunks t
  | _ :: t => countedChunks t

/-- The steps of one iteration of the loop of `rioRead` on a transport with a
checksum function, as determined by the outcome of its backend read: a
delivered chunk is folded and then counted, a failed read is followed by
nothing. -/
def readIterationTrace : Nat × Option (List Byte) → List rioEvent
  | (n, some chunk) =>
    [rioEvent.read n (some chunk), rioEvent.cksum chunk, rioEvent.processed chunk]
  | (n, none) => [rioEvent.read n none]

/-- One call made on a transport: `rioWrite(r, data, len)` or
`rioRead(r, buf, len)`. -/
inductive rioOp where
  | write (data : List Byte)
  | read (len : Nat)
  deriving DecidableEq, Repr

/-- A finite sequence of `rioWrite`/`rioRead` calls on one transport, whatever
their results: the transport after the last call and the ghost trace of all
the calls. -/
def rioRun {σ : Type} (r : rio σ) : List rioOp → rio σ × List rioEvent
  | [] => (r, [])
  | rioOp.write data :: ops =>
    let a := rioWrite r data
    let b := rioRun a.2.1 ops
    (b.1, a.2.2 ++ b.2)
  | rioOp.read len :: ops =>
    let a := rioRead r len
    let b := rioRun a.2.1 ops
    (b.1, a.2.2.2 ++ b.2)

/-- A backend over an in-memory byte sequence: `write` appends and always
succeeds, `read` always fails. -/
def appendBackend (cksum : Option (Nat → List Byte → Nat)) (c0 pb mpc : Nat)
    (s : List Byte) : rio (List Byte) :=
  { read := fun s _ => (none, s)
    write := fun s chunk => (1, s ++ chunk)
    update_cksum := cksum
    cksum := c0
    processed_bytes := pb
    max_processing_chunk := mpc
    io := s }

/-- A checksum update function compatible with concatenation: it adds the
byte values to the running checksum. -/
def byteSum (c : Nat) (chunk : List Byte) : Nat :=
  c + (chunk.map Fin.val).sum

/-- A transport whose backend counts the calls made to it in `io`; its write
fails on call number `k` (counting from zero) and its read delivers `n` zero
bytes except on call number `k`, where it fails. -/
def failingBackend (cksum : Option (Nat → List Byte → Nat)) (c0 pb mpc k : Nat) :
    rio Nat :=
  { read := fun s n => (if s = k then none else some (List.replicate n 0), s + 1)
    write := fun s _ => (if s = k then 0 else 1, s + 1)
    update_cksum := cksum
    cksum := c0
    processed_bytes := pb
    max_processing_chunk := mpc
    io := 0 }

/-- A concrete transport: appending backend, no checksum, five bytes already
processed, chunks of at most two bytes. -/
def rioExample : rio (List Byte) := appendBackend none 0 5 2 []

/-- The steps of one iteration of the loop of `rioWrite` on a transport with a
checksum function, as determined by the outcome of its backend write: the
chunk is folded, then written, and it is counted only when the write did not
return zero. -/
def writeIterationTrace : List Byte × Nat → List rioEvent
  | (c, 0) => [rioEvent.cksum c, rioEvent.write c 0]
  | (c, ret + 1) => [rioEvent.cksum c, rioEvent.write c (ret + 1), rioEvent.processed c]

/-- A checksum update function that is compatible with concatenation although
folding the empty block changes the checksum: its result is always zero. -/
def zeroCksum (_ : Nat) (_ : List Byte) : Nat := 0

/-- The byte of an ASCII character. -/
def charByte (c : Char) : Byte := Fin.ofNat c.toNat

/-- The byte CR (carriage return). -/
def CR : Byte := 13

/-- The byte LF (line feed). -/
def LF : Byte := 10

/-- Modelled from the spec: `ll2string` of `util.c`, absent from the sources:
the decimal ASCII rendering of a `long long`. -/
def ll2string (l : Int) : List Byte :=
  (toString l).toList.map charByte

/-- Modelled from the spec: `rioWriteBulkCount` of `rio.c`, absent from the
sources.  Count record of the specification: one tag byte, the decimal ASCII
of the count and the two byte terminator CR LF, written with one `rioWrite`;
the result is the number of bytes written, zero when `rioWrite` failed. -/
def rioWriteBulkCount {σ : Type} (r : rio σ) (tag : Byte) (count : Int) :
    Nat × rio σ × List rioEvent :=
  let cbuf := tag :: ll2string count ++ [CR, LF]
  let w := rioWrite r cbuf
  if w.1 = 0 then (0, w.2.1, w.2.2) else (cbuf.length, w.2.1, w.2.2)

/-- Modelled from the spec: `rioWriteBulkString` of `rio.c`, absent from the
sources.  Bulk string of the specification: the count record of tag `$` for
the length of the payload, the payload when it is not empty, and the
terminator, each written with `rioWrite`; the result is the number of bytes
written, zero as soon as a write failed (what was written before is not rolled
back). -/
def rioWriteBulkString {σ : Type} (r : rio σ) (buf : List Byte) :
    Nat × rio σ × List rioEvent :=
  let a := rioWriteBulkCount r (charByte '$') buf.length
  if a.1 = 0 then (0, a.2.1, a.2.2)
  else
    let b := if buf.length > 0 then rioWrite a.2.1 buf else (1, a.2.1, [])
    if b.1 = 0 then (0, b.2.1, a.2.2 ++ b.2.2)
    else
      let c := rioWrite b.2.1 [CR, LF]
      if c.1 = 0 then (0, c.2.1, a.2.2 ++ b.2.2 ++ c.2.2)
      else (a.1 + buf.length + 2, c.2.1, a.2.2 ++ b.2.2 ++ c.2.2)

/-- Modelled from the spec: `rioWriteBulkLongLong` of `rio.c`, absent from the
sources (`rio.h` line 149 declares it).  Bulk integer of the specification: a
bulk string whose payload is the decimal ASCII rendering of the integer. -/
def rioWriteBulkLongLong {σ : Type} (r : rio σ) (l : Int) : Nat × rio σ × List rioEvent :=
  rioWriteBulkString r (ll2string l)

/-- The wire format of a bulk integer in the words of the specification: `$`,
the decimal ASCII length of the decimal ASCII rendering of the integer, CR LF,
that rendering, CR LF. -/
def bulkLongLongBytes (l : Int) : List Byte :=
  [charByte '$'] ++ (toString (toString l).length).toList.map charByte ++
    [CR, LF] ++ (toString l).toList.map charByte ++
    [CR, LF]

end Rio

/-! ## Embedding of `adlist.c`

The heap is explicit.  A non-NULL pointer is an address (`Ptr`), a possibly
NULL pointer is an `Option Ptr`.  List headers and list nodes live in two
typed maps from addresses to contents; an address that is not mapped is not
allocated.  A function that dereferences NULL or a non allocated address has
no result (`none`).  `void *` values are natural numbers, `0` being NULL.

`zmalloc`/`zfree` belong to `zmalloc.h`, which is not part of the sources at
hand: the results of the successive `zmalloc` calls are a parameter of the
memory (`alloc`), consumed in call order.  The calls of a list's `free`
method are recorded, in call order, in the ghost field `freed`.

`list->len` is an `unsigned long`; `len++` is embedded without wrap-around,
because the `len` of a list whose nodes are all allocated cannot reach
`2^64 - 1`. -/

namespace Adlist

/-- A non-NULL address. -/
abbrev Ptr := Nat

/-- A `void *` value stored in a node; `0` is NULL. -/
abbrev Val := Nat

/-- `struct listNode`. -/
structure listNode where
  prev : Option Ptr
  next : Option Ptr
  value : Val
  deriving DecidableEq, Repr

/-- `struct list`.  The `free` method is represented by the address of the
function, its calls are recorded in `Mem.freed`; `match_` is the field
`match`. -/
structure list where
  head : Option Ptr
  tail : Option Ptr
  dup : Option (Val → Val)
  free : Option Nat
  match_ : Option (Val → Val → Int)
  len : Nat

/-- `struct listIter`. -/
structure listIter where
  next : Option Ptr
  direction : Int
  deriving DecidableEq, Repr

/-- `AL_START_HEAD`. -/
def AL_START_HEAD : Int := 0

/-- `AL_START_TAIL`. -/
def AL_START_TAIL : Int := 1

/-- The memory: allocated nodes, allocated list headers, the results of the
coming `zmalloc` calls, and the ghost record of the calls `free(value)` made
through a list's `free` method (method address and argument). -/
structure Mem where
  nodes : Ptr → Option listNode
  lists : Ptr → Option list
  alloc : List (Option Ptr)
  freed : List (Nat × Val)

/-- Modelled from the spec: `zmalloc` of `zmalloc.h`, absent from the sources;
on allocation failure the result is NULL.  The next scripted result is
returned; an exhausted script answers NULL. -/
def zmalloc (m : Mem) : Option Ptr × Mem :=
  match m.alloc with
  | [] => (none, m)
  | a :: rest => (a, { m with alloc := rest })

/-- Store a whole node at address `p`. -/
def Mem.setNode (m : Mem) (p : Ptr) (n : listNode) : Mem :=
  { m with nodes := Function.update m.nodes p (some n) }

/-- Store a whole list header at address `p`. -/
def Mem.setList (m : Mem) (p : Ptr) (l : list) : Mem :=
  { m with lists := Function.update m.lists p (some l) }

/-- The assignment `p->prev = v`. -/
def Mem.setPrev (m : Mem) (p : Option Ptr) (v : Option Ptr) : Option Mem := do
  let q ← p
  let n ← m.nodes q
  pure (m.setNode q { n with prev := v })

/-- The assignment `p->next = v`. -/
def Mem.setNext (m : Mem) (p : Option Ptr) (v : Option Ptr) : Option Mem := do
  let q ← p
  let n ← m.nodes q
  pure (m.setNode q { n with next := v })

/-- The call `zfree(node)` on a list node. -/
def Mem.freeNode (m : Mem) (p : Ptr) : Mem :=
  { m with nodes := Function.update m.nodes p none }

/-- The call `zfree(list)` on a list header. -/
def Mem.freeList (m : Mem) (p : Ptr) : Mem :=
  { m with lists := Function.update m.lists p none }

/-- The statement `if (list->free) list->free(value)`. -/
def Mem.callFree (m : Mem) (l : list) (value : Val) : Mem :=
  match l.free with
  | some fn => { m with freed := m.freed ++ [(fn, value)] }
  | none => m

/-- Embedding of `listCreate` (adlist.c lines 46 to 64). -/
def listCreate (m : Mem) : Option Ptr × Mem :=
  let a := zmalloc m
  match a.1 with
  | none => (none, a.2)
  | some lp =>
    (some lp, a.2.setList lp
      { head := none, tail := none, len := 0, dup := none, free := none, match_ := none })

/-- The loop `while(len--)` of `listRelease`. -/
def listReleaseLoop (l : list) : Nat → Option Ptr → Mem → Option Mem
  | 0, _, m => some m
  | len + 1, current, m => do
    let c ← current
    let cn ← m.nodes c
    let next := cn.next
    let m1 := m.callFree l cn.value
    let m2 := m1.freeNode c
    listReleaseLoop l len next m2

/-- Embedding of `listRelease` (adlist.c lines 72 to 86). -/
def listRelease (m : Mem) (lp : Ptr) : Option Mem := do
  let l ← m.lists lp
  let m1 ← listReleaseLoop l l.len l.head m
  pure (m1.freeList lp)

/-- Embedding of `listAddNodeHead` (adlist.c lines 98 to 116).  The three
fields of the fresh node are stored together. -/
def listAddNodeHead (m : Mem) (lp : Ptr) (value : Val) : Option (Option Ptr × Mem) :=
  -- if ((node = zmalloc(sizeof(*node))) == NULL) return NULL;
  let a := zmalloc m
  match a.1 with
  | none => some (none, a.2)
  | some node => do
    let l ← a.2.lists lp
    if l.len = 0 then
      -- list->head = list->tail = node; node->prev = node->next = NULL;
      let m1 := a.2.setNode node { prev := none, next := none, value := value }
      let m2 := m1.setList lp { l with head := some node, tail := some node, len := l.len + 1 }
      pure (some lp, m2)
    else
      -- node->prev = NULL; node->next = list->head;
      let m1 := a.2.setNode node { prev := none, next := l.head, value := value }
      -- list->head->prev = node;
      let m2 ← m1.setPrev l.head (some node)
      -- list->head = node; list->len++;
      let m3 := m2.setList lp { l with head := some node, len := l.len + 1 }
      pure (some lp, m3)

/-- Embedding of `listAddNodeTail` (adlist.c lines 125 to 143).  The three
fields of the fresh node are stored together. -/
def listAddNodeTail (m : Mem) (lp : Ptr) (value : Val) : Option (Option Ptr × Mem) :=
  -- if ((node = zmalloc(sizeof(*node))) == NULL) return NULL;
  let a := zmalloc m
  match a.1 with
  | none => some (none, a.2)
  | some node => do
    let l ← a.2.lists lp
    if l.len = 0 then
      -- list->head = list->tail = node; node->prev = node->next = NULL;
      let m1 := a.2.setNode node { prev := none, next := none, value := value }
      let m2 := m1.setList lp { l with head := some node, tail := some node, len := l.len + 1 }
      pure (some lp, m2)
    else
      -- node->prev = list->tail; node->next = NULL;
      let m1 := a.2.setNode node { prev := l.tail, next := none, value := value }
      -- list->tail->next = node;
      let m2 ← m1.setNext l.tail (some node)
      -- list->tail = node; list->len++;
      let m3 := m2.setList lp { l with tail := some node, len := l.len + 1 }
      pure (some lp, m3)

/-- Embedding of `listRewind` (adlist.c lines 225 to 228). -/
def listRewind (m : Mem) (lp : Ptr) : Option listIter := do
  let l ← m.lists lp
  pure { next := l.head, direction := AL_START_HEAD }

/-- Embedding of `listRewindTail` (adlist.c lines 231 to 234). -/
def listRewindTail (m : Mem) (lp : Ptr) : Option listIter := do
  let l ← m.lists lp
  pure { next := l.tail, direction := AL_START_TAIL }

/-- Embedding of `listNext` (adlist.c lines 252 to 263): the node returned
and the iterator after the call. -/
def listNext (m : Mem) (iter : listIter) : Option (Option Ptr × listIter) :=
  match iter.next with
  | none => some (none, iter)
  | some current => do
    let cn ← m.nodes current
    if iter.direction = AL_START_HEAD then
      pure (some current, { iter with next := cn.next })
    else
      pure (some current, { iter with next := cn.prev })

/-- The loop `while((node = listNext(&iter)) != NULL)` of `listDup`.  The
first argument bounds the number of iterations; when it is exhausted there is
no result. -/
def listDupLoop : Nat → Mem → Ptr → listIter → Option (Option Ptr × Mem)
  | 0, _, _, _ => none
  | fuel + 1, m, copy, iter => do
    let nx ← listNext m iter
    match nx.1 with
    | none => pure (some copy, m)
    | some node =>
      let c ← m.lists copy
      let nd ← m.nodes node
      match c.dup with
      | some dup =>
        let value := dup nd.value
        if value = 0 then do
          let m1 ← listRelease m copy
          pure (none, m1)
        else do
          let r ← listAddNodeTail m copy value
          if r.1 = none then do
            let m1 ← listRelease r.2 copy
            pure (none, m1)
          else listDupLoop fuel r.2 copy nx.2
      | none => do
        let r ← listAddNodeTail m copy nd.value
        if r.1 = none then do
          let m1 ← listRelease r.2 copy
          pure (none, m1)
        else listDupLoop fuel r.2 copy nx.2

/-- Embedding of `listDup` (adlist.c lines 276 to 305), with a bound on the
number of loop iterations. -/
def listDup (fuel : Nat) (m : Mem) (orig : Ptr) : Option (Option Ptr × Mem) :=
  let a := listCreate m
  match a.1 with
  | none => some (none, a.2)
  | some copy => do
    let o ← a.2.lists orig
    let c ← a.2.lists copy
    let m1 := a.2.setList copy { c with dup := o.dup, free := o.free, match_ := o.match_ }
    let iter ← listRewind m1 orig
    listDupLoop fuel m1 copy iter

/-- Two's complement wrap-around of a `long` (64 bit). -/
def wrapLong (x : Int) : Int :=
  (x + 2 ^ 63) % 2 ^ 64 - 2 ^ 63

/-- The loop `while(index-- && n) n = n->prev` of `listIndex`. -/
def listIndexPrev (m : Mem) : Nat → Option Ptr → Option (Option Ptr)
  | 0, n => some n
  | _ + 1, none => some none
  | index + 1, some p => do
    let pn ← m.nodes p
    listIndexPrev m index pn.prev

/-- The loop `while(index-- && n) n = n->next` of `listIndex`. -/
def listIndexNext (m : Mem) : Nat → Option Ptr → Option (Option Ptr)
  | 0, n => some n
  | _ + 1, none => some none
  | index + 1, some p => do
    let pn ← m.nodes p
    listIndexNext m index pn.next

/-- Embedding of `listIndex` (adlist.c lines 346 to 358).  `index` is a
`long`; the negation and the subtraction wrap around. -/
def listIndex (m : Mem) (lp : Ptr) (index : Int) : Option (Option Ptr) := do
  let l ← m.lists lp
  if index < 0 then
    let index1 := wrapLong (wrapLong (-index) - 1)
    listIndexPrev m index1.toNat l.tail
  else
    listIndexNext m index.toNat l.head

/-- Embedding of `listRotate` (adlist.c lines 362 to 375).  The header is only
written by the first and the last assignment, so its fields `head` and `tail`
read in between are those of `l` with `tail` replaced. -/
def listRotate (m : Mem) (lp : Ptr) : Option Mem := do
  let l ← m.lists lp
  let tail := l.tail
  -- if (listLength(list) <= 1) return;
  if l.len ≤ 1 then pure m
  else
    -- list->tail = tail->prev;
    let t ← tail
    let tn ← m.nodes t
    let m1 := m.setList lp { l with tail := tn.prev }
    -- list->tail->next = NULL;
    let m2 ← m1.setNext tn.prev none
    -- list->head->prev = tail;
    let m3 ← m2.setPrev l.head (some t)
    -- tail->prev = NULL;
    let m4 ← m3.setPrev (some t) none
    -- tail->next = list->head;
    let m5 ← m4.setNext (some t) l.head
    -- list->head = tail;
    pure (m5.setList lp { l with tail := tn.prev, head := some t })

/-- The pointer that follows a chain of nodes: the first node of `ps`, or
`after` when `ps` is empty. -/
def firstOr (ps : List Ptr) (after : Option Ptr) : Option Ptr :=
  match ps with
  | [] => after
  | q :: _ => some q

/-- The pointer that precedes the end of a chain of nodes: the last node of
`ps`, or `before` when `ps` is empty. -/
def lastOr (ps : List Ptr) (before : Option Ptr) : Option Ptr :=
  match ps.getLast? with
  | none => before
  | some q => some q

/-- The nodes `ps` are linked into a doubly linked segment, in this order: the
`prev` of the first is `before`, the `prev` of every other node is the node
before it, the `next` of a node is the node after it and the `next` of the
last is `after`. -/
def seg (m : Mem) : Option Ptr → List Ptr → Option Ptr → Prop
  | _, [], _ => True
  | before, p :: ps, after =>
    (∃ n, m.nodes p = some n ∧ n.prev = before ∧ n.next = firstOr ps after) ∧
      seg m (some p) ps after

/-- The list at `lp` is well formed and its nodes are, from head to tail,
`ps`: following `next` from `head` visits `ps` and ends at `tail`,
`head->prev` and `tail->next` are NULL, `n->next->prev == n`, `len` is the
number of nodes and `head`, `tail` are NULL exactly for the empty list. -/
def WF (m : Mem) (lp : Ptr) (ps : List Ptr) : Prop :=
  ∃ l, m.lists lp = some l ∧ l.head = ps.head? ∧ l.tail = ps.getLast? ∧
    l.len = ps.length ∧ seg m none ps none

/-- A memory without nodes that holds one empty list, at address `1`, with
the given `dup` and `free` methods, and the given script of `zmalloc`
results. -/
def emptyListMem (dup : Option (Val → Val)) (free : Option Nat)
    (alloc : List (Option Ptr)) : Mem :=
  { nodes := fun _ => none
    lists := fun q =>
      if q = 1 then
        some { head := none, tail := none, dup := dup, free := free, match_ := none, len := 0 }
      else none
    alloc := alloc
    freed := [] }

/-- A memory that holds one list at address `1` with the three nodes `10`,
`11`, `12` (in this order) of values `7`, `8`, `9`, the given `dup` and `free`
methods, and the given script of `zmalloc` results. -/
def threeListMem (dup : Option (Val → Val)) (free : Option Nat)
    (alloc : List (Option Ptr)) : Mem :=
  { nodes := fun q =>
      if q = 10 then some { prev := none, next := some 11, value := 7 }
      else if q = 11 then some { prev := some 10, next := some 12, value := 8 }
      else if q = 12 then some { prev := some 11, next := none, value := 9 }
      else none
    lists := fun q =>
      if q = 1 then
        some { head := some 10, tail := some 12, dup := dup, free := free,
               match_ := none, len := 3 }
      else none
    alloc := alloc
    freed := [] }

/-- The memory `threeListMem` with the `dup` method `v ↦ v + 100`, no `free`
method, and a script of four successful allocations. -/
def dupExampleMem : Mem :=
  threeListMem (some (fun v => v + 100)) none [some 2, some 20, some 21, some 22]

/-- The function `listRotate` called `n` times in a row. -/
def listRotateTimes : Nat → Mem → Ptr → Option Mem
  | 0, m, _ => some m
  | n + 1, m, lp => do
    let m1 ← listRotate m lp
    listRotateTimes n m1 lp

/-- The contract of the allocator: an address returned by a coming `zmalloc`
call is not allocated yet, and no address is returned twice. -/
def allocFresh (m : Mem) : Prop :=
  (∀ p, some p ∈ m.alloc → m.nodes p = none ∧ m.lists p = none) ∧
    (m.alloc.filterMap id).Nodup

/-- The contract of the allocator for one scripted result. -/
def freshResult (m : Mem) : Option Ptr → Prop
  | some p => m.nodes p = none ∧ m.lists p = none
  | none => True

/-- Decision procedure for `seg`. -/
def decSeg (m : Mem) :
    (b : Option Ptr) → (ps : List Ptr) → (a : Option Ptr) → Decidable (seg m b ps a)
  | _, [], _ => isTrue trivial
  | b, p :: ps, a =>
    match h : m.nodes p with
    | none => isFalse (fun hs => by
        obtain ⟨⟨n, hn, _⟩, _⟩ := hs
        rw [h] at hn
        cases hn)
    | some n =>
      if h1 : n.prev = b ∧ n.next = firstOr ps a then
        match decSeg m (some p) ps a with
        | isTrue h2 => isTrue ⟨⟨n, h, h1.1, h1.2⟩, h2⟩
        | isFalse h2 => isFalse (fun hs => h2 hs.2)
      else isFalse (fun hs => by
        obtain ⟨⟨n', hn, h3, h4⟩, _⟩ := hs
        rw [h] at hn
        cases hn
        exact h1 ⟨h3, h4⟩)

instance instDecidableSeg (m : Mem) (b : Option Ptr) (ps : List Ptr) (a : Option Ptr) :
    Decidable (seg m b ps a) :=
  decSeg m b ps a

instance instDecidableWF (m : Mem) (lp : Ptr) (ps : List Ptr) : Decidable (WF m lp ps) :=
  match h : m.lists lp with
  | none => isFalse (fun hw => by
      obtain ⟨l, hl, _⟩ := hw
      rw [h] at hl
      cases hl)
  | some l =>
    if h1 : l.head = ps.head? ∧ l.tail = ps.getLast? ∧ l.len = ps.length ∧
        seg m none ps none then
      isTrue ⟨l, h, h1⟩
    else isFalse (fun hw => by
      obtain ⟨l', hl, h2⟩ := hw
      rw [h] at hl
      cases hl
      exact h1 h2)

instance instDecidableFreshResult (m : Mem) : (a : Option Ptr) → Decidable (freshResult m a)
  | some p =>
    have : Decidable (m.lists p = none) :=
      decidable_of_iff ((m.lists p).isNone = true) Option.isNone_iff_eq_none
    inferInstanceAs (Decidable (m.nodes p = none ∧ m.lists p = none))
  | none => isTrue trivial

instance instDecidableAllocFresh (m : Mem) : Decidable (allocFresh m) :=
  decidable_of_iff ((∀ a ∈ m.alloc, freshResult m a) ∧ (m.alloc.filterMap id).Nodup)
    ⟨fun h => ⟨fun p hp => h.1 (some p) hp, h.2⟩,
     fun h => ⟨fun a ha => by
       cases a with
       | none => trivial
       | some p => exact h.1 p ha, h.2⟩⟩

/-- The value `listDup` stores for a node of value `v`: `dup(v)` when a `dup`
method is set, `v` itself otherwise. -/
def dupValue (dup : Option (Val → Val)) (v : Val) : Val :=
  match dup with
  | some f => f v
  | none => v

/-- The value stored in the node at `p` (NULL when `p` is not allocated). -/
def valueAt (m : Mem) (p : Ptr) : Val :=
  match m.nodes p with
  | some n => n.value
  | none => 0

/-- The value sequence of the nodes `ps`. -/
def listValues (m : Mem) (ps : List Ptr) : List Val :=
  ps.map (valueAt m)

/-- The statements `if (after) { ... } else { ... }` of `listInsertNode`
(adlist.c lines 152 to 166), with `node->value = value`: the fresh node is
stored with its three fields and the header is updated when the new node
becomes the tail or the head. -/
def listInsertNodeLink (m : Mem) (lp : Ptr) (old_node : Ptr) (node : Ptr) (value : Val)
    (after : Int) : Option Mem := do
  let old ← m.nodes old_node
  let l ← m.lists lp
  if after ≠ 0 then
    -- node->prev = old_node; node->next = old_node->next;
    let m0 := m.setNode node { prev := some old_node, next := old.next, value := value }
    -- if (list->tail == old_node) list->tail = node;
    if l.tail = some old_node then pure (m0.setList lp { l with tail := some node })
    else pure m0
  else
    -- node->next = old_node; node->prev = old_node->prev;
    let m0 := m.setNode node { prev := old.prev, next := some old_node, value := value }
    -- if (list->head == old_node) list->head = node;
    if l.head = some old_node then pure (m0.setList lp { l with head := some node })
    else pure m0

/-- The statement `if (node->prev != NULL) node->prev->next = node;` of
`listInsertNode`. -/
def listInsertNodePrev (m : Mem) (node : Ptr) : Option Mem := do
  let n ← m.nodes node
  match n.prev with
  | some q => m.setNext (some q) (some node)
  | none => pure m

/-- The statement `if (node->next != NULL) node->next->prev = node;` of
`listInsertNode`. -/
def listInsertNodeNext (m : Mem) (node : Ptr) : Option Mem := do
  let n ← m.nodes node
  match n.next with
  | some q => m.setPrev (some q) (some node)
  | none => pure m

/-- Embedding of `listInsertNode` (adlist.c lines 146 to 177). -/
def listInsertNode (m : Mem) (lp : Ptr) (old_node : Ptr) (value : Val) (after : Int) :
    Option (Option Ptr × Mem) :=
  -- if ((node = zmalloc(sizeof(*node))) == NULL) return NULL;
  let a := zmalloc m
  match a.1 with
  | none => some (none, a.2)
  | some node => do
    let m1 ← listInsertNodeLink a.2 lp old_node node value after
    let m2 ← listInsertNodePrev m1 node
    let m3 ← listInsertNodeNext m2 node
    -- list->len++;
    let l3 ← m3.lists lp
    pure (some lp, m3.setList lp { l3 with len := l3.len + 1 })

/-- The statement
`if (node->prev) node->prev->next = node->next; else list->head = node->next;`
of `listDelNode`. -/
def listDelNodePrev (m : Mem) (lp : Ptr) (node : Ptr) : Option Mem := do
  let n ← m.nodes node
  match n.prev with
  | some q => m.setNext (some q) n.next
  | none => do
    let l ← m.lists lp
    pure (m.setList lp { l with head := n.next })

/-- The statement
`if (node->next) node->next->prev = node->prev; else list->tail = node->prev;`
of `listDelNode`. -/
def listDelNodeNext (m : Mem) (lp : Ptr) (node : Ptr) : Option Mem := do
  let n ← m.nodes node
  match n.next with
  | some q => m.setPrev (some q) n.prev
  | none => do
    let l ← m.lists lp
    pure (m.setList lp { l with tail := n.prev })

/-- The statements
`if (list->free) list->free(node->value); zfree(node); list->len--;` of
`listDelNode`.  `list->len--` is an `unsigned long` decrement: it wraps around
at zero. -/
def listDelNodeFree (m : Mem) (lp : Ptr) (node : Ptr) : Option Mem := do
  let l ← m.lists lp
  let n ← m.nodes node
  let m1 := m.callFree l n.value
  let m2 := m1.freeNode node
  let l2 ← m2.lists lp
  pure (m2.setList lp { l2 with len := if l2.len = 0 then 2 ^ 64 - 1 else l2.len - 1 })

/-- Embedding of `listDelNode` (adlist.c lines 184 to 197). -/
def listDelNode (m : Mem) (lp : Ptr) (node : Ptr) : Option Mem := do
  let m1 ← listDelNodePrev m lp node
  let m2 ← listDelNodeNext m1 lp node
  listDelNodeFree m2 lp node

/-- Embedding of `listGetIterator` (adlist.c lines 204 to 215): the iterator
returned (NULL when its allocation fails) and the memory after the call.  The
iterator structure itself is a value of the embedding. -/
def listGetIterator (m : Mem) (lp : Ptr) (direction : Int) : Option (Option listIter × Mem) :=
  -- if ((iter = zmalloc(sizeof(*iter))) == NULL) return NULL;
  let a := zmalloc m
  match a.1 with
  | none => some (none, a.2)
  | some _ => do
    let l ← a.2.lists lp
    if direction = AL_START_HEAD then
      pure (some { next := l.head, direction := direction }, a.2)
    else
      pure (some { next := l.tail, direction := direction }, a.2)

/-- The loop `while((node = listNext(&iter)) != NULL)` of `listSearchKey`.
The first argument bounds the number of iterations; when it is exhausted there
is no result. -/
def listSearchKeyLoop : Nat → Mem → Ptr → listIter → Val → Option (Option Ptr)
  | 0, _, _, _, _ => none
  | fuel + 1, m, lp, iter, key => do
    let nx ← listNext m iter
    match nx.1 with
    | none => pure none
    | some node =>
      let l ← m.lists lp
      let nd ← m.nodes node
      match l.match_ with
      | some f =>
        -- if (list->match(node->value, key)) return node;
        if f nd.value key ≠ 0 then pure (some node)
        else listSearchKeyLoop fuel m lp nx.2 key
      | none =>
        -- if (key == node->value) return node;
        if key = nd.value then pure (some node)
        else listSearchKeyLoop fuel m lp nx.2 key

/-- Embedding of `listSearchKey` (adlist.c lines 319 to 337), with a bound on
the number of loop iterations.  The function performs no store: the embedding
has no memory result. -/
def listSearchKey (fuel : Nat) (m : Mem) (lp : Ptr) (key : Val) : Option (Option Ptr) := do
  let iter ← listRewind m lp
  listSearchKeyLoop fuel m lp iter key

/-- The test `list->match ? list->match(value, key) : key == value` of
`listSearchKey`. -/
def keyMatches (match_ : Option (Val → Val → Int)) (key : Val) (value : Val) : Bool :=
  match match_ with
  | some f => decide (f value key ≠ 0)
  | none => decide (key = value)

/-- The function `listNext` called `n` times in a row on the same iterator:
the nodes returned, in call order, and the iterator after the last call. -/
def listNextTimes (m : Mem) : Nat → listIter → Option (List (Option Ptr) × listIter)
  | 0, iter => some ([], iter)
  | n + 1, iter => do
    let nx ← listNext m iter
    let rest ← listNextTimes m n nx.2
    pure (nx.1 :: rest.1, rest.2)

/-- The usage pattern documented for `listNext`:
`while ((node = listNext(iter)) != NULL) { if (chosen(node)) listDelNode(list,node); }`.
The result is the sequence of nodes returned by `listNext` and the memory at
the end of the traversal.  The first argument bounds the number of iterations;
when it is exhausted there is no result. -/
def listTraverseDel (chosen : Ptr → Bool) :
    Nat → Mem → Ptr → listIter → Option (List Ptr × Mem)
  | 0, _, _, _ => none
  | fuel + 1, m, lp, iter => do
    let nx ← listNext m iter
    match nx.1 with
    | none => pure ([], m)
    | some node =>
      let m1 ← if chosen node then listDelNode m lp node else some m
      let rest ← listTraverseDel chosen fuel m1 lp nx.2
      pure (node :: rest.1, rest.2)

/-- The memory `threeListMem` without `dup` method, with the `free` method at
address `99`, and a script in which the third allocation fails. -/
def dupFailMem : Mem :=
  threeListMem none (some 99) [some 2, some 20, none]

/-- Following `next` from `start` for `n` nodes: the nodes visited, in order,
and the pointer reached after the last one.  There is no result when NULL or
an address that is not allocated is met before `n` nodes were visited. -/
def walkNext (m : Mem) : Nat → Option Ptr → Option (List Ptr × Option Ptr)
  | 0, p => some ([], p)
  | _ + 1, none => none
  | n + 1, some p => do
    let nd ← m.nodes p
    let r ← walkNext m n nd.next
    pure (p :: r.1, r.2)

/-- Well-formedness of the list at `lp` in the words of the specification:
following `next` from `head` visits exactly `len` nodes and ends at `tail`,
`head->prev` and `tail->next` are NULL, `n->next->prev == n` for every node
`n` with a successor, and `head == tail == NULL` exactly when `len == 0`. -/
def wellFormed (m : Mem) (lp : Ptr) : Prop :=
  ∃ l ps, m.lists lp = some l ∧
    walkNext m l.len l.head = some (ps, none) ∧ l.tail = ps.getLast? ∧
    (∀ h n, l.head = some h → m.nodes h = some n → n.prev = none) ∧
    (∀ p n q, p ∈ ps → m.nodes p = some n → n.next = some q →
      ∃ nq, m.nodes q = some nq ∧ nq.prev = some p) ∧
    (l.len = 0 ↔ l.head = none ∧ l.tail = none)

end Adlist

/-! ## Embedding of `slowlog.c`

The slow log is the list `server.slowlog` of `adlist.c`; the value of a node is
the address of a `slowlogEntry`.  The server state carries the memory of the
lists, the heap of the shared objects (`robj`) and the heap of the entries.
`time(NULL)` is an argument of the functions that read the clock.  The `free`
method of the list is the function pointer `slowlogFreeEntry`; the list
functions record its calls in `Mem.freed` under the identifier
`SLOWLOG_FREE_ENTRY`. -/

namespace Slowlog

open Adlist

/-- Modelled from the spec: `sds` of `sds.h`, absent from the sources.  A
string is the list of its bytes, written as characters; `sdslen` is the length
of the list. -/
abbrev sds := List Char

/-- Modelled from the spec: `OBJ_STRING` of `server.h`, absent from the
sources. -/
def OBJ_STRING : Nat := 0

/-- Modelled from the spec: `OBJ_ENCODING_RAW` of `server.h`, absent from the
sources. -/
def OBJ_ENCODING_RAW : Nat := 0

/-- Modelled from the spec: `OBJ_ENCODING_EMBSTR` of `server.h`, absent from
the sources. -/
def OBJ_ENCODING_EMBSTR : Nat := 8

/-- Modelled from the spec: `robj` of `server.h`, absent from the sources.
`ptr` is read by `slowlog.c` only when the object is an sds encoded string. -/
structure robj where
  type : Nat
  encoding : Nat
  refcount : Int
  ptr : sds
  deriving DecidableEq, Repr

/-- Modelled from the spec: the macro `sdsEncodedObject` of `server.h`, absent
from the sources. -/
def sdsEncodedObject (o : robj) : Bool :=
  o.encoding == OBJ_ENCODING_RAW || o.encoding == OBJ_ENCODING_EMBSTR

/-- Modelled from the spec: `createObject` of `object.c`, absent from the
sources: a new object of reference count 1 and of raw encoding. -/
def createObject (type : Nat) (ptr : sds) : robj :=
  { type := type, encoding := OBJ_ENCODING_RAW, refcount := 1, ptr := ptr }

/-- Modelled from the spec: `SLOWLOG_ENTRY_MAX_ARGC` of `slowlog.h`, absent
from the sources. -/
def SLOWLOG_ENTRY_MAX_ARGC : Int := 32

/-- Modelled from the spec: `SLOWLOG_ENTRY_MAX_STRING` of `slowlog.h`, absent
from the sources. -/
def SLOWLOG_ENTRY_MAX_STRING : Nat := 128

/-- Modelled from the spec: `sdscatprintf(sdsempty(),"... (%d more arguments)",n)`
of `sds.c`, absent from the sources. -/
def moreArguments (n : Int) : sds :=
  "... (".toList ++ (toString n).toList ++ " more arguments)".toList

/-- Modelled from the spec: `sdscatprintf(s,"... (%lu more bytes)",n)` of
`sds.c`, absent from the sources. -/
def moreBytes (s : sds) (n : Nat) : sds :=
  s ++ "... (".toList ++ (toString n).toList ++ " more bytes)".toList

/-- An element of `se->argv`: either one of the objects of the command, which
the entry retains, or an object made by `createObject`.  An object made by
`createObject` is referenced by the entry alone: the embedding keeps it in the
entry, by value. -/
inductive slowlogArg where
  | retained (o : Ptr)
  | created (o : robj)
  deriving DecidableEq, Repr

/-- Modelled from the spec: `slowlogEntry` of `slowlog.h`, absent from the
sources. -/
structure slowlogEntry where
  argv : List slowlogArg
  argc : Int
  id : Int
  duration : Int
  time : Int
  deriving DecidableEq, Repr

/-- Modelled from the spec: the fields of `struct redisServer` (`server.h`,
absent from the sources) that `slowlog.c` uses, with the memory of the lists,
the heap of the objects and the heap of the slow log entries.
`slowlog_entry_id` and `slowlog_log_slower_than` are `long long`,
`slowlog_max_len` is `unsigned long`. -/
structure redisServer where
  mem : Mem
  objs : Ptr → Option robj
  entries : Ptr → Option slowlogEntry
  slowlog : Option Ptr
  slowlog_entry_id : Int
  slowlog_log_slower_than : Int
  slowlog_max_len : Nat

/-- Two's complement wrap-around of a `long long` (64 bit). -/
def wrapLongLong (x : Int) : Int :=
  (x + 2 ^ 63) % 2 ^ 64 - 2 ^ 63

/-- The identifier under which the calls of the function pointer
`slowlogFreeEntry` are recorded. -/
def SLOWLOG_FREE_ENTRY : Nat := 1

/-- The body of the loop `for (j = 0; j < slargc; j++)` of
`slowlogCreateEntry` (slowlog.c lines 57 to 82): the element stored in
`se->argv[j]` and the heap of the objects after the iteration.
`incrRefCount` belongs to `object.c`, absent from the sources: it adds one to
`refcount`. -/
def slowlogCreateArg (objs : Ptr → Option robj) (argv : List Ptr) (argc : Int)
    (slargc : Int) (j : Nat) : Option (slowlogArg × (Ptr → Option robj)) :=
  if slargc ≠ argc ∧ (j : Int) = slargc - 1 then
    some (slowlogArg.created (createObject OBJ_STRING (moreArguments (argc - slargc + 1))),
      objs)
  else do
    let a ← argv.get? j
    let o ← objs a
    if o.type = OBJ_STRING ∧ sdsEncodedObject o = true ∧
        o.ptr.length > SLOWLOG_ENTRY_MAX_STRING then
      -- sds s = sdsnewlen(argv[j]->ptr, SLOWLOG_ENTRY_MAX_STRING);
      let s := o.ptr.take SLOWLOG_ENTRY_MAX_STRING
      some (slowlogArg.created (createObject OBJ_STRING
        (moreBytes s (o.ptr.length - SLOWLOG_ENTRY_MAX_STRING))), objs)
    else
      -- se->argv[j] = argv[j]; incrRefCount(argv[j]);
      some (slowlogArg.retained a,
        Function.update objs a (some { o with refcount := o.refcount + 1 }))

/-- The loop `for (j = 0; j < slargc; j++)` of `slowlogCreateEntry`: the first
argument is the number of iterations left, the second is `j`. -/
def slowlogCreateEntryLoop (argv : List Ptr) (argc : Int) (slargc : Int) :
    Nat → Nat → (Ptr → Option robj) → Option (List slowlogArg × (Ptr → Option robj))
  | 0, _, objs => some ([], objs)
  | k + 1, j, objs => do
    let r ← slowlogCreateArg objs argv argc slargc j
    let rest ← slowlogCreateEntryLoop argv argc slargc k (j + 1) r.2
    pure (r.1 :: rest.1, rest.2)

/-- Embedding of `slowlogCreateEntry` (slowlog.c lines 49 to 88): the address
of the new entry and the server state after the call.  `argv` is the array of
the command, `now` the result of `time(NULL)`.  The function does not test the
results of `zmalloc`: it has no result when it stores through NULL. -/
def slowlogCreateEntry (s : redisServer) (argv : List Ptr) (argc : Int) (duration : Int)
    (now : Int) : Option (Ptr × redisServer) := do
  -- slowlogEntry *se = zmalloc(sizeof(*se));
  let a := zmalloc s.mem
  let se ← a.1
  -- if (slargc > SLOWLOG_ENTRY_MAX_ARGC) slargc = SLOWLOG_ENTRY_MAX_ARGC;
  let slargc := if argc > SLOWLOG_ENTRY_MAX_ARGC then SLOWLOG_ENTRY_MAX_ARGC else argc
  -- se->argv = zmalloc(sizeof(robj*)*slargc);
  let b := zmalloc a.2
  if 0 < slargc ∧ b.1 = none then none
  else do
    let r ← slowlogCreateEntryLoop argv argc slargc slargc.toNat 0 s.objs
    -- se->time = time(NULL); se->duration = duration;
    -- se->id = server.slowlog_entry_id++;
    let e : slowlogEntry :=
      { argv := r.1, argc := slargc, id := s.slowlog_entry_id, duration := duration,
        time := now }
    pure (se, { s with
      mem := b.2
      objs := r.2
      entries := Function.update s.entries se (some e)
      slowlog_entry_id := wrapLongLong (s.slowlog_entry_id + 1) })

/-- Embedding of `slowlogInit` (slowlog.c lines 108 to 112).
`listSetFreeMethod` is the macro `((l)->free = (m))` of `adlist.h`. -/
def slowlogInit (s : redisServer) : Option redisServer := do
  -- server.slowlog = listCreate();
  let c := listCreate s.mem
  -- server.slowlog_entry_id = 0;
  let s1 := { s with mem := c.2, slowlog := c.1, slowlog_entry_id := 0 }
  -- listSetFreeMethod(server.slowlog,slowlogFreeEntry);
  let lp ← c.1
  let l ← c.2.lists lp
  pure { s1 with mem := c.2.setList lp { l with free := some SLOWLOG_FREE_ENTRY } }

/-- The statement
`if (duration >= server.slowlog_log_slower_than) listAddNodeHead(server.slowlog,slowlogCreateEntry(argv,argc,duration));`
of `slowlogPushEntryIfNeeded`.  The result of `listAddNodeHead` is not
tested. -/
def slowlogPushEntry (s : redisServer) (argv : List Ptr) (argc : Int) (duration : Int)
    (now : Int) : Option redisServer :=
  if duration ≥ s.slowlog_log_slower_than then do
    let r ← slowlogCreateEntry s argv argc duration now
    let lp ← r.2.slowlog
    let h ← listAddNodeHead r.2.mem lp r.1
    pure { r.2 with mem := h.2 }
  else some s

/-- The loop
`while (listLength(server.slowlog) > server.slowlog_max_len) listDelNode(server.slowlog,listLast(server.slowlog));`
of `slowlogPushEntryIfNeeded`.  The first argument bounds the number of
evaluations of the loop condition; when it is exhausted there is no result. -/
def slowlogTrimLoop : Nat → redisServer → Option redisServer
  | 0, _ => none
  | fuel + 1, s => do
    let lp ← s.slowlog
    let l ← s.mem.lists lp
    if l.len > s.slowlog_max_len then
      let last ← l.tail
      let m1 ← listDelNode s.mem lp last
      slowlogTrimLoop fuel { s with mem := m1 }
    else pure s

/-- Embedding of `slowlogPushEntryIfNeeded` (slowlog.c lines 118 to 127), with
a bound on the number of evaluations of the condition of the trimming loop. -/
def slowlogPushEntryIfNeeded (fuel : Nat) (s : redisServer) (argv : List Ptr) (argc : Int)
    (duration : Int) (now : Int) : Option redisServer :=
  -- if (server.slowlog_log_slower_than < 0) return; /* Slowlog disabled */
  if s.slowlog_log_slower_than < 0 then some s
  else do
    let s1 ← slowlogPushEntry s argv argc duration now
    slowlogTrimLoop fuel s1

/-- The array `argv` of a command holds `argc` allocated objects. -/
def validArgv (objs : Ptr → Option robj) (argv : List Ptr) (argc : Int) : Prop :=
  argc = (argv.length : Int) ∧ ∀ a ∈ argv, (objs a).isSome = true

instance (objs : Ptr → Option robj) (argv : List Ptr) (argc : Int) :
    Decidable (validArgv objs argv argc) :=
  inferInstanceAs (Decidable (_ ∧ _))

/-- The entry whose address is the value of the node `q` of the slow log. -/
def entryAt (s : redisServer) (q : Ptr) : Option slowlogEntry :=
  s.entries (valueAt s.mem q)

/-- The arguments of one call of `slowlogPushEntryIfNeeded`, with the result
of `time(NULL)` during the call. -/
structure slowlogCall where
  argv : List Ptr
  argc : Int
  duration : Int
  now : Int
  deriving DecidableEq, Repr

/-- Successive calls of `slowlogPushEntryIfNeeded`, in the order of the
list. -/
def slowlogPushAll (fuel : Nat) : redisServer → List slowlogCall → Option redisServer
  | s, [] => some s
  | s, c :: cs => do
    let s1 ← slowlogPushEntryIfNeeded fuel s c.argv c.argc c.duration c.now
    slowlogPushAll fuel s1 cs

/-- The identifier, the duration and the time of an entry. -/
def entrySummary (e : Option slowlogEntry) : Option (Int × Int × Int) :=
  e.map (fun x => (x.id, x.duration, x.time))

/-- The summary that the `k`-th call (counted from zero) gives to its
entry. -/
def callSummary (k : Nat) (c : slowlogCall) : Option (Int × Int × Int) :=
  some ((k : Int), c.duration, c.now)

/-- The summaries of the calls `cs`, the first of which is the `k`-th call. -/
def callSummaries : Nat → List slowlogCall → List (Option (Int × Int × Int))
  | _, [] => []
  | k, c :: cs => callSummary k c :: callSummaries (k + 1) cs

/-- A server whose slow log is the list of `threeListMem` (address `1`, nodes
`10`, `11`, `12`, values `7`, `8`, `9`), with `slowlogFreeEntry` as `free`
method, three entries of identifiers `2`, `1`, `0` at the addresses `7`, `8`,
`9`, the next identifier `3`, and the given threshold, maximum length and
script of `zmalloc` results. -/
def logServer (slower_than : Int) (max_len : Nat) (alloc : List (Option Ptr)) : redisServer :=
  { mem := threeListMem none (some SLOWLOG_FREE_ENTRY) alloc
    objs := fun _ => none
    entries := fun q =>
      if q = 7 then some { argv := [], argc := 0, id := 2, duration := 30, time := 1002 }
      else if q = 8 then some { argv := [], argc := 0, id := 1, duration := 20, time := 1001 }
      else if q = 9 then some { argv := [], argc := 0, id := 0, duration := 10, time := 1000 }
      else none
    slowlog := some 1
    slowlog_entry_id := 3
    slowlog_log_slower_than := slower_than
    slowlog_max_len := max_len }

/-- A server before `slowlogInit`: no list, no node, no object, no entry, with
the given threshold, maximum length and script of `zmalloc` results. -/
def startServer (slower_than : Int) (max_len : Nat) (alloc : List (Option Ptr)) : redisServer :=
  { mem := { nodes := fun _ => none, lists := fun _ => none, alloc := alloc, freed := [] }
    objs := fun _ => none
    entries := fun _ => none
    slowlog := none
    slowlog_entry_id := 0
    slowlog_log_slower_than := slower_than
    slowlog_max_len := max_len }

/-- The marker of the specification for `k` arguments left out: a new string
object whose text is `... (k more arguments)`. -/
def specMoreArguments (k : Int) : slowlogArg :=
  slowlogArg.created
    { type := OBJ_STRING, encoding := OBJ_ENCODING_RAW, refcount := 1,
      ptr := ("... (" ++ toString k ++ " more arguments)").toList }

/-- The stored form of a kept argument in the words of the specification,
for the argument at address `a` whose object is `o`: when `o` is an sds
encoded string of more than `SLOWLOG_ENTRY_MAX_STRING` bytes, a new string
object made of its first `SLOWLOG_ENTRY_MAX_STRING` bytes followed by
`... (N more bytes)`, `N` being the number of bytes left out; otherwise the
object `a` itself. -/
def specStoredArg (o : robj) (a : Ptr) : slowlogArg :=
  if o.type = OBJ_STRING ∧ (o.encoding = OBJ_ENCODING_RAW ∨ o.encoding = OBJ_ENCODING_EMBSTR) ∧
      SLOWLOG_ENTRY_MAX_STRING < o.ptr.length then
    slowlogArg.created
      { type := OBJ_STRING, encoding := OBJ_ENCODING_RAW, refcount := 1,
        ptr := o.ptr.take SLOWLOG_ENTRY_MAX_STRING ++
          ("... (" ++ toString (o.ptr.length - SLOWLOG_ENTRY_MAX_STRING) ++
            " more bytes)").toList }
  else slowlogArg.retained a

/-- The object `o` with `k` references more. -/
def addRefs (k : Nat) (o : robj) : robj :=
  { o with refcount := o.refcount + k }

/-- A server with no slow log, whose heap of objects holds at the address `a`,
for `a < n`, the raw string made of `a + 1` times the letter `x`, with one
reference, and the given script of `zmalloc` results. -/
def argServer (n : Nat) (alloc : List (Option Ptr)) : redisServer :=
  { mem := { nodes := fun _ => none, lists := fun _ => none, alloc := alloc, freed := [] }
    objs := fun a =>
      if a < n then
        some { type := OBJ_STRING, encoding := OBJ_ENCODING_RAW, refcount := 1,
               ptr := List.replicate (a + 1) 'x' }
      else none
    entries := fun _ => none
    slowlog := none
    slowlog_entry_id := 0
    slowlog_log_slower_than := 0
    slowlog_max_len := 128 }

/-- Modelled from the spec: the reply functions of `networking.c`, absent from
the sources.  A call of one of them on the client is recorded with its
arguments.  `addReply (c, shared.ok)` is recorded as `addReplyOk`.  The handle
returned by `addDeferredMultiBulkLength` is the position of that call among
the calls recorded for the client. -/
inductive replyCall where
  | addReplyOk
  | addReplyError (err : String)
  | addReplyLongLong (ll : Int)
  | addReplyMultiBulkLen (length : Int)
  | addReplyBulk (obj : slowlogArg)
  | addDeferredMultiBulkLength
  | setDeferredMultiBulkLength (node : Nat) (length : Int)
  deriving DecidableEq, Repr

/-- Modelled from the spec: the fields of `client` (`server.h`, absent from
the sources) that `slowlogCommand` uses, and the calls of the reply functions
made on the client so far. -/
structure client where
  argc : Int
  argv : List Ptr
  reply : List replyCall
  deriving DecidableEq, Repr

/-- Modelled from the spec: `strcasecmp` of the C library compared with zero:
the two strings are equal when the case of the letters is ignored. -/
def strcaseEq (s : sds) (t : String) : Bool :=
  s.map Char.toLower == t.toList.map Char.toLower

/-- The test `!strcasecmp(c->argv[i]->ptr, name)` of `slowlogCommand`. -/
def argvIs (s : redisServer) (c : client) (i : Nat) (name : String) : Option Bool := do
  let a ← c.argv.get? i
  let o ← s.objs a
  pure (strcaseEq o.ptr name)

/-- Embedding of `slowlogReset` (slowlog.c lines 131 to 134).  The first
argument bounds the number of evaluations of the loop condition; when it is
exhausted there is no result. -/
def slowlogReset : Nat → redisServer → Option redisServer
  | 0, _ => none
  | fuel + 1, s => do
    let lp ← s.slowlog
    let l ← s.mem.lists lp
    if l.len > 0 then
      let last ← l.tail
      let m1 ← listDelNode s.mem lp last
      slowlogReset fuel { s with mem := m1 }
    else pure s

/-- The reply calls made by `slowlogCommand` for one entry (slowlog.c lines
163 to 170): the length 4, the identifier, the time, the duration, the number
of arguments and the arguments.  There is no result when `se->argc` exceeds
the number of elements of `se->argv`. -/
def slowlogEntryReply (se : slowlogEntry) : Option (List replyCall) :=
  if se.argc ≤ (se.argv.length : Int) then
    some ([replyCall.addReplyMultiBulkLen 4, replyCall.addReplyLongLong se.id,
        replyCall.addReplyLongLong se.time, replyCall.addReplyLongLong se.duration,
        replyCall.addReplyMultiBulkLen se.argc] ++
      (se.argv.take se.argc.toNat).map replyCall.addReplyBulk)
  else none

/-- The loop `while(count-- && (ln = listNext(&li)))` of `slowlogCommand`
(slowlog.c lines 160 to 172): the value of `sent` and the reply calls of the
client after the loop.  `count` is a `long`; `sent` counts at most the nodes
of the list.  The first argument bounds the number of evaluations of the loop
condition; when it is exhausted there is no result. -/
def slowlogGetLoop : Nat → redisServer → listIter → Int → Int → List replyCall →
    Option (Int × List replyCall)
  | 0, _, _, _, _, _ => none
  | fuel + 1, s, li, count, sent, reply =>
    if count = 0 then some (sent, reply)
    else do
      let nx ← listNext s.mem li
      match nx.1 with
      | none => some (sent, reply)
      | some ln =>
        -- se = ln->value;
        let nd ← s.mem.nodes ln
        let se ← s.entries nd.value
        let calls ← slowlogEntryReply se
        -- sent++;
        slowlogGetLoop fuel s nx.2 (wrapLong (count - 1)) (sent + 1) (reply ++ calls)

/-- Embedding of `slowlogCommand` (slowlog.c lines 139 to 178): the server
state and the client after the command.  `getLongFromObjectOrReply` belongs to
`object.c`, absent from the sources: its conversion of an object into a `long`
is the parameter `getLongFromObject` (`none` when the object is not a number in
range, in which case an error is replied).  The first argument bounds the
number of evaluations of a loop condition. -/
def slowlogCommand (getLongFromObject : robj → Option Int) (fuel : Nat) (s : redisServer)
    (c : client) : Option (redisServer × client) := do
  -- if (c->argc == 2 && !strcasecmp(c->argv[1]->ptr,"reset"))
  let isReset ← if c.argc = 2 then argvIs s c 1 "reset" else some false
  if isReset then
    let s1 ← slowlogReset fuel s
    pure (s1, { c with reply := c.reply ++ [replyCall.addReplyOk] })
  else
    -- else if (c->argc == 2 && !strcasecmp(c->argv[1]->ptr,"len"))
    let isLen ← if c.argc = 2 then argvIs s c 1 "len" else some false
    if isLen then
      let lp ← s.slowlog
      let l ← s.mem.lists lp
      pure (s, { c with reply := c.reply ++
        [replyCall.addReplyLongLong (wrapLongLong (l.len : Int))] })
    else
      -- else if ((c->argc == 2 || c->argc == 3) && !strcasecmp(c->argv[1]->ptr,"get"))
      let isGet ← if c.argc = 2 ∨ c.argc = 3 then argvIs s c 1 "get" else some false
      if isGet then
        -- long count = 10, sent = 0;
        -- if (c->argc == 3 &&
        --     getLongFromObjectOrReply(c,c->argv[2],&count,NULL) != C_OK) return;
        let parsed ← if c.argc = 3 then do
            let a ← c.argv.get? 2
            let o ← s.objs a
            pure (getLongFromObject o)
          else some (some 10)
        match parsed with
        | none =>
          pure (s, { c with reply := c.reply ++
            [replyCall.addReplyError "value is not an integer or out of range"] })
        | some count =>
          -- listRewind(server.slowlog,&li);
          let lp ← s.slowlog
          let li ← listRewind s.mem lp
          -- totentries = addDeferredMultiBulkLength(c);
          let totentries := c.reply.length
          let r ← slowlogGetLoop fuel s li count 0
            (c.reply ++ [replyCall.addDeferredMultiBulkLength])
          -- setDeferredMultiBulkLength(c,totentries,sent);
          pure (s, { c with reply := r.2 ++
            [replyCall.setDeferredMultiBulkLength totentries r.1] })
      else
        pure (s, { c with reply := c.reply ++ [replyCall.addReplyError
          "Unknown SLOWLOG subcommand or wrong # of args. Try GET, RESET, LEN."] })

/-- The reply calls for the entry of the node `q` of the slow log. -/
def nodeReply (s : redisServer) (q : Ptr) : List replyCall :=
  match entryAt s q with
  | some se =>
    [replyCall.addReplyMultiBulkLen 4, replyCall.addReplyLongLong se.id,
      replyCall.addReplyLongLong se.time, replyCall.addReplyLongLong se.duration,
      replyCall.addReplyMultiBulkLen se.argc] ++ se.argv.map replyCall.addReplyBulk
  | none => []

/-- The server `logServer` with one more object, at address `50`: the string
`GET`; and with the object `51`: the string `2`. -/
def getServer (alloc : List (Option Ptr)) : redisServer :=
  { logServer 0 128 alloc with
    objs := fun a =>
      if a = 50 then
        some { type := OBJ_STRING, encoding := OBJ_ENCODING_RAW, refcount := 1,
               ptr := "GET".toList }
      else if a = 51 then
        some { type := OBJ_STRING, encoding := OBJ_ENCODING_RAW, refcount := 1,
               ptr := "2".toList }
      else none }

end Slowlog

/-! ## Properties of `rioWrite` and `rioRead` -/

namespace Rio

theorem rioChunkSize_pos {σ : Type} (r : rio σ) {len : Nat} (h : len ≠ 0) :
    0 < rioChunkSize r len := by
  unfold rioChunkSize
  split <;> omega

theorem rioChunkSize_le {σ : Type} (r : rio σ) (len : Nat) :
    rioChunkSize r len ≤ len := by
  unfold rioChunkSize
  split <;> omega

theorem rioUpdateCksum_processed_bytes {σ : Type} (r : rio σ) (c : List Byte) :
    (rioUpdateCksum r c).processed_bytes = r.processed_bytes := by
  unfold rioUpdateCksum
  split <;> rfl

theorem rioUpdateCksum_max {σ : Type} (r : rio σ) (c : List Byte) :
    (rioUpdateCksum r c).max_processing_chunk = r.max_processing_chunk := by
  unfold rioUpdateCksum
  split <;> rfl

theorem rioUpdateCksum_write {σ : Type} (r : rio σ) (c : List Byte) :
    (rioUpdateCksum r c).write = r.write := by
  unfold rioUpdateCksum
  split <;> rfl

theorem rioUpdateCksum_read {σ : Type} (r : rio σ) (c : List Byte) :
    (rioUpdateCksum r c).read = r.read := by
  unfold rioUpdateCksum
  split <;> rfl

theorem rioUpdateCksum_io {σ : Type} (r : rio σ) (c : List Byte) :
    (rioUpdateCksum r c).io = r.io := by
  unfold rioUpdateCksum
  split <;> rfl

theorem rioUpdateCksum_fn {σ : Type} (r : rio σ) (c : List Byte) :
    (rioUpdateCksum r c).update_cksum = r.update_cksum := by
  unfold rioUpdateCksum
  split <;> rfl

theorem writeCalls_append (a b : List rioEvent) :
    writeCalls (a ++ b) = writeCalls a ++ writeCalls b := by
  induction a with
  | nil => rfl
  | cons e t ih => cases e <;> simp [writeCalls, ih]

theorem writeCalls_cksumTrace {σ : Type} (r : rio σ) (c : List Byte) :
    writeCalls (rioUpdateCksumTrace r c) = [] := by
  unfold rioUpdateCksumTrace
  split <;> rfl

/-- The transport after one successful iteration of the loop of `rioWrite`. -/
theorem rioWrite_step {σ : Type} (r : rio σ) (buf : List Byte) (h : buf ≠ []) :
    rioWrite r buf =
      (let n := rioChunkSize r buf.length
       let chunk := buf.take n
       let r1 := rioUpdateCksum r chunk
       let w := r1.write r1.io chunk
       let r2 := { r1 with io := w.2 }
       if w.1 = 0 then
         (0, r2, rioUpdateCksumTrace r chunk ++ [rioEvent.write chunk w.1])
       else
         let r3 := { r2 with
           processed_bytes := (r2.processed_bytes + n) % SIZE_T_MOD }
         let rest := rioWrite r3 (buf.drop n)
         (rest.1, rest.2.1,
           rioUpdateCksumTrace r chunk
             ++ [rioEvent.write chunk w.1, rioEvent.processed chunk] ++ rest.2.2)) := by
  have hl : buf.length ≠ 0 := by
    intro h0
    exact h (List.length_eq_zero.mp h0)
  rw [rioWrite]
  simp only [hl, if_false]

theorem rioWrite_nil {σ : Type} (r : rio σ) : rioWrite r [] = (1, r, []) := by
  rw [rioWrite]
  simp

/-- Induction along the loop of `rioWrite`.  `hfail` is the iteration whose
backend write returns zero, `hstep` an iteration whose backend write
succeeds; the transport `r'` is described field by field. -/
theorem rioWrite_induction {σ : Type}
    (P : rio σ → List Byte → Nat × rio σ × List rioEvent → Prop)
    (hnil : ∀ r, P r [] (1, r, []))
    (hfail : ∀ (r : rio σ) (buf : List Byte) (r' : rio σ), buf ≠ [] →
      (r.write r.io (buf.take (rioChunkSize r buf.length))).1 = 0 →
      r'.read = r.read → r'.write = r.write → r'.update_cksum = r.update_cksum →
      r'.max_processing_chunk = r.max_processing_chunk →
      r'.cksum = (rioUpdateCksum r (buf.take (rioChunkSize r buf.length))).cksum →
      r'.processed_bytes = r.processed_bytes →
      r'.io = (r.write r.io (buf.take (rioChunkSize r buf.length))).2 →
      P r buf (0, r',
        rioUpdateCksumTrace r (buf.take (rioChunkSize r buf.length)) ++
          [rioEvent.write (buf.take (rioChunkSize r buf.length)) 0]))
    (hstep : ∀ (r : rio σ) (buf : List Byte) (r' : rio σ), buf ≠ [] →
      (r.write r.io (buf.take (rioChunkSize r buf.length))).1 ≠ 0 →
      r'.read = r.read → r'.write = r.write → r'.update_cksum = r.update_cksum →
      r'.max_processing_chunk = r.max_processing_chunk →
      r'.cksum = (rioUpdateCksum r (buf.take (rioChunkSize r buf.length))).cksum →
      r'.processed_bytes =
        (r.processed_bytes + rioChunkSize r buf.length) % SIZE_T_MOD →
      r'.io = (r.write r.io (buf.take (rioChunkSize r buf.length))).2 →
      ∀ res, P r' (buf.drop (rioChunkSize r buf.length)) res →
      P r buf (res.1, res.2.1,
        rioUpdateCksumTrace r (buf.take (rioChunkSize r buf.length)) ++
          [rioEvent.write (buf.take (rioChunkSize r buf.length))
              (r.write r.io (buf.take (rioChunkSize r buf.length))).1,
            rioEvent.processed (buf.take (rioChunkSize r buf.length))] ++ res.2.2)) :
    ∀ r buf, P r buf (rioWrite r buf) := by
  intro r buf
  generalize hn : buf.length = n
  induction n using Nat.strong_induction_on generalizing r buf with
  | _ n ih =>
    by_cases hb : buf = []
    · subst hb
      rw [rioWrite_nil]
      exact hnil r
    · rw [rioWrite_step r buf hb]
      have hl : buf.length ≠ 0 := fun h0 => hb (List.length_eq_zero.mp h0)
      have hpos := rioChunkSize_pos r hl
      by_cases hw : (r.write r.io (buf.take (rioChunkSize r buf.length))).1 = 0
      · simp only [rioUpdateCksum_read, rioUpdateCksum_write, rioUpdateCksum_fn,
          rioUpdateCksum_max, rioUpdateCksum_processed_bytes, rioUpdateCksum_io, hw, if_true]
        exact hfail r buf
          ⟨r.read, r.write, r.update_cksum,
            (rioUpdateCksum r (buf.take (rioChunkSize r buf.length))).cksum,
            r.processed_bytes, r.max_processing_chunk,
            (r.write r.io (buf.take (rioChunkSize r buf.length))).2⟩
          hb hw rfl rfl rfl rfl rfl rfl rfl
      · simp only [rioUpdateCksum_read, rioUpdateCksum_write, rioUpdateCksum_fn,
          rioUpdateCksum_max, rioUpdateCksum_processed_bytes, rioUpdateCksum_io, hw, if_false]
        exact hstep r buf
          ⟨r.read, r.write, r.update_cksum,
            (rioUpdateCksum r (buf.take (rioChunkSize r buf.length))).cksum,
            (r.processed_bytes + rioChunkSize r buf.length) % SIZE_T_MOD,
            r.max_processing_chunk,
            (r.write r.io (buf.take (rioChunkSize r buf.length))).2⟩
          hb hw rfl rfl rfl rfl rfl rfl rfl _
          (ih (buf.length - rioChunkSize r buf.length) (by omega) _ _ (by simp))

/-- C1: if every backend write issued during `rioWrite r data` succeeds, the
call returns 1, the chunks handed to the backend concatenate (in call order)
to `data`, and `processed_bytes` has advanced by `data.length` (as a `size_t`,
hence exactly when the sum does not wrap). -/
theorem rioWrite_all_writes_ok {σ : Type} (r : rio σ) (data : List Byte)
    (hsz : r.processed_bytes < SIZE_T_MOD)
    (hok : ∀ c ∈ writeCalls (rioWrite r data).2.2, c.2 ≠ 0) :
    (rioWrite r data).1 = 1 ∧
    ((writeCalls (rioWrite r data).2.2).map Prod.fst).flatten = data ∧
    (rioWrite r data).2.1.processed_bytes
      = (r.processed_bytes + data.length) % SIZE_T_MOD ∧
    (r.processed_bytes + data.length < SIZE_T_MOD →
      (rioWrite r data).2.1.processed_bytes = r.processed_bytes + data.length) := by
  have main : ∀ (r : rio σ) (data : List Byte), r.processed_bytes < SIZE_T_MOD →
      (∀ c ∈ writeCalls (rioWrite r data).2.2, c.2 ≠ 0) →
      (rioWrite r data).1 = 1 ∧
      ((writeCalls (rioWrite r data).2.2).map Prod.fst).flatten = data ∧
      (rioWrite r data).2.1.processed_bytes
        = (r.processed_bytes + data.length) % SIZE_T_MOD := by
    intro r data
    refine rioWrite_induction
      (fun r data res => r.processed_bytes < SIZE_T_MOD →
        (∀ c ∈ writeCalls res.2.2, c.2 ≠ 0) →
        res.1 = 1 ∧ ((writeCalls res.2.2).map Prod.fst).flatten = data ∧
        res.2.1.processed_bytes = (r.processed_bytes + data.length) % SIZE_T_MOD)
      ?_ ?_ ?_ r data
    · intro r hsz _
      refine ⟨rfl, rfl, ?_⟩
      simp [Nat.mod_eq_of_lt hsz]
    · intro r buf r' _ _ _ _ _ _ _ _ _ _ h
      exfalso
      refine h (buf.take (rioChunkSize r buf.length), 0) ?_ rfl
      simp [writeCalls_append, writeCalls_cksumTrace, writeCalls]
    · intro r buf r' hb hw _ _ _ _ _ hpb _ res ih hsz h
      have hsz' : r'.processed_bytes < SIZE_T_MOD := by
        rw [hpb]
        exact Nat.mod_lt _ (by decide)
      have h' : ∀ c ∈ writeCalls res.2.2, c.2 ≠ 0 := by
        intro c hc
        apply h c
        simp only [writeCalls_append, List.mem_append]
        exact Or.inr hc
      obtain ⟨h1, h2, h3⟩ := ih hsz' h'
      refine ⟨h1, ?_, ?_⟩
      · simp only [writeCalls_append, writeCalls_cksumTrace, writeCalls, List.nil_append,
          List.map_cons, List.flatten_cons, List.cons_append, List.map_append]
        rw [h2]
        exact List.take_append_drop _ _
      · show res.2.1.processed_bytes = _
        rw [h3, hpb, List.length_drop]
        have := rioChunkSize_le r buf.length
        rw [Nat.mod_add_mod]
        congr 1
        omega
  obtain ⟨h1, h2, h3⟩ := main r data hsz hok
  refine ⟨h1, h2, h3, ?_⟩
  intro hlt
  rw [h3, Nat.mod_eq_of_lt hlt]

theorem rioWrite_all_writes_ok_witness :
    (rioWrite rioExample [1, 2, 3]).1 = 1 ∧
    ((writeCalls (rioWrite rioExample [1, 2, 3]).2.2).map Prod.fst).flatten = [1, 2, 3] ∧
    (rioWrite rioExample [1, 2, 3]).2.1.processed_bytes = (5 + 3) % SIZE_T_MOD ∧
    (5 + 3 < SIZE_T_MOD → (rioWrite rioExample [1, 2, 3]).2.1.processed_bytes = 5 + 3) :=
  rioWrite_all_writes_ok rioExample [1, 2, 3] (by decide)
    (by simp [rioWrite, rioExample, appendBackend, rioChunkSize, rioUpdateCksum,
      rioUpdateCksumTrace, writeCalls])

theorem rioChunkSize_eq_of_lt {σ : Type} (r : rio σ) {len : Nat}
    (h : rioChunkSize r len < len) : rioChunkSize r len = r.max_processing_chunk := by
  unfold rioChunkSize at h ⊢
  split
  · rfl
  · rename_i hc
    rw [if_neg hc] at h
    omega

theorem rioChunkSize_le_max {σ : Type} (r : rio σ) (len : Nat)
    (h : 0 < r.max_processing_chunk) : rioChunkSize r len ≤ r.max_processing_chunk := by
  unfold rioChunkSize
  split <;> omega

theorem rioChunkSize_zero {σ : Type} (r : rio σ) (len : Nat)
    (h : r.max_processing_chunk = 0) : rioChunkSize r len = len := by
  unfold rioChunkSize
  simp [h]

/-- C2: chunk sizes of `rioWrite` on non-empty data.  With
`max_processing_chunk = m > 0` every chunk handed to the backend is non-empty
and at most `m` long, every chunk but the last is exactly `m` long, and when no
write fails `⌈n/m⌉` writes are issued; with `max_processing_chunk = 0` exactly
one write is issued and it carries all of the data. -/
theorem rioWrite_chunking {σ : Type} (r : rio σ) (data : List Byte) (hne : data ≠ []) :
    (0 < r.max_processing_chunk →
      (∀ c ∈ writeCalls (rioWrite r data).2.2,
        c.1 ≠ [] ∧ c.1.length ≤ r.max_processing_chunk) ∧
      (∀ c ∈ (writeCalls (rioWrite r data).2.2).dropLast,
        c.1.length = r.max_processing_chunk) ∧
      ((∀ c ∈ writeCalls (rioWrite r data).2.2, c.2 ≠ 0) →
        (writeCalls (rioWrite r data).2.2).length
          = (data.length + r.max_processing_chunk - 1) / r.max_processing_chunk)) ∧
    (r.max_processing_chunk = 0 →
      ∃ ret, writeCalls (rioWrite r data).2.2 = [(data, ret)]) := by
  have main : ∀ (r : rio σ) (data : List Byte),
      (data = [] → writeCalls (rioWrite r data).2.2 = []) ∧
      (0 < r.max_processing_chunk →
        (∀ c ∈ writeCalls (rioWrite r data).2.2,
          c.1 ≠ [] ∧ c.1.length ≤ r.max_processing_chunk) ∧
        (∀ c ∈ (writeCalls (rioWrite r data).2.2).dropLast,
          c.1.length = r.max_processing_chunk) ∧
        ((∀ c ∈ writeCalls (rioWrite r data).2.2, c.2 ≠ 0) →
          (writeCalls (rioWrite r data).2.2).length
            = (data.length + r.max_processing_chunk - 1) / r.max_processing_chunk)) ∧
      (r.max_processing_chunk = 0 → data ≠ [] →
        ∃ ret, writeCalls (rioWrite r data).2.2 = [(data, ret)]) := by
    intro r data
    refine rioWrite_induction
      (fun r data res =>
        (data = [] → writeCalls res.2.2 = []) ∧
        (0 < r.max_processing_chunk →
          (∀ c ∈ writeCalls res.2.2, c.1 ≠ [] ∧ c.1.length ≤ r.max_processing_chunk) ∧
          (∀ c ∈ (writeCalls res.2.2).dropLast, c.1.length = r.max_processing_chunk) ∧
          ((∀ c ∈ writeCalls res.2.2, c.2 ≠ 0) →
            (writeCalls res.2.2).length
              = (data.length + r.max_processing_chunk - 1) / r.max_processing_chunk)) ∧
        (r.max_processing_chunk = 0 → data ≠ [] →
          ∃ ret, writeCalls res.2.2 = [(data, ret)]))
      ?_ ?_ ?_ r data
    · intro r
      refine ⟨fun _ => rfl, fun hm => ⟨?_, ?_, ?_⟩, fun _ h => absurd rfl h⟩
      · intro c hc
        simp [writeCalls] at hc
      · intro c hc
        simp [writeCalls] at hc
      · intro _
        simp only [writeCalls, List.length_nil]
        rw [Nat.zero_add]
        exact (Nat.div_eq_of_lt (by omega)).symm
    · intro r buf r' hb _ _ _ _ _ _ _ _
      have hl : buf.length ≠ 0 := fun h0 => hb (List.length_eq_zero.mp h0)
      have hpos := rioChunkSize_pos r hl
      have hle := rioChunkSize_le r buf.length
      have hcalls : writeCalls (rioUpdateCksumTrace r (buf.take (rioChunkSize r buf.length)) ++
          [rioEvent.write (buf.take (rioChunkSize r buf.length)) 0])
          = [(buf.take (rioChunkSize r buf.length), 0)] := by
        simp [writeCalls_append, writeCalls_cksumTrace, writeCalls]
      simp only [hcalls]
      refine ⟨fun h => absurd h hb, fun hm => ⟨?_, ?_, ?_⟩, fun hm _ => ?_⟩
      · intro c hc
        simp only [List.mem_singleton] at hc
        subst hc
        have := rioChunkSize_le_max r buf.length hm
        refine ⟨?_, ?_⟩
        · intro h0
          have := congrArg List.length h0
          simp only [List.length_take, List.length_nil] at this
          omega
        · simp only [List.length_take]
          omega
      · intro c hc
        simp at hc
      · intro h
        exact absurd rfl (h _ (List.mem_singleton.mpr rfl))
      · refine ⟨0, ?_⟩
        rw [rioChunkSize_zero r _ hm, List.take_length]
    · intro r buf r' hb _ _ _ _ hmax _ _ _ res ih
      obtain ⟨ih0, ih1, ih2⟩ := ih
      have hl : buf.length ≠ 0 := fun h0 => hb (List.length_eq_zero.mp h0)
      have hpos := rioChunkSize_pos r hl
      have hle := rioChunkSize_le r buf.length
      have hcalls : writeCalls (rioUpdateCksumTrace r (buf.take (rioChunkSize r buf.length)) ++
          [rioEvent.write (buf.take (rioChunkSize r buf.length))
              (r.write r.io (buf.take (rioChunkSize r buf.length))).1,
            rioEvent.processed (buf.take (rioChunkSize r buf.length))] ++ res.2.2)
          = (buf.take (rioChunkSize r buf.length),
              (r.write r.io (buf.take (rioChunkSize r buf.length))).1)
            :: writeCalls res.2.2 := by
        simp [writeCalls_append, writeCalls_cksumTrace, writeCalls]
      simp only [hcalls]
      refine ⟨fun h => absurd h hb, fun hm => ⟨?_, ?_, ?_⟩, fun hm _ => ?_⟩
      · obtain ⟨i1, _, _⟩ := ih1 (hmax ▸ hm)
        intro c hc
        rcases List.mem_cons.mp hc with hc | hc
        · subst hc
          have := rioChunkSize_le_max r buf.length hm
          refine ⟨?_, ?_⟩
          · intro h0
            have := congrArg List.length h0
            simp only [List.length_take, List.length_nil] at this
            omega
          · simp only [List.length_take]
            omega
        · have := i1 c hc
          rw [hmax] at this
          exact this
      · obtain ⟨_, i2, _⟩ := ih1 (hmax ▸ hm)
        intro c hc
        by_cases hrest : writeCalls res.2.2 = []
        · rw [hrest] at hc
          simp at hc
        · rw [List.dropLast_cons_of_ne_nil hrest] at hc
          rcases List.mem_cons.mp hc with hc | hc
          · subst hc
            have hd : buf.drop (rioChunkSize r buf.length) ≠ [] := fun h => hrest (ih0 h)
            have hlt : rioChunkSize r buf.length < buf.length := by
              by_contra hge
              apply hd
              apply List.drop_eq_nil_of_le
              omega
            simp only [List.length_take]
            have e := rioChunkSize_eq_of_lt r hlt
            omega
          · have := i2 c hc
            rw [hmax] at this
            exact this
      · obtain ⟨_, _, i3⟩ := ih1 (hmax ▸ hm)
        intro h
        have h' : ∀ c ∈ writeCalls res.2.2, c.2 ≠ 0 :=
          fun c hc => h c (List.mem_cons_of_mem _ hc)
        rw [List.length_cons, i3 h', hmax, List.length_drop]
        by_cases hlt : rioChunkSize r buf.length < buf.length
        · have e0 := rioChunkSize_eq_of_lt r hlt
          rw [e0] at hlt ⊢
          have e : buf.length + r.max_processing_chunk - 1
              = (buf.length - r.max_processing_chunk + r.max_processing_chunk - 1)
                + r.max_processing_chunk := by omega
          rw [e, Nat.add_div_right _ hm]
        · have e : rioChunkSize r buf.length = buf.length := by omega
          have hm' := rioChunkSize_le_max r buf.length hm
          rw [e] at hm' ⊢
          rw [Nat.sub_self, Nat.zero_add, Nat.div_eq_of_lt (by omega)]
          have e2 : buf.length + r.max_processing_chunk - 1
              = (buf.length - 1) + r.max_processing_chunk := by omega
          rw [e2, Nat.add_div_right _ hm, Nat.div_eq_of_lt (by omega)]
      · have e := rioChunkSize_zero r buf.length hm
        refine ⟨(r.write r.io (buf.take (rioChunkSize r buf.length))).1, ?_⟩
        rw [ih0 (by rw [e]; exact List.drop_length _), e, List.take_length]
  obtain ⟨_, h1, h2⟩ := main r data
  exact ⟨h1, fun hm => h2 hm hne⟩

theorem rioWrite_chunking_witness :
    (0 < rioExample.max_processing_chunk →
      (∀ c ∈ writeCalls (rioWrite rioExample [1, 2, 3]).2.2,
        c.1 ≠ [] ∧ c.1.length ≤ rioExample.max_processing_chunk) ∧
      (∀ c ∈ (writeCalls (rioWrite rioExample [1, 2, 3]).2.2).dropLast,
        c.1.length = rioExample.max_processing_chunk) ∧
      ((∀ c ∈ writeCalls (rioWrite rioExample [1, 2, 3]).2.2, c.2 ≠ 0) →
        (writeCalls (rioWrite rioExample [1, 2, 3]).2.2).length
          = (3 + rioExample.max_processing_chunk - 1) / rioExample.max_processing_chunk)) ∧
    (rioExample.max_processing_chunk = 0 →
      ∃ ret, writeCalls (rioWrite rioExample [1, 2, 3]).2.2 = [([1, 2, 3], ret)]) :=
  rioWrite_chunking rioExample [1, 2, 3] (by decide)

theorem rioUpdateCksum_cksum {σ : Type} (r : rio σ) (c : List Byte) :
    (rioUpdateCksum r c).cksum =
      match r.update_cksum with
      | some f => f r.cksum c
      | none => r.cksum := by
  unfold rioUpdateCksum
  split <;> simp_all

/-- Result of `rioWrite` over an always succeeding appending backend, for any
chunk size: the data is appended, and checksum and byte count are those of a
single chunk. -/
theorem rioWrite_append_backend (r : rio (List Byte)) (data : List Byte)
    (hw : r.write = fun s chunk => (1, s ++ chunk))
    (hf : ∀ f, r.update_cksum = some f → ∀ c A B, f (f c A) B = f c (A ++ B)) :
    (rioWrite r data).1 = 1 ∧
    (rioWrite r data).2.1.io = r.io ++ data ∧
    (rioWrite r data).2.1.cksum
      = (if data = [] then r.cksum else (rioUpdateCksum r data).cksum) ∧
    (rioWrite r data).2.1.processed_bytes
      = (if data = [] then r.processed_bytes
         else (r.processed_bytes + data.length) % SIZE_T_MOD) := by
  revert hw hf
  refine rioWrite_induction
    (fun r data res => r.write = (fun s chunk => (1, s ++ chunk)) →
      (∀ f, r.update_cksum = some f → ∀ c A B, f (f c A) B = f c (A ++ B)) →
      res.1 = 1 ∧
      res.2.1.io = r.io ++ data ∧
      res.2.1.cksum = (if data = [] then r.cksum else (rioUpdateCksum r data).cksum) ∧
      res.2.1.processed_bytes
        = (if data = [] then r.processed_bytes
           else (r.processed_bytes + data.length) % SIZE_T_MOD))
    ?_ ?_ ?_ r data
  · intro r _ _
    simp
  · intro r buf r' _ h0 _ _ _ _ _ _ _ hw _
    rw [hw] at h0
    simp at h0
  · intro r buf r' hb _ _ hwr hfn _ hck hpb hio res ih hw hf
    have hl : buf.length ≠ 0 := fun h0 => hb (List.length_eq_zero.mp h0)
    have hle := rioChunkSize_le r buf.length
    obtain ⟨i0, i1, i2, i3⟩ := ih (hwr.trans hw) (fun f h => hf f (hfn ▸ h))
    have htd := List.take_append_drop (rioChunkSize r buf.length) buf
    refine ⟨i0, ?_, ?_, ?_⟩
    · show res.2.1.io = _
      rw [i1, hio, hw]
      simp only
      rw [List.append_assoc, htd]
    · show res.2.1.cksum = _
      rw [i2, if_neg hb]
      by_cases hd : buf.drop (rioChunkSize r buf.length) = []
      · rw [if_pos hd, hck]
        rw [hd, List.append_nil] at htd
        rw [htd]
      · rw [if_neg hd, rioUpdateCksum_cksum, hfn, hck, rioUpdateCksum_cksum,
          rioUpdateCksum_cksum]
        cases hu : r.update_cksum with
        | none => rfl
        | some f =>
          simp only
          rw [hf f hu, htd]
    · show res.2.1.processed_bytes = _
      rw [i3, if_neg hb, hpb]
      by_cases hd : buf.drop (rioChunkSize r buf.length) = []
      · rw [if_pos hd]
        have := congrArg List.length hd
        simp only [List.length_drop, List.length_nil] at this
        have e : rioChunkSize r buf.length = buf.length := by omega
        rw [e]
      · rw [if_neg hd, Nat.mod_add_mod, List.length_drop]
        congr 1
        omega

/-- C3 (chunking transparency): over the always succeeding appending backend,
with any checksum update function that is compatible with concatenation (or
none), `rioWrite` with `max_processing_chunk = 1` and with
`max_processing_chunk = 0` ends with the same `cksum`, the same
`processed_bytes` and the same backend bytes. -/
theorem rioWrite_chunking_transparent (cksum : Option (Nat → List Byte → Nat))
    (hf : ∀ f, cksum = some f → ∀ c A B, f (f c A) B = f c (A ++ B))
    (c0 pb : Nat) (s data : List Byte) :
    (rioWrite (appendBackend cksum c0 pb 1 s) data).1
      = (rioWrite (appendBackend cksum c0 pb 0 s) data).1 ∧
    (rioWrite (appendBackend cksum c0 pb 1 s) data).2.1.cksum
      = (rioWrite (appendBackend cksum c0 pb 0 s) data).2.1.cksum ∧
    (rioWrite (appendBackend cksum c0 pb 1 s) data).2.1.processed_bytes
      = (rioWrite (appendBackend cksum c0 pb 0 s) data).2.1.processed_bytes ∧
    (rioWrite (appendBackend cksum c0 pb 1 s) data).2.1.io
      = (rioWrite (appendBackend cksum c0 pb 0 s) data).2.1.io ∧
    (rioWrite (appendBackend cksum c0 pb 0 s) data).2.1.io = s ++ data := by
  obtain ⟨a0, a1, a2, a3⟩ := rioWrite_append_backend
    (appendBackend cksum c0 pb 1 s) data rfl hf
  obtain ⟨b0, b1, b2, b3⟩ := rioWrite_append_backend
    (appendBackend cksum c0 pb 0 s) data rfl hf
  refine ⟨?_, ?_, ?_, ?_, b1⟩
  · rw [a0, b0]
  · rw [a2, b2]
    simp only [rioUpdateCksum_cksum]
    rfl
  · rw [a3, b3]
    rfl
  · rw [a1, b1]
    rfl

theorem rioWrite_chunking_transparent_witness :
    (rioWrite (appendBackend (some byteSum) 7 5 1 [9]) [1, 2, 3]).1
      = (rioWrite (appendBackend (some byteSum) 7 5 0 [9]) [1, 2, 3]).1 ∧
    (rioWrite (appendBackend (some byteSum) 7 5 1 [9]) [1, 2, 3]).2.1.cksum
      = (rioWrite (appendBackend (some byteSum) 7 5 0 [9]) [1, 2, 3]).2.1.cksum ∧
    (rioWrite (appendBackend (some byteSum) 7 5 1 [9]) [1, 2, 3]).2.1.processed_bytes
      = (rioWrite (appendBackend (some byteSum) 7 5 0 [9]) [1, 2, 3]).2.1.processed_bytes ∧
    (rioWrite (appendBackend (some byteSum) 7 5 1 [9]) [1, 2, 3]).2.1.io
      = (rioWrite (appendBackend (some byteSum) 7 5 0 [9]) [1, 2, 3]).2.1.io ∧
    (rioWrite (appendBackend (some byteSum) 7 5 0 [9]) [1, 2, 3]).2.1.io = [9] ++ [1, 2, 3] :=
  rioWrite_chunking_transparent (some byteSum)
    (by
      intro f hf c A B
      cases hf
      simp [byteSum, List.sum_append, Nat.add_assoc])
    7 5 [9] [1, 2, 3]

theorem countedChunks_append (a b : List rioEvent) :
    countedChunks (a ++ b) = countedChunks a ++ countedChunks b := by
  induction a with
  | nil => rfl
  | cons e t ih => cases e <;> simp [countedChunks, ih]

theorem countedChunks_cksumTrace {σ : Type} (r : rio σ) (c : List Byte) :
    countedChunks (rioUpdateCksumTrace r c) = [] := by
  unfold rioUpdateCksumTrace
  split <;> rfl

/-- C4: when the write of the chunk `c` is the first backend write to return
zero (the calls `pre` before it succeeded), `rioWrite` returns 0, the failed
write is the last step it performs (no later backend write, no further count),
and `processed_bytes` has advanced by exactly the lengths of the chunks of
`pre`: the counted chunks are those of `pre`, not the failed one. -/
theorem rioWrite_first_failure {σ : Type} (r : rio σ) (data : List Byte)
    (pre : List (List Byte × Nat)) (c : List Byte) (post : List (List Byte × Nat))
    (hsz : r.processed_bytes < SIZE_T_MOD)
    (hcalls : writeCalls (rioWrite r data).2.2 = pre ++ (c, 0) :: post)
    (hpre : ∀ p ∈ pre, p.2 ≠ 0) :
    (rioWrite r data).1 = 0 ∧ post = [] ∧
    (rioWrite r data).2.2.getLast? = some (rioEvent.write c 0) ∧
    countedChunks (rioWrite r data).2.2 = pre.map Prod.fst ∧
    (rioWrite r data).2.1.processed_bytes
      = (r.processed_bytes + ((pre.map Prod.fst).map List.length).sum) % SIZE_T_MOD := by
  revert pre hsz
  refine rioWrite_induction
    (fun r data res => ∀ pre : List (List Byte × Nat), r.processed_bytes < SIZE_T_MOD →
      writeCalls res.2.2 = pre ++ (c, 0) :: post → (∀ p ∈ pre, p.2 ≠ 0) →
      res.1 = 0 ∧ post = [] ∧ res.2.2.getLast? = some (rioEvent.write c 0) ∧
      countedChunks res.2.2 = pre.map Prod.fst ∧
      res.2.1.processed_bytes
        = (r.processed_bytes + ((pre.map Prod.fst).map List.length).sum) % SIZE_T_MOD)
    ?_ ?_ ?_ r data
  · intro r pre _ h _
    simp [writeCalls] at h
  · intro r buf r' _ _ _ _ _ _ _ hpb _ pre hsz h hpre
    have hcalls : writeCalls (rioUpdateCksumTrace r (buf.take (rioChunkSize r buf.length)) ++
        [rioEvent.write (buf.take (rioChunkSize r buf.length)) 0])
        = [(buf.take (rioChunkSize r buf.length), 0)] := by
      simp [writeCalls_append, writeCalls_cksumTrace, writeCalls]
    simp only [hcalls] at h
    cases pre with
    | cons p pre' =>
      have := congrArg List.length h
      simp at this
    | nil =>
      simp only [List.nil_append, List.cons.injEq, Prod.mk.injEq, and_true] at h
      obtain ⟨hc, hpost⟩ := h
      refine ⟨rfl, hpost.symm, ?_, ?_, ?_⟩
      · simp [List.getLast?_append, hc]
      · simp [countedChunks_append, countedChunks_cksumTrace, countedChunks]
      · show r'.processed_bytes = _
        simp [hpb, Nat.mod_eq_of_lt hsz]
  · intro r buf r' hb hw _ _ _ _ _ hpb _ res ih pre hsz h hpre
    have hcalls : writeCalls (rioUpdateCksumTrace r (buf.take (rioChunkSize r buf.length)) ++
        [rioEvent.write (buf.take (rioChunkSize r buf.length))
            (r.write r.io (buf.take (rioChunkSize r buf.length))).1,
          rioEvent.processed (buf.take (rioChunkSize r buf.length))] ++ res.2.2)
        = (buf.take (rioChunkSize r buf.length),
            (r.write r.io (buf.take (rioChunkSize r buf.length))).1)
          :: writeCalls res.2.2 := by
      simp [writeCalls_append, writeCalls_cksumTrace, writeCalls]
    simp only [hcalls] at h
    have hsz' : r'.processed_bytes < SIZE_T_MOD := by
      rw [hpb]
      exact Nat.mod_lt _ (by decide)
    cases pre with
    | nil =>
      simp only [List.nil_append, List.cons.injEq, Prod.mk.injEq] at h
      exact absurd h.1.2 hw
    | cons p pre' =>
      simp only [List.cons_append, List.cons.injEq] at h
      obtain ⟨hp, hrest⟩ := h
      obtain ⟨i1, i2, i3, i4, i5⟩ :=
        ih pre' hsz' hrest (fun q hq => hpre q (List.mem_cons_of_mem _ hq))
      have hle := rioChunkSize_le r buf.length
      refine ⟨i1, i2, ?_, ?_, ?_⟩
      · show (_ ++ res.2.2).getLast? = _
        rw [List.getLast?_append, i3]
        rfl
      · show countedChunks (_ ++ res.2.2) = _
        simp [countedChunks_append, countedChunks_cksumTrace, countedChunks, i4, ← hp]
      · show res.2.1.processed_bytes = _
        rw [i5, hpb, Nat.mod_add_mod, ← hp]
        simp only [List.map_cons, List.sum_cons, List.length_take]
        congr 1
        omega

theorem rioWrite_first_failure_witness :
    (rioWrite (failingBackend none 0 5 1 1) [1, 2, 3]).1 = 0 ∧ ([] : List (List Byte × Nat)) = [] ∧
    (rioWrite (failingBackend none 0 5 1 1) [1, 2, 3]).2.2.getLast?
      = some (rioEvent.write [2] 0) ∧
    countedChunks (rioWrite (failingBackend none 0 5 1 1) [1, 2, 3]).2.2
      = [([1], 1)].map Prod.fst ∧
    (rioWrite (failingBackend none 0 5 1 1) [1, 2, 3]).2.1.processed_bytes
      = (5 + (([([1], 1)].map Prod.fst).map List.length).sum) % SIZE_T_MOD :=
  rioWrite_first_failure (failingBackend none 0 5 1 1) [1, 2, 3] [([1], 1)] [2] []
    (by decide)
    (by simp [rioWrite, failingBackend, rioChunkSize, rioUpdateCksum,
      rioUpdateCksumTrace, writeCalls])
    (by decide)

theorem rioUpdateCksum_cksum_io {σ : Type} (r : rio σ) (x : σ) (c : List Byte) :
    (rioUpdateCksum { r with io := x } c).cksum = (rioUpdateCksum r c).cksum := by
  unfold rioUpdateCksum
  split <;> split <;> simp_all

theorem rioRead_zero {σ : Type} (r : rio σ) : rioRead r 0 = (1, r, [], []) := by
  rw [rioRead]
  simp

/-- Induction along the loop of `rioRead`.  `hfail` is the iteration whose
backend read returns zero, `hstep` an iteration whose backend read delivers
`chunk`; the transport `r'` is described field by field. -/
theorem rioRead_induction {σ : Type}
    (P : rio σ → Nat → Nat × rio σ × List Byte × List rioEvent → Prop)
    (hnil : ∀ r, P r 0 (1, r, [], []))
    (hfail : ∀ (r : rio σ) (len : Nat) (r' : rio σ), len ≠ 0 →
      (r.read r.io (rioChunkSize r len)).1 = none →
      r'.read = r.read → r'.write = r.write → r'.update_cksum = r.update_cksum →
      r'.max_processing_chunk = r.max_processing_chunk →
      r'.cksum = r.cksum →
      r'.processed_bytes = r.processed_bytes →
      r'.io = (r.read r.io (rioChunkSize r len)).2 →
      P r len (0, r', [], [rioEvent.read (rioChunkSize r len) none]))
    (hstep : ∀ (r : rio σ) (len : Nat) (r' : rio σ) (chunk : List Byte), len ≠ 0 →
      (r.read r.io (rioChunkSize r len)).1 = some chunk →
      r'.read = r.read → r'.write = r.write → r'.update_cksum = r.update_cksum →
      r'.max_processing_chunk = r.max_processing_chunk →
      r'.cksum = (rioUpdateCksum r chunk).cksum →
      r'.processed_bytes = (r.processed_bytes + rioChunkSize r len) % SIZE_T_MOD →
      r'.io = (r.read r.io (rioChunkSize r len)).2 →
      ∀ res, P r' (len - rioChunkSize r len) res →
      P r len (res.1, res.2.1, chunk ++ res.2.2.1,
        [rioEvent.read (rioChunkSize r len) (some chunk)] ++ rioUpdateCksumTrace r chunk
          ++ [rioEvent.processed chunk] ++ res.2.2.2)) :
    ∀ r len, P r len (rioRead r len) := by
  intro r len
  induction len using Nat.strong_induction_on generalizing r with
  | _ len ih =>
    by_cases hl : len = 0
    · subst hl
      rw [rioRead_zero]
      exact hnil r
    · have hpos := rioChunkSize_pos r hl
      rw [rioRead]
      simp only [hl, if_false]
      cases hrd : (r.read r.io (rioChunkSize r len)).1 with
      | none =>
        simp only
        exact hfail r len
          ⟨r.read, r.write, r.update_cksum, r.cksum, r.processed_bytes,
            r.max_processing_chunk, (r.read r.io (rioChunkSize r len)).2⟩
          hl hrd rfl rfl rfl rfl rfl rfl rfl
      | some chunk =>
        simp only [rioUpdateCksum_read, rioUpdateCksum_write, rioUpdateCksum_fn,
          rioUpdateCksum_max, rioUpdateCksum_processed_bytes, rioUpdateCksum_io,
          rioUpdateCksum_cksum_io]
        exact hstep r len
          ⟨r.read, r.write, r.update_cksum, (rioUpdateCksum r chunk).cksum,
            (r.processed_bytes + rioChunkSize r len) % SIZE_T_MOD,
            r.max_processing_chunk, (r.read r.io (rioChunkSize r len)).2⟩
          chunk hl hrd rfl rfl rfl rfl rfl rfl rfl _
          (ih (len - rioChunkSize r len) (by omega) _)

/-- C5: `rioRead` on a transport with a checksum function `f`.  Every
iteration folds its chunk right after (and only after) the backend read
delivered it.  If all backend reads succeed the call returns 1,
`processed_bytes` has advanced by the requested length and `cksum` is the fold
of the delivered chunks in order.  If the read of `n` bytes is the first to
fail (after the calls `pre`), the call returns 0 with that read as its last
step, and `cksum` and `processed_bytes` account for exactly the chunks of
`pre`. -/
theorem rioRead_checksum {σ : Type} (r : rio σ) (len : Nat) (f : Nat → List Byte → Nat)
    (hf : r.update_cksum = some f) (hsz : r.processed_bytes < SIZE_T_MOD) :
    (rioRead r len).2.2.2 = (readCalls (rioRead r len).2.2.2).flatMap readIterationTrace ∧
    ((∀ c ∈ readCalls (rioRead r len).2.2.2, c.2 ≠ none) →
      (rioRead r len).1 = 1 ∧
      (rioRead r len).2.1.processed_bytes = (r.processed_bytes + len) % SIZE_T_MOD ∧
      ((readCalls (rioRead r len).2.2.2).map Prod.fst).sum = len ∧
      (rioRead r len).2.1.cksum
        = ((readCalls (rioRead r len).2.2.2).filterMap Prod.snd).foldl f r.cksum ∧
      (rioRead r len).2.2.1
        = ((readCalls (rioRead r len).2.2.2).filterMap Prod.snd).flatten) ∧
    (∀ (pre : List (Nat × Option (List Byte))) (n : Nat)
        (post : List (Nat × Option (List Byte))),
      readCalls (rioRead r len).2.2.2 = pre ++ (n, none) :: post →
      (∀ p ∈ pre, p.2 ≠ none) →
      (rioRead r len).1 = 0 ∧ post = [] ∧
      (rioRead r len).2.2.2.getLast? = some (rioEvent.read n none) ∧
      (rioRead r len).2.1.cksum = (pre.filterMap Prod.snd).foldl f r.cksum ∧
      (rioRead r len).2.1.processed_bytes
        = (r.processed_bytes + (pre.map Prod.fst).sum) % SIZE_T_MOD ∧
      foldedChunks (rioRead r len).2.2.2 = pre.filterMap Prod.snd ∧
      countedChunks (rioRead r len).2.2.2 = pre.filterMap Prod.snd) := by
  revert hf hsz
  refine rioRead_induction
    (fun r len res => r.update_cksum = some f → r.processed_bytes < SIZE_T_MOD →
      res.2.2.2 = (readCalls res.2.2.2).flatMap readIterationTrace ∧
      ((∀ c ∈ readCalls res.2.2.2, c.2 ≠ none) →
        res.1 = 1 ∧
        res.2.1.processed_bytes = (r.processed_bytes + len) % SIZE_T_MOD ∧
        ((readCalls res.2.2.2).map Prod.fst).sum = len ∧
        res.2.1.cksum = ((readCalls res.2.2.2).filterMap Prod.snd).foldl f r.cksum ∧
        res.2.2.1 = ((readCalls res.2.2.2).filterMap Prod.snd).flatten) ∧
      (∀ (pre : List (Nat × Option (List Byte))) (n : Nat)
          (post : List (Nat × Option (List Byte))),
        readCalls res.2.2.2 = pre ++ (n, none) :: post →
        (∀ p ∈ pre, p.2 ≠ none) →
        res.1 = 0 ∧ post = [] ∧
        res.2.2.2.getLast? = some (rioEvent.read n none) ∧
        res.2.1.cksum = (pre.filterMap Prod.snd).foldl f r.cksum ∧
        res.2.1.processed_bytes
          = (r.processed_bytes + (pre.map Prod.fst).sum) % SIZE_T_MOD ∧
        foldedChunks res.2.2.2 = pre.filterMap Prod.snd ∧
        countedChunks res.2.2.2 = pre.filterMap Prod.snd))
    ?_ ?_ ?_ r len
  · intro r hf hsz
    refine ⟨rfl, fun _ => ⟨rfl, ?_, rfl, rfl, rfl⟩, ?_⟩
    · simp [Nat.mod_eq_of_lt hsz]
    · intro pre n post h
      simp [readCalls] at h
  · intro r len r' hl hrd _ _ _ _ hck hpb _ hf hsz
    refine ⟨rfl, ?_, ?_⟩
    · intro h
      exact absurd rfl (h (rioChunkSize r len, none) (by simp [readCalls]))
    · intro pre n post h hpre
      simp only [readCalls] at h
      cases pre with
      | cons p pre' =>
        have := congrArg List.length h
        simp at this
      | nil =>
        simp only [List.nil_append, List.cons.injEq, Prod.mk.injEq, and_true] at h
        obtain ⟨hn, hpost⟩ := h
        refine ⟨rfl, hpost.symm, ?_, ?_, ?_, ?_, ?_⟩
        · simp [hn]
        · simpa using hck
        · show r'.processed_bytes = _
          simp [hpb, Nat.mod_eq_of_lt hsz]
        · simp [foldedChunks]
        · simp [countedChunks]
  · intro r len r' chunk hl hrd _ _ hfn _ hck hpb _ res ih hf hsz
    have hsz' : r'.processed_bytes < SIZE_T_MOD := by
      rw [hpb]
      exact Nat.mod_lt _ (by decide)
    have hle := rioChunkSize_le r len
    obtain ⟨i1, i2, i3⟩ := ih (hfn.trans hf) hsz'
    have ht : rioUpdateCksumTrace r chunk = [rioEvent.cksum chunk] := by
      unfold rioUpdateCksumTrace
      rw [hf]
    have hck' : r'.cksum = f r.cksum chunk := by
      rw [hck, rioUpdateCksum_cksum, hf]
    have htr : [rioEvent.read (rioChunkSize r len) (some chunk)] ++ rioUpdateCksumTrace r chunk
          ++ [rioEvent.processed chunk] ++ res.2.2.2
        = rioEvent.read (rioChunkSize r len) (some chunk) :: rioEvent.cksum chunk
          :: rioEvent.processed chunk :: res.2.2.2 := by
      rw [ht]
      rfl
    simp only [htr]
    have hcalls : readCalls (rioEvent.read (rioChunkSize r len) (some chunk)
          :: rioEvent.cksum chunk :: rioEvent.processed chunk :: res.2.2.2)
        = (rioChunkSize r len, some chunk) :: readCalls res.2.2.2 := by
      simp [readCalls]
    simp only [hcalls]
    refine ⟨?_, ?_, ?_⟩
    · simp only [List.flatMap_cons, readIterationTrace, List.cons_append, List.nil_append]
      rw [← i1]
    · intro h
      obtain ⟨j1, j2, j3, j4, j5⟩ := i2 (fun c hc => h c (List.mem_cons_of_mem _ hc))
      refine ⟨j1, ?_, ?_, ?_, ?_⟩
      · show res.2.1.processed_bytes = _
        rw [j2, hpb, Nat.mod_add_mod]
        congr 1
        omega
      · simp only [List.map_cons, List.sum_cons, j3]
        omega
      · show res.2.1.cksum = _
        rw [j4, hck']
        simp
      · show chunk ++ res.2.2.1 = _
        rw [j5]
        simp
    · intro pre n post h hpre
      cases pre with
      | nil =>
        simp at h
      | cons p pre' =>
        simp only [List.cons_append, List.cons.injEq] at h
        obtain ⟨hp, hrest⟩ := h
        obtain ⟨j1, j2, j3, j4, j5, j6, j7⟩ :=
          i3 pre' n post hrest (fun q hq => hpre q (List.mem_cons_of_mem _ hq))
        refine ⟨j1, j2, ?_, ?_, ?_, ?_, ?_⟩
        · show (_ :: _ :: _ :: res.2.2.2).getLast? = _
          have e : rioEvent.read (rioChunkSize r len) (some chunk) :: rioEvent.cksum chunk
              :: rioEvent.processed chunk :: res.2.2.2
              = [rioEvent.read (rioChunkSize r len) (some chunk), rioEvent.cksum chunk,
                rioEvent.processed chunk] ++ res.2.2.2 := rfl
          rw [e, List.getLast?_append, j3]
          rfl
        · show res.2.1.cksum = _
          rw [j4, hck', ← hp]
          simp
        · show res.2.1.processed_bytes = _
          rw [j5, hpb, Nat.mod_add_mod, ← hp]
          simp only [List.map_cons, List.sum_cons]
          congr 1
          omega
        · simp [foldedChunks, j6, ← hp]
        · simp [countedChunks, j7, ← hp]

theorem rioRead_checksum_witness :
    (rioRead (failingBackend (some byteSum) 7 5 1 1) 3).1 = 0 ∧
    (rioRead (failingBackend (some byteSum) 7 5 1 1) 3).2.1.cksum
      = ([((1 : Nat), some ([0] : List Byte))].filterMap Prod.snd).foldl byteSum 7 ∧
    (rioRead (failingBackend (some byteSum) 7 5 1 1) 3).2.1.processed_bytes
      = (5 + ([((1 : Nat), some ([0] : List Byte))].map Prod.fst).sum) % SIZE_T_MOD :=
  have h := (rioRead_checksum (failingBackend (some byteSum) 7 5 1 1) 3 byteSum rfl
    (by decide)).2.2 [(1, some [0])] 1 []
    (by simp [rioRead, failingBackend, rioChunkSize, rioUpdateCksum,
      rioUpdateCksumTrace, readCalls])
    (by decide)
  ⟨h.1, h.2.2.2.1, h.2.2.2.2.1⟩

theorem foldedChunks_append (a b : List rioEvent) :
    foldedChunks (a ++ b) = foldedChunks a ++ foldedChunks b := by
  induction a with
  | nil => rfl
  | cons e t ih => cases e <;> simp [foldedChunks, ih]

theorem countedBytes_eq_flatten (t : List rioEvent) :
    countedBytes t = (countedChunks t).flatten := by
  induction t with
  | nil => rfl
  | cons e t ih => cases e <;> simp [countedBytes, countedChunks, ih]

theorem foldedBytes_eq_flatten (t : List rioEvent) :
    foldedBytes t = (foldedChunks t).flatten := by
  induction t with
  | nil => rfl
  | cons e t ih => cases e <;> simp [foldedBytes, foldedChunks, ih]

theorem flatten_sublist {α : Type} {a b : List (List α)} (h : List.Sublist a b) :
    List.Sublist a.flatten b.flatten := by
  induction h with
  | slnil => exact List.Sublist.refl _
  | cons x _ ih =>
    simp only [List.flatten_cons]
    exact ih.trans (List.sublist_append_right _ _)
  | cons₂ x _ ih =>
    simp only [List.flatten_cons]
    exact List.Sublist.append (List.Sublist.refl _) ih

/-- Accounting of one `rioWrite` call on a transport with checksum function
`f`. -/
theorem rioWrite_account {σ : Type} (r : rio σ) (data : List Byte)
    (f : Nat → List Byte → Nat) (hf : r.update_cksum = some f)
    (hsz : r.processed_bytes < SIZE_T_MOD) :
    (rioWrite r data).2.1.update_cksum = r.update_cksum ∧
    (rioWrite r data).2.1.read = r.read ∧
    (rioWrite r data).2.1.processed_bytes < SIZE_T_MOD ∧
    (rioWrite r data).2.1.processed_bytes
      = (r.processed_bytes + ((countedChunks (rioWrite r data).2.2).map List.length).sum)
        % SIZE_T_MOD ∧
    List.Sublist (countedChunks (rioWrite r data).2.2) (foldedChunks (rioWrite r data).2.2) ∧
    (rioWrite r data).2.1.cksum = (foldedChunks (rioWrite r data).2.2).foldl f r.cksum := by
  revert hf hsz
  refine rioWrite_induction
    (fun r data res => r.update_cksum = some f → r.processed_bytes < SIZE_T_MOD →
      res.2.1.update_cksum = r.update_cksum ∧ res.2.1.read = r.read ∧
      res.2.1.processed_bytes < SIZE_T_MOD ∧
      res.2.1.processed_bytes
        = (r.processed_bytes + ((countedChunks res.2.2).map List.length).sum) % SIZE_T_MOD ∧
      List.Sublist (countedChunks res.2.2) (foldedChunks res.2.2) ∧
      res.2.1.cksum = (foldedChunks res.2.2).foldl f r.cksum)
    ?_ ?_ ?_ r data
  · intro r hf hsz
    refine ⟨rfl, rfl, hsz, ?_, List.Sublist.refl _, rfl⟩
    simp [countedChunks, Nat.mod_eq_of_lt hsz]
  · intro r buf r' _ _ hrd _ hfn _ hck hpb _ hf hsz
    have ht : rioUpdateCksumTrace r (buf.take (rioChunkSize r buf.length))
        = [rioEvent.cksum (buf.take (rioChunkSize r buf.length))] := by
      unfold rioUpdateCksumTrace
      rw [hf]
    simp only [ht]
    refine ⟨hfn, hrd, hpb ▸ hsz, ?_, ?_, ?_⟩
    · show r'.processed_bytes = _
      simp [countedChunks, hpb, Nat.mod_eq_of_lt hsz]
    · simp [countedChunks]
    · show r'.cksum = _
      simp [foldedChunks, hck, rioUpdateCksum_cksum, hf]
  · intro r buf r' hb _ hrd _ hfn _ hck hpb _ res ih hf hsz
    have hsz' : r'.processed_bytes < SIZE_T_MOD := by
      rw [hpb]
      exact Nat.mod_lt _ (by decide)
    have hle := rioChunkSize_le r buf.length
    obtain ⟨i1, i2, i3, i4, i5, i6⟩ := ih (hfn.trans hf) hsz'
    have ht : rioUpdateCksumTrace r (buf.take (rioChunkSize r buf.length))
        = [rioEvent.cksum (buf.take (rioChunkSize r buf.length))] := by
      unfold rioUpdateCksumTrace
      rw [hf]
    have hcc : countedChunks ([rioEvent.cksum (buf.take (rioChunkSize r buf.length))] ++
        [rioEvent.write (buf.take (rioChunkSize r buf.length))
            (r.write r.io (buf.take (rioChunkSize r buf.length))).1,
          rioEvent.processed (buf.take (rioChunkSize r buf.length))] ++ res.2.2)
        = buf.take (rioChunkSize r buf.length) :: countedChunks res.2.2 := by
      simp [countedChunks_append, countedChunks]
    have hfc : foldedChunks ([rioEvent.cksum (buf.take (rioChunkSize r buf.length))] ++
        [rioEvent.write (buf.take (rioChunkSize r buf.length))
            (r.write r.io (buf.take (rioChunkSize r buf.length))).1,
          rioEvent.processed (buf.take (rioChunkSize r buf.length))] ++ res.2.2)
        = buf.take (rioChunkSize r buf.length) :: foldedChunks res.2.2 := by
      simp [foldedChunks_append, foldedChunks]
    simp only [ht, hcc, hfc]
    refine ⟨i1.trans hfn, i2.trans hrd, i3, ?_, ?_, ?_⟩
    · show res.2.1.processed_bytes = _
      rw [i4, hpb, Nat.mod_add_mod]
      simp only [List.map_cons, List.sum_cons, List.length_take]
      congr 1
      omega
    · exact List.Sublist.cons₂ _ i5
    · show res.2.1.cksum = _
      rw [i6, hck, rioUpdateCksum_cksum, hf]
      rfl

/-- Accounting of one `rioRead` call on a transport with checksum function `f`
whose backend read delivers exactly the requested number of bytes. -/
theorem rioRead_account {σ : Type} (r : rio σ) (len : Nat)
    (f : Nat → List Byte → Nat) (hf : r.update_cksum = some f)
    (hsz : r.processed_bytes < SIZE_T_MOD)
    (hread : ∀ s n l, (r.read s n).1 = some l → l.length = n) :
    (rioRead r len).2.1.update_cksum = r.update_cksum ∧
    (rioRead r len).2.1.read = r.read ∧
    (rioRead r len).2.1.processed_bytes < SIZE_T_MOD ∧
    (rioRead r len).2.1.processed_bytes
      = (r.processed_bytes + ((countedChunks (rioRead r len).2.2.2).map List.length).sum)
        % SIZE_T_MOD ∧
    List.Sublist (countedChunks (rioRead r len).2.2.2)
      (foldedChunks (rioRead r len).2.2.2) ∧
    (rioRead r len).2.1.cksum = (foldedChunks (rioRead r len).2.2.2).foldl f r.cksum := by
  revert hf hsz hread
  refine rioRead_induction
    (fun r len res => r.update_cksum = some f → r.processed_bytes < SIZE_T_MOD →
      (∀ s n l, (r.read s n).1 = some l → l.length = n) →
      res.2.1.update_cksum = r.update_cksum ∧ res.2.1.read = r.read ∧
      res.2.1.processed_bytes < SIZE_T_MOD ∧
      res.2.1.processed_bytes
        = (r.processed_bytes + ((countedChunks res.2.2.2).map List.length).sum)
          % SIZE_T_MOD ∧
      List.Sublist (countedChunks res.2.2.2) (foldedChunks res.2.2.2) ∧
      res.2.1.cksum = (foldedChunks res.2.2.2).foldl f r.cksum)
    ?_ ?_ ?_ r len
  · intro r hf hsz _
    refine ⟨rfl, rfl, hsz, ?_, List.Sublist.refl _, rfl⟩
    simp [countedChunks, Nat.mod_eq_of_lt hsz]
  · intro r len r' _ _ hrd _ hfn _ hck hpb _ hf hsz _
    refine ⟨hfn, hrd, hpb ▸ hsz, ?_, ?_, ?_⟩
    · show r'.processed_bytes = _
      simp [countedChunks, hpb, Nat.mod_eq_of_lt hsz]
    · simp [countedChunks, foldedChunks]
    · show r'.cksum = _
      simp [foldedChunks, hck]
  · intro r len r' chunk hl hgot hrd _ hfn _ hck hpb _ res ih hf hsz hread
    have hsz' : r'.processed_bytes < SIZE_T_MOD := by
      rw [hpb]
      exact Nat.mod_lt _ (by decide)
    have hlen : chunk.length = rioChunkSize r len := hread _ _ _ hgot
    obtain ⟨i1, i2, i3, i4, i5, i6⟩ := ih (hfn.trans hf) hsz' (hrd ▸ hread)
    have ht : rioUpdateCksumTrace r chunk = [rioEvent.cksum chunk] := by
      unfold rioUpdateCksumTrace
      rw [hf]
    have hcc : countedChunks ([rioEvent.read (rioChunkSize r len) (some chunk)] ++
        [rioEvent.cksum chunk] ++ [rioEvent.processed chunk] ++ res.2.2.2)
        = chunk :: countedChunks res.2.2.2 := by
      simp [countedChunks_append, countedChunks]
    have hfc : foldedChunks ([rioEvent.read (rioChunkSize r len) (some chunk)] ++
        [rioEvent.cksum chunk] ++ [rioEvent.processed chunk] ++ res.2.2.2)
        = chunk :: foldedChunks res.2.2.2 := by
      simp [foldedChunks_append, foldedChunks]
    simp only [ht, hcc, hfc]
    refine ⟨i1.trans hfn, i2.trans hrd, i3, ?_, ?_, ?_⟩
    · show res.2.1.processed_bytes = _
      rw [i4, hpb, Nat.mod_add_mod]
      simp only [List.map_cons, List.sum_cons, hlen]
      congr 1
      omega
    · exact List.Sublist.cons₂ _ i5
    · show res.2.1.cksum = _
      rw [i6, hck, rioUpdateCksum_cksum, hf]
      rfl

theorem rioRun_append {σ : Type} (r : rio σ) (a b : List rioOp) :
    rioRun r (a ++ b)
      = ((rioRun (rioRun r a).1 b).1, (rioRun r a).2 ++ (rioRun (rioRun r a).1 b).2) := by
  induction a generalizing r with
  | nil => simp [rioRun]
  | cons op a ih =>
    cases op with
    | write data => simp [rioRun, ih, List.append_assoc]
    | read len => simp [rioRun, ih, List.append_assoc]

/-- Accounting of a sequence of calls. -/
theorem rioRun_account {σ : Type} (r : rio σ) (ops : List rioOp)
    (f : Nat → List Byte → Nat) (hf : r.update_cksum = some f)
    (hsz : r.processed_bytes < SIZE_T_MOD)
    (hread : ∀ s n l, (r.read s n).1 = some l → l.length = n) :
    (rioRun r ops).1.processed_bytes
      = (r.processed_bytes + ((countedChunks (rioRun r ops).2).map List.length).sum)
        % SIZE_T_MOD ∧
    List.Sublist (countedChunks (rioRun r ops).2) (foldedChunks (rioRun r ops).2) ∧
    (rioRun r ops).1.cksum = (foldedChunks (rioRun r ops).2).foldl f r.cksum := by
  induction ops generalizing r with
  | nil =>
    refine ⟨?_, List.Sublist.refl _, rfl⟩
    simp [rioRun, countedChunks, Nat.mod_eq_of_lt hsz]
  | cons op ops ih =>
    cases op with
    | write data =>
      obtain ⟨a1, a2, a3, a4, a5, a6⟩ := rioWrite_account r data f hf hsz
      obtain ⟨b1, b2, b3⟩ := ih (rioWrite r data).2.1 (a1.trans hf) a3 (a2 ▸ hread)
      simp only [rioRun, countedChunks_append, foldedChunks_append, List.map_append,
        List.sum_append, List.foldl_append]
      refine ⟨?_, List.Sublist.append a5 b2, ?_⟩
      · rw [b1, a4, Nat.mod_add_mod, Nat.add_assoc]
      · rw [b3, a6]
    | read len =>
      obtain ⟨a1, a2, a3, a4, a5, a6⟩ := rioRead_account r len f hf hsz hread
      obtain ⟨b1, b2, b3⟩ := ih (rioRead r len).2.1 (a1.trans hf) a3 (a2 ▸ hread)
      simp only [rioRun, countedChunks_append, foldedChunks_append, List.map_append,
        List.sum_append, List.foldl_append]
      refine ⟨?_, List.Sublist.append a5 b2, ?_⟩
      · rw [b1, a4, Nat.mod_add_mod, Nat.add_assoc]
      · rw [b3, a6]

/-- C6 (transport invariant): after any finite sequence of `rioWrite` and
`rioRead` calls on a transport with a checksum function `f`, `processed_bytes`
is its initial value advanced by the number of counted bytes, the counted
chunks (and bytes) form, in order, a subsequence of the chunks (and bytes)
folded into the checksum, `cksum` is the fold of the folded chunks, and, when
the byte count does not wrap around, `processed_bytes` never decreases from one
call to the next. -/
theorem rioRun_invariant {σ : Type} (r : rio σ) (ops : List rioOp)
    (f : Nat → List Byte → Nat) (hf : r.update_cksum = some f)
    (hsz : r.processed_bytes < SIZE_T_MOD)
    (hread : ∀ s n l, (r.read s n).1 = some l → l.length = n) :
    (rioRun r ops).1.processed_bytes
      = (r.processed_bytes + (countedBytes (rioRun r ops).2).length) % SIZE_T_MOD ∧
    List.Sublist (countedChunks (rioRun r ops).2) (foldedChunks (rioRun r ops).2) ∧
    List.Sublist (countedBytes (rioRun r ops).2) (foldedBytes (rioRun r ops).2) ∧
    (rioRun r ops).1.cksum = (foldedChunks (rioRun r ops).2).foldl f r.cksum ∧
    (r.processed_bytes + (countedBytes (rioRun r ops).2).length < SIZE_T_MOD →
      ∀ ops1 ops2, ops = ops1 ++ ops2 →
        r.processed_bytes ≤ (rioRun r ops1).1.processed_bytes ∧
        (rioRun r ops1).1.processed_bytes ≤ (rioRun r ops).1.processed_bytes) := by
  obtain ⟨h1, h2, h3⟩ := rioRun_account r ops f hf hsz hread
  have hlen : ∀ t : List rioEvent,
      (countedBytes t).length = ((countedChunks t).map List.length).sum := by
    intro t
    rw [countedBytes_eq_flatten, List.length_flatten]
  refine ⟨?_, h2, ?_, h3, ?_⟩
  · rw [hlen]
    exact h1
  · rw [countedBytes_eq_flatten, foldedBytes_eq_flatten]
    exact flatten_sublist h2
  · intro hnw ops1 ops2 hops
    obtain ⟨p1, _, _⟩ := rioRun_account r ops1 f hf hsz hread
    rw [hlen] at hnw
    have htr : (rioRun r ops).2 = (rioRun r ops1).2 ++ (rioRun (rioRun r ops1).1 ops2).2 := by
      rw [hops, rioRun_append]
    rw [htr, countedChunks_append, List.map_append, List.sum_append] at hnw
    rw [h1, p1, htr, countedChunks_append, List.map_append, List.sum_append]
    rw [Nat.mod_eq_of_lt (by omega), Nat.mod_eq_of_lt (by omega)]
    omega

theorem rioRun_invariant_witness :
    (rioRun (failingBackend (some byteSum) 7 5 1 1) [rioOp.write [1, 2], rioOp.read 1]).1.cksum
      = (foldedChunks (rioRun (failingBackend (some byteSum) 7 5 1 1)
          [rioOp.write [1, 2], rioOp.read 1]).2).foldl byteSum 7 ∧
    List.Sublist
      (countedBytes (rioRun (failingBackend (some byteSum) 7 5 1 1)
        [rioOp.write [1, 2], rioOp.read 1]).2)
      (foldedBytes (rioRun (failingBackend (some byteSum) 7 5 1 1)
        [rioOp.write [1, 2], rioOp.read 1]).2) :=
  have h := rioRun_invariant (failingBackend (some byteSum) 7 5 1 1)
    [rioOp.write [1, 2], rioOp.read 1] byteSum rfl (by decide)
    (by
      intro s n l h
      simp only [failingBackend] at h
      split at h
      · cases h
      · cases h
        simp)
  ⟨h.2.2.2.1, h.2.2.1⟩

theorem writeIterationTrace_ne_zero (c : List Byte) {ret : Nat} (h : ret ≠ 0) :
    writeIterationTrace (c, ret) =
      [rioEvent.cksum c, rioEvent.write c ret, rioEvent.processed c] := by
  cases ret with
  | zero => exact absurd rfl h
  | succ n => rfl

theorem foldedChunks_flatMap (L : List (List Byte × Nat)) :
    foldedChunks (L.flatMap writeIterationTrace) = L.map Prod.fst := by
  induction L with
  | nil => rfl
  | cons p L ih =>
    obtain ⟨c, ret⟩ := p
    rw [List.flatMap_cons, foldedChunks_append, ih]
    cases ret <;> rfl

theorem countedChunks_flatMap (L : List (List Byte × Nat)) :
    countedChunks (L.flatMap writeIterationTrace) =
      (L.filter (fun p => decide (p.2 ≠ 0))).map Prod.fst := by
  induction L with
  | nil => rfl
  | cons p L ih =>
    obtain ⟨c, ret⟩ := p
    rw [List.flatMap_cons, countedChunks_append, ih]
    cases ret with
    | zero => simp [writeIterationTrace, countedChunks]
    | succ n => simp [writeIterationTrace, countedChunks]

/-- Shape of the trace of `rioWrite` on a transport with a checksum function:
it is made of the iterations determined by the backend writes; a result zero
comes from a last write that returned zero after writes that did not; with
another result every write succeeded and the chunks written make up the
data. -/
theorem rioWrite_shape {σ : Type} (r : rio σ) (data : List Byte)
    (f : Nat → List Byte → Nat) (hf : r.update_cksum = some f) :
    (rioWrite r data).2.2 = (writeCalls (rioWrite r data).2.2).flatMap writeIterationTrace ∧
    ((rioWrite r data).1 = 0 →
      ∃ pre c, writeCalls (rioWrite r data).2.2 = pre ++ [(c, 0)] ∧ ∀ p ∈ pre, p.2 ≠ 0) ∧
    ((rioWrite r data).1 ≠ 0 →
      (∀ p ∈ writeCalls (rioWrite r data).2.2, p.2 ≠ 0) ∧
      ((writeCalls (rioWrite r data).2.2).map Prod.fst).flatten = data) := by
  revert hf
  refine rioWrite_induction
    (fun r data res => r.update_cksum = some f →
      res.2.2 = (writeCalls res.2.2).flatMap writeIterationTrace ∧
      (res.1 = 0 → ∃ pre c, writeCalls res.2.2 = pre ++ [(c, 0)] ∧ ∀ p ∈ pre, p.2 ≠ 0) ∧
      (res.1 ≠ 0 → (∀ p ∈ writeCalls res.2.2, p.2 ≠ 0) ∧
        ((writeCalls res.2.2).map Prod.fst).flatten = data))
    ?_ ?_ ?_ r data
  · intro r _
    refine ⟨rfl, fun h => absurd h Nat.one_ne_zero, fun _ => ⟨?_, rfl⟩⟩
    intro p hp
    cases hp
  · intro r buf r' _ _ _ _ _ _ _ _ _ hf
    have htr : rioUpdateCksumTrace r (buf.take (rioChunkSize r buf.length)) =
        [rioEvent.cksum (buf.take (rioChunkSize r buf.length))] := by
      simp [rioUpdateCksumTrace, hf]
    rw [htr]
    refine ⟨rfl, fun _ => ⟨[], _, rfl, fun p hp => by cases hp⟩, fun h => absurd rfl h⟩
  · intro r buf r' hb hw _ _ hfn _ _ _ _ res ih hf
    have htr : rioUpdateCksumTrace r (buf.take (rioChunkSize r buf.length)) =
        [rioEvent.cksum (buf.take (rioChunkSize r buf.length))] := by
      simp [rioUpdateCksumTrace, hf]
    obtain ⟨i1, i2, i3⟩ := ih (hfn.trans hf)
    rw [htr]
    have hcalls : writeCalls ([rioEvent.cksum (buf.take (rioChunkSize r buf.length))] ++
        [rioEvent.write (buf.take (rioChunkSize r buf.length))
            (r.write r.io (buf.take (rioChunkSize r buf.length))).1,
          rioEvent.processed (buf.take (rioChunkSize r buf.length))] ++ res.2.2)
        = (buf.take (rioChunkSize r buf.length),
            (r.write r.io (buf.take (rioChunkSize r buf.length))).1)
          :: writeCalls res.2.2 := by
      simp [writeCalls_append, writeCalls]
    refine ⟨?_, ?_, ?_⟩
    · show _ ++ res.2.2 = _
      rw [hcalls, List.flatMap_cons, writeIterationTrace_ne_zero _ hw, ← i1]
      rfl
    · intro h0
      obtain ⟨pre, c, h1, h2⟩ := i2 h0
      refine ⟨(buf.take (rioChunkSize r buf.length),
          (r.write r.io (buf.take (rioChunkSize r buf.length))).1) :: pre, c, ?_, ?_⟩
      · show writeCalls (_ ++ res.2.2) = _
        rw [hcalls, h1]
        rfl
      · intro p hp
        rcases List.mem_cons.mp hp with e | hp'
        · rw [e]
          exact hw
        · exact h2 p hp'
    · intro h0
      obtain ⟨h1, h2⟩ := i3 h0
      constructor
      · intro p hp
        have hp' : p ∈ (buf.take (rioChunkSize r buf.length),
            (r.write r.io (buf.take (rioChunkSize r buf.length))).1)
            :: writeCalls res.2.2 := by
          rw [← hcalls]
          exact hp
        rcases List.mem_cons.mp hp' with e | hp''
        · rw [e]
          exact hw
        · exact h1 p hp''
      · show ((writeCalls (_ ++ res.2.2)).map Prod.fst).flatten = _
        rw [hcalls, List.map_cons, List.flatten_cons, h2, List.take_append_drop]

/-- A checksum update function compatible with concatenation folds a non-empty
sequence of chunks as it folds their concatenation. -/
theorem foldl_cksum_flatten (f : Nat → List Byte → Nat)
    (hc : ∀ c A B, f (f c A) B = f c (A ++ B)) :
    ∀ (chunks : List (List Byte)) (c : Nat), chunks ≠ [] →
      chunks.foldl f c = f c chunks.flatten := by
  intro chunks
  induction chunks with
  | nil =>
    intro c h
    exact absurd rfl h
  | cons x xs ih =>
    intro c _
    cases xs with
    | nil => simp
    | cons y ys =>
      rw [List.foldl_cons, ih (f c x) (List.cons_ne_nil _ _), hc]
      simp

/-- C25 (counterexample): `zeroCksum` is compatible with concatenation, and
`rioWrite` of no byte succeeds without folding anything: the checksum keeps its
value `5`, which is not `zeroCksum 5 []`. -/
theorem rioWrite_empty_data_cksum :
    (∀ c A B, zeroCksum (zeroCksum c A) B = zeroCksum c (A ++ B)) ∧
    (rioWrite (appendBackend (some zeroCksum) 5 0 0 []) []).1 = 1 ∧
    (rioWrite (appendBackend (some zeroCksum) 5 0 0 []) []).2.1.cksum = 5 ∧
    zeroCksum 5 [] = 0 ∧
    (rioWrite (appendBackend (some zeroCksum) 5 0 0 []) []).2.1.cksum ≠ zeroCksum 5 [] := by
  rw [rioWrite_nil]
  exact ⟨fun _ _ _ => rfl, rfl, rfl, rfl, by decide⟩

/-- C25 (amended): `rioWrite` on a transport with the checksum function `f`.
Every iteration folds its chunk and then issues the backend write for it; the
chunk is counted only when the write did not return zero.  So `cksum` is the
fold of all the chunks handed to the backend.  After a `rioWrite` whose `k`-th
write is the first to fail, `cksum` is the fold of the first `k` chunks, the
failed one included, while `processed_bytes` counts the first `k - 1` chunks.
After a successful `rioWrite` the chunks make up the data, and when `f` is
compatible with concatenation `cksum` is `f c0 data`, provided the data is not
empty or folding the empty block leaves the checksum unchanged. -/
theorem rioWrite_cksum_before_write {σ : Type} (r : rio σ) (data : List Byte)
    (f : Nat → List Byte → Nat) (hf : r.update_cksum = some f)
    (hsz : r.processed_bytes < SIZE_T_MOD) :
    (rioWrite r data).2.2 = (writeCalls (rioWrite r data).2.2).flatMap writeIterationTrace ∧
    (rioWrite r data).2.1.cksum =
      ((writeCalls (rioWrite r data).2.2).map Prod.fst).foldl f r.cksum ∧
    (∀ pre c, writeCalls (rioWrite r data).2.2 = pre ++ [(c, 0)] → (∀ p ∈ pre, p.2 ≠ 0) →
      (rioWrite r data).1 = 0 ∧
      (rioWrite r data).2.1.cksum = (pre.map Prod.fst ++ [c]).foldl f r.cksum ∧
      (rioWrite r data).2.1.processed_bytes =
        (r.processed_bytes + ((pre.map Prod.fst).map List.length).sum) % SIZE_T_MOD) ∧
    ((rioWrite r data).1 = 0 →
      ∃ pre c, writeCalls (rioWrite r data).2.2 = pre ++ [(c, 0)] ∧ ∀ p ∈ pre, p.2 ≠ 0) ∧
    ((rioWrite r data).1 ≠ 0 →
      ((writeCalls (rioWrite r data).2.2).map Prod.fst).flatten = data ∧
      (∀ p ∈ writeCalls (rioWrite r data).2.2, p.2 ≠ 0) ∧
      ((∀ c A B, f (f c A) B = f c (A ++ B)) → (data ≠ [] ∨ f r.cksum [] = r.cksum) →
        (rioWrite r data).2.1.cksum = f r.cksum data)) := by
  obtain ⟨s1, s2, s3⟩ := rioWrite_shape r data f hf
  obtain ⟨_, _, _, hpb, _, hck⟩ := rioWrite_account r data f hf hsz
  have hfold : foldedChunks (rioWrite r data).2.2 =
      (writeCalls (rioWrite r data).2.2).map Prod.fst := by
    conv_lhs => rw [s1]
    exact foldedChunks_flatMap _
  have hcount : countedChunks (rioWrite r data).2.2 =
      ((writeCalls (rioWrite r data).2.2).filter (fun p => decide (p.2 ≠ 0))).map Prod.fst := by
    conv_lhs => rw [s1]
    exact countedChunks_flatMap _
  rw [hfold] at hck
  refine ⟨s1, hck, ?_, s2, ?_⟩
  · intro pre c hcalls hpre
    refine ⟨?_, ?_, ?_⟩
    · by_contra h0
      have := (s3 h0).1 (c, 0) (by rw [hcalls]; simp)
      exact this rfl
    · rw [hck, hcalls]
      simp
    · rw [hpb, hcount, hcalls, List.filter_append]
      have h1 : pre.filter (fun p => decide (p.2 ≠ 0)) = pre := by
        rw [List.filter_eq_self]
        intro p hp
        simpa using hpre p hp
      rw [h1]
      simp
  · intro h0
    obtain ⟨h1, h2⟩ := s3 h0
    refine ⟨h2, h1, ?_⟩
    intro hc hd
    rw [hck]
    by_cases hne : (writeCalls (rioWrite r data).2.2).map Prod.fst = []
    · rw [hne] at h2 ⊢
      simp only [List.flatten_nil] at h2
      rcases hd with hd | hd
      · exact absurd h2.symm hd
      · rw [← h2, hd]
        rfl
    · rw [foldl_cksum_flatten f hc _ _ hne, h2]

theorem rioWrite_cksum_before_write_witness :
    (rioWrite (failingBackend (some byteSum) 7 5 1 1) [1, 2, 3]).1 = 0 ∧
    (rioWrite (failingBackend (some byteSum) 7 5 1 1) [1, 2, 3]).2.1.cksum = 10 ∧
    (rioWrite (failingBackend (some byteSum) 7 5 1 1) [1, 2, 3]).2.1.processed_bytes = 6 := by
  obtain ⟨_, _, h, _⟩ := rioWrite_cksum_before_write
    (failingBackend (some byteSum) 7 5 1 1) [1, 2, 3] byteSum rfl (by decide)
  obtain ⟨h1, h2, h3⟩ := h [([1], 1)] [2]
    (by simp [rioWrite, failingBackend, rioChunkSize, rioUpdateCksum,
      rioUpdateCksumTrace, writeCalls])
    (by decide)
  exact ⟨h1, h2.trans (by decide), h3.trans (by decide)⟩

/-- The backend writes of `rioWrite`, with or without a checksum function: the
result is 0 or 1; a result 0 comes with a backend write that returned zero; a
result 1 comes with backend writes that all succeeded and whose chunks make up
the data.  The backend functions are those of the transport given. -/
theorem rioWrite_calls {σ : Type} (r : rio σ) (data : List Byte) :
    ((rioWrite r data).1 = 0 ∨ (rioWrite r data).1 = 1) ∧
    ((rioWrite r data).1 = 0 → ∃ p ∈ writeCalls (rioWrite r data).2.2, p.2 = 0) ∧
    ((rioWrite r data).1 ≠ 0 →
      (∀ p ∈ writeCalls (rioWrite r data).2.2, p.2 ≠ 0) ∧
      ((writeCalls (rioWrite r data).2.2).map Prod.fst).flatten = data) ∧
    (rioWrite r data).2.1.write = r.write ∧
    ((∀ s c, (r.write s c).1 ≠ 0) → (rioWrite r data).1 = 1) := by
  refine rioWrite_induction
    (fun r data res =>
      (res.1 = 0 ∨ res.1 = 1) ∧
      (res.1 = 0 → ∃ p ∈ writeCalls res.2.2, p.2 = 0) ∧
      (res.1 ≠ 0 → (∀ p ∈ writeCalls res.2.2, p.2 ≠ 0) ∧
        ((writeCalls res.2.2).map Prod.fst).flatten = data) ∧
      res.2.1.write = r.write ∧
      ((∀ s c, (r.write s c).1 ≠ 0) → res.1 = 1))
    ?_ ?_ ?_ r data
  · intro r
    refine ⟨Or.inr rfl, fun h => absurd h Nat.one_ne_zero, fun _ => ⟨?_, rfl⟩, rfl, fun _ => rfl⟩
    intro p hp
    cases hp
  · intro r buf r' _ hw0 _ hwr _ _ _ _ _
    have hcalls : writeCalls (rioUpdateCksumTrace r (buf.take (rioChunkSize r buf.length)) ++
        [rioEvent.write (buf.take (rioChunkSize r buf.length)) 0])
        = [(buf.take (rioChunkSize r buf.length), 0)] := by
      simp [writeCalls_append, writeCalls_cksumTrace, writeCalls]
    refine ⟨Or.inl rfl, fun _ => ⟨_, by rw [hcalls]; exact List.mem_singleton.mpr rfl, rfl⟩,
      fun h => absurd rfl h, hwr, fun h => absurd hw0 (h _ _)⟩
  · intro r buf r' hb hw _ hwr _ _ _ _ _ res ih
    obtain ⟨i1, i2, i3, i4, i5⟩ := ih
    have hcalls : writeCalls (rioUpdateCksumTrace r (buf.take (rioChunkSize r buf.length)) ++
        [rioEvent.write (buf.take (rioChunkSize r buf.length))
            (r.write r.io (buf.take (rioChunkSize r buf.length))).1,
          rioEvent.processed (buf.take (rioChunkSize r buf.length))] ++ res.2.2)
        = (buf.take (rioChunkSize r buf.length),
            (r.write r.io (buf.take (rioChunkSize r buf.length))).1)
          :: writeCalls res.2.2 := by
      simp [writeCalls_append, writeCalls_cksumTrace, writeCalls]
    refine ⟨i1, ?_, ?_, i4.trans hwr, fun h => i5 (by rw [hwr]; exact h)⟩
    · intro h0
      obtain ⟨p, hp, hp0⟩ := i2 h0
      refine ⟨p, ?_, hp0⟩
      show p ∈ writeCalls (_ ++ res.2.2)
      rw [hcalls]
      exact List.mem_cons_of_mem _ hp
    · intro h0
      obtain ⟨h1, h2⟩ := i3 h0
      constructor
      · intro p hp
        have hp' : p ∈ (buf.take (rioChunkSize r buf.length),
            (r.write r.io (buf.take (rioChunkSize r buf.length))).1)
            :: writeCalls res.2.2 := by
          rw [← hcalls]
          exact hp
        rcases List.mem_cons.mp hp' with e | hp''
        · rw [e]
          exact hw
        · exact h1 p hp''
      · show ((writeCalls (_ ++ res.2.2)).map Prod.fst).flatten = _
        rw [hcalls, List.map_cons, List.flatten_cons, h2, List.take_append_drop]

/-- The bulk string written by `rioWriteBulkString`: the result is zero or the
length of the record; a result zero comes with a backend write that returned
zero; otherwise every backend write succeeded and the chunks written make up
`$`, the decimal length of the payload, CR LF, the payload, CR LF.  With a
backend whose writes never return zero the result is the length of the
record. -/
theorem rioWriteBulkString_spec {σ : Type} (r : rio σ) (buf : List Byte) :
    ((rioWriteBulkString r buf).1 = 0 ∨
      (rioWriteBulkString r buf).1 =
        (charByte '$' :: ll2string buf.length ++ [CR, LF] ++ buf ++ [CR, LF]).length) ∧
    ((rioWriteBulkString r buf).1 = 0 →
      ∃ p ∈ writeCalls (rioWriteBulkString r buf).2.2, p.2 = 0) ∧
    ((rioWriteBulkString r buf).1 ≠ 0 →
      (∀ p ∈ writeCalls (rioWriteBulkString r buf).2.2, p.2 ≠ 0) ∧
      ((writeCalls (rioWriteBulkString r buf).2.2).map Prod.fst).flatten =
        charByte '$' :: ll2string buf.length ++ [CR, LF] ++ buf ++ [CR, LF]) ∧
    ((∀ s c, (r.write s c).1 ≠ 0) →
      (rioWriteBulkString r buf).1 =
        (charByte '$' :: ll2string buf.length ++ [CR, LF] ++ buf ++ [CR, LF]).length) := by
  obtain ⟨cbuf, hcbuf⟩ : ∃ cbuf, cbuf = charByte '$' :: ll2string buf.length ++ [CR, LF] :=
    ⟨_, rfl⟩
  obtain ⟨A, hA⟩ : ∃ A, A = rioWrite r cbuf := ⟨_, rfl⟩
  obtain ⟨B, hB⟩ : ∃ B, B = rioWrite A.2.1 buf := ⟨_, rfl⟩
  obtain ⟨C, hC⟩ : ∃ C, C = rioWrite B.2.1 [CR, LF] := ⟨_, rfl⟩
  obtain ⟨a1, a2, a3, a4, a5⟩ := rioWrite_calls r cbuf
  obtain ⟨b1, b2, b3, b4, b5⟩ := rioWrite_calls A.2.1 buf
  obtain ⟨c1, c2, c3, c4, c5⟩ := rioWrite_calls B.2.1 [CR, LF]
  rw [← hA] at a1 a2 a3 a4 a5
  rw [← hB] at b1 b2 b3 b4 b5
  rw [← hC] at c1 c2 c3 c4 c5
  have hBdef : (if buf.length > 0 then rioWrite A.2.1 buf else (1, A.2.1, [])) = B := by
    by_cases hlen : buf.length > 0
    · rw [if_pos hlen, hB]
    · rw [if_neg hlen, hB]
      have : buf = [] := List.length_eq_zero.mp (by omega)
      rw [this, rioWrite_nil]
  have hcl : cbuf.length ≠ 0 := by
    rw [hcbuf]
    simp
  have hexp : charByte '$' :: ll2string buf.length ++ [CR, LF] ++ buf ++ [CR, LF] =
      cbuf ++ buf ++ [CR, LF] := by
    rw [hcbuf]
  rw [hexp]
  have hres : rioWriteBulkString r buf =
      if A.1 = 0 then (0, A.2.1, A.2.2)
      else if B.1 = 0 then (0, B.2.1, A.2.2 ++ B.2.2)
      else if C.1 = 0 then (0, C.2.1, A.2.2 ++ B.2.2 ++ C.2.2)
      else (cbuf.length + buf.length + 2, C.2.1, A.2.2 ++ B.2.2 ++ C.2.2) := by
    unfold rioWriteBulkString rioWriteBulkCount
    simp only [Nat.cast_inj, ← hcbuf, ← hA]
    by_cases hA0 : A.1 = 0
    · simp only [hA0, if_true]
    · simp only [hA0, if_false, hcl, hBdef, ← hC]
  rw [hres]
  by_cases hA0 : A.1 = 0
  · simp only [hA0, if_true]
    refine ⟨Or.inl trivial, fun _ => a2 hA0, fun h => absurd rfl h, ?_⟩
    intro hw
    have := a5 hw
    omega
  · by_cases hB0 : B.1 = 0
    · simp only [hA0, hB0, if_true, if_false]
      refine ⟨Or.inl trivial, fun _ => ?_, fun h => absurd rfl h, ?_⟩
      · obtain ⟨p, hp, hp0⟩ := b2 hB0
        exact ⟨p, by rw [writeCalls_append]; exact List.mem_append_right _ hp, hp0⟩
      · intro hw
        have := b5 (by rw [a4]; exact hw)
        omega
    · by_cases hC0 : C.1 = 0
      · simp only [hA0, hB0, hC0, if_true, if_false]
        refine ⟨Or.inl trivial, fun _ => ?_, fun h => absurd rfl h, ?_⟩
        · obtain ⟨p, hp, hp0⟩ := c2 hC0
          exact ⟨p, by rw [writeCalls_append]; exact List.mem_append_right _ hp, hp0⟩
        · intro hw
          have := c5 (by rw [b4, a4]; exact hw)
          omega
      · simp only [hA0, hB0, hC0, if_false]
        obtain ⟨a31, a32⟩ := a3 hA0
        obtain ⟨b31, b32⟩ := b3 hB0
        obtain ⟨c31, c32⟩ := c3 hC0
        have hlen : cbuf.length + buf.length + 2 = (cbuf ++ buf ++ [CR, LF]).length := by
          simp only [List.length_append, List.length_cons, List.length_nil]
        refine ⟨Or.inr hlen, fun h => absurd h (by omega), fun _ => ⟨?_, ?_⟩, fun _ => hlen⟩
        · intro p hp
          rw [writeCalls_append, writeCalls_append] at hp
          rcases List.mem_append.mp hp with hp | hp
          · rcases List.mem_append.mp hp with hp | hp
            · exact a31 p hp
            · exact b31 p hp
          · exact c31 p hp
        · rw [writeCalls_append, writeCalls_append, List.map_append, List.map_append,
            List.flatten_append, List.flatten_append, a32, b32, c32]

/-- The record written for the rendering of `l` is the wire format of the
specification. -/
theorem bulkLongLongBytes_eq (l : Int) :
    charByte '$' :: ll2string ((ll2string l).length : Nat) ++ [CR, LF] ++ ll2string l ++ [CR, LF]
      = bulkLongLongBytes l := by
  have h1 : (ll2string l).length = (toString l).length := by
    unfold ll2string
    rw [List.length_map]
    rfl
  have h2 : ∀ n : Nat, ll2string (n : Int) = (toString n).toList.map charByte := fun _ => rfl
  rw [h1, h2]
  rfl

/-- C24: for every integer `l` (in particular every `long long`),
`rioWriteBulkLongLong` returns zero or the number of bytes of the record
`bulkLongLongBytes l`, which is `$`, the decimal length of the decimal
rendering of `l`, CR LF, that rendering, CR LF, and is never empty.  It returns
zero only when a backend write issued by `rioWrite` returned zero; otherwise
every backend write succeeded and the chunks handed to the backend, in order,
make up exactly that record.  Over a backend whose writes never fail the result
is the length of the record. -/
theorem rioWriteBulkLongLong_format {σ : Type} (r : rio σ) (l : Int) :
    ((rioWriteBulkLongLong r l).1 = 0 ∨
      (rioWriteBulkLongLong r l).1 = (bulkLongLongBytes l).length) ∧
    (bulkLongLongBytes l).length ≠ 0 ∧
    ((rioWriteBulkLongLong r l).1 = 0 →
      ∃ p ∈ writeCalls (rioWriteBulkLongLong r l).2.2, p.2 = 0) ∧
    ((rioWriteBulkLongLong r l).1 ≠ 0 →
      (∀ p ∈ writeCalls (rioWriteBulkLongLong r l).2.2, p.2 ≠ 0) ∧
      ((writeCalls (rioWriteBulkLongLong r l).2.2).map Prod.fst).flatten =
        bulkLongLongBytes l) ∧
    ((∀ s c, (r.write s c).1 ≠ 0) →
      (rioWriteBulkLongLong r l).1 = (bulkLongLongBytes l).length) := by
  obtain ⟨h1, h2, h3, h4⟩ := rioWriteBulkString_spec r (ll2string l)
  rw [bulkLongLongBytes_eq] at h1 h3 h4
  refine ⟨h1, ?_, h2, h3, h4⟩
  rw [← bulkLongLongBytes_eq]
  simp

theorem rioWriteBulkLongLong_format_witness :
    (rioWriteBulkLongLong (appendBackend none 0 0 0 []) 1234567890123).1 = 20 ∧
    ((writeCalls (rioWriteBulkLongLong (appendBackend none 0 0 0 []) 1234567890123).2.2).map
        Prod.fst).flatten =
      [36, 49, 51, 13, 10, 49, 50, 51, 52, 53, 54, 55, 56, 57, 48, 49, 50, 51, 13, 10] := by
  obtain ⟨_, _, _, h3, h4⟩ :=
    rioWriteBulkLongLong_format (appendBackend none 0 0 0 []) 1234567890123
  have hlen : (rioWriteBulkLongLong (appendBackend none 0 0 0 []) 1234567890123).1 =
      (bulkLongLongBytes 1234567890123).length := h4 (fun _ _ => Nat.one_ne_zero)
  have hbytes : bulkLongLongBytes 1234567890123 =
      [36, 49, 51, 13, 10, 49, 50, 51, 52, 53, 54, 55, 56, 57, 48, 49, 50, 51, 13, 10] := by
    decide
  refine ⟨hlen.trans (by rw [hbytes]; rfl), ?_⟩
  rw [← hbytes]
  exact (h3 (by rw [hlen, hbytes]; decide)).2

end Rio

/-! ## Properties of the list operations -/

namespace Adlist

@[simp] theorem setNode_nodes (m : Mem) (p : Ptr) (n : listNode) (q : Ptr) :
    (m.setNode p n).nodes q = if q = p then some n else m.nodes q := by
  simp [Mem.setNode, Function.update_apply]

@[simp] theorem setNode_lists (m : Mem) (p : Ptr) (n : listNode) :
    (m.setNode p n).lists = m.lists := rfl

@[simp] theorem setNode_alloc (m : Mem) (p : Ptr) (n : listNode) :
    (m.setNode p n).alloc = m.alloc := rfl

@[simp] theorem setNode_freed (m : Mem) (p : Ptr) (n : listNode) :
    (m.setNode p n).freed = m.freed := rfl

@[simp] theorem setList_lists (m : Mem) (p : Ptr) (l : list) (q : Ptr) :
    (m.setList p l).lists q = if q = p then some l else m.lists q := by
  simp [Mem.setList, Function.update_apply]

@[simp] theorem setList_nodes (m : Mem) (p : Ptr) (l : list) :
    (m.setList p l).nodes = m.nodes := rfl

@[simp] theorem setList_alloc (m : Mem) (p : Ptr) (l : list) :
    (m.setList p l).alloc = m.alloc := rfl

@[simp] theorem setList_freed (m : Mem) (p : Ptr) (l : list) :
    (m.setList p l).freed = m.freed := rfl

/-- A segment only depends on the contents of its own nodes. -/
theorem seg_frame {m m' : Mem} {b a : Option Ptr} {ps : List Ptr}
    (hs : seg m b ps a) (h : ∀ q ∈ ps, m'.nodes q = m.nodes q) : seg m' b ps a := by
  induction ps generalizing b with
  | nil => trivial
  | cons p ps ih =>
    obtain ⟨⟨n, hn, hp, hx⟩, hrest⟩ := hs
    refine ⟨⟨n, ?_, hp, hx⟩, ih hrest (fun q hq => h q (List.mem_cons_of_mem _ hq))⟩
    rw [h p (List.mem_cons_self _ _)]
    exact hn

/-- Every node of a segment is allocated. -/
theorem seg_allocated {m : Mem} {b a : Option Ptr} {ps : List Ptr}
    (hs : seg m b ps a) {q : Ptr} (hq : q ∈ ps) : ∃ n, m.nodes q = some n := by
  induction ps generalizing b with
  | nil => cases hq
  | cons p ps ih =>
    obtain ⟨⟨n, hn, _, _⟩, hrest⟩ := hs
    rcases List.mem_cons.mp hq with h | h
    · subst h
      exact ⟨n, hn⟩
    · exact ih hrest h

/-- The `prev` of a node of a segment is `before` or a node of the segment. -/
theorem seg_prev_mem {m : Mem} {b a : Option Ptr} {ps : List Ptr}
    (hs : seg m b ps a) {q : Ptr} (hq : q ∈ ps) :
    ∃ n, m.nodes q = some n ∧ (n.prev = b ∨ ∃ r ∈ ps, n.prev = some r) := by
  induction ps generalizing b with
  | nil => cases hq
  | cons p ps ih =>
    obtain ⟨⟨n, hn, hp, _⟩, hrest⟩ := hs
    rcases List.mem_cons.mp hq with h | h
    · subst h
      exact ⟨n, hn, Or.inl hp⟩
    · obtain ⟨n', hn', hor⟩ := ih hrest h
      refine ⟨n', hn', Or.inr ?_⟩
      rcases hor with h1 | ⟨r, hr, h1⟩
      · exact ⟨p, List.mem_cons_self _ _, h1⟩
      · exact ⟨r, List.mem_cons_of_mem _ hr, h1⟩

/-- The nodes of a segment whose `before` is not one of them are pairwise
distinct. -/
theorem seg_nodup_of {m : Mem} {b a : Option Ptr} {ps : List Ptr}
    (hs : seg m b ps a) (hb : ∀ q ∈ ps, b ≠ some q) : ps.Nodup := by
  induction ps generalizing b with
  | nil => exact List.nodup_nil
  | cons p ps ih =>
    obtain ⟨⟨n, hn, hp, _⟩, hrest⟩ := hs
    have hnot : p ∉ ps := by
      intro hmem
      obtain ⟨n', hn', hor⟩ := seg_prev_mem hrest hmem
      rw [hn] at hn'
      cases hn'
      rcases hor with h1 | ⟨r, hr, h1⟩
      · exact hb p (List.mem_cons_self _ _) (hp ▸ h1)
      · exact hb r (List.mem_cons_of_mem _ hr) (hp ▸ h1)
    refine List.nodup_cons.mpr ⟨hnot, ih hrest ?_⟩
    intro q hq h
    cases h
    exact hnot hq

/-- The nodes of a well formed list are pairwise distinct. -/
theorem seg_nodup {m : Mem} {a : Option Ptr} {ps : List Ptr}
    (hs : seg m none ps a) : ps.Nodup :=
  seg_nodup_of hs (fun _ _ h => by cases h)

theorem firstOr_append (xs ys : List Ptr) (a : Option Ptr) :
    firstOr (xs ++ ys) a = firstOr xs (firstOr ys a) := by
  cases xs <;> rfl

theorem lastOr_cons (x : Ptr) (xs : List Ptr) (b : Option Ptr) :
    lastOr (x :: xs) b = lastOr xs (some x) := by
  cases xs with
  | nil => rfl
  | cons y ys =>
    unfold lastOr
    rw [List.getLast?_cons_cons]
    cases h : (y :: ys).getLast? with
    | none => simp at h
    | some q => rfl

theorem lastOr_of_getLast {xs : List Ptr} {t : Ptr} (h : xs.getLast? = some t)
    (b : Option Ptr) : lastOr xs b = some t := by
  simp [lastOr, h]

theorem lastOr_snoc (xs : List Ptr) (t : Ptr) (b : Option Ptr) :
    lastOr (xs ++ [t]) b = some t := by
  simp [lastOr]

/-- A segment splits at any point into two segments that point at each
other. -/
theorem seg_append {m : Mem} {b a : Option Ptr} {xs ys : List Ptr} :
    seg m b (xs ++ ys) a ↔ seg m b xs (firstOr ys a) ∧ seg m (lastOr xs b) ys a := by
  induction xs generalizing b with
  | nil => simp [seg, lastOr]
  | cons x xs ih =>
    show ((∃ n, m.nodes x = some n ∧ n.prev = b ∧ n.next = firstOr (xs ++ ys) a) ∧
        seg m (some x) (xs ++ ys) a) ↔
      ((∃ n, m.nodes x = some n ∧ n.prev = b ∧ n.next = firstOr xs (firstOr ys a)) ∧
        seg m (some x) xs (firstOr ys a)) ∧ seg m (lastOr (x :: xs) b) ys a
    rw [firstOr_append, lastOr_cons, ih]
    constructor
    · rintro ⟨h1, h2, h3⟩
      exact ⟨⟨h1, h2⟩, h3⟩
    · rintro ⟨⟨h1, h2⟩, h3⟩
      exact ⟨h1, h2, h3⟩

/-- Redirecting the `prev` of the first node of a segment. -/
theorem seg_set_before {m : Mem} {b a : Option Ptr} {h : Ptr} {t : List Ptr}
    (hs : seg m b (h :: t) a) (hnd : h ∉ t) (hn : listNode) (hh : m.nodes h = some hn)
    (b' : Option Ptr) :
    seg (m.setNode h { hn with prev := b' }) b' (h :: t) a := by
  obtain ⟨⟨n, hn', _, hx⟩, hrest⟩ := hs
  rw [hh] at hn'
  cases hn'
  refine ⟨⟨{ hn with prev := b' }, by simp, rfl, hx⟩, seg_frame hrest ?_⟩
  intro q hq
  have : q ≠ h := fun e => hnd (e ▸ hq)
  simp [this]

/-- Redirecting the `next` of the last node of a segment. -/
theorem seg_set_after {m : Mem} {b a : Option Ptr} {xs : List Ptr} {t : Ptr}
    (hs : seg m b (xs ++ [t]) a) (hnd : t ∉ xs) (tn : listNode) (ht : m.nodes t = some tn)
    (a' : Option Ptr) :
    seg (m.setNode t { tn with next := a' }) b (xs ++ [t]) a' := by
  rw [seg_append] at hs ⊢
  obtain ⟨h1, ⟨n, hn', hp, _⟩, _⟩ := hs
  rw [ht] at hn'
  cases hn'
  refine ⟨seg_frame h1 ?_, ⟨{ tn with next := a' }, by simp, hp, rfl⟩, trivial⟩
  intro q hq
  have : q ≠ t := fun e => hnd (e ▸ hq)
  simp [this]

theorem listValues_frame {m m' : Mem} {ps : List Ptr}
    (h : ∀ q ∈ ps, m'.nodes q = m.nodes q) : listValues m' ps = listValues m ps := by
  unfold listValues
  apply List.map_congr_left
  intro q hq
  unfold valueAt
  rw [h q hq]

/-- Effect of a successful `listAddNodeHead` on a well formed list. -/
theorem listAddNodeHead_spec {m : Mem} {lp : Ptr} {ps : List Ptr} {p : Ptr}
    {rest : List (Option Ptr)} (v : Val)
    (hwf : WF m lp ps) (halloc : m.alloc = some p :: rest) (hfresh : m.nodes p = none) :
    ∃ m', listAddNodeHead m lp v = some (some lp, m') ∧ WF m' lp (p :: ps) ∧
      listValues m' (p :: ps) = v :: listValues m ps ∧
      m'.alloc = rest ∧ m'.freed = m.freed ∧
      (∀ q, q ≠ p → q ∉ ps → m'.nodes q = m.nodes q) ∧
      (∀ q, q ≠ lp → m'.lists q = m.lists q) ∧
      (∃ l l', m.lists lp = some l ∧ m'.lists lp = some l' ∧ l'.len = l.len + 1 ∧
        l'.head = some p ∧ l'.dup = l.dup ∧ l'.free = l.free ∧ l'.match_ = l.match_) := by
  obtain ⟨l, hl, hhead, htail, hlen, hseg⟩ := hwf
  have hnd := seg_nodup hseg
  have hpn : p ∉ ps := by
    intro hmem
    obtain ⟨n, hn⟩ := seg_allocated hseg hmem
    rw [hfresh] at hn
    cases hn
  cases ps with
  | nil =>
    have hl0 : l.len = 0 := by simpa using hlen
    refine ⟨(({ m with alloc := rest } : Mem).setNode p
        { prev := none, next := none, value := v }).setList lp
        { l with head := some p, tail := some p, len := l.len + 1 },
      ?_, ?_, ?_, ?_, ?_, ?_, ?_, ?_⟩
    · simp only [listAddNodeHead, zmalloc, halloc, hl, Option.bind_eq_bind, Option.some_bind]
      rw [if_pos hl0]
      rfl
    · refine ⟨{ l with head := some p, tail := some p, len := l.len + 1 },
        by simp, rfl, rfl, ?_, ?_⟩
      · show l.len + 1 = 1
        rw [hl0]
      · exact ⟨⟨{ prev := none, next := none, value := v }, by simp, rfl, rfl⟩, trivial⟩
    · simp [listValues, valueAt]
    · rfl
    · rfl
    · intro q hq _
      simp [hq]
    · intro q hq
      simp [hq]
    · exact ⟨l, { l with head := some p, tail := some p, len := l.len + 1 },
        hl, by simp, rfl, rfl, rfl, rfl, rfl⟩
  | cons h t =>
    have hl0 : l.len ≠ 0 := by
      rw [hlen]
      simp
    obtain ⟨hn, hhn⟩ := seg_allocated hseg (List.mem_cons_self h t)
    have hhp : h ≠ p := fun e => hpn (e ▸ List.mem_cons_self h t)
    have hht : h ∉ t := (List.nodup_cons.mp hnd).1
    have hhead' : l.head = some h := by simpa using hhead
    refine ⟨((({ m with alloc := rest } : Mem).setNode p
        { prev := none, next := some h, value := v }).setNode h
        { hn with prev := some p }).setList lp
        { l with head := some p, len := l.len + 1 },
      ?_, ?_, ?_, ?_, ?_, ?_, ?_, ?_⟩
    · simp only [listAddNodeHead, zmalloc, halloc, hl, Option.bind_eq_bind, Option.some_bind]
      rw [if_neg hl0]
      simp only [hhead', Mem.setPrev, Option.bind_eq_bind, Option.some_bind, Option.pure_def,
        setNode_nodes, if_neg hhp, hhn]
    · refine ⟨{ l with head := some p, len := l.len + 1 }, by simp, rfl, ?_, ?_, ?_⟩
      · show l.tail = (p :: h :: t).getLast?
        rw [htail]
        simp [List.getLast?_cons_cons]
      · show l.len + 1 = _
        rw [hlen]
        rfl
      · have h2 : seg (({ m with alloc := rest } : Mem).setNode p
            { prev := none, next := some h, value := v }) none (h :: t) none :=
          seg_frame hseg (fun q hq => by
            have : q ≠ p := fun e => hpn (e ▸ hq)
            simp [this])
        have h3 := seg_set_before h2 hht hn (by simp [hhp, hhn]) (some p)
        refine ⟨⟨{ prev := none, next := some h, value := v }, ?_, rfl, rfl⟩,
          seg_frame h3 (fun _ _ => rfl)⟩
        simp [Ne.symm hhp]
    · simp only [listValues, List.map_cons, List.cons.injEq]
      refine ⟨by simp [valueAt, Ne.symm hhp], by simp [valueAt, hhn], ?_⟩
      apply List.map_congr_left
      intro q hq
      have e1 : q ≠ p := fun e => hpn (e ▸ List.mem_cons_of_mem _ hq)
      have e2 : q ≠ h := fun e => hht (e ▸ hq)
      simp [valueAt, e1, e2]
    · rfl
    · rfl
    · intro q hq hq'
      have e2 : q ≠ h := fun e => hq' (e ▸ List.mem_cons_self h t)
      simp [hq, e2]
    · intro q hq
      simp [hq]
    · exact ⟨l, { l with head := some p, len := l.len + 1 },
        hl, by simp, rfl, rfl, rfl, rfl, rfl⟩

/-- Effect of a successful `listAddNodeTail` on a well formed list. -/
theorem listAddNodeTail_spec {m : Mem} {lp : Ptr} {ps : List Ptr} {p : Ptr}
    {rest : List (Option Ptr)} (v : Val)
    (hwf : WF m lp ps) (halloc : m.alloc = some p :: rest) (hfresh : m.nodes p = none) :
    ∃ m', listAddNodeTail m lp v = some (some lp, m') ∧ WF m' lp (ps ++ [p]) ∧
      listValues m' (ps ++ [p]) = listValues m ps ++ [v] ∧
      m'.alloc = rest ∧ m'.freed = m.freed ∧
      (∀ q, q ≠ p → q ∉ ps → m'.nodes q = m.nodes q) ∧
      (∀ q, q ≠ lp → m'.lists q = m.lists q) ∧
      (∃ l l', m.lists lp = some l ∧ m'.lists lp = some l' ∧ l'.len = l.len + 1 ∧
        l'.tail = some p ∧ l'.dup = l.dup ∧ l'.free = l.free ∧ l'.match_ = l.match_) := by
  obtain ⟨l, hl, hhead, htail, hlen, hseg⟩ := hwf
  have hnd := seg_nodup hseg
  have hpn : p ∉ ps := by
    intro hmem
    obtain ⟨n, hn⟩ := seg_allocated hseg hmem
    rw [hfresh] at hn
    cases hn
  rcases List.eq_nil_or_concat ps with hps | ⟨xs, t, hps⟩
  · subst hps
    have hl0 : l.len = 0 := by simpa using hlen
    refine ⟨(({ m with alloc := rest } : Mem).setNode p
        { prev := none, next := none, value := v }).setList lp
        { l with head := some p, tail := some p, len := l.len + 1 },
      ?_, ?_, ?_, ?_, ?_, ?_, ?_, ?_⟩
    · simp only [listAddNodeTail, zmalloc, halloc, hl, Option.bind_eq_bind, Option.some_bind]
      rw [if_pos hl0]
      rfl
    · refine ⟨{ l with head := some p, tail := some p, len := l.len + 1 },
        by simp, rfl, rfl, ?_, ?_⟩
      · show l.len + 1 = 1
        rw [hl0]
      · exact ⟨⟨{ prev := none, next := none, value := v }, by simp, rfl, rfl⟩, trivial⟩
    · simp [listValues, valueAt]
    · rfl
    · rfl
    · intro q hq _
      simp [hq]
    · intro q hq
      simp [hq]
    · exact ⟨l, { l with head := some p, tail := some p, len := l.len + 1 },
        hl, by simp, rfl, rfl, rfl, rfl, rfl⟩
  · rw [List.concat_eq_append] at hps
    subst hps
    have hl0 : l.len ≠ 0 := by
      rw [hlen]
      simp
    have htm : t ∈ xs ++ [t] := by simp
    obtain ⟨tn, htn⟩ := seg_allocated hseg htm
    have htp : t ≠ p := fun e => hpn (e ▸ htm)
    have htx : t ∉ xs := by
      have := List.nodup_append.mp hnd
      intro hmem
      exact this.2.2 hmem (List.mem_singleton.mpr rfl)
    have htail' : l.tail = some t := by simpa using htail
    refine ⟨((({ m with alloc := rest } : Mem).setNode p
        { prev := some t, next := none, value := v }).setNode t
        { tn with next := some p }).setList lp
        { l with tail := some p, len := l.len + 1 },
      ?_, ?_, ?_, ?_, ?_, ?_, ?_, ?_⟩
    · simp only [listAddNodeTail, zmalloc, halloc, hl, Option.bind_eq_bind, Option.some_bind]
      rw [if_neg hl0]
      simp only [htail', Mem.setNext, Option.bind_eq_bind, Option.some_bind, Option.pure_def,
        setNode_nodes, if_neg htp, htn]
    · refine ⟨{ l with tail := some p, len := l.len + 1 }, by simp, ?_, ?_, ?_, ?_⟩
      · show l.head = ((xs ++ [t]) ++ [p]).head?
        rw [hhead]
        cases xs <;> rfl
      · show some p = ((xs ++ [t]) ++ [p]).getLast?
        simp
      · show l.len + 1 = _
        rw [hlen]
        simp
      · have h2 : seg (({ m with alloc := rest } : Mem).setNode p
            { prev := some t, next := none, value := v }) none (xs ++ [t]) none :=
          seg_frame hseg (fun q hq => by
            have : q ≠ p := fun e => hpn (e ▸ hq)
            simp [this])
        have h3 := seg_set_after h2 htx tn (by simp [htp, htn]) (some p)
        rw [seg_append]
        refine ⟨seg_frame h3 (fun _ _ => rfl), ?_, trivial⟩
        refine ⟨{ prev := some t, next := none, value := v }, ?_, ?_, rfl⟩
        · simp [Ne.symm htp]
        · rw [lastOr_snoc]
    · simp only [listValues, List.map_append, List.map_cons, List.map_nil]
      have e1 : valueAt (((({ m with alloc := rest } : Mem).setNode p
          { prev := some t, next := none, value := v }).setNode t
          { tn with next := some p }).setList lp
          { l with tail := some p, len := l.len + 1 }) p = v := by
        simp [valueAt, Ne.symm htp]
      have e2 : valueAt (((({ m with alloc := rest } : Mem).setNode p
          { prev := some t, next := none, value := v }).setNode t
          { tn with next := some p }).setList lp
          { l with tail := some p, len := l.len + 1 }) t = valueAt m t := by
        simp [valueAt, htn]
      rw [e1, e2]
      congr 2
      apply List.map_congr_left
      intro q hq
      have e3 : q ≠ p := fun e => hpn (e ▸ List.mem_append_left _ hq)
      have e4 : q ≠ t := fun e => htx (e ▸ hq)
      simp [valueAt, e3, e4]
    · rfl
    · rfl
    · intro q hq hq'
      have e2 : q ≠ t := fun e => hq' (e ▸ htm)
      simp [hq, e2]
    · intro q hq
      simp [hq]
    · exact ⟨l, { l with tail := some p, len := l.len + 1 },
        hl, by simp, rfl, rfl, rfl, rfl, rfl⟩

theorem emptyListMem_WF (dup : Option (Val → Val)) (free : Option Nat)
    (alloc : List (Option Ptr)) : WF (emptyListMem dup free alloc) 1 [] :=
  ⟨{ head := none, tail := none, dup := dup, free := free, match_ := none, len := 0 },
    rfl, rfl, rfl, rfl, trivial⟩

/-- C7: on a well formed list with nodes `ps` (values `listValues m ps`), when
the allocation succeeds with the fresh node `p`, `listAddNodeHead` returns the
list pointer and the list becomes well formed with nodes `p :: ps`, values
`a :: L` and head `p`; `listAddNodeTail` returns the list pointer and the list
becomes well formed with nodes `ps ++ [p]`, values `L ++ [b]` and tail `p`;
each increases `len` by one.  On an empty list, `listAddNodeHead a` followed by
`listAddNodeTail b` gives a two element list with head value `a` and tail
value `b`. -/
theorem listAddNode_head_tail (m : Mem) (lp : Ptr) (ps : List Ptr) (p : Ptr)
    (rest : List (Option Ptr)) (a b : Val)
    (hwf : WF m lp ps) (halloc : m.alloc = some p :: rest) (hfresh : m.nodes p = none) :
    (∃ m', listAddNodeHead m lp a = some (some lp, m') ∧ WF m' lp (p :: ps) ∧
      listValues m' (p :: ps) = a :: listValues m ps ∧
      ∃ l l', m.lists lp = some l ∧ m'.lists lp = some l' ∧ l'.head = some p ∧
        l'.len = l.len + 1) ∧
    (∃ m', listAddNodeTail m lp b = some (some lp, m') ∧ WF m' lp (ps ++ [p]) ∧
      listValues m' (ps ++ [p]) = listValues m ps ++ [b] ∧
      ∃ l l', m.lists lp = some l ∧ m'.lists lp = some l' ∧ l'.tail = some p ∧
        l'.len = l.len + 1) ∧
    (ps = [] → ∀ q rest', rest = some q :: rest' → q ≠ p → m.nodes q = none →
      ∃ m1 m2, listAddNodeHead m lp a = some (some lp, m1) ∧
        listAddNodeTail m1 lp b = some (some lp, m2) ∧
        WF m2 lp [p, q] ∧ listValues m2 [p, q] = [a, b] ∧
        ∃ l2, m2.lists lp = some l2 ∧ l2.len = 2 ∧ l2.head = some p ∧ l2.tail = some q ∧
          valueAt m2 p = a ∧ valueAt m2 q = b) := by
  obtain ⟨m1, h1, h2, h3, h4, _, h6, _, l, l1, h8, h9, h10, h11, _⟩ :=
    listAddNodeHead_spec a hwf halloc hfresh
  obtain ⟨m2, t1, t2, t3, _, _, _, _, k, k1, t8, t9, t10, t11, _⟩ :=
    listAddNodeTail_spec b hwf halloc hfresh
  refine ⟨⟨m1, h1, h2, h3, l, l1, h8, h9, h11, h10⟩,
    ⟨m2, t1, t2, t3, k, k1, t8, t9, t11, t10⟩, ?_⟩
  intro hps q rest' hrest hqp hq
  subst hps
  have hq1 : m1.nodes q = none := by
    rw [h6 q hqp (by simp)]
    exact hq
  obtain ⟨m3, u1, u2, u3, _⟩ := listAddNodeTail_spec b h2 (h4.trans hrest) hq1
  have hv : listValues m3 [p, q] = [a, b] := by
    have : listValues m3 ([p] ++ [q]) = listValues m1 [p] ++ [b] := u3
    rw [h3] at this
    exact this
  obtain ⟨l3, w1, w2, w3, w4, _⟩ := u2
  refine ⟨m1, m3, h1, u1, ⟨l3, w1, w2, w3, w4, by assumption⟩, hv, l3, w1, w4, w2, w3, ?_, ?_⟩
  · have := congrArg (fun x => x.head?) hv
    simpa [listValues] using this
  · have := congrArg (fun x => x.getLast?) hv
    simpa [listValues] using this

theorem listAddNode_head_tail_witness :
    ∃ m1 m2, listAddNodeHead (emptyListMem none none [some 10, some 11]) 1 7
        = some (some 1, m1) ∧
      listAddNodeTail m1 1 8 = some (some 1, m2) ∧
      WF m2 1 [10, 11] ∧ listValues m2 [10, 11] = [7, 8] ∧
      ∃ l2, m2.lists 1 = some l2 ∧ l2.len = 2 ∧ l2.head = some 10 ∧ l2.tail = some 11 ∧
        valueAt m2 10 = 7 ∧ valueAt m2 11 = 8 :=
  (listAddNode_head_tail (emptyListMem none none [some 10, some 11]) 1 [] 10 [some 11] 7 8
    (emptyListMem_WF none none _) rfl rfl).2.2 rfl 11 [] rfl (by decide) rfl

theorem firstOr_none (ps : List Ptr) : firstOr ps none = ps.head? := by
  cases ps <;> rfl

theorem lastOr_none (ps : List Ptr) : lastOr ps none = ps.getLast? := by
  unfold lastOr
  cases ps.getLast? <;> rfl

/-- Walking `index` times along `next` from the first node of a segment that
ends with NULL. -/
theorem listIndexNext_seg {m : Mem} {b : Option Ptr} {ps : List Ptr}
    (hs : seg m b ps none) (index : Nat) :
    listIndexNext m index ps.head? = some ps[index]? := by
  induction ps generalizing b index with
  | nil => cases index <;> rfl
  | cons p t ih =>
    obtain ⟨⟨n, hn, _, hx⟩, hrest⟩ := hs
    cases index with
    | zero => simp [listIndexNext]
    | succ k =>
      simp only [List.head?_cons, listIndexNext, hn, Option.bind_eq_bind, Option.some_bind,
        List.getElem?_cons_succ]
      rw [hx, firstOr_none]
      exact ih hrest k

/-- Walking `index` times along `prev` from the last node of a segment that
starts with NULL. -/
theorem listIndexPrev_seg {m : Mem} {a : Option Ptr} {ps : List Ptr}
    (hs : seg m none ps a) (index : Nat) :
    listIndexPrev m index ps.getLast? = some ps.reverse[index]? := by
  induction ps using List.reverseRecOn generalizing a index with
  | nil => cases index <;> rfl
  | append_singleton xs t ih =>
    rw [seg_append] at hs
    obtain ⟨h1, ⟨n, hn, hp, _⟩, _⟩ := hs
    have hlast : (xs ++ [t]).getLast? = some t := by simp
    have hrev : (xs ++ [t]).reverse = t :: xs.reverse := by simp
    rw [hlast, hrev]
    cases index with
    | zero => simp [listIndexPrev]
    | succ k =>
      simp only [listIndexPrev, hn, Option.bind_eq_bind, Option.some_bind,
        List.getElem?_cons_succ]
      rw [hp, lastOr_none]
      exact ih h1 k

theorem wrapLong_neg_index (i : Int) (h1 : -(2 ^ 63) ≤ i) (h2 : i < 0) :
    wrapLong (wrapLong (-i) - 1) = -i - 1 := by
  unfold wrapLong
  norm_num at h1 ⊢
  omega

theorem threeListMem_WF (dup : Option (Val → Val)) (free : Option Nat)
    (alloc : List (Option Ptr)) : WF (threeListMem dup free alloc) 1 [10, 11, 12] :=
  ⟨{ head := some 10, tail := some 12, dup := dup, free := free, match_ := none, len := 3 },
    rfl, rfl, rfl, rfl,
    ⟨⟨{ prev := none, next := some 11, value := 7 }, rfl, rfl, rfl⟩,
      ⟨{ prev := some 10, next := some 12, value := 8 }, rfl, rfl, rfl⟩,
      ⟨{ prev := some 11, next := none, value := 9 }, rfl, rfl, rfl⟩, trivial⟩⟩

/-- The result of `listIndex` on a well formed list, for every `long` index. -/
theorem listIndex_eq {m : Mem} {lp : Ptr} {ps : List Ptr} (hwf : WF m lp ps) (i : Int)
    (hlo : -(2 ^ 63) ≤ i) :
    listIndex m lp i
      = some (if i < 0 then ps.reverse[(-i - 1).toNat]? else ps[i.toNat]?) := by
  obtain ⟨l, hl, hhead, htail, _, hseg⟩ := hwf
  simp only [listIndex, hl, Option.bind_eq_bind, Option.some_bind]
  by_cases hi : i < 0
  · rw [if_pos hi, if_pos hi, wrapLong_neg_index i hlo hi, htail]
    exact listIndexPrev_seg hseg _
  · rw [if_neg hi, if_neg hi, hhead]
    exact listIndexNext_seg hseg _

/-- C8: on a well formed list with nodes `ps` (`n = ps.length`) and for every
`long` index `i`: `listIndex` returns node number `i` from the head when
`0 ≤ i < n`, node number `-i` from the tail (`-1` is the tail) when
`-n ≤ i ≤ -1`, and NULL for every other `i`.  Hence `listIndex(list, -1)` is
`list->tail`, and `listIndex(list, i) = listIndex(list, i - n)` for
`0 ≤ i < n`. -/
theorem listIndex_spec (m : Mem) (lp : Ptr) (ps : List Ptr) (i : Int)
    (hwf : WF m lp ps) (hlo : -(2 ^ 63) ≤ i) :
    (0 ≤ i → i < ps.length →
      ∃ q, ps[i.toNat]? = some q ∧ listIndex m lp i = some (some q)) ∧
    (-(ps.length : Int) ≤ i → i ≤ -1 →
      ∃ q, ps.reverse[(-i - 1).toNat]? = some q ∧ listIndex m lp i = some (some q)) ∧
    ((ps.length : Int) ≤ i ∨ i < -(ps.length : Int) → listIndex m lp i = some none) ∧
    (∃ l, m.lists lp = some l ∧ listIndex m lp (-1) = some l.tail) ∧
    (0 ≤ i → i < ps.length → -(2 ^ 63) ≤ i - ps.length →
      listIndex m lp i = listIndex m lp (i - ps.length)) := by
  have key := listIndex_eq hwf i hlo
  refine ⟨?_, ?_, ?_, ?_, ?_⟩
  · intro h0 hn
    have hlt : i.toNat < ps.length := by omega
    refine ⟨ps[i.toNat], List.getElem?_eq_getElem hlt, ?_⟩
    rw [key, if_neg (by omega), List.getElem?_eq_getElem hlt]
  · intro hn h1
    have hlt : (-i - 1).toNat < ps.reverse.length := by
      rw [List.length_reverse]
      omega
    refine ⟨ps.reverse[(-i - 1).toNat], List.getElem?_eq_getElem hlt, ?_⟩
    rw [key, if_pos (by omega), List.getElem?_eq_getElem hlt]
  · intro h
    rw [key]
    by_cases hi : i < 0
    · rw [if_pos hi, List.getElem?_eq_none]
      rw [List.length_reverse]
      omega
    · rw [if_neg hi, List.getElem?_eq_none]
      omega
  · obtain ⟨l, hl, _, htail, _, _⟩ := hwf
    refine ⟨l, hl, ?_⟩
    rw [listIndex_eq ⟨l, hl, by assumption, htail, by assumption, by assumption⟩ (-1)
      (by norm_num), htail]
    simp only [Left.neg_neg_iff, zero_lt_one, if_true]
    rw [← List.head?_reverse, List.head?_eq_getElem?]
    rfl
  · intro h0 hn hlo'
    rw [key, if_neg (by omega), listIndex_eq hwf (i - ps.length) hlo', if_pos (by omega)]
    have hlt : (-(i - (ps.length : Int)) - 1).toNat < ps.length := by omega
    rw [List.getElem?_reverse hlt]
    congr 2
    omega

theorem listIndex_spec_witness :
    (∃ q, [10, 11, 12][(1 : Int).toNat]? = some q ∧
      listIndex (threeListMem none none []) 1 1 = some (some q)) ∧
    (∃ l, (threeListMem none none []).lists 1 = some l ∧
      listIndex (threeListMem none none []) 1 (-1) = some l.tail) ∧
    listIndex (threeListMem none none []) 1 1
      = listIndex (threeListMem none none []) 1 (1 - ([10, 11, 12] : List Ptr).length) :=
  have h := listIndex_spec (threeListMem none none []) 1 [10, 11, 12] 1
    (threeListMem_WF none none []) (by norm_num)
  ⟨h.1 (by norm_num) (by norm_num), h.2.2.2.1,
    h.2.2.2.2 (by norm_num) (by norm_num) (by norm_num)⟩

theorem setNext_eq {m : Mem} {q : Ptr} {n : listNode} (h : m.nodes q = some n)
    (v : Option Ptr) : m.setNext (some q) v = some (m.setNode q { n with next := v }) := by
  simp [Mem.setNext, h]

theorem setPrev_eq {m : Mem} {q : Ptr} {n : listNode} (h : m.nodes q = some n)
    (v : Option Ptr) : m.setPrev (some q) v = some (m.setNode q { n with prev := v }) := by
  simp [Mem.setPrev, h]

/-- Storing a node with the same value keeps every stored value. -/
theorem valueAt_setNode {m : Mem} {p : Ptr} {n : listNode} (h : m.nodes p = some n)
    (n' : listNode) (hv : n'.value = n.value) (q : Ptr) : valueAt (m.setNode p n') q = valueAt m q := by
  unfold valueAt
  by_cases e : q = p
  · subst e
    simp [h, hv]
  · simp [e]

/-- Redirecting the `next` of the last node of a segment (given by
`getLast?`). -/
theorem seg_set_last {m : Mem} {b a : Option Ptr} {xs : List Ptr} {u : Ptr}
    (hs : seg m b xs a) (hnd : xs.Nodup) (hu : xs.getLast? = some u) (un : listNode)
    (hun : m.nodes u = some un) (a' : Option Ptr) :
    seg (m.setNode u { un with next := a' }) b xs a' := by
  rcases List.eq_nil_or_concat xs with hx | ⟨ys, t, hx⟩
  · subst hx
    trivial
  · rw [List.concat_eq_append] at hx
    subst hx
    have e : t = u := by simpa using hu
    subst e
    have hty : t ∉ ys := by
      have := List.nodup_append.mp hnd
      intro hmem
      exact this.2.2 hmem (List.mem_singleton.mpr rfl)
    exact seg_set_after hs hty un hun a'

/-- Effect of `listRotate` on a well formed list with at least two nodes. -/
theorem listRotate_step {m : Mem} {lp : Ptr} {xs : List Ptr} {t : Ptr}
    (hwf : WF m lp (xs ++ [t])) (hxs : xs ≠ []) :
    ∃ m', listRotate m lp = some m' ∧ WF m' lp (t :: xs) ∧
      (∀ q, valueAt m' q = valueAt m q) ∧
      (∃ l l', m.lists lp = some l ∧ m'.lists lp = some l' ∧ l'.head = some t ∧
        l'.tail = xs.getLast? ∧ l'.len = l.len) := by
  obtain ⟨l, hl, hhead, htail, hlen, hseg⟩ := hwf
  have hnd := seg_nodup hseg
  have hndx : xs.Nodup := (List.nodup_append.mp hnd).1
  have htx : t ∉ xs := by
    have := List.nodup_append.mp hnd
    intro hmem
    exact this.2.2 hmem (List.mem_singleton.mpr rfl)
  obtain ⟨h, xs', hxs'⟩ := List.exists_cons_of_ne_nil hxs
  obtain ⟨u, hu⟩ : ∃ u, xs.getLast? = some u := by
    cases hg : xs.getLast? with
    | none => exact absurd (List.getLast?_eq_none_iff.mp hg) hxs
    | some u => exact ⟨u, rfl⟩
  have hum : u ∈ xs := List.mem_of_getLast?_eq_some hu
  have hhm : h ∈ xs := by
    rw [hxs']
    exact List.mem_cons_self _ _
  have hsplit := seg_append.mp hseg
  obtain ⟨hsx, ⟨tn, htn, htp, _⟩, _⟩ := hsplit
  rw [lastOr_none, hu] at htp
  have htail' : l.tail = some t := by simpa using htail
  have hhead' : l.head = some h := by
    rw [hhead, hxs']
    rfl
  have hlen' : ¬ l.len ≤ 1 := by
    rw [hlen, hxs']
    simp
  obtain ⟨un, hun⟩ := seg_allocated hsx hum
  -- list->tail = tail->prev; list->tail->next = NULL
  obtain ⟨m1, e1⟩ : ∃ m1, m1 = m.setList lp { l with tail := some u } := ⟨_, rfl⟩
  have s1 : seg m1 none xs (some t) := seg_frame hsx (fun _ _ => by rw [e1]; rfl)
  have hun1 : m1.nodes u = some un := by rw [e1]; exact hun
  obtain ⟨m2, e2⟩ : ∃ m2, m2 = m1.setNode u { un with next := none } := ⟨_, rfl⟩
  have s2 : seg m2 none xs none := e2 ▸ seg_set_last s1 hndx hu un hun1 none
  -- list->head->prev = tail
  obtain ⟨hn, hhn⟩ := seg_allocated s2 hhm
  obtain ⟨m3, e3⟩ : ∃ m3, m3 = m2.setNode h { hn with prev := some t } := ⟨_, rfl⟩
  have hhx : h ∉ xs' := (List.nodup_cons.mp (hxs' ▸ hndx)).1
  have s3 : seg m3 (some t) xs none := by
    rw [e3, hxs']
    exact seg_set_before (hxs' ▸ s2) hhx hn hhn (some t)
  -- tail->prev = NULL; tail->next = list->head
  have hth : t ≠ h := fun e => htx (e ▸ hhm)
  have htu : t ≠ u := fun e => htx (e ▸ hum)
  have htn3 : m3.nodes t = some tn := by
    rw [e3, e2, e1]
    simp [hth, htu, htn]
  obtain ⟨m4, e4⟩ : ∃ m4, m4 = m3.setNode t { tn with prev := none } := ⟨_, rfl⟩
  have htn4 : m4.nodes t = some { tn with prev := none } := by
    rw [e4]
    simp
  obtain ⟨m5, e5⟩ : ∃ m5, m5 = m4.setNode t
      { prev := none, next := some h, value := tn.value } := ⟨_, rfl⟩
  obtain ⟨m6, e6⟩ : ∃ m6, m6 = m5.setList lp { l with tail := some u, head := some t } :=
    ⟨_, rfl⟩
  have hnodes6 : ∀ q, q ≠ t → m6.nodes q = m3.nodes q := by
    intro q hq
    rw [e6, e5, e4]
    simp [hq]
  refine ⟨m6, ?_, ?_, ?_, ?_⟩
  · simp only [listRotate, hl, Option.bind_eq_bind, Option.some_bind]
    rw [if_neg hlen']
    simp only [htail', Option.some_bind, htn, htp, hhead', Option.pure_def]
    have e1' := e1
    rw [hhead'] at e1'
    rw [← e1', setNext_eq hun1, Option.some_bind, ← e2, setPrev_eq hhn, Option.some_bind,
      ← e3, setPrev_eq htn3, Option.some_bind, ← e4, setNext_eq htn4, Option.some_bind]
    show some (m4.setNode t { prev := none, next := some h, value := tn.value }
      |>.setList lp { l with tail := some u, head := some t }) = some m6
    rw [← e5, e6]
  · refine ⟨{ l with tail := some u, head := some t }, by rw [e6]; simp, rfl, ?_, ?_, ?_⟩
    · show some u = (t :: xs).getLast?
      rw [hxs', List.getLast?_cons_cons, ← hxs', hu]
    · show l.len = _
      rw [hlen]
      simp
    · refine ⟨⟨{ prev := none, next := some h, value := tn.value }, ?_, rfl, ?_⟩, ?_⟩
      · rw [e6, e5]
        simp
      · rw [hxs']
        rfl
      · exact seg_frame s3 (fun q hq => hnodes6 q (fun e => htx (e ▸ hq)))
  · intro q
    have v6 : valueAt m6 q = valueAt m5 q := by rw [e6]; rfl
    have v1 : valueAt m1 q = valueAt m q := by rw [e1]; rfl
    rw [v6, e5, valueAt_setNode htn4 { prev := none, next := some h, value := tn.value } rfl,
      e4, valueAt_setNode htn3 { tn with prev := none } rfl, e3,
      valueAt_setNode hhn { hn with prev := some t } rfl, e2,
      valueAt_setNode hun1 { un with next := none } rfl, v1]
  · exact ⟨l, { l with tail := some u, head := some t }, hl, by rw [e6]; simp, rfl,
      hu.symm, rfl⟩

/-- `listRotate` on a well formed list with at most one node changes
nothing. -/
theorem listRotate_short {m : Mem} {lp : Ptr} {ps : List Ptr} (hwf : WF m lp ps)
    (hlen : ps.length ≤ 1) : listRotate m lp = some m := by
  obtain ⟨l, hl, _, _, hl', _⟩ := hwf
  simp only [listRotate, hl, Option.bind_eq_bind, Option.some_bind]
  rw [if_pos (by omega)]
  rfl

/-- Rotating as many times as the length of a suffix moves that suffix to the
front. -/
theorem listRotateTimes_suffix {lp : Ptr} (b : List Ptr) :
    ∀ (a : List Ptr) (m : Mem), WF m lp (a ++ b) →
      ∃ m', listRotateTimes b.length m lp = some m' ∧ WF m' lp (b ++ a) ∧
        ∀ q, valueAt m' q = valueAt m q := by
  induction b using List.reverseRecOn with
  | nil =>
    intro a m hwf
    exact ⟨m, rfl, by simpa using hwf, fun _ => rfl⟩
  | append_singleton b' t ih =>
    intro a m hwf
    rw [List.length_append, List.length_singleton]
    by_cases hemp : a ++ b' = []
    · obtain ⟨ha, hb⟩ := List.append_eq_nil.mp hemp
      subst ha hb
      have hshort := listRotate_short hwf (by simp)
      refine ⟨m, ?_, by simpa using hwf, fun _ => rfl⟩
      simp [listRotateTimes, hshort]
    · rw [← List.append_assoc] at hwf
      obtain ⟨m1, h1, h2, h3, _⟩ := listRotate_step hwf hemp
      have h2' : WF m1 lp (([t] ++ a) ++ b') := by simpa using h2
      obtain ⟨m2, k1, k2, k3⟩ := ih ([t] ++ a) m1 h2'
      refine ⟨m2, ?_, by simpa using k2, fun q => (k3 q).trans (h3 q)⟩
      simp only [listRotateTimes, h1, Option.bind_eq_bind, Option.some_bind]
      exact k1

/-- C9: on a well formed list with nodes `ps`, `listRotate` changes nothing at
all when there is at most one node; when `ps = xs ++ [t]` with `xs` non-empty
it makes the node sequence `t :: xs` (values: the last value followed by the
others in order), the former tail being the new head and the former
penultimate node the new tail, `len` unchanged.  Calling `listRotate` as many
times as the list has nodes restores the original node and value sequence. -/
theorem listRotate_spec (m : Mem) (lp : Ptr) (ps : List Ptr) (hwf : WF m lp ps) :
    (ps.length ≤ 1 → listRotate m lp = some m) ∧
    (∀ xs t, ps = xs ++ [t] → xs ≠ [] →
      ∃ m', listRotate m lp = some m' ∧ WF m' lp (t :: xs) ∧
        listValues m' (t :: xs) = valueAt m t :: listValues m xs ∧
        ∃ l l', m.lists lp = some l ∧ m'.lists lp = some l' ∧ l.tail = some t ∧
          l'.head = some t ∧ l'.tail = xs.getLast? ∧ l'.len = l.len) ∧
    (1 ≤ ps.length →
      ∃ m', listRotateTimes ps.length m lp = some m' ∧ WF m' lp ps ∧
        listValues m' ps = listValues m ps) := by
  refine ⟨listRotate_short hwf, ?_, ?_⟩
  · intro xs t hps hxs
    subst hps
    obtain ⟨m', h1, h2, h3, l, l', h4, h5, h6, h7, h8⟩ := listRotate_step hwf hxs
    refine ⟨m', h1, h2, ?_, l, l', h4, h5, ?_, h6, h7, h8⟩
    · simp only [listValues, List.map_cons, h3]
      congr 1
      exact List.map_congr_left (fun q _ => h3 q)
    · obtain ⟨l0, hl0, _, htail, _, _⟩ := hwf
      rw [h4] at hl0
      cases hl0
      simpa using htail
  · intro _
    obtain ⟨m', h1, h2, h3⟩ := listRotateTimes_suffix ps [] m (by simpa using hwf)
    refine ⟨m', h1, by simpa using h2, ?_⟩
    exact List.map_congr_left (fun q _ => h3 q)

theorem listRotate_spec_witness :
    (∃ m', listRotate (threeListMem none none []) 1 = some m' ∧ WF m' 1 [12, 10, 11] ∧
        listValues m' [12, 10, 11]
          = valueAt (threeListMem none none []) 12
            :: listValues (threeListMem none none []) [10, 11] ∧
        ∃ l l', (threeListMem none none []).lists 1 = some l ∧ m'.lists 1 = some l' ∧
          l.tail = some 12 ∧ l'.head = some 12 ∧ l'.tail = [10, 11].getLast? ∧
          l'.len = l.len) ∧
    (∃ m', listRotateTimes ([10, 11, 12] : List Ptr).length (threeListMem none none []) 1
        = some m' ∧ WF m' 1 [10, 11, 12] ∧
        listValues m' [10, 11, 12] = listValues (threeListMem none none []) [10, 11, 12]) :=
  have h := listRotate_spec (threeListMem none none []) 1 [10, 11, 12]
    (threeListMem_WF none none [])
  ⟨h.2.1 [10, 11] 12 rfl (by decide), h.2.2 (by decide)⟩

/-- The calls of the `free` method made by `listRelease` on nodes of values
`vs`. -/
theorem callFree_freed (m : Mem) (l : list) (v : Val) :
    (m.callFree l v).freed
      = m.freed ++ (match l.free with
        | some fn => [(fn, v)]
        | none => []) := by
  unfold Mem.callFree
  cases l.free <;> simp

@[simp] theorem callFree_nodes (m : Mem) (l : list) (v : Val) :
    (m.callFree l v).nodes = m.nodes := by
  unfold Mem.callFree
  cases l.free <;> rfl

@[simp] theorem callFree_lists (m : Mem) (l : list) (v : Val) :
    (m.callFree l v).lists = m.lists := by
  unfold Mem.callFree
  cases l.free <;> rfl

@[simp] theorem callFree_alloc (m : Mem) (l : list) (v : Val) :
    (m.callFree l v).alloc = m.alloc := by
  unfold Mem.callFree
  cases l.free <;> rfl

/-- The loop of `listRelease` over a segment: every node of the segment is
freed, nothing else changes, and the `free` method is called on the values of
the nodes, in order. -/
theorem listReleaseLoop_seg (l : list) {ps : List Ptr} :
    ∀ {m : Mem} {b a : Option Ptr}, seg m b ps a → ps.Nodup →
      ∃ m', listReleaseLoop l ps.length (firstOr ps a) m = some m' ∧
        (∀ q, m'.nodes q = if q ∈ ps then none else m.nodes q) ∧
        m'.lists = m.lists ∧ m'.alloc = m.alloc ∧
        m'.freed = m.freed ++ (match l.free with
          | some fn => (listValues m ps).map (fun v => (fn, v))
          | none => []) := by
  induction ps with
  | nil =>
    intro m b a _ _
    refine ⟨m, rfl, fun q => by simp, rfl, rfl, ?_⟩
    cases l.free <;> simp [listValues]
  | cons p t ih =>
    intro m b a hs hnd
    obtain ⟨⟨n, hn, _, hx⟩, hrest⟩ := hs
    have hpt : p ∉ t := (List.nodup_cons.mp hnd).1
    have hrest' : seg ((m.callFree l n.value).freeNode p) (some p) t a := by
      refine seg_frame hrest ?_
      intro q hq
      have : q ≠ p := fun e => hpt (e ▸ hq)
      simp [Mem.freeNode, Function.update_apply, this]
    obtain ⟨m', h1, h2, h3, h4, h5⟩ := ih hrest' (List.nodup_cons.mp hnd).2
    refine ⟨m', ?_, ?_, ?_, ?_, ?_⟩
    · simp only [List.length_cons, firstOr, listReleaseLoop, Option.bind_eq_bind,
        Option.some_bind, hn, hx]
      exact h1
    · intro q
      rw [h2 q]
      by_cases e : q = p
      · subst e
        simp [hpt, Mem.freeNode]
      · by_cases e' : q ∈ t
        · simp [e']
        · simp [e, e', Mem.freeNode, Function.update_apply]
    · rw [h3]
      simp [Mem.freeNode]
    · rw [h4]
      simp [Mem.freeNode]
    · rw [h5]
      have hv : listValues ((m.callFree l n.value).freeNode p) t = listValues m t := by
        apply listValues_frame
        intro q hq
        have : q ≠ p := fun e => hpt (e ▸ hq)
        simp [Mem.freeNode, Function.update_apply, this]
      have hvp : valueAt m p = n.value := by simp [valueAt, hn]
      rw [hv]
      show (m.callFree l n.value).freed ++ _ = _
      rw [callFree_freed]
      cases l.free with
      | none => simp
      | some fn => simp [listValues, hvp]

/-- `listRelease` on a well formed list returns: it frees the nodes and the
header of the list, calls the `free` method (when set) on the values of the
nodes in head to tail order, and changes nothing else. -/
theorem listRelease_spec {m : Mem} {lp : Ptr} {ps : List Ptr} (hwf : WF m lp ps) :
    ∃ l m', m.lists lp = some l ∧ listRelease m lp = some m' ∧
      (∀ q, m'.nodes q = if q ∈ ps then none else m.nodes q) ∧
      (∀ q, m'.lists q = if q = lp then none else m.lists q) ∧
      m'.alloc = m.alloc ∧
      m'.freed = m.freed ++ (match l.free with
        | some fn => (listValues m ps).map (fun v => (fn, v))
        | none => []) := by
  obtain ⟨l, hl, hhead, _, hlen, hseg⟩ := hwf
  obtain ⟨m', h1, h2, h3, h4, h5⟩ := listReleaseLoop_seg l hseg (seg_nodup hseg)
  refine ⟨l, m'.freeList lp, hl, ?_, ?_, ?_, ?_, ?_⟩
  · simp only [listRelease, hl, Option.bind_eq_bind, Option.some_bind]
    rw [hlen, hhead, ← firstOr_none, h1]
    rfl
  · intro q
    rw [← h2 q]
    rfl
  · intro q
    simp [Mem.freeList, Function.update_apply, h3]
  · rw [← h4]
    rfl
  · rw [← h5]
    rfl

/-- Well-formedness only depends on the header and the nodes of the list. -/
theorem WF_frame {m m' : Mem} {lp : Ptr} {ps : List Ptr} (h : WF m lp ps)
    (hl : m'.lists lp = m.lists lp) (hn : ∀ q ∈ ps, m'.nodes q = m.nodes q) :
    WF m' lp ps := by
  obtain ⟨l, h1, h2, h3, h4, h5⟩ := h
  exact ⟨l, hl.trans h1, h2, h3, h4, seg_frame h5 hn⟩

/-- A failed allocation in `listAddNodeTail`: NULL is returned and only the
allocator script advances. -/
theorem listAddNodeTail_fail {m : Mem} (lp : Ptr) (v : Val)
    (h : m.alloc = [] ∨ ∃ rest, m.alloc = none :: rest) :
    ∃ m', listAddNodeTail m lp v = some (none, m') ∧ m'.nodes = m.nodes ∧
      m'.lists = m.lists ∧ m'.freed = m.freed := by
  rcases h with h | ⟨rest, h⟩
  · exact ⟨m, by simp [listAddNodeTail, zmalloc, h], rfl, rfl, rfl⟩
  · exact ⟨{ m with alloc := rest }, by simp [listAddNodeTail, zmalloc, h], rfl, rfl, rfl⟩

/-- The allocator contract after `zmalloc` returned `p` and `p` was used for a
node of the list `lp`. -/
theorem allocFresh_step {m m' : Mem} {p : Ptr} {rest : List (Option Ptr)} {lp : Ptr}
    {cs : List Ptr} (hf : allocFresh m) (ha : m.alloc = some p :: rest)
    (ha' : m'.alloc = rest) (hlp : ∃ l, m.lists lp = some l)
    (hcs : ∀ q ∈ cs, ∃ n, m.nodes q = some n)
    (hn : ∀ q, q ≠ p → q ∉ cs → m'.nodes q = m.nodes q)
    (hl : ∀ q, q ≠ lp → m'.lists q = m.lists q) : allocFresh m' := by
  obtain ⟨h1, h2⟩ := hf
  rw [ha] at h1 h2
  simp only [List.filterMap_cons, id_eq, List.nodup_cons] at h2
  obtain ⟨hp, hnd⟩ := h2
  refine ⟨?_, by rw [ha']; exact hnd⟩
  intro q hq
  rw [ha'] at hq
  obtain ⟨f1, f2⟩ := h1 q (List.mem_cons_of_mem _ hq)
  have hqp : q ≠ p := by
    intro e
    apply hp
    rw [List.mem_filterMap]
    exact ⟨some q, hq, by rw [e]; rfl⟩
  have hqcs : q ∉ cs := by
    intro hmem
    obtain ⟨n, hn'⟩ := hcs q hmem
    rw [f1] at hn'
    cases hn'
  have hqlp : q ≠ lp := by
    intro e
    obtain ⟨l, hl'⟩ := hlp
    rw [← e, f2] at hl'
    cases hl'
  exact ⟨(hn q hqp hqcs).trans f1, (hl q hqlp).trans f2⟩

/-- Invariant of the loop of `listDup`.  `rem` are the nodes of the original
list still to be visited, `cs` the nodes of the copy built so far.  With
enough fuel the loop returns, and when it returns the copy, the copy is well
formed, made of `cs` followed by new nodes `cs'`, one per node of `rem`, whose
values are the duplicated values of `rem`; the original list is untouched. -/
theorem listDupLoop_spec {orig copy : Ptr} {ps : List Ptr} (d : Option (Val → Val))
    (rem : List Ptr) :
    ∀ (fuel : Nat) (m : Mem) (bb : Option Ptr) (cs : List Ptr), rem.length < fuel →
      WF m orig ps → seg m bb rem none → (∀ q ∈ rem, q ∈ ps) →
      WF m copy cs → copy ≠ orig → (∀ q ∈ cs, q ∉ ps) →
      (∃ c, m.lists copy = some c ∧ c.dup = d) → allocFresh m →
      ∃ r, listDupLoop fuel m copy ⟨rem.head?, AL_START_HEAD⟩ = some r ∧
        ∀ c' m', r = (some c', m') →
          c' = copy ∧ ∃ cs', WF m' copy (cs ++ cs') ∧
            listValues m' (cs ++ cs')
              = listValues m cs ++ (listValues m rem).map (dupValue d) ∧
            cs'.length = rem.length ∧
            (∀ q ∈ cs', m.nodes q = none) ∧
            (∀ q ∈ ps, m'.nodes q = m.nodes q) ∧
            (∀ q, q ≠ copy → m'.lists q = m.lists q) ∧ m'.freed = m.freed ∧
            (∃ c c1, m.lists copy = some c ∧ m'.lists copy = some c1 ∧ c1.dup = c.dup ∧
              c1.free = c.free ∧ c1.match_ = c.match_) := by
  induction rem with
  | nil =>
    intro fuel m bb cs hfuel _ _ _ hwfc _ _ hc _
    obtain ⟨f, rfl⟩ : ∃ f, fuel = f + 1 := ⟨fuel - 1, by simp at hfuel; omega⟩
    refine ⟨(some copy, m), by simp [listDupLoop, listNext], ?_⟩
    intro c' m' hr
    cases hr
    obtain ⟨c, hc1, _⟩ := hc
    exact ⟨rfl, [], by simpa using hwfc, by simp [listValues], rfl, by simp,
      fun _ _ => rfl, fun _ _ => rfl, rfl, c, c, hc1, hc1, rfl, rfl, rfl⟩
  | cons x rem' ih =>
    intro fuel m bb cs hfuel hwfo hseg hsub hwfc hne hdisj hc hfresh
    obtain ⟨f, rfl⟩ : ∃ f, fuel = f + 1 := ⟨fuel - 1, by simp at hfuel; omega⟩
    have hf' : rem'.length < f := by simpa using hfuel
    obtain ⟨⟨xn, hxn, _, hxnext⟩, hrest⟩ := hseg
    rw [firstOr_none] at hxnext
    obtain ⟨c, hc1, hcd⟩ := hc
    obtain ⟨lo, hlo, _, _, _, hsego⟩ := id hwfo
    obtain ⟨lc, hlc, _, _, _, hsegc⟩ := id hwfc
    have hvx : valueAt m x = xn.value := by simp [valueAt, hxn]
    -- the part of an iteration that follows the computation of the value
    have tail : ∀ v : Val,
        ∃ r, (listAddNodeTail m copy v).bind (fun r =>
            if r.1 = none then (listRelease r.2 copy).bind (fun m1 => some (none, m1))
            else listDupLoop f r.2 copy ⟨rem'.head?, AL_START_HEAD⟩) = some r ∧
          ∀ c' m', r = (some c', m') →
            c' = copy ∧ ∃ cs', WF m' copy (cs ++ cs') ∧
              listValues m' (cs ++ cs')
                = listValues m cs ++ v :: (listValues m rem').map (dupValue d) ∧
              cs'.length = rem'.length + 1 ∧
              (∀ q ∈ cs', m.nodes q = none) ∧
              (∀ q ∈ ps, m'.nodes q = m.nodes q) ∧
              (∀ q, q ≠ copy → m'.lists q = m.lists q) ∧ m'.freed = m.freed ∧
              (∃ c c1, m.lists copy = some c ∧ m'.lists copy = some c1 ∧ c1.dup = c.dup ∧
                c1.free = c.free ∧ c1.match_ = c.match_) := by
      intro v
      have hfailcase : (m.alloc = [] ∨ ∃ rest, m.alloc = none :: rest) →
          ∃ r, (listAddNodeTail m copy v).bind (fun r =>
              if r.1 = none then (listRelease r.2 copy).bind (fun m1 => some (none, m1))
              else listDupLoop f r.2 copy ⟨rem'.head?, AL_START_HEAD⟩) = some r ∧
            r.1 = none := by
        intro hA
        obtain ⟨m_, g1, g2, g3, _⟩ := listAddNodeTail_fail copy v hA
        have hwf_ : WF m_ copy cs :=
          WF_frame hwfc (by rw [g3]) (fun q _ => by rw [g2])
        obtain ⟨_, m1, _, r1, _⟩ := listRelease_spec hwf_
        refine ⟨(none, m1), ?_, rfl⟩
        rw [g1]
        simp [r1]
      cases hA : m.alloc with
      | nil =>
        obtain ⟨r, hr1, hr2⟩ := hfailcase (Or.inl hA)
        refine ⟨r, hr1, ?_⟩
        intro c' m' e
        rw [e] at hr2
        cases hr2
      | cons a rest =>
        cases a with
        | none =>
          obtain ⟨r, hr1, hr2⟩ := hfailcase (Or.inr ⟨rest, hA⟩)
          refine ⟨r, hr1, ?_⟩
          intro c' m' e
          rw [e] at hr2
          cases hr2
        | some p =>
          have hpfresh : m.nodes p = none := (hfresh.1 p (by rw [hA]; simp)).1
          obtain ⟨m1, a1, a2, a3, a4, a5, a6, a7, l0, l1, a8, a9, _, _, a10, a11, a12⟩ :=
            listAddNodeTail_spec v hwfc hA hpfresh
          have hps_alloc : ∀ q ∈ ps, ∃ n, m.nodes q = some n :=
            fun q hq => seg_allocated hsego hq
          have hcs_alloc : ∀ q ∈ cs, ∃ n, m.nodes q = some n :=
            fun q hq => seg_allocated hsegc hq
          have hpps : p ∉ ps := by
            intro hmem
            obtain ⟨n, hn⟩ := hps_alloc p hmem
            rw [hpfresh] at hn
            cases hn
          have hframe : ∀ q ∈ ps, m1.nodes q = m.nodes q := by
            intro q hq
            exact a6 q (fun e => hpps (e ▸ hq)) (fun hqc => hdisj q hqc hq)
          have hwfo1 : WF m1 orig ps := WF_frame hwfo (a7 orig (Ne.symm hne)) hframe
          have hrest1 : seg m1 (some x) rem' none :=
            seg_frame hrest (fun q hq => hframe q (hsub q (List.mem_cons_of_mem _ hq)))
          have hdisj1 : ∀ q ∈ cs ++ [p], q ∉ ps := by
            intro q hq
            rcases List.mem_append.mp hq with h | h
            · exact hdisj q h
            · rw [List.mem_singleton.mp h]
              exact hpps
          have hfresh1 : allocFresh m1 :=
            allocFresh_step hfresh hA a4 ⟨lc, hlc⟩ hcs_alloc a6 a7
          have hc1' : ∃ c, m1.lists copy = some c ∧ c.dup = d := by
            refine ⟨l1, a9, ?_⟩
            rw [a10]
            rw [hc1] at a8
            cases a8
            exact hcd
          obtain ⟨r, hr1, hr2⟩ := ih f m1 (some x) (cs ++ [p]) hf' hwfo1 hrest1
            (fun q hq => hsub q (List.mem_cons_of_mem _ hq)) a2 hne hdisj1 hc1' hfresh1
          refine ⟨r, ?_, ?_⟩
          · rw [a1]
            simp only [Option.some_bind]
            rw [if_neg (by simp)]
            exact hr1
          · intro c' m' e
            obtain ⟨b1, cs', b2, b3, b4, b5, b6, b7, b8, k0, k1, b9, b10, b11, b12, b13⟩ :=
              hr2 c' m' e
            obtain ⟨lc1, hlc1, _, _, _, hsegc1⟩ := id a2
            refine ⟨b1, p :: cs', ?_, ?_, ?_, ?_, ?_, ?_, ?_, ?_⟩
            · simpa using b2
            · have e1 : cs ++ p :: cs' = (cs ++ [p]) ++ cs' := by simp
              rw [e1, b3, a3]
              have e2 : listValues m1 rem' = listValues m rem' :=
                listValues_frame
                  (fun q hq => hframe q (hsub q (List.mem_cons_of_mem _ hq)))
              rw [e2]
              simp
            · simp [b4]
            · intro q hq
              rcases List.mem_cons.mp hq with h | h
              · rw [h]
                exact hpfresh
              · have hq1 := b5 q h
                have hqp : q ≠ p := by
                  intro e'
                  obtain ⟨n, hn⟩ := seg_allocated hsegc1
                    (List.mem_append_right cs (List.mem_singleton.mpr rfl))
                  rw [← e', hq1] at hn
                  cases hn
                have hqcs : q ∉ cs := by
                  intro hmem
                  obtain ⟨n, hn⟩ := seg_allocated hsegc1 (List.mem_append_left [p] hmem)
                  rw [hq1] at hn
                  cases hn
                rw [← a6 q hqp hqcs]
                exact hq1
            · intro q hq
              rw [b6 q hq, hframe q hq]
            · intro q hq
              rw [b7 q hq, a7 q hq]
            · rw [b8, a5]
            · rw [a9] at b9
              cases b9
              exact ⟨l0, k1, a8, b10, b11.trans a10, b12.trans a11, b13.trans a12⟩
    -- one iteration
    have hstep : listDupLoop (f + 1) m copy ⟨(x :: rem').head?, AL_START_HEAD⟩
        = match d with
          | some dup =>
            if dup xn.value = 0 then (listRelease m copy).bind (fun m1 => some (none, m1))
            else (listAddNodeTail m copy (dup xn.value)).bind (fun r =>
              if r.1 = none then (listRelease r.2 copy).bind (fun m1 => some (none, m1))
              else listDupLoop f r.2 copy ⟨rem'.head?, AL_START_HEAD⟩)
          | none =>
            (listAddNodeTail m copy xn.value).bind (fun r =>
              if r.1 = none then (listRelease r.2 copy).bind (fun m1 => some (none, m1))
              else listDupLoop f r.2 copy ⟨rem'.head?, AL_START_HEAD⟩) := by
      simp only [listDupLoop, listNext, List.head?_cons, hxn, hxnext, hc1, hcd,
        Option.bind_eq_bind, Option.some_bind, Option.pure_def, if_true]
      cases d <;> rfl
    rw [hstep]
    have hmapcons : (listValues m (x :: rem')).map (dupValue d)
        = dupValue d xn.value :: (listValues m rem').map (dupValue d) := by
      simp [listValues, hvx]
    rw [hmapcons]
    cases d with
    | none =>
      obtain ⟨r, hr1, hr2⟩ := tail xn.value
      exact ⟨r, hr1, fun c' m' e => by simpa [dupValue] using hr2 c' m' e⟩
    | some dup =>
      by_cases hz : dup xn.value = 0
      · obtain ⟨_, m1, _, r1, _⟩ := listRelease_spec hwfc
        refine ⟨(none, m1), ?_, ?_⟩
        · simp only [hz, if_true, r1, Option.some_bind]
        · intro c' m' e
          cases e
      · obtain ⟨r, hr1, hr2⟩ := tail (dup xn.value)
        refine ⟨r, ?_, fun c' m' e => by simpa [dupValue] using hr2 c' m' e⟩
        simp only [hz, if_false]
        exact hr1

/-- C10: on a well formed list `orig` with nodes `ps`, under the allocator
contract and with enough fuel for the loop, `listDup` returns; and when it
returns a list `copy` (success), `copy` is a new list header, well formed, made
of as many nodes as `orig`, all of them newly allocated (hence distinct from
the nodes of `orig`), with the same `len` and the same `dup`, `free` and
`match` methods, and its value sequence is, position by position, `dup(v)` for
the values `v` of `orig` when a `dup` method is set and `v` itself otherwise.
The original list is still well formed with the same nodes and values. -/
theorem listDup_spec (fuel : Nat) (m : Mem) (orig : Ptr) (ps : List Ptr)
    (hwf : WF m orig ps) (hfresh : allocFresh m) (hfuel : ps.length < fuel) :
    (∃ r, listDup fuel m orig = some r) ∧
    (∀ copy m', listDup fuel m orig = some (some copy, m') →
      ∃ cs o c, m.lists orig = some o ∧ m'.lists copy = some c ∧
        m.lists copy = none ∧ copy ≠ orig ∧
        WF m' copy cs ∧ cs.length = ps.length ∧
        (∀ q ∈ cs, m.nodes q = none ∧ q ∉ ps) ∧
        c.len = o.len ∧ c.dup = o.dup ∧ c.free = o.free ∧ c.match_ = o.match_ ∧
        listValues m' cs = (listValues m ps).map (dupValue o.dup) ∧
        WF m' orig ps ∧ listValues m' ps = listValues m ps ∧
        m'.lists orig = some o) := by
  obtain ⟨lo, hlo, hhead, htail, hlen, hseg⟩ := id hwf
  have hfailcase : (m.alloc = [] ∨ ∃ rest, m.alloc = none :: rest) →
      ∃ m_, listDup fuel m orig = some (none, m_) := by
    intro h
    rcases h with h | ⟨rest, h⟩
    · exact ⟨m, by simp [listDup, listCreate, zmalloc, h]⟩
    · exact ⟨{ m with alloc := rest }, by simp [listDup, listCreate, zmalloc, h]⟩
  have hfailres : (m.alloc = [] ∨ ∃ rest, m.alloc = none :: rest) →
      (∃ r, listDup fuel m orig = some r) ∧
      (∀ copy m', listDup fuel m orig = some (some copy, m') → False) := by
    intro h
    obtain ⟨m_, hm_⟩ := hfailcase h
    refine ⟨⟨_, hm_⟩, ?_⟩
    intro copy m' e
    rw [hm_] at e
    cases e
  cases hA : m.alloc with
  | nil =>
    obtain ⟨h1, h2⟩ := hfailres (Or.inl hA)
    exact ⟨h1, fun copy m' e => (h2 copy m' e).elim⟩
  | cons a rest =>
    cases a with
    | none =>
      obtain ⟨h1, h2⟩ := hfailres (Or.inr ⟨rest, hA⟩)
      exact ⟨h1, fun copy m' e => (h2 copy m' e).elim⟩
    | some cp =>
      obtain ⟨hcpn, hcpl⟩ := hfresh.1 cp (by rw [hA]; simp)
      have hne : cp ≠ orig := by
        intro e
        rw [e, hlo] at hcpl
        cases hcpl
      obtain ⟨m1, e1⟩ : ∃ m1, m1 = (({ m with alloc := rest } : Mem).setList cp
          { head := none, tail := none, len := 0, dup := none, free := none,
            match_ := none }).setList cp
          { head := none, tail := none, len := 0, dup := lo.dup, free := lo.free,
            match_ := lo.match_ } := ⟨_, rfl⟩
      have hnodes1 : m1.nodes = m.nodes := by rw [e1]; rfl
      have hlists1 : ∀ q, q ≠ cp → m1.lists q = m.lists q := by
        intro q hq
        rw [e1]
        simp [hq]
      have hlcp : m1.lists cp
          = some ⟨none, none, lo.dup, lo.free, lo.match_, 0⟩ := by
        rw [e1]
        simp
      have halloc1 : m1.alloc = rest := by rw [e1]; rfl
      have hfreed1 : m1.freed = m.freed := by rw [e1]; rfl
      have hrun : listDup fuel m orig
          = listDupLoop fuel m1 cp ⟨ps.head?, AL_START_HEAD⟩ := by
        simp only [listDup, listCreate, zmalloc, hA, Option.bind_eq_bind]
        simp only [setList_lists, if_neg (Ne.symm hne), if_true, hlo, Option.some_bind,
          listRewind, Option.bind_eq_bind, Option.pure_def, hhead]
        rw [e1]
      have hwfo1 : WF m1 orig ps :=
        WF_frame hwf (hlists1 orig (Ne.symm hne)) (fun q _ => by rw [hnodes1])
      have hwfc1 : WF m1 cp [] := ⟨_, hlcp, rfl, rfl, rfl, trivial⟩
      have hfresh1 : allocFresh m1 := by
        obtain ⟨f1, f2⟩ := hfresh
        rw [hA] at f1 f2
        simp only [List.filterMap_cons, id_eq, List.nodup_cons] at f2
        refine ⟨?_, by rw [halloc1]; exact f2.2⟩
        intro q hq
        rw [halloc1] at hq
        obtain ⟨g1, g2⟩ := f1 q (List.mem_cons_of_mem _ hq)
        have hqcp : q ≠ cp := by
          intro e
          apply f2.1
          rw [List.mem_filterMap]
          exact ⟨some q, hq, by rw [e]; rfl⟩
        exact ⟨by rw [hnodes1]; exact g1, (hlists1 q hqcp).trans g2⟩
      obtain ⟨r, hr1, hr2⟩ := listDupLoop_spec lo.dup ps fuel m1 none [] hfuel hwfo1
        (seg_frame hseg (fun q _ => by rw [hnodes1])) (fun _ h => h) hwfc1 hne
        (fun q hq => by cases hq) ⟨_, hlcp, rfl⟩ hfresh1
      refine ⟨⟨r, hrun.trans hr1⟩, ?_⟩
      intro copy m' e
      rw [hrun, hr1] at e
      obtain ⟨b1, cs, b2, b3, b4, b5, b6, b7, _, k0, k1, b9, b10, b11, b12, b13⟩ :=
        hr2 copy m' (Option.some.inj e)
      subst b1
      rw [hlcp] at b9
      cases b9
      have hwfc' : WF m' copy cs := by simpa using b2
      have hframe : ∀ q ∈ ps, m'.nodes q = m.nodes q := by
        intro q hq
        rw [b6 q hq, hnodes1]
      have hlorig : m'.lists orig = m.lists orig :=
        (b7 orig (Ne.symm hne)).trans (hlists1 orig (Ne.symm hne))
      refine ⟨cs, lo, k1, hlo, b10, hcpl, hne, hwfc', b4, ?_, ?_, b11, b12, b13, ?_,
        WF_frame hwf hlorig hframe, listValues_frame hframe, hlorig.trans hlo⟩
      · intro q hq
        have hq0 : m.nodes q = none := by
          rw [← hnodes1]
          exact b5 q hq
        refine ⟨hq0, ?_⟩
        intro hmem
        obtain ⟨n, hn⟩ := seg_allocated hseg hmem
        rw [hq0] at hn
        cases hn
      · obtain ⟨c2, hc2, _, _, hlen2, _⟩ := hwfc'
        rw [b10] at hc2
        cases hc2
        rw [hlen2, b4, hlen]
      · have := b3
        simp only [List.nil_append, listValues, List.map_nil] at this
        rw [show listValues m' cs = List.map (valueAt m') cs from rfl, this]
        have hv : List.map (valueAt m1) ps = List.map (valueAt m) ps :=
          listValues_frame (fun q _ => by rw [hnodes1])
        rw [hv]
        rfl

theorem dupExampleMem_allocFresh : allocFresh dupExampleMem := by
  decide

theorem dupExampleMem_listDup : ∃ m', listDup 4 dupExampleMem 1 = some (some 2, m') :=
  ⟨_, rfl⟩

theorem listDup_spec_witness :
    ∃ m' cs o c, listDup 4 dupExampleMem 1 = some (some 2, m') ∧
      dupExampleMem.lists 1 = some o ∧ m'.lists 2 = some c ∧
      dupExampleMem.lists 2 = none ∧ (2 : Ptr) ≠ 1 ∧
      WF m' 2 cs ∧ cs.length = ([10, 11, 12] : List Ptr).length ∧
      (∀ q ∈ cs, dupExampleMem.nodes q = none ∧ q ∉ ([10, 11, 12] : List Ptr)) ∧
      c.len = o.len ∧ c.dup = o.dup ∧ c.free = o.free ∧ c.match_ = o.match_ ∧
      listValues m' cs = (listValues dupExampleMem [10, 11, 12]).map (dupValue o.dup) ∧
      WF m' 1 [10, 11, 12] ∧
      listValues m' [10, 11, 12] = listValues dupExampleMem [10, 11, 12] ∧
      m'.lists 1 = some o := by
  obtain ⟨m', h⟩ := dupExampleMem_listDup
  obtain ⟨cs, o, c, hrest⟩ :=
    (listDup_spec 4 dupExampleMem 1 [10, 11, 12] (threeListMem_WF _ _ _)
      dupExampleMem_allocFresh (by decide)).2 2 m' h
  exact ⟨m', cs, o, c, h, hrest⟩

/-- C11 (violated by the code): the list of `dupFailMem` is well formed, has
no `dup` method and the `free` method `99`; its first node holds the value
`7`.  In `listDup` the allocation of the second node fails: the call returns
NULL, the partial copy (header `2`, node `20`) is released and the original
list keeps its nodes and values, but `listRelease(copy)` has passed the value
`7`, still held by the first node of the original, to the `free` method. -/
theorem listDup_failure_frees_shared_value :
    ∃ m', listDup 4 dupFailMem 1 = some (none, m') ∧
      WF dupFailMem 1 [10, 11, 12] ∧ valueAt dupFailMem 10 = 7 ∧
      m'.freed = dupFailMem.freed ++ [(99, 7)] ∧
      WF m' 1 [10, 11, 12] ∧ listValues m' [10, 11, 12] = [7, 8, 9] ∧
      m'.lists 2 = none ∧ m'.nodes 20 = none :=
  ⟨_, rfl, by decide, rfl, rfl, by decide, rfl, rfl, rfl⟩

/-- The loop of `listSearchKey` over the remaining nodes `rem` of a list whose
header is `l`: it returns the first node of `rem` whose value matches. -/
theorem listSearchKeyLoop_seg {m : Mem} {lp : Ptr} {l : list} (hl : m.lists lp = some l)
    (key : Val) (rem : List Ptr) :
    ∀ (fuel : Nat) (b : Option Ptr), rem.length < fuel → seg m b rem none →
      listSearchKeyLoop fuel m lp ⟨rem.head?, AL_START_HEAD⟩ key
        = some (rem.find? (fun p => keyMatches l.match_ key (valueAt m p))) := by
  induction rem with
  | nil =>
    intro fuel b hfuel _
    obtain ⟨f, rfl⟩ : ∃ f, fuel = f + 1 := ⟨fuel - 1, by simp at hfuel; omega⟩
    simp [listSearchKeyLoop, listNext]
  | cons x rem' ih =>
    intro fuel b hfuel hseg
    obtain ⟨f, rfl⟩ : ∃ f, fuel = f + 1 := ⟨fuel - 1, by simp at hfuel; omega⟩
    have hf' : rem'.length < f := by simpa using hfuel
    obtain ⟨⟨xn, hxn, _, hxnext⟩, hrest⟩ := hseg
    rw [firstOr_none] at hxnext
    have hvx : valueAt m x = xn.value := by simp [valueAt, hxn]
    have hrec := ih f (some x) hf' hrest
    simp only [listSearchKeyLoop, listNext, List.head?_cons, hxn, hxnext, hl,
      Option.bind_eq_bind, Option.some_bind, Option.pure_def, if_true]
    rw [List.find?_cons, hvx]
    cases hm : l.match_ with
    | none =>
      by_cases hk : key = xn.value
      · simp [keyMatches, hk]
      · simp only [keyMatches, hk, if_false, decide_False]
        rw [hrec, hm]
        rfl
    | some g =>
      by_cases hk : g xn.value key = 0
      · simp only [keyMatches, hk, ne_eq, not_true_eq_false, if_false, decide_False]
        rw [hrec, hm]
        rfl
      · simp [keyMatches, hk]

/-- C12: on a well formed list with nodes `ps` (with enough fuel for the
loop) `listSearchKey` returns the first node, in head to tail order, whose
value matches the key: `match(value, key)` is non zero when a `match` method
is set, `value == key` when none is set.  A returned node is a node of the
list that matches and no node before it matches; NULL is returned if and only
if no node matches.  The function performs no store. -/
theorem listSearchKey_spec (fuel : Nat) (m : Mem) (lp : Ptr) (ps : List Ptr) (key : Val)
    (hwf : WF m lp ps) (hfuel : ps.length < fuel) :
    ∃ l, m.lists lp = some l ∧
      listSearchKey fuel m lp key
        = some (ps.find? (fun p => keyMatches l.match_ key (valueAt m p))) ∧
      (∀ q, listSearchKey fuel m lp key = some (some q) →
        keyMatches l.match_ key (valueAt m q) = true ∧
        ∃ pre post, ps = pre ++ q :: post ∧
          ∀ x ∈ pre, keyMatches l.match_ key (valueAt m x) = false) ∧
      (listSearchKey fuel m lp key = some none ↔
        ∀ x ∈ ps, keyMatches l.match_ key (valueAt m x) = false) ∧
      (∀ v, keyMatches l.match_ key v = true ↔
        match l.match_ with
        | some f => f v key ≠ 0
        | none => key = v) := by
  obtain ⟨l, hl, hhead, _, _, hseg⟩ := hwf
  have hres : listSearchKey fuel m lp key
      = some (ps.find? (fun p => keyMatches l.match_ key (valueAt m p))) := by
    simp only [listSearchKey, listRewind, hl, Option.bind_eq_bind, Option.some_bind,
      Option.pure_def, hhead]
    exact listSearchKeyLoop_seg hl key ps fuel none hfuel hseg
  refine ⟨l, hl, hres, ?_, ?_, ?_⟩
  · intro q hq
    rw [hres] at hq
    have hq' := Option.some.inj hq
    obtain ⟨h1, pre, post, h2, h3⟩ := List.find?_eq_some.mp hq'
    exact ⟨h1, pre, post, h2, fun x hx => by simpa using h3 x hx⟩
  · rw [hres]
    constructor
    · intro h
      have h' := List.find?_eq_none.mp (Option.some.inj h)
      intro x hx
      simpa using h' x hx
    · intro h
      congr 1
      apply List.find?_eq_none.mpr
      intro x hx
      simp [h x hx]
  · intro v
    cases hm : l.match_ <;> simp [keyMatches]

theorem listSearchKey_spec_witness :
    ∃ l, (threeListMem none none []).lists 1 = some l ∧
      listSearchKey 4 (threeListMem none none []) 1 8
        = some (([10, 11, 12] : List Ptr).find?
            (fun p => keyMatches l.match_ 8 (valueAt (threeListMem none none []) p))) ∧
      (∀ q, listSearchKey 4 (threeListMem none none []) 1 8 = some (some q) →
        keyMatches l.match_ 8 (valueAt (threeListMem none none []) q) = true ∧
        ∃ pre post, ([10, 11, 12] : List Ptr) = pre ++ q :: post ∧
          ∀ x ∈ pre, keyMatches l.match_ 8 (valueAt (threeListMem none none []) x) = false) ∧
      (listSearchKey 4 (threeListMem none none []) 1 8 = some none ↔
        ∀ x ∈ ([10, 11, 12] : List Ptr),
          keyMatches l.match_ 8 (valueAt (threeListMem none none []) x) = false) ∧
      (∀ v, keyMatches l.match_ 8 v = true ↔
        match l.match_ with
        | some f => f v 8 ≠ 0
        | none => 8 = v) :=
  listSearchKey_spec 4 (threeListMem none none []) 1 [10, 11, 12] 8
    (threeListMem_WF none none []) (by decide)

theorem head?_append_firstOr (xs ys : List Ptr) :
    (xs ++ ys).head? = firstOr xs ys.head? := by
  cases xs <;> rfl

theorem getLast?_append_lastOr (xs ys : List Ptr) :
    (xs ++ ys).getLast? = lastOr ys xs.getLast? := by
  rw [List.getLast?_append]
  unfold lastOr
  cases ys.getLast? <;> rfl

theorem firstOr_cons (x : Ptr) (xs : List Ptr) (a : Option Ptr) :
    firstOr (x :: xs) a = some x := rfl

/-- Storing a list header keeps every stored value. -/
theorem valueAt_setList (m : Mem) (lp : Ptr) (l : list) (q : Ptr) :
    valueAt (m.setList lp l) q = valueAt m q := rfl

/-- The first statement of `listDelNode` on a node that follows the segment
`pre`: the segment now ends with the successor of the node, and the header
points to it when `pre` is empty. -/
theorem listDelNodePrev_spec {m : Mem} {lp node : Ptr} {pre : List Ptr} {l : list}
    {n : listNode} (hl : m.lists lp = some l) (hhead : l.head = firstOr pre (some node))
    (hpre : seg m none pre (some node)) (hn : m.nodes node = some n)
    (hnp : n.prev = lastOr pre none) (hnot : node ∉ pre) :
    ∃ m1, listDelNodePrev m lp node = some m1 ∧ seg m1 none pre n.next ∧
      (∀ q, q ∉ pre → m1.nodes q = m.nodes q) ∧ (∀ q, valueAt m1 q = valueAt m q) ∧
      (∃ l1, m1.lists lp = some l1 ∧ l1.head = firstOr pre n.next ∧ l1.tail = l.tail ∧
        l1.len = l.len ∧ l1.dup = l.dup ∧ l1.free = l.free ∧ l1.match_ = l.match_) ∧
      (∀ q, q ≠ lp → m1.lists q = m.lists q) ∧ m1.alloc = m.alloc ∧ m1.freed = m.freed := by
  have hnd := seg_nodup hpre
  rcases List.eq_nil_or_concat pre with hp | ⟨pre', u, hp⟩
  · subst hp
    have hnone : n.prev = none := hnp
    refine ⟨m.setList lp { l with head := n.next }, ?_, trivial, fun _ _ => rfl,
      fun _ => rfl, ⟨{ l with head := n.next }, by simp, rfl, rfl, rfl, rfl, rfl, rfl⟩,
      fun q hq => by simp [hq], rfl, rfl⟩
    simp [listDelNodePrev, hn, hnone, hl]
  · rw [List.concat_eq_append] at hp
    subst hp
    have hlast : (pre' ++ [u]).getLast? = some u := by simp
    have hsome : n.prev = some u := by
      rw [hnp, lastOr_of_getLast hlast]
    obtain ⟨un, hun⟩ := seg_allocated hpre (List.mem_append_right pre' (List.mem_singleton.mpr rfl))
    refine ⟨m.setNode u { un with next := n.next }, ?_,
      seg_set_last hpre hnd hlast un hun n.next, ?_, ?_, ⟨l, hl, ?_, rfl, rfl, rfl, rfl, rfl⟩,
      fun _ _ => rfl, rfl, rfl⟩
    · simp [listDelNodePrev, hn, hsome, setNext_eq hun]
    · intro q hq
      have : q ≠ u := fun e => hq (e ▸ List.mem_append_right pre' (List.mem_singleton.mpr rfl))
      simp [this]
    · intro q
      exact valueAt_setNode hun { un with next := n.next } rfl q
    · rw [hhead]
      cases pre' <;> rfl

/-- The second statement of `listDelNode` on a node that precedes the segment
`post`: the segment now starts after the predecessor of the node, and the
header points to it when `post` is empty. -/
theorem listDelNodeNext_spec {m : Mem} {lp node : Ptr} {post : List Ptr} {l : list}
    {n : listNode} (hl : m.lists lp = some l) (htail : l.tail = lastOr post (some node))
    (hpost : seg m (some node) post none) (hn : m.nodes node = some n)
    (hnn : n.next = firstOr post none) (hnot : node ∉ post) (hnd : post.Nodup) :
    ∃ m2, listDelNodeNext m lp node = some m2 ∧ seg m2 n.prev post none ∧
      (∀ q, q ∉ post → m2.nodes q = m.nodes q) ∧ (∀ q, valueAt m2 q = valueAt m q) ∧
      (∃ l2, m2.lists lp = some l2 ∧ l2.head = l.head ∧ l2.tail = lastOr post n.prev ∧
        l2.len = l.len ∧ l2.dup = l.dup ∧ l2.free = l.free ∧ l2.match_ = l.match_) ∧
      (∀ q, q ≠ lp → m2.lists q = m.lists q) ∧ m2.alloc = m.alloc ∧ m2.freed = m.freed := by
  cases post with
  | nil =>
    have hnone : n.next = none := hnn
    refine ⟨m.setList lp { l with tail := n.prev }, ?_, trivial, fun _ _ => rfl,
      fun _ => rfl, ⟨{ l with tail := n.prev }, by simp, rfl, rfl, rfl, rfl, rfl, rfl⟩,
      fun q hq => by simp [hq], rfl, rfl⟩
    simp [listDelNodeNext, hn, hnone, hl]
  | cons h t =>
    have hsome : n.next = some h := hnn
    obtain ⟨hn', hhn⟩ := seg_allocated hpost (List.mem_cons_self h t)
    have hht : h ∉ t := (List.nodup_cons.mp hnd).1
    refine ⟨m.setNode h { hn' with prev := n.prev }, ?_,
      seg_set_before hpost hht hn' hhn n.prev, ?_, ?_, ⟨l, hl, rfl, ?_, rfl, rfl, rfl, rfl⟩,
      fun _ _ => rfl, rfl, rfl⟩
    · simp [listDelNodeNext, hn, hsome, setPrev_eq hhn]
    · intro q hq
      have : q ≠ h := fun e => hq (e ▸ List.mem_cons_self h t)
      simp [this]
    · intro q
      exact valueAt_setNode hhn { hn' with prev := n.prev } rfl q
    · rw [htail, lastOr_cons, lastOr_cons]

@[simp] theorem freeNode_nodes (m : Mem) (p q : Ptr) :
    (m.freeNode p).nodes q = if q = p then none else m.nodes q := by
  simp [Mem.freeNode, Function.update_apply]

@[simp] theorem freeNode_lists (m : Mem) (p : Ptr) : (m.freeNode p).lists = m.lists := rfl

@[simp] theorem freeNode_alloc (m : Mem) (p : Ptr) : (m.freeNode p).alloc = m.alloc := rfl

@[simp] theorem freeNode_freed (m : Mem) (p : Ptr) : (m.freeNode p).freed = m.freed := rfl

/-- Effect of `listDelNode` on a node of a well formed list: `pre` are the
nodes before it and `post` the nodes after it. -/
theorem listDelNode_spec {m : Mem} {lp node : Ptr} {pre post : List Ptr}
    (hwf : WF m lp (pre ++ node :: post)) :
    ∃ l n m', m.lists lp = some l ∧ m.nodes node = some n ∧
      listDelNode m lp node = some m' ∧ WF m' lp (pre ++ post) ∧
      (∀ q, q ≠ node → valueAt m' q = valueAt m q) ∧
      m'.nodes node = none ∧
      (∀ q, q ∉ pre ++ node :: post → m'.nodes q = m.nodes q) ∧
      (∀ q, q ≠ lp → m'.lists q = m.lists q) ∧ m'.alloc = m.alloc ∧
      m'.freed = m.freed ++ (match l.free with
        | some fn => [(fn, n.value)]
        | none => []) ∧
      (∃ l', m'.lists lp = some l' ∧ l'.len + 1 = l.len ∧ l'.dup = l.dup ∧
        l'.free = l.free ∧ l'.match_ = l.match_) ∧
      n.prev = lastOr pre none ∧ n.next = firstOr post none := by
  obtain ⟨l, hl, hhead, htail, hlen, hseg⟩ := hwf
  have hnd := seg_nodup hseg
  obtain ⟨hndpre, hndrest, hdisj⟩ := List.nodup_append.mp hnd
  have hnotpre : node ∉ pre := fun h => hdisj h (List.mem_cons_self _ _)
  have hnotpost : node ∉ post := (List.nodup_cons.mp hndrest).1
  have hndpost : post.Nodup := (List.nodup_cons.mp hndrest).2
  have hpp : ∀ q, q ∈ pre → q ∉ post := fun q h1 h2 => hdisj h1 (List.mem_cons_of_mem _ h2)
  obtain ⟨hpre, ⟨n, hn, hnp, hnn⟩, hpost⟩ := seg_append.mp hseg
  have hpre' : seg m none pre (some node) := hpre
  have hhead' : l.head = firstOr pre (some node) := by
    rw [hhead, head?_append_firstOr]
    rfl
  have htail' : l.tail = lastOr post (some node) := by
    rw [htail, getLast?_append_lastOr, lastOr_cons]
  -- node->prev->next = node->next, or list->head = node->next
  obtain ⟨m1, e1, s1, f1, v1, ⟨l1, hl1, a1, a2, a3, a4, a5, a6⟩, g1, c1, d1⟩ :=
    listDelNodePrev_spec hl hhead' hpre' hn hnp hnotpre
  have hn1 : m1.nodes node = some n := (f1 node hnotpre).trans hn
  have hpost1 : seg m1 (some node) post none :=
    seg_frame hpost (fun q hq => f1 q (fun h => hpp q h hq))
  -- node->next->prev = node->prev, or list->tail = node->prev
  obtain ⟨m2, e2, s2, f2, v2, ⟨l2, hl2, b1, b2, b3, b4, b5, b6⟩, g2, c2, d2⟩ :=
    listDelNodeNext_spec hl1 (a2.trans htail') hpost1 hn1 hnn hnotpost hndpost
  have hn2 : m2.nodes node = some n := (f2 node hnotpost).trans hn1
  have s1' : seg m2 none pre n.next := seg_frame s1 (fun q hq => f2 q (hpp q hq))
  have hlen2 : l2.len ≠ 0 := by
    rw [b3, a3, hlen]
    simp
  -- free, zfree, len--
  obtain ⟨m3, e3⟩ : ∃ m3, m3 = ((m2.callFree l2 n.value).freeNode node).setList lp
      { l2 with len := l2.len - 1 } := ⟨_, rfl⟩
  have hnodes3 : ∀ q, m3.nodes q = if q = node then none else m2.nodes q := by
    intro q
    rw [e3]
    simp
  have hlists3 : ∀ q, m3.lists q = if q = lp then some { l2 with len := l2.len - 1 }
      else m2.lists q := by
    intro q
    rw [e3]
    simp
  have hrun : listDelNode m lp node = some m3 := by
    simp only [listDelNode, e1, e2, Option.bind_eq_bind, Option.some_bind, listDelNodeFree,
      hl2, hn2, Option.pure_def, freeNode_lists, callFree_lists, if_neg hlen2]
    rw [e3]
  refine ⟨l, n, m3, hl, hn, hrun, ?_, ?_, ?_, ?_, ?_, ?_, ?_, ?_, hnp, hnn⟩
  · refine ⟨{ l2 with len := l2.len - 1 }, by rw [hlists3]; simp, ?_, ?_, ?_, ?_⟩
    · show l2.head = _
      rw [b1, a1, hnn, firstOr_none, head?_append_firstOr]
    · show l2.tail = _
      rw [b2, hnp, lastOr_none, getLast?_append_lastOr]
    · show l2.len - 1 = _
      rw [b3, a3, hlen]
      simp
    · rw [seg_append]
      constructor
      · refine seg_frame (hnn ▸ s1') ?_
        intro q hq
        have : q ≠ node := fun e => hnotpre (e ▸ hq)
        rw [hnodes3, if_neg this]
      · refine seg_frame (hnp ▸ s2) ?_
        intro q hq
        have : q ≠ node := fun e => hnotpost (e ▸ hq)
        rw [hnodes3, if_neg this]
  · intro q hq
    have e : valueAt m3 q = valueAt m2 q := by
      unfold valueAt
      rw [hnodes3, if_neg hq]
    rw [e, v2, v1]
  · rw [hnodes3]
    simp
  · intro q hq
    have hq1 : q ≠ node := fun e => hq (e ▸ List.mem_append_right pre (List.mem_cons_self _ _))
    have hq2 : q ∉ pre := fun h => hq (List.mem_append_left _ h)
    have hq3 : q ∉ post :=
      fun h => hq (List.mem_append_right pre (List.mem_cons_of_mem _ h))
    rw [hnodes3, if_neg hq1, f2 q hq3, f1 q hq2]
  · intro q hq
    rw [hlists3, if_neg hq, g2 q hq, g1 q hq]
  · rw [e3]
    simp only [setList_alloc, freeNode_alloc, callFree_alloc]
    rw [c2, c1]
  · rw [e3]
    show (m2.callFree l2 n.value).freed = _
    rw [callFree_freed, d2, d1, b5, a5]
  · exact ⟨{ l2 with len := l2.len - 1 }, by rw [hlists3]; simp,
      by
        show l2.len - 1 + 1 = l.len
        rw [← a3, ← b3]
        omega,
      b4.trans a4, b5.trans a5, b6.trans a6⟩

/-- C13: on a well formed list whose nodes are `pre ++ node :: post`,
`listDelNode(list, node)` removes exactly that node: the list is well formed
with nodes `pre ++ post` (the other nodes in their order, with their values),
`len` decreases by one, `head` becomes the successor of the node when it was
the head and `tail` its predecessor when it was the tail (both NULL when it
was the only node) and they are unchanged otherwise, the node is freed, and
the `free` method, when set, is called exactly once, on the value of the
node. -/
theorem listDelNode_removes (m : Mem) (lp node : Ptr) (pre post : List Ptr)
    (hwf : WF m lp (pre ++ node :: post)) :
    ∃ l n l' m', m.lists lp = some l ∧ m.nodes node = some n ∧
      listDelNode m lp node = some m' ∧ m'.lists lp = some l' ∧
      WF m' lp (pre ++ post) ∧
      listValues m' (pre ++ post) = listValues m (pre ++ post) ∧
      l'.len + 1 = l.len ∧
      (pre = [] → l'.head = n.next) ∧ (pre ≠ [] → l'.head = l.head) ∧
      (post = [] → l'.tail = n.prev) ∧ (post ≠ [] → l'.tail = l.tail) ∧
      (pre = [] → post = [] → l'.head = none ∧ l'.tail = none) ∧
      m'.nodes node = none ∧
      m'.freed = m.freed ++ (match l.free with
        | some fn => [(fn, n.value)]
        | none => []) := by
  obtain ⟨l, n, m', hl, hn, hrun, hwf', hv, hfree, _, _, _, hfreed, ⟨l', hl', hlen, _⟩,
    hnp, hnn⟩ := listDelNode_spec hwf
  obtain ⟨l0, hl0, hhead, htail, _, hseg⟩ := hwf
  rw [hl] at hl0
  cases hl0
  have hnd := seg_nodup hseg
  obtain ⟨_, hndrest, hdisj⟩ := List.nodup_append.mp hnd
  obtain ⟨l1, hl1, hhead1, htail1, _, _⟩ := id hwf'
  rw [hl'] at hl1
  cases hl1
  refine ⟨l, n, l', m', hl, hn, hrun, hl', hwf', ?_, hlen, ?_, ?_, ?_, ?_, ?_, hfree, hfreed⟩
  · apply List.map_congr_left
    intro q hq
    apply hv
    intro e
    subst e
    rcases List.mem_append.mp hq with h | h
    · exact hdisj h (List.mem_cons_self _ _)
    · exact (List.nodup_cons.mp hndrest).1 h
  · intro hp
    rw [hhead1, hp, hnn, firstOr_none]
    rfl
  · intro hp
    rw [hhead1, hhead, List.head?_append_of_ne_nil _ hp, List.head?_append_of_ne_nil _ hp]
  · intro hp
    rw [htail1, hp, hnp, lastOr_none, List.append_nil]
  · intro hp
    rw [htail1, htail, getLast?_append_lastOr, getLast?_append_lastOr, lastOr_cons]
    obtain ⟨x, hx⟩ : ∃ x, post.getLast? = some x := by
      cases hg : post.getLast? with
      | none => exact absurd (List.getLast?_eq_none_iff.mp hg) hp
      | some x => exact ⟨x, rfl⟩
    rw [lastOr_of_getLast hx, lastOr_of_getLast hx]
  · intro hp hq
    rw [hhead1, htail1, hp, hq]
    exact ⟨rfl, rfl⟩

theorem listDelNode_removes_witness :
    ∃ l n l' m', (threeListMem none (some 99) []).lists 1 = some l ∧
      (threeListMem none (some 99) []).nodes 11 = some n ∧
      listDelNode (threeListMem none (some 99) []) 1 11 = some m' ∧ m'.lists 1 = some l' ∧
      WF m' 1 ([10] ++ [12]) ∧
      listValues m' ([10] ++ [12]) = listValues (threeListMem none (some 99) []) ([10] ++ [12]) ∧
      l'.len + 1 = l.len ∧
      (([10] : List Ptr) = [] → l'.head = n.next) ∧ (([10] : List Ptr) ≠ [] → l'.head = l.head) ∧
      (([12] : List Ptr) = [] → l'.tail = n.prev) ∧ (([12] : List Ptr) ≠ [] → l'.tail = l.tail) ∧
      (([10] : List Ptr) = [] → ([12] : List Ptr) = [] → l'.head = none ∧ l'.tail = none) ∧
      m'.nodes 11 = none ∧
      m'.freed = (threeListMem none (some 99) []).freed ++ (match l.free with
        | some fn => [(fn, n.value)]
        | none => []) :=
  listDelNode_removes (threeListMem none (some 99) []) 1 11 [10] [12]
    (threeListMem_WF none (some 99) [])

theorem listInsertNodePrev_some {m : Mem} {node q : Ptr} {n qn : listNode}
    (hn : m.nodes node = some n) (hp : n.prev = some q) (hq : m.nodes q = some qn) :
    listInsertNodePrev m node = some (m.setNode q { qn with next := some node }) := by
  simp [listInsertNodePrev, hn, hp, setNext_eq hq]

theorem listInsertNodePrev_none {m : Mem} {node : Ptr} {n : listNode}
    (hn : m.nodes node = some n) (hp : n.prev = none) :
    listInsertNodePrev m node = some m := by
  simp [listInsertNodePrev, hn, hp]

theorem listInsertNodeNext_some {m : Mem} {node q : Ptr} {n qn : listNode}
    (hn : m.nodes node = some n) (hp : n.next = some q) (hq : m.nodes q = some qn) :
    listInsertNodeNext m node = some (m.setNode q { qn with prev := some node }) := by
  simp [listInsertNodeNext, hn, hp, setPrev_eq hq]

theorem listInsertNodeNext_none {m : Mem} {node : Ptr} {n : listNode}
    (hn : m.nodes node = some n) (hp : n.next = none) :
    listInsertNodeNext m node = some m := by
  simp [listInsertNodeNext, hn, hp]

/-- The last node of a non-empty list of distinct nodes that does not contain
`x` is not `x`. -/
theorem getLast?_ne_of_not_mem {xs : List Ptr} {x : Ptr} (h : x ∉ xs) :
    xs.getLast? ≠ some x := by
  intro e
  exact h (List.mem_of_getLast?_eq_some e)

theorem head?_ne_of_not_mem {xs : List Ptr} {x : Ptr} (h : x ∉ xs) :
    xs.head? ≠ some x := by
  intro e
  cases xs with
  | nil => cases e
  | cons y ys =>
    simp only [List.head?_cons, Option.some.injEq] at e
    exact h (e ▸ List.mem_cons_self _ _)

/-- Effect of a successful `listInsertNode` with `after` non zero on a well
formed list: the new node `p` follows `old`. -/
theorem listInsertNode_after_spec {m : Mem} {lp old p : Ptr} {pre post : List Ptr}
    {rest : List (Option Ptr)} (v : Val) (after : Int) (hafter : after ≠ 0)
    (hwf : WF m lp (pre ++ old :: post)) (halloc : m.alloc = some p :: rest)
    (hfresh : m.nodes p = none) :
    ∃ m', listInsertNode m lp old v after = some (some lp, m') ∧
      WF m' lp (pre ++ old :: p :: post) ∧
      valueAt m' p = v ∧ (∀ q, q ≠ p → valueAt m' q = valueAt m q) ∧
      m'.alloc = rest ∧ m'.freed = m.freed ∧
      (∀ q, q ≠ p → q ∉ pre ++ old :: post → m'.nodes q = m.nodes q) ∧
      (∀ q, q ≠ lp → m'.lists q = m.lists q) ∧
      (∃ l l', m.lists lp = some l ∧ m'.lists lp = some l' ∧ l'.len = l.len + 1 ∧
        l'.head = l.head ∧ l'.tail = (if post = [] then some p else l.tail) ∧
        l'.dup = l.dup ∧ l'.free = l.free ∧ l'.match_ = l.match_) := by
  obtain ⟨l, hl, hhead, htail, hlen, hseg⟩ := hwf
  have hnd := seg_nodup hseg
  obtain ⟨hndpre, hndrest, hdisj⟩ := List.nodup_append.mp hnd
  have holdpre : old ∉ pre := fun h => hdisj h (List.mem_cons_self _ _)
  have holdpost : old ∉ post := (List.nodup_cons.mp hndrest).1
  have hndpost : post.Nodup := (List.nodup_cons.mp hndrest).2
  have hpp : ∀ q, q ∈ pre → q ∉ post := fun q h1 h2 => hdisj h1 (List.mem_cons_of_mem _ h2)
  have hpn : ∀ q, q ∈ pre ++ old :: post → q ≠ p := by
    intro q hq e
    obtain ⟨n, hn⟩ := seg_allocated hseg hq
    rw [e, hfresh] at hn
    cases hn
  have holdp : old ≠ p := hpn old (List.mem_append_right pre (List.mem_cons_self _ _))
  obtain ⟨hpre, ⟨od, hon, honp, honn⟩, hpost⟩ := seg_append.mp hseg
  have hpre' : seg m none pre (some old) := hpre
  have htail' : l.tail = lastOr post (some old) := by
    rw [htail, getLast?_append_lastOr, lastOr_cons]
  have htailold : l.tail = some old ↔ post = [] := by
    rw [htail']
    constructor
    · intro h
      cases post with
      | nil => rfl
      | cons x xs =>
        exfalso
        rw [lastOr_cons] at h
        have hx : x ≠ old := fun e => holdpost (e ▸ List.mem_cons_self _ _)
        rcases List.eq_nil_or_concat xs with hxs | ⟨ys, y, hxs⟩
        · subst hxs
          simp [lastOr] at h
          exact hx h
        · rw [List.concat_eq_append] at hxs
          subst hxs
          rw [lastOr_snoc] at h
          have : y ≠ old :=
            fun e => holdpost (e ▸ List.mem_cons_of_mem _
              (List.mem_append_right ys (List.mem_singleton.mpr rfl)))
          exact this (Option.some.inj h)
    · intro h
      rw [h]
      rfl
  -- the statements of the branch `after`
  obtain ⟨l1, el1⟩ : ∃ l1 : list, l1 = if post = [] then { l with tail := some p } else l :=
    ⟨_, rfl⟩
  obtain ⟨m1, e1⟩ : ∃ m1, m1 = (({ m with alloc := rest } : Mem).setNode p
      { prev := some old, next := od.next, value := v }).setList lp l1 := ⟨_, rfl⟩
  have hlink : listInsertNodeLink { m with alloc := rest } lp old p v after = some m1 := by
    simp only [listInsertNodeLink, hon, hl, Option.bind_eq_bind, Option.some_bind,
      if_pos hafter, Option.pure_def]
    by_cases hp : post = []
    · rw [if_pos (htailold.mpr hp), e1, el1, if_pos hp]
    · rw [if_neg (fun h => hp (htailold.mp h)), e1, el1, if_neg hp]
      congr 1
      cases m
      simp only [Mem.setList, Mem.setNode, Mem.mk.injEq, true_and, and_true]
      funext q
      by_cases hq : q = lp
      · subst hq
        simpa using hl
      · simp [Function.update_apply, hq]
  have hnodes1 : ∀ q, m1.nodes q = if q = p
      then some { prev := some old, next := od.next, value := v } else m.nodes q := by
    intro q
    rw [e1]
    simp
  have hlists1 : ∀ q, m1.lists q = if q = lp then some l1 else m.lists q := by
    intro q
    rw [e1]
    simp
  -- node->prev->next = node
  obtain ⟨m2, e2⟩ : ∃ m2, m2 = m1.setNode old { od with next := some p } := ⟨_, rfl⟩
  have hp1 : m1.nodes p = some { prev := some old, next := od.next, value := v } := by
    rw [hnodes1]
    simp
  have hprev : listInsertNodePrev m1 p = some m2 := by
    rw [e2]
    exact listInsertNodePrev_some hp1 rfl (by rw [hnodes1, if_neg holdp]; exact hon)
  have hnodes2 : ∀ q, m2.nodes q = if q = old then some { od with next := some p }
      else m1.nodes q := by
    intro q
    rw [e2]
    simp
  have hp2 : m2.nodes p = some { prev := some old, next := od.next, value := v } := by
    rw [hnodes2, if_neg (Ne.symm holdp), hnodes1]
    simp
  -- node->next->prev = node
  have hnext : ∃ m3, listInsertNodeNext m2 p = some m3 ∧ seg m3 (some p) post none ∧
      (∀ q, q ∉ post → m3.nodes q = m2.nodes q) ∧ (∀ q, valueAt m3 q = valueAt m2 q) ∧
      m3.lists = m2.lists ∧ m3.alloc = m2.alloc ∧ m3.freed = m2.freed := by
    have hpost2 : seg m2 (some old) post none := by
      refine seg_frame hpost ?_
      intro q hq
      have h1 : q ≠ old := fun e => holdpost (e ▸ hq)
      have h2 : q ≠ p := hpn q (List.mem_append_right pre (List.mem_cons_of_mem _ hq))
      rw [hnodes2, if_neg h1, hnodes1, if_neg h2]
    cases hpost' : post with
    | nil =>
      refine ⟨m2, listInsertNodeNext_none hp2 ?_, trivial, fun _ _ => rfl, fun _ => rfl,
        rfl, rfl, rfl⟩
      show od.next = none
      rw [honn, hpost']
      rfl
    | cons h t =>
      rw [hpost'] at hpost2
      obtain ⟨hn, hhn⟩ := seg_allocated hpost2 (List.mem_cons_self h t)
      have hht : h ∉ t := (List.nodup_cons.mp (hpost' ▸ hndpost)).1
      refine ⟨m2.setNode h { hn with prev := some p },
        listInsertNodeNext_some hp2 ?_ hhn,
        seg_set_before hpost2 hht hn hhn (some p), ?_,
        fun q => valueAt_setNode hhn { hn with prev := some p } rfl q, rfl, rfl, rfl⟩
      · show od.next = some h
        rw [honn, hpost']
        rfl
      · intro q hq
        have : q ≠ h := fun e => hq (e ▸ List.mem_cons_self h t)
        simp [this]
  obtain ⟨m3, e3, s3, f3, v3, g3, c3, d3⟩ := hnext
  have hl3 : m3.lists lp = some l1 := by
    rw [g3, e2]
    show m1.lists lp = _
    rw [hlists1]
    simp
  refine ⟨m3.setList lp { l1 with len := l1.len + 1 }, ?_, ?_, ?_, ?_, ?_, ?_, ?_, ?_, ?_⟩
  · simp only [listInsertNode, zmalloc, halloc, hlink, hprev, e3, hl3, Option.bind_eq_bind,
      Option.some_bind, Option.pure_def]
  · refine ⟨{ l1 with len := l1.len + 1 }, by simp, ?_, ?_, ?_, ?_⟩
    · show l1.head = _
      have : l1.head = l.head := by
        rw [el1]
        split <;> rfl
      rw [this, hhead, head?_append_firstOr, head?_append_firstOr]
      rfl
    · show l1.tail = _
      rw [getLast?_append_lastOr, lastOr_cons, lastOr_cons, el1]
      by_cases hp : post = []
      · rw [if_pos hp, hp]
        rfl
      · rw [if_neg hp, htail']
        obtain ⟨x, hx⟩ : ∃ x, post.getLast? = some x := by
          cases hg : post.getLast? with
          | none => exact absurd (List.getLast?_eq_none_iff.mp hg) hp
          | some x => exact ⟨x, rfl⟩
        rw [lastOr_of_getLast hx, lastOr_of_getLast hx]
    · show l1.len + 1 = _
      have : l1.len = l.len := by
        rw [el1]
        split <;> rfl
      rw [this, hlen]
      simp only [List.length_append, List.length_cons]
      omega
    · have e : pre ++ old :: p :: post = (pre ++ [old]) ++ (p :: post) := by simp
      have e' : pre ++ old :: post = (pre ++ [old]) ++ post := by simp
      rw [e, seg_append, lastOr_snoc]
      rw [e', seg_append] at hseg
      obtain ⟨hA, _⟩ := hseg
      constructor
      · have hA1 : seg m1 none (pre ++ [old]) (firstOr post none) := by
          refine seg_frame hA ?_
          intro q hq
          have : q ≠ p := hpn q (by
            rcases List.mem_append.mp hq with h | h
            · exact List.mem_append_left _ h
            · rw [List.mem_singleton.mp h]
              exact List.mem_append_right pre (List.mem_cons_self _ _))
          rw [hnodes1, if_neg this]
        have hA2 := seg_set_after hA1 holdpre od
          (by rw [hnodes1, if_neg holdp]; exact hon) (some p)
        rw [← e2] at hA2
        refine seg_frame hA2 ?_
        intro q hq
        have hqpost : q ∉ post := by
          intro h
          rcases List.mem_append.mp hq with h' | h'
          · exact hpp q h' h
          · rw [List.mem_singleton.mp h'] at h
            exact holdpost h
        show m3.nodes q = _
        exact f3 q hqpost
      · refine ⟨⟨{ prev := some old, next := od.next, value := v }, ?_, rfl, ?_⟩,
          seg_frame s3 (fun _ _ => rfl)⟩
        · show m3.nodes p = _
          have hppost : p ∉ post :=
            fun h => hpn p (List.mem_append_right pre (List.mem_cons_of_mem _ h)) rfl
          rw [f3 p hppost]
          exact hp2
        · exact honn
  · show valueAt m3 p = v
    rw [v3]
    unfold valueAt
    rw [hp2]
  · intro q hq
    show valueAt m3 q = _
    have ho1 : m1.nodes old = some od := by
      rw [hnodes1, if_neg holdp]
      exact hon
    rw [v3, e2, valueAt_setNode ho1 { od with next := some p } rfl]
    unfold valueAt
    rw [hnodes1, if_neg hq]
  · show m3.alloc = rest
    rw [c3, e2, e1]
    rfl
  · show m3.freed = m.freed
    rw [d3, e2, e1]
    rfl
  · intro q hq hq'
    have h1 : q ∉ post := fun h => hq' (List.mem_append_right pre (List.mem_cons_of_mem _ h))
    have h2 : q ≠ old := fun e => hq' (e ▸ List.mem_append_right pre (List.mem_cons_self _ _))
    show m3.nodes q = _
    rw [f3 q h1, hnodes2, if_neg h2, hnodes1, if_neg hq]
  · intro q hq
    show (m3.setList lp _).lists q = _
    rw [setList_lists, if_neg hq, g3, e2]
    show m1.lists q = _
    rw [hlists1, if_neg hq]
  · refine ⟨l, { l1 with len := l1.len + 1 }, hl, by simp, ?_, ?_, ?_, ?_, ?_, ?_⟩
    · show l1.len + 1 = l.len + 1
      rw [el1]
      split <;> rfl
    · show l1.head = l.head
      rw [el1]
      split <;> rfl
    · show l1.tail = _
      rw [el1]
      split <;> rfl
    · show l1.dup = l.dup
      rw [el1]
      split <;> rfl
    · show l1.free = l.free
      rw [el1]
      split <;> rfl
    · show l1.match_ = l.match_
      rw [el1]
      split <;> rfl

/-- Effect of a successful `listInsertNode` with `after` zero on a well formed
list: the new node `p` precedes `old`. -/
theorem listInsertNode_before_spec {m : Mem} {lp old p : Ptr} {pre post : List Ptr}
    {rest : List (Option Ptr)} (v : Val)
    (hwf : WF m lp (pre ++ old :: post)) (halloc : m.alloc = some p :: rest)
    (hfresh : m.nodes p = none) :
    ∃ m', listInsertNode m lp old v 0 = some (some lp, m') ∧
      WF m' lp (pre ++ p :: old :: post) ∧
      valueAt m' p = v ∧ (∀ q, q ≠ p → valueAt m' q = valueAt m q) ∧
      m'.alloc = rest ∧ m'.freed = m.freed ∧
      (∀ q, q ≠ p → q ∉ pre ++ old :: post → m'.nodes q = m.nodes q) ∧
      (∀ q, q ≠ lp → m'.lists q = m.lists q) ∧
      (∃ l l', m.lists lp = some l ∧ m'.lists lp = some l' ∧ l'.len = l.len + 1 ∧
        l'.head = (if pre = [] then some p else l.head) ∧ l'.tail = l.tail ∧
        l'.dup = l.dup ∧ l'.free = l.free ∧ l'.match_ = l.match_) := by
  obtain ⟨l, hl, hhead, htail, hlen, hseg⟩ := hwf
  have hnd := seg_nodup hseg
  obtain ⟨hndpre, hndrest, hdisj⟩ := List.nodup_append.mp hnd
  have holdpre : old ∉ pre := fun h => hdisj h (List.mem_cons_self _ _)
  have holdpost : old ∉ post := (List.nodup_cons.mp hndrest).1
  have hpn : ∀ q, q ∈ pre ++ old :: post → q ≠ p := by
    intro q hq e
    obtain ⟨n, hn⟩ := seg_allocated hseg hq
    rw [e, hfresh] at hn
    cases hn
  have holdp : old ≠ p := hpn old (List.mem_append_right pre (List.mem_cons_self _ _))
  have hppre : p ∉ pre := fun h => hpn p (List.mem_append_left _ h) rfl
  obtain ⟨hpre, hrest⟩ := seg_append.mp hseg
  have hpre' : seg m none pre (some old) := hpre
  obtain ⟨⟨od, hon, honp, honn⟩, hpost⟩ := id hrest
  have hhead' : l.head = firstOr pre (some old) := by
    rw [hhead, head?_append_firstOr]
    rfl
  have hheadold : l.head = some old ↔ pre = [] := by
    rw [hhead']
    constructor
    · intro h
      cases pre with
      | nil => rfl
      | cons x xs =>
        exfalso
        rw [firstOr_cons] at h
        exact holdpre (Option.some.inj h ▸ List.mem_cons_self _ _)
    · intro h
      rw [h]
      rfl
  -- the statements of the branch `else`
  obtain ⟨l1, el1⟩ : ∃ l1 : list, l1 = if pre = [] then { l with head := some p } else l :=
    ⟨_, rfl⟩
  obtain ⟨m1, e1⟩ : ∃ m1, m1 = (({ m with alloc := rest } : Mem).setNode p
      { prev := od.prev, next := some old, value := v }).setList lp l1 := ⟨_, rfl⟩
  have hlink : listInsertNodeLink { m with alloc := rest } lp old p v 0 = some m1 := by
    simp only [listInsertNodeLink, hon, hl, Option.bind_eq_bind, Option.some_bind,
      ne_eq, not_true_eq_false, if_false, Option.pure_def]
    by_cases hp : pre = []
    · rw [if_pos (hheadold.mpr hp), e1, el1, if_pos hp]
    · rw [if_neg (fun h => hp (hheadold.mp h)), e1, el1, if_neg hp]
      congr 1
      cases m
      simp only [Mem.setList, Mem.setNode, Mem.mk.injEq, true_and, and_true]
      funext q
      by_cases hq : q = lp
      · subst hq
        simpa using hl
      · simp [Function.update_apply, hq]
  have hnodes1 : ∀ q, m1.nodes q = if q = p
      then some { prev := od.prev, next := some old, value := v } else m.nodes q := by
    intro q
    rw [e1]
    simp
  have hlists1 : ∀ q, m1.lists q = if q = lp then some l1 else m.lists q := by
    intro q
    rw [e1]
    simp
  have hp1 : m1.nodes p = some { prev := od.prev, next := some old, value := v } := by
    rw [hnodes1]
    simp
  -- node->prev->next = node
  have hprev : ∃ m2, listInsertNodePrev m1 p = some m2 ∧ seg m2 none pre (some p) ∧
      (∀ q, q ∉ pre → m2.nodes q = m1.nodes q) ∧ (∀ q, valueAt m2 q = valueAt m1 q) ∧
      m2.lists = m1.lists ∧ m2.alloc = m1.alloc ∧ m2.freed = m1.freed := by
    have hpre1 : seg m1 none pre (some old) := by
      refine seg_frame hpre' ?_
      intro q hq
      have h2 : q ≠ p := fun e => hppre (e ▸ hq)
      rw [hnodes1, if_neg h2]
    rcases List.eq_nil_or_concat pre with hx | ⟨ys, u, hx⟩
    · refine ⟨m1, listInsertNodePrev_none hp1 ?_, ?_, fun _ _ => rfl, fun _ => rfl,
        rfl, rfl, rfl⟩
      · show od.prev = none
        rw [honp, hx]
        rfl
      · rw [hx]
        trivial
    · rw [List.concat_eq_append] at hx
      have hu : pre.getLast? = some u := by
        rw [hx]
        simp
      obtain ⟨un, hun⟩ := seg_allocated hpre1 (List.mem_of_getLast?_eq_some hu)
      refine ⟨m1.setNode u { un with next := some p },
        listInsertNodePrev_some hp1 ?_ hun,
        seg_set_last hpre1 hndpre hu un hun (some p), ?_,
        fun q => valueAt_setNode hun { un with next := some p } rfl q, rfl, rfl, rfl⟩
      · show od.prev = some u
        rw [honp, hx, lastOr_snoc]
      · intro q hq
        have : q ≠ u := fun e => hq (e ▸ List.mem_of_getLast?_eq_some hu)
        simp [this]
  obtain ⟨m2, e2, s2, f2, v2, g2, c2, d2⟩ := hprev
  have hp2 : m2.nodes p = some { prev := od.prev, next := some old, value := v } := by
    rw [f2 p hppre]
    exact hp1
  have ho2 : m2.nodes old = some od := by
    rw [f2 old holdpre, hnodes1, if_neg holdp]
    exact hon
  -- node->next->prev = node
  obtain ⟨m3, e3⟩ : ∃ m3, m3 = m2.setNode old { od with prev := some p } := ⟨_, rfl⟩
  have hnext : listInsertNodeNext m2 p = some m3 := by
    rw [e3]
    exact listInsertNodeNext_some hp2 rfl ho2
  have hl3 : m3.lists lp = some l1 := by
    rw [e3]
    show m2.lists lp = _
    rw [g2, hlists1]
    simp
  have hl1 : l1.tail = l.tail ∧ l1.len = l.len ∧ l1.dup = l.dup ∧ l1.free = l.free ∧
      l1.match_ = l.match_ ∧ l1.head = (if pre = [] then some p else l.head) := by
    rw [el1]
    split <;> simp [*]
  obtain ⟨ht1, hn1, hd1, hf1, hm1, hh1⟩ := hl1
  refine ⟨m3.setList lp { l1 with len := l1.len + 1 }, ?_, ?_, ?_, ?_, ?_, ?_, ?_, ?_, ?_⟩
  · simp only [listInsertNode, zmalloc, halloc, hlink, e2, hnext, hl3, Option.bind_eq_bind,
      Option.some_bind, Option.pure_def]
  · refine ⟨{ l1 with len := l1.len + 1 }, by simp, ?_, ?_, ?_, ?_⟩
    · show l1.head = _
      rw [hh1, head?_append_firstOr]
      by_cases hp : pre = []
      · rw [if_pos hp, hp]
        rfl
      · rw [if_neg hp, hhead']
        cases pre with
        | nil => exact absurd rfl hp
        | cons x xs => rfl
    · show l1.tail = _
      rw [ht1, htail, getLast?_append_lastOr, getLast?_append_lastOr, lastOr_cons,
        lastOr_cons, lastOr_cons]
    · show l1.len + 1 = _
      rw [hn1, hlen]
      simp only [List.length_append, List.length_cons]
      omega
    · rw [seg_append]
      constructor
      · refine seg_frame s2 ?_
        intro q hq
        have : q ≠ old := fun e => holdpre (e ▸ hq)
        show m3.nodes q = _
        rw [e3]
        simp [this]
      · refine ⟨⟨{ prev := od.prev, next := some old, value := v }, ?_, honp, rfl⟩, ?_⟩
        · show m3.nodes p = _
          rw [e3]
          simp only [setNode_nodes, if_neg (Ne.symm holdp)]
          exact hp2
        · have hrest2 : seg m2 (lastOr pre none) (old :: post) none := by
            refine seg_frame hrest ?_
            intro q hq
            have h1 : q ∉ pre := fun h => hdisj h hq
            have h2 : q ≠ p := hpn q (List.mem_append_right pre hq)
            rw [f2 q h1, hnodes1, if_neg h2]
          have := seg_set_before hrest2 holdpost od ho2 (some p)
          rw [← e3] at this
          exact seg_frame this (fun _ _ => rfl)
  · show valueAt m3 p = v
    rw [e3]
    unfold valueAt
    simp only [setNode_nodes, if_neg (Ne.symm holdp)]
    rw [hp2]
  · intro q hq
    show valueAt m3 q = _
    rw [e3, valueAt_setNode ho2 { od with prev := some p } rfl, v2]
    unfold valueAt
    rw [hnodes1, if_neg hq]
  · show m3.alloc = rest
    rw [e3]
    show m2.alloc = rest
    rw [c2, e1]
    rfl
  · show m3.freed = m.freed
    rw [e3]
    show m2.freed = m.freed
    rw [d2, e1]
    rfl
  · intro q hq hq'
    have h1 : q ∉ pre := fun h => hq' (List.mem_append_left _ h)
    have h2 : q ≠ old := fun e => hq' (e ▸ List.mem_append_right pre (List.mem_cons_self _ _))
    show m3.nodes q = _
    rw [e3]
    simp only [setNode_nodes, if_neg h2]
    rw [f2 q h1, hnodes1, if_neg hq]
  · intro q hq
    show (m3.setList lp _).lists q = _
    rw [setList_lists, if_neg hq, e3]
    show m2.lists q = _
    rw [g2, hlists1, if_neg hq]
  · exact ⟨l, { l1 with len := l1.len + 1 }, hl, by simp, by show l1.len + 1 = _; rw [hn1],
      hh1, ht1, hd1, hf1, hm1⟩

/-- In a well formed list the node `old` is the tail exactly when no node
follows it, and the head exactly when no node precedes it. -/
theorem WF_tail_head_iff {m : Mem} {lp old : Ptr} {pre post : List Ptr} {l : list}
    (hwf : WF m lp (pre ++ old :: post)) (hl : m.lists lp = some l) :
    (l.tail = some old ↔ post = []) ∧ (l.head = some old ↔ pre = []) := by
  obtain ⟨l0, hl0, hhead, htail, _, hseg⟩ := hwf
  rw [hl] at hl0
  cases hl0
  have hnd := seg_nodup hseg
  obtain ⟨_, hndrest, hdisj⟩ := List.nodup_append.mp hnd
  have holdpre : old ∉ pre := fun h => hdisj h (List.mem_cons_self _ _)
  have holdpost : old ∉ post := (List.nodup_cons.mp hndrest).1
  constructor
  · rw [htail, getLast?_append_lastOr, lastOr_cons]
    constructor
    · intro h
      cases hg : post.getLast? with
      | none => exact List.getLast?_eq_none_iff.mp hg
      | some x =>
        rw [lastOr_of_getLast hg] at h
        exact absurd (Option.some.inj h ▸ List.mem_of_getLast?_eq_some hg) holdpost
    · intro h
      rw [h]
      rfl
  · rw [hhead, head?_append_firstOr]
    constructor
    · intro h
      cases pre with
      | nil => rfl
      | cons x xs =>
        rw [firstOr_cons] at h
        exact absurd (Option.some.inj h ▸ List.mem_cons_self _ _) holdpre
    · intro h
      rw [h]
      rfl

/-- C14: on a well formed list with node sequence `ps`, for a node `old` of the
list and a successful allocation of a fresh node `p`, `listInsertNode` returns
the list and leaves a well formed list in which `p`, holding `v`, stands
immediately after `old` when `after` is non zero and immediately before `old`
when `after` is zero; the other nodes keep their order and their values, `len`
grows by exactly one, `p` becomes the tail when inserted after the tail and the
head when inserted before the head, and `head`, `tail` are otherwise
unchanged. -/
theorem listInsertNode_places {m : Mem} {lp old p : Ptr} {ps : List Ptr}
    {rest : List (Option Ptr)} (v : Val) (after : Int)
    (hwf : WF m lp ps) (hold : old ∈ ps) (halloc : m.alloc = some p :: rest)
    (hfresh : m.nodes p = none) :
    ∃ pre post l m' l', ps = pre ++ old :: post ∧ m.lists lp = some l ∧
      listInsertNode m lp old v after = some (some lp, m') ∧ m'.lists lp = some l' ∧
      WF m' lp (if after ≠ 0 then pre ++ old :: p :: post else pre ++ p :: old :: post) ∧
      p ∉ ps ∧ valueAt m' p = v ∧ (∀ q ∈ ps, valueAt m' q = valueAt m q) ∧
      l'.len = l.len + 1 ∧
      l'.tail = (if after ≠ 0 ∧ l.tail = some old then some p else l.tail) ∧
      l'.head = (if after = 0 ∧ l.head = some old then some p else l.head) ∧
      l'.dup = l.dup ∧ l'.free = l.free ∧ l'.match_ = l.match_ := by
  obtain ⟨pre, post, hps⟩ := List.append_of_mem hold
  subst hps
  have hpn : p ∉ pre ++ old :: post := by
    intro hq
    obtain ⟨l, _, _, _, _, hseg⟩ := hwf
    obtain ⟨n, hn⟩ := seg_allocated hseg hq
    rw [hfresh] at hn
    cases hn
  have hne : ∀ q ∈ pre ++ old :: post, q ≠ p := fun q hq e => hpn (e ▸ hq)
  by_cases ha : after ≠ 0
  · obtain ⟨m', hr, hwf', hv, hvs, _, _, _, _, l, l', hl, hl', hlen, hh, ht, hd, hf, hm⟩ :=
      listInsertNode_after_spec v after ha hwf halloc hfresh
    obtain ⟨htl, _⟩ := WF_tail_head_iff hwf hl
    refine ⟨pre, post, l, m', l', rfl, hl, hr, hl', ?_, hpn, hv,
      fun q hq => hvs q (hne q hq), hlen, ?_, ?_, hd, hf, hm⟩
    · rw [if_pos ha]
      exact hwf'
    · rw [ht]
      by_cases hp : post = []
      · rw [if_pos hp, if_pos ⟨ha, htl.mpr hp⟩]
      · rw [if_neg hp, if_neg (fun h => hp (htl.mp h.2))]
    · rw [hh, if_neg (fun h => ha h.1)]
  · have ha0 : after = 0 := not_not.mp ha
    subst ha0
    obtain ⟨m', hr, hwf', hv, hvs, _, _, _, _, l, l', hl, hl', hlen, hh, ht, hd, hf, hm⟩ :=
      listInsertNode_before_spec v hwf halloc hfresh
    obtain ⟨_, hhd⟩ := WF_tail_head_iff hwf hl
    refine ⟨pre, post, l, m', l', rfl, hl, hr, hl', ?_, hpn, hv,
      fun q hq => hvs q (hne q hq), hlen, ?_, ?_, hd, hf, hm⟩
    · rw [if_neg ha]
      exact hwf'
    · rw [ht, if_neg (fun h => ha h.1)]
    · rw [hh]
      by_cases hp : pre = []
      · rw [if_pos hp, if_pos ⟨rfl, hhd.mpr hp⟩]
      · rw [if_neg hp, if_neg (fun h => hp (hhd.mp h.2))]

theorem listInsertNode_places_witness :
    WF (threeListMem none none [some 20]) 1 [10, 11, 12] ∧
    ∃ pre post l m' l', [10, 11, 12] = pre ++ 11 :: post ∧
      (threeListMem none none [some 20]).lists 1 = some l ∧
      listInsertNode (threeListMem none none [some 20]) 1 11 42 1 = some (some 1, m') ∧
      m'.lists 1 = some l' ∧
      WF m' 1 (if (1 : Int) ≠ 0 then pre ++ 11 :: 20 :: post else pre ++ 20 :: 11 :: post) ∧
      20 ∉ [10, 11, 12] ∧ valueAt m' 20 = 42 ∧
      (∀ q ∈ [10, 11, 12], valueAt m' q = valueAt (threeListMem none none [some 20]) q) ∧
      l'.len = l.len + 1 ∧
      l'.tail = (if (1 : Int) ≠ 0 ∧ l.tail = some 11 then some 20 else l.tail) ∧
      l'.head = (if (1 : Int) = 0 ∧ l.head = some 11 then some 20 else l.head) ∧
      l'.dup = l.dup ∧ l'.free = l.free ∧ l'.match_ = l.match_ :=
  ⟨threeListMem_WF none none _,
    listInsertNode_places 42 1 (threeListMem_WF none none _) (by decide) rfl rfl⟩

theorem listNext_forward {m : Mem} {c : Ptr} {cn : listNode} (h : m.nodes c = some cn) :
    listNext m { next := some c, direction := AL_START_HEAD } =
      some (some c, { next := cn.next, direction := AL_START_HEAD }) := by
  simp [listNext, h]

theorem listNext_backward {m : Mem} {c : Ptr} {cn : listNode} {d : Int}
    (h : m.nodes c = some cn) (hd : d ≠ AL_START_HEAD) :
    listNext m { next := some c, direction := d } =
      some (some c, { next := cn.prev, direction := d }) := by
  simp [listNext, h, hd]

/-- Once the iterator is at NULL every call of `listNext` returns NULL. -/
theorem listNextTimes_none (m : Mem) (d : Int) (k : Nat) :
    listNextTimes m k { next := none, direction := d } =
      some (List.replicate k none, { next := none, direction := d }) := by
  induction k with
  | zero => rfl
  | succ k ih =>
    simp only [listNextTimes, listNext, Option.bind_eq_bind, Option.some_bind, ih,
      Option.pure_def, List.replicate_succ]

/-- Calling `listNext` `a + b` times is calling it `a` times and then `b`
times. -/
theorem listNextTimes_add (m : Mem) (a b : Nat) (it : listIter) :
    listNextTimes m (a + b) it =
      (listNextTimes m a it).bind (fun r1 =>
        (listNextTimes m b r1.2).bind (fun r2 => some (r1.1 ++ r2.1, r2.2))) := by
  induction a generalizing it with
  | zero =>
    simp only [Nat.zero_add, listNextTimes, Option.some_bind, List.nil_append]
    cases listNextTimes m b it <;> rfl
  | succ a ih =>
    rw [Nat.succ_add]
    simp only [listNextTimes, Option.bind_eq_bind, Option.pure_def]
    cases h : listNext m it with
    | none => rfl
    | some nx =>
      simp only [Option.some_bind, ih]
      cases listNextTimes m a nx.2 with
      | none => rfl
      | some r1 =>
        simp only [Option.some_bind]
        cases listNextTimes m b r1.2 with
        | none => rfl
        | some r2 => simp

/-- Forward traversal of a segment: as many calls of `listNext` as there are
nodes return the nodes in order and leave the iterator at the successor of the
segment. -/
theorem listNextTimes_forward {m : Mem} {ps : List Ptr} {b a : Option Ptr}
    (hs : seg m b ps a) :
    listNextTimes m ps.length { next := firstOr ps a, direction := AL_START_HEAD } =
      some (ps.map some, { next := a, direction := AL_START_HEAD }) := by
  induction ps generalizing b with
  | nil => rfl
  | cons x xs ih =>
    obtain ⟨⟨n, hn, _, hnx⟩, hrest⟩ := hs
    simp only [List.length_cons, listNextTimes, firstOr_cons, listNext_forward hn,
      Option.bind_eq_bind, Option.some_bind, hnx, ih hrest, Option.pure_def, List.map_cons]

/-- Backward traversal of a segment: as many calls of `listNext` as there are
nodes return the nodes in reverse order and leave the iterator at the
predecessor of the segment. -/
theorem listNextTimes_backward {m : Mem} {d : Int} (hd : d ≠ AL_START_HEAD) (n : Nat) :
    ∀ (ps : List Ptr) (b a : Option Ptr), ps.length = n → seg m b ps a →
    listNextTimes m ps.length { next := lastOr ps b, direction := d } =
      some (ps.reverse.map some, { next := b, direction := d }) := by
  induction n with
  | zero =>
    intro ps b a hlen _
    rw [List.length_eq_zero.mp hlen]
    rfl
  | succ n ih =>
    intro ps b a hlen hs
    rcases List.eq_nil_or_concat ps with hx | ⟨xs, t, hx⟩
    · rw [hx] at hlen
      cases hlen
    · rw [List.concat_eq_append] at hx
      subst hx
      have hlen' : xs.length = n := by
        simp only [List.length_append, List.length_cons, List.length_nil] at hlen
        omega
      obtain ⟨h1, ⟨tn, htn, htp, _⟩, _⟩ := seg_append.mp hs
      have h1' : seg m b xs (some t) := h1
      simp only [List.length_append, List.length_cons, List.length_nil, Nat.zero_add,
        listNextTimes, lastOr_snoc, listNext_backward htn hd, Option.bind_eq_bind,
        Option.some_bind, htp, ih xs b (some t) hlen' h1', Option.pure_def,
        List.reverse_append, List.reverse_cons, List.reverse_nil, List.nil_append,
        List.singleton_append, List.map_cons]

/-- A run of `listNext` calls reads the nodes only. -/
theorem listNextTimes_congr {m m' : Mem} (h : m'.nodes = m.nodes) (n : Nat) (it : listIter) :
    listNextTimes m' n it = listNextTimes m n it := by
  induction n generalizing it with
  | zero => rfl
  | succ n ih =>
    have e : listNext m' it = listNext m it := by
      unfold listNext
      rw [h]
    simp only [listNextTimes, e, ih]

/-- A run of `listNext` calls that has a result has a result at every earlier
call. -/
theorem listNextTimes_prefix {m : Mem} {a b : Nat} {it : listIter}
    {r : List (Option Ptr) × listIter} (h : listNextTimes m (a + b) it = some r) :
    ∃ r1, listNextTimes m a it = some r1 := by
  rw [listNextTimes_add] at h
  cases h1 : listNextTimes m a it with
  | none =>
    rw [h1] at h
    cases h
  | some r1 => exact ⟨r1, rfl⟩

/-- Forward and backward traversals of a well formed list, followed by `k`
further calls of `listNext`. -/
theorem listNextTimes_WF {m : Mem} {lp : Ptr} {ps : List Ptr} (hwf : WF m lp ps) (k : Nat) :
    listNextTimes m (ps.length + k) { next := ps.head?, direction := AL_START_HEAD } =
      some (ps.map some ++ List.replicate k none,
        { next := none, direction := AL_START_HEAD }) ∧
    listNextTimes m (ps.length + k) { next := ps.getLast?, direction := AL_START_TAIL } =
      some ((ps.map some).reverse ++ List.replicate k none,
        { next := none, direction := AL_START_TAIL }) := by
  obtain ⟨l, _, _, _, _, hseg⟩ := hwf
  have hf := listNextTimes_forward hseg
  have hb := listNextTimes_backward (by decide : AL_START_TAIL ≠ AL_START_HEAD) ps.length
    ps none none rfl hseg
  rw [firstOr_none] at hf
  rw [lastOr_none] at hb
  constructor
  · rw [listNextTimes_add, hf]
    simp only [Option.some_bind, listNextTimes_none]
  · rw [listNextTimes_add, hb]
    simp only [Option.some_bind, listNextTimes_none, List.map_reverse]

/-- C15: for a well formed list with node sequence `ps` of length `n`,
`listRewind` (and `listGetIterator` with `AL_START_HEAD`, its allocation
succeeding) gives an iterator on which `n` calls of `listNext` return the nodes
from head to tail and the `k` further calls return NULL; `listRewindTail` (and
`listGetIterator` with `AL_START_TAIL`) gives an iterator on which `n` calls
return the nodes from tail to head, the reverse of the forward sequence, and
then NULL.  The rewinding functions overwrite both fields of the iterator:
after any number `j` of `listNext` calls the rewound iterator is the same
starting iterator. -/
theorem listNext_traversal {m : Mem} {lp : Ptr} {ps : List Ptr} (hwf : WF m lp ps)
    (k j : Nat) :
    listRewind m lp = some { next := ps.head?, direction := AL_START_HEAD } ∧
    listRewindTail m lp = some { next := ps.getLast?, direction := AL_START_TAIL } ∧
    listNextTimes m (ps.length + k) { next := ps.head?, direction := AL_START_HEAD } =
      some (ps.map some ++ List.replicate k none,
        { next := none, direction := AL_START_HEAD }) ∧
    listNextTimes m (ps.length + k) { next := ps.getLast?, direction := AL_START_TAIL } =
      some ((ps.map some).reverse ++ List.replicate k none,
        { next := none, direction := AL_START_TAIL }) ∧
    (∀ a rest, m.alloc = some a :: rest →
      ∃ m', listGetIterator m lp AL_START_HEAD =
          some (some { next := ps.head?, direction := AL_START_HEAD }, m') ∧
        listGetIterator m lp AL_START_TAIL =
          some (some { next := ps.getLast?, direction := AL_START_TAIL }, m') ∧
        WF m' lp ps ∧
        listNextTimes m' (ps.length + k) { next := ps.head?, direction := AL_START_HEAD } =
          some (ps.map some ++ List.replicate k none,
            { next := none, direction := AL_START_HEAD }) ∧
        listNextTimes m' (ps.length + k) { next := ps.getLast?, direction := AL_START_TAIL } =
          some ((ps.map some).reverse ++ List.replicate k none,
            { next := none, direction := AL_START_TAIL })) ∧
    (∃ r, listNextTimes m j { next := ps.head?, direction := AL_START_HEAD } = some r ∧
      (listNextTimes m j { next := ps.head?, direction := AL_START_HEAD }).bind
          (fun _ => listRewind m lp) =
        some { next := ps.head?, direction := AL_START_HEAD } ∧
      (listNextTimes m j { next := ps.head?, direction := AL_START_HEAD }).bind
          (fun _ => listRewindTail m lp) =
        some { next := ps.getLast?, direction := AL_START_TAIL }) ∧
    (∃ r, listNextTimes m j { next := ps.getLast?, direction := AL_START_TAIL } = some r ∧
      (listNextTimes m j { next := ps.getLast?, direction := AL_START_TAIL }).bind
          (fun _ => listRewindTail m lp) =
        some { next := ps.getLast?, direction := AL_START_TAIL } ∧
      (listNextTimes m j { next := ps.getLast?, direction := AL_START_TAIL }).bind
          (fun _ => listRewind m lp) =
        some { next := ps.head?, direction := AL_START_HEAD }) := by
  have hwf0 := hwf
  obtain ⟨l, hl, hhead, htail, hlen, hseg⟩ := hwf
  have hrw : listRewind m lp = some { next := ps.head?, direction := AL_START_HEAD } := by
    simp [listRewind, hl, hhead]
  have hrt : listRewindTail m lp =
      some { next := ps.getLast?, direction := AL_START_TAIL } := by
    simp [listRewindTail, hl, htail]
  obtain ⟨hf, hb⟩ := listNextTimes_WF hwf0 k
  refine ⟨hrw, hrt, hf, hb, ?_, ?_, ?_⟩
  · intro a rest halloc
    have hwf' : WF { m with alloc := rest } lp ps := WF_frame hwf0 rfl (fun _ _ => rfl)
    refine ⟨{ m with alloc := rest }, ?_, ?_, hwf', ?_, ?_⟩
    · simp [listGetIterator, zmalloc, halloc, hl, hhead]
    · simp [listGetIterator, zmalloc, halloc, hl, htail, AL_START_TAIL, AL_START_HEAD]
    · have e : ({ m with alloc := rest } : Mem).nodes = m.nodes := rfl
      rw [listNextTimes_congr e]
      exact hf
    · have e : ({ m with alloc := rest } : Mem).nodes = m.nodes := rfl
      rw [listNextTimes_congr e]
      exact hb
  · obtain ⟨hfj, _⟩ := listNextTimes_WF hwf0 j
    rw [Nat.add_comm] at hfj
    obtain ⟨r, hr⟩ := listNextTimes_prefix hfj
    exact ⟨r, hr, by rw [hr]; exact hrw, by rw [hr]; exact hrt⟩
  · obtain ⟨_, hbj⟩ := listNextTimes_WF hwf0 j
    rw [Nat.add_comm] at hbj
    obtain ⟨r, hr⟩ := listNextTimes_prefix hbj
    exact ⟨r, hr, by rw [hr]; exact hrt, by rw [hr]; exact hrw⟩

theorem listNext_traversal_witness :
    WF (threeListMem none none []) 1 [10, 11, 12] ∧
    listRewind (threeListMem none none []) 1 =
      some { next := some 10, direction := AL_START_HEAD } ∧
    listRewindTail (threeListMem none none []) 1 =
      some { next := some 12, direction := AL_START_TAIL } ∧
    listNextTimes (threeListMem none none []) 5 { next := some 10, direction := AL_START_HEAD } =
      some ([some 10, some 11, some 12, none, none],
        { next := none, direction := AL_START_HEAD }) ∧
    listNextTimes (threeListMem none none []) 5 { next := some 12, direction := AL_START_TAIL } =
      some ([some 12, some 11, some 10, none, none],
        { next := none, direction := AL_START_TAIL }) :=
  ⟨threeListMem_WF none none _,
    (listNext_traversal (threeListMem_WF none none []) 2 1).1,
    (listNext_traversal (threeListMem_WF none none []) 2 1).2.1,
    (listNext_traversal (threeListMem_WF none none []) 2 1).2.2.1,
    (listNext_traversal (threeListMem_WF none none []) 2 1).2.2.2.1⟩

/-- Forward traversal with deletions.  Invariant of the loop: the list is
`kept ++ rem`, where `rem` are the nodes still to visit and the iterator is at
the first of them. -/
theorem listTraverseDel_forward (chosen : Ptr → Bool) (rem : List Ptr) :
    ∀ (kept : List Ptr) (m : Mem) (lp : Ptr) (fuel : Nat),
      WF m lp (kept ++ rem) → rem.length < fuel →
      ∃ m', listTraverseDel chosen fuel m lp
            { next := rem.head?, direction := AL_START_HEAD } = some (rem, m') ∧
        WF m' lp (kept ++ rem.filter (fun p => !chosen p)) ∧
        (∀ q, (q ∈ rem → chosen q = false) → valueAt m' q = valueAt m q) ∧
        (∀ q, q ∉ kept ++ rem → m'.nodes q = m.nodes q) ∧
        (∀ q, q ∈ rem → chosen q = true → m'.nodes q = none) ∧
        (∀ q, q ≠ lp → m'.lists q = m.lists q) := by
  induction rem with
  | nil =>
    intro kept m lp fuel hwf hfuel
    obtain ⟨f, rfl⟩ : ∃ f, fuel = f + 1 := ⟨fuel - 1, by simp at hfuel; omega⟩
    refine ⟨m, ?_, by simpa using hwf, fun _ _ => rfl, fun _ _ => rfl, ?_, fun _ _ => rfl⟩
    · simp [listTraverseDel, listNext]
    · intro q hq
      cases hq
  | cons x xs ih =>
    intro kept m lp fuel hwf hfuel
    obtain ⟨f, rfl⟩ : ∃ f, fuel = f + 1 := ⟨fuel - 1, by simp at hfuel; omega⟩
    have hf : xs.length < f := by
      simp only [List.length_cons] at hfuel
      omega
    have hseg := hwf.choose_spec.2.2.2.2
    have hnd := seg_nodup hseg
    obtain ⟨_, hndrest, hdisj⟩ := List.nodup_append.mp hnd
    have hxxs : x ∉ xs := (List.nodup_cons.mp hndrest).1
    obtain ⟨_, ⟨n, hn, _, hnn⟩, _⟩ := seg_append.mp hseg
    have hnn' : n.next = xs.head? := by
      rw [hnn]
      exact firstOr_none xs
    by_cases hc : chosen x = true
    · obtain ⟨l, n', m1, _, _, hdel, hwf1, hv1, hx1, hfr1, hl1, _⟩ := listDelNode_spec hwf
      obtain ⟨m', hrun, hwf', hv', hfr', hdel', hl'⟩ := ih kept m1 lp f hwf1 hf
      refine ⟨m', ?_, ?_, ?_, ?_, ?_, ?_⟩
      · simp only [listTraverseDel, List.head?_cons, listNext_forward hn, hnn',
          Option.bind_eq_bind, Option.some_bind, hc, if_true, hdel, hrun, Option.pure_def]
      · simpa [List.filter_cons, hc] using hwf'
      · intro q hq
        have hqx : q ≠ x := by
          intro e
          have := hq (e ▸ List.mem_cons_self _ _)
          rw [e, hc] at this
          cases this
        rw [hv' q (fun h => hq (List.mem_cons_of_mem _ h)), hv1 q hqx]
      · intro q hq
        have h1 : q ∉ kept ++ xs := by
          intro h
          rcases List.mem_append.mp h with h | h
          · exact hq (List.mem_append_left _ h)
          · exact hq (List.mem_append_right _ (List.mem_cons_of_mem _ h))
        rw [hfr' q h1, hfr1 q hq]
      · intro q hq hcq
        rcases List.mem_cons.mp hq with e | h
        · have hxn : x ∉ kept ++ xs := by
            intro h
            rcases List.mem_append.mp h with h | h
            · exact hdisj h (List.mem_cons_self _ _)
            · exact hxxs h
          rw [e, hfr' x hxn]
          exact hx1
        · exact hdel' q h hcq
      · intro q hq
        rw [hl' q hq, hl1 q hq]
    · have hc' : chosen x = false := by
        cases h : chosen x
        · rfl
        · exact absurd h hc
      have hwf1 : WF m lp ((kept ++ [x]) ++ xs) := by simpa using hwf
      obtain ⟨m', hrun, hwf', hv', hfr', hdel', hl'⟩ := ih (kept ++ [x]) m lp f hwf1 hf
      refine ⟨m', ?_, ?_, ?_, ?_, ?_, hl'⟩
      · simp only [listTraverseDel, List.head?_cons, listNext_forward hn, hnn',
          Option.bind_eq_bind, Option.some_bind, hc', Bool.false_eq_true, if_false, hrun,
          Option.pure_def]
      · simpa [List.filter_cons, hc'] using hwf'
      · intro q hq
        exact hv' q (fun h => hq (List.mem_cons_of_mem _ h))
      · intro q hq
        exact hfr' q (by simpa using hq)
      · intro q hq hcq
        rcases List.mem_cons.mp hq with e | h
        · rw [e, hc'] at hcq
          cases hcq
        · exact hdel' q h hcq

/-- Backward traversal with deletions.  Invariant of the loop: the list is
`rem ++ kept`, where `rem` are the nodes still to visit and the iterator is at
the last of them. -/
theorem listTraverseDel_backward (chosen : Ptr → Bool) {d : Int} (hd : d ≠ AL_START_HEAD)
    (k : Nat) :
    ∀ (rem kept : List Ptr) (m : Mem) (lp : Ptr) (fuel : Nat), rem.length = k →
      WF m lp (rem ++ kept) → rem.length < fuel →
      ∃ m', listTraverseDel chosen fuel m lp
            { next := rem.getLast?, direction := d } = some (rem.reverse, m') ∧
        WF m' lp (rem.filter (fun p => !chosen p) ++ kept) ∧
        (∀ q, (q ∈ rem → chosen q = false) → valueAt m' q = valueAt m q) ∧
        (∀ q, q ∉ rem ++ kept → m'.nodes q = m.nodes q) ∧
        (∀ q, q ∈ rem → chosen q = true → m'.nodes q = none) ∧
        (∀ q, q ≠ lp → m'.lists q = m.lists q) := by
  induction k with
  | zero =>
    intro rem kept m lp fuel hlen hwf hfuel
    have hrem := List.length_eq_zero.mp hlen
    subst hrem
    obtain ⟨f, rfl⟩ : ∃ f, fuel = f + 1 := ⟨fuel - 1, by simp at hfuel; omega⟩
    refine ⟨m, ?_, by simpa using hwf, fun _ _ => rfl, fun _ _ => rfl, ?_, fun _ _ => rfl⟩
    · simp [listTraverseDel, listNext]
    · intro q hq
      cases hq
  | succ k ih =>
    intro rem kept m lp fuel hlen hwf hfuel
    rcases List.eq_nil_or_concat rem with hx | ⟨xs, x, hx⟩
    · rw [hx] at hlen
      cases hlen
    rw [List.concat_eq_append] at hx
    subst hx
    have hlen' : xs.length = k := by
      simp only [List.length_append, List.length_cons, List.length_nil] at hlen
      omega
    obtain ⟨f, rfl⟩ : ∃ f, fuel = f + 1 := ⟨fuel - 1, by simp at hfuel; omega⟩
    have hf : xs.length < f := by
      simp only [List.length_append, List.length_cons, List.length_nil] at hfuel
      omega
    have hwf0 : WF m lp (xs ++ x :: kept) := by simpa using hwf
    have hseg := hwf0.choose_spec.2.2.2.2
    have hnd := seg_nodup hseg
    obtain ⟨_, hndrest, hdisj⟩ := List.nodup_append.mp hnd
    have hxk : x ∉ kept := (List.nodup_cons.mp hndrest).1
    have hxxs : x ∉ xs := fun h => hdisj h (List.mem_cons_self _ _)
    obtain ⟨_, ⟨n, hn, hnp, _⟩, _⟩ := seg_append.mp hseg
    have hnp' : n.prev = xs.getLast? := by
      rw [hnp]
      exact lastOr_none xs
    have hlast : (xs ++ [x]).getLast? = some x := by simp
    by_cases hc : chosen x = true
    · obtain ⟨l, n', m1, _, _, hdel, hwf1, hv1, hx1, hfr1, hl1, _⟩ := listDelNode_spec hwf0
      obtain ⟨m', hrun, hwf', hv', hfr', hdel', hl'⟩ := ih xs kept m1 lp f hlen' hwf1 hf
      refine ⟨m', ?_, ?_, ?_, ?_, ?_, ?_⟩
      · simp only [listTraverseDel, hlast, listNext_backward hn hd, hnp',
          Option.bind_eq_bind, Option.some_bind, hc, if_true, hdel, hrun, Option.pure_def,
          List.reverse_append, List.reverse_cons, List.reverse_nil, List.nil_append,
          List.singleton_append]
      · simpa [List.filter_append, List.filter_cons, hc] using hwf'
      · intro q hq
        have hqx : q ≠ x := by
          intro e
          have := hq (e ▸ List.mem_append_right xs (List.mem_singleton.mpr rfl))
          rw [e, hc] at this
          cases this
        rw [hv' q (fun h => hq (List.mem_append_left _ h)), hv1 q hqx]
      · intro q hq
        have hq0 : q ∉ xs ++ x :: kept := by simpa using hq
        have h1 : q ∉ xs ++ kept := by
          intro h
          rcases List.mem_append.mp h with h | h
          · exact hq0 (List.mem_append_left _ h)
          · exact hq0 (List.mem_append_right _ (List.mem_cons_of_mem _ h))
        rw [hfr' q h1, hfr1 q hq0]
      · intro q hq hcq
        rcases List.mem_append.mp hq with h | e
        · exact hdel' q h hcq
        · have hxn : x ∉ xs ++ kept := by
            intro h
            rcases List.mem_append.mp h with h | h
            · exact hxxs h
            · exact hxk h
          rw [List.mem_singleton.mp e, hfr' x hxn]
          exact hx1
      · intro q hq
        rw [hl' q hq, hl1 q hq]
    · have hc' : chosen x = false := by
        cases h : chosen x
        · rfl
        · exact absurd h hc
      obtain ⟨m', hrun, hwf', hv', hfr', hdel', hl'⟩ :=
        ih xs (x :: kept) m lp f hlen' hwf0 hf
      refine ⟨m', ?_, ?_, ?_, ?_, ?_, hl'⟩
      · simp only [listTraverseDel, hlast, listNext_backward hn hd, hnp',
          Option.bind_eq_bind, Option.some_bind, hc', Bool.false_eq_true, if_false, hrun,
          Option.pure_def, List.reverse_append, List.reverse_cons, List.reverse_nil,
          List.nil_append, List.singleton_append]
      · simpa [List.filter_append, List.filter_cons, hc'] using hwf'
      · intro q hq
        exact hv' q (fun h => hq (List.mem_append_left _ h))
      · intro q hq
        exact hfr' q (by simpa using hq)
      · intro q hq hcq
        rcases List.mem_append.mp hq with h | e
        · exact hdel' q h hcq
        · rw [List.mem_singleton.mp e, hc'] at hcq
          cases hcq

/-- C16: on a well formed list with node sequence `ps`, a traversal that calls
`listDelNode` on each chosen node right after `listNext` returned it, started
by `listRewind`, returns the nodes `ps` in order (each once: `ps` has no
duplicate) and then NULL, and leaves a well formed list made of the nodes that
were not chosen, in their original order and with their values; started by
`listRewindTail` it returns `ps.reverse` and leaves the same list.  When every
node is chosen the list is left empty, with `len` zero. -/
theorem listDelNode_during_traversal (chosen : Ptr → Bool) {m : Mem} {lp : Ptr}
    {ps : List Ptr} (fuel : Nat) (hwf : WF m lp ps) (hfuel : ps.length < fuel) :
    ps.Nodup ∧
    (∃ it m', listRewind m lp = some it ∧
      listTraverseDel chosen fuel m lp it = some (ps, m') ∧
      WF m' lp (ps.filter (fun p => !chosen p)) ∧
      (∀ q ∈ ps, chosen q = false → valueAt m' q = valueAt m q) ∧
      (∀ q ∈ ps, chosen q = true → m'.nodes q = none) ∧
      ((∀ q ∈ ps, chosen q = true) →
        ∃ l', m'.lists lp = some l' ∧ l'.len = 0 ∧ l'.head = none ∧ l'.tail = none)) ∧
    (∃ it m', listRewindTail m lp = some it ∧
      listTraverseDel chosen fuel m lp it = some (ps.reverse, m') ∧
      WF m' lp (ps.filter (fun p => !chosen p)) ∧
      (∀ q ∈ ps, chosen q = false → valueAt m' q = valueAt m q) ∧
      (∀ q ∈ ps, chosen q = true → m'.nodes q = none) ∧
      ((∀ q ∈ ps, chosen q = true) →
        ∃ l', m'.lists lp = some l' ∧ l'.len = 0 ∧ l'.head = none ∧ l'.tail = none)) := by
  have hwf0 := hwf
  obtain ⟨l, hl, hhead, htail, hlen, hseg⟩ := hwf
  have hall : ∀ {m' : Mem}, WF m' lp (ps.filter (fun p => !chosen p)) →
      (∀ q ∈ ps, chosen q = true) →
      ∃ l', m'.lists lp = some l' ∧ l'.len = 0 ∧ l'.head = none ∧ l'.tail = none := by
    intro m' hw hc
    have he : ps.filter (fun p => !chosen p) = [] := by
      rw [List.filter_eq_nil_iff]
      intro q hq
      simp [hc q hq]
    rw [he] at hw
    obtain ⟨l', hl', h1, h2, h3, _⟩ := hw
    exact ⟨l', hl', h3, h1, h2⟩
  refine ⟨seg_nodup hseg, ?_, ?_⟩
  · obtain ⟨m', hrun, hwf', hv', _, hdel', _⟩ :=
      listTraverseDel_forward chosen ps [] m lp fuel (by simpa using hwf0) hfuel
    refine ⟨{ next := ps.head?, direction := AL_START_HEAD }, m', ?_, hrun,
      by simpa using hwf', fun q _ hc => hv' q (fun _ => hc), hdel',
      hall (by simpa using hwf')⟩
    simp [listRewind, hl, hhead]
  · obtain ⟨m', hrun, hwf', hv', _, hdel', _⟩ :=
      listTraverseDel_backward chosen (by decide : AL_START_TAIL ≠ AL_START_HEAD) ps.length
        ps [] m lp fuel rfl (by simpa using hwf0) hfuel
    refine ⟨{ next := ps.getLast?, direction := AL_START_TAIL }, m', ?_, hrun,
      by simpa using hwf', fun q _ hc => hv' q (fun _ => hc), hdel',
      hall (by simpa using hwf')⟩
    simp [listRewindTail, hl, htail]

theorem listDelNode_during_traversal_witness :
    WF (threeListMem none (some 99) []) 1 [10, 11, 12] ∧
    (∃ it m', listRewind (threeListMem none (some 99) []) 1 = some it ∧
      listTraverseDel (fun p => p == 11) 4 (threeListMem none (some 99) []) 1 it =
        some ([10, 11, 12], m') ∧
      WF m' 1 [10, 12]) ∧
    (∃ it m', listRewindTail (threeListMem none (some 99) []) 1 = some it ∧
      listTraverseDel (fun p => p == 11) 4 (threeListMem none (some 99) []) 1 it =
        some ([12, 11, 10], m') ∧
      WF m' 1 [10, 12]) := by
  obtain ⟨_, ⟨it, m', h1, h2, h3, _⟩, ⟨it2, m2, g1, g2, g3, _⟩⟩ :=
    listDelNode_during_traversal (fun p => p == 11) 4
      (threeListMem_WF none (some 99) []) (by decide)
  exact ⟨threeListMem_WF none (some 99) [], ⟨it, m', h1, h2, h3⟩, ⟨it2, m2, g1, g2, g3⟩⟩

/-- A failed allocation in `listAddNodeHead`: NULL is returned and only the
allocator script advances. -/
theorem listAddNodeHead_fail {m : Mem} (lp : Ptr) (v : Val) (h : (zmalloc m).1 = none) :
    listAddNodeHead m lp v = some (none, (zmalloc m).2) := by
  simp only [listAddNodeHead, h]

theorem listAddNodeTail_fail_eq {m : Mem} (lp : Ptr) (v : Val) (h : (zmalloc m).1 = none) :
    listAddNodeTail m lp v = some (none, (zmalloc m).2) := by
  simp only [listAddNodeTail, h]

theorem listInsertNode_fail {m : Mem} (lp old : Ptr) (v : Val) (after : Int)
    (h : (zmalloc m).1 = none) :
    listInsertNode m lp old v after = some (none, (zmalloc m).2) := by
  simp only [listInsertNode, h]

/-- The allocator stores nothing in the nodes, the list headers or the record
of `free` calls. -/
theorem zmalloc_frame (m : Mem) :
    (zmalloc m).2.nodes = m.nodes ∧ (zmalloc m).2.lists = m.lists ∧
      (zmalloc m).2.freed = m.freed := by
  unfold zmalloc
  cases m.alloc <;> exact ⟨rfl, rfl, rfl⟩

theorem zmalloc_some {m : Mem} {p : Ptr} (h : (zmalloc m).1 = some p) :
    m.alloc = some p :: (zmalloc m).2.alloc := by
  unfold zmalloc at h ⊢
  cases hm : m.alloc with
  | nil =>
    rw [hm] at h
    cases h
  | cons a rest =>
    rw [hm] at h
    simp only at h ⊢
    rw [h]

/-- Whenever `listAddNodeHead` returns after a successful allocation, it
returns the list. -/
theorem listAddNodeHead_returns {m m' : Mem} {lp p : Ptr} {v : Val} {r : Option Ptr}
    (hz : (zmalloc m).1 = some p) (h : listAddNodeHead m lp v = some (r, m')) :
    r = some lp := by
  simp only [listAddNodeHead, hz, Option.bind_eq_bind, Option.pure_def] at h
  cases hl : (zmalloc m).2.lists lp with
  | none =>
    rw [hl] at h
    cases h
  | some l =>
    rw [hl] at h
    simp only [Option.some_bind] at h
    split at h
    · cases h
      rfl
    · cases hs : Mem.setPrev ((zmalloc m).2.setNode p
          { prev := none, next := l.head, value := v }) l.head (some p) with
      | none =>
        rw [hs] at h
        cases h
      | some m2 =>
        rw [hs] at h
        cases h
        rfl

theorem listAddNodeTail_returns {m m' : Mem} {lp p : Ptr} {v : Val} {r : Option Ptr}
    (hz : (zmalloc m).1 = some p) (h : listAddNodeTail m lp v = some (r, m')) :
    r = some lp := by
  simp only [listAddNodeTail, hz, Option.bind_eq_bind, Option.pure_def] at h
  cases hl : (zmalloc m).2.lists lp with
  | none =>
    rw [hl] at h
    cases h
  | some l =>
    rw [hl] at h
    simp only [Option.some_bind] at h
    split at h
    · cases h
      rfl
    · cases hs : Mem.setNext ((zmalloc m).2.setNode p
          { prev := l.tail, next := none, value := v }) l.tail (some p) with
      | none =>
        rw [hs] at h
        cases h
      | some m2 =>
        rw [hs] at h
        cases h
        rfl

theorem listInsertNode_returns {m m' : Mem} {lp old p : Ptr} {v : Val} {after : Int}
    {r : Option Ptr} (hz : (zmalloc m).1 = some p)
    (h : listInsertNode m lp old v after = some (r, m')) : r = some lp := by
  simp only [listInsertNode, hz, Option.bind_eq_bind, Option.pure_def] at h
  cases h1 : listInsertNodeLink (zmalloc m).2 lp old p v after with
  | none =>
    rw [h1] at h
    cases h
  | some m1 =>
    rw [h1] at h
    simp only [Option.some_bind] at h
    cases h2 : listInsertNodePrev m1 p with
    | none =>
      rw [h2] at h
      cases h
    | some m2 =>
      rw [h2] at h
      simp only [Option.some_bind] at h
      cases h3 : listInsertNodeNext m2 p with
      | none =>
        rw [h3] at h
        cases h
      | some m3 =>
        rw [h3] at h
        simp only [Option.some_bind] at h
        cases h4 : m3.lists lp with
        | none =>
          rw [h4] at h
          cases h
        | some l3 =>
          rw [h4] at h
          cases h
          rfl

/-- C17: when the node allocation fails, `listAddNodeHead`, `listAddNodeTail`
and `listInsertNode` each return NULL and leave every list header (`head`,
`tail`, `len`, methods) and every node (`prev`, `next`, `value`) as they were,
without any call of the `free` method; when the allocation succeeds, each of
them returns the list pointer it was given whenever it returns, and it does
return on a well formed list (for `listInsertNode`, with `old` a node of the
list). -/
theorem listAddNode_alloc_failure_atomic (m : Mem) (lp old : Ptr) (v : Val) (after : Int) :
    ((zmalloc m).1 = none →
      ∃ m', listAddNodeHead m lp v = some (none, m') ∧
        listAddNodeTail m lp v = some (none, m') ∧
        listInsertNode m lp old v after = some (none, m') ∧
        m'.nodes = m.nodes ∧ m'.lists = m.lists ∧ m'.freed = m.freed) ∧
    (∀ p, (zmalloc m).1 = some p →
      (∀ r m', listAddNodeHead m lp v = some (r, m') → r = some lp) ∧
      (∀ r m', listAddNodeTail m lp v = some (r, m') → r = some lp) ∧
      (∀ r m', listInsertNode m lp old v after = some (r, m') → r = some lp) ∧
      (∀ ps, WF m lp ps → m.nodes p = none →
        (∃ m', listAddNodeHead m lp v = some (some lp, m')) ∧
        (∃ m', listAddNodeTail m lp v = some (some lp, m')) ∧
        (old ∈ ps → ∃ m', listInsertNode m lp old v after = some (some lp, m')))) := by
  constructor
  · intro h
    obtain ⟨h1, h2, h3⟩ := zmalloc_frame m
    exact ⟨(zmalloc m).2, listAddNodeHead_fail lp v h, listAddNodeTail_fail_eq lp v h,
      listInsertNode_fail lp old v after h, h1, h2, h3⟩
  · intro p hz
    refine ⟨fun r m' h => listAddNodeHead_returns hz h,
      fun r m' h => listAddNodeTail_returns hz h,
      fun r m' h => listInsertNode_returns hz h, ?_⟩
    intro ps hwf hfresh
    have halloc := zmalloc_some hz
    obtain ⟨m1, h1, _⟩ := listAddNodeHead_spec v hwf halloc hfresh
    obtain ⟨m2, h2, _⟩ := listAddNodeTail_spec v hwf halloc hfresh
    refine ⟨⟨m1, h1⟩, ⟨m2, h2⟩, ?_⟩
    intro hold
    obtain ⟨pre, post, hps⟩ := List.append_of_mem hold
    subst hps
    by_cases ha : after ≠ 0
    · obtain ⟨m3, h3, _⟩ := listInsertNode_after_spec v after ha hwf halloc hfresh
      exact ⟨m3, h3⟩
    · have ha0 : after = 0 := not_not.mp ha
      subst ha0
      obtain ⟨m3, h3, _⟩ := listInsertNode_before_spec v hwf halloc hfresh
      exact ⟨m3, h3⟩

theorem listAddNode_alloc_failure_atomic_witness :
    (zmalloc (threeListMem none none [none, some 20])).1 = none ∧
    (∃ m', listAddNodeHead (threeListMem none none [none, some 20]) 1 42 = some (none, m') ∧
      listAddNodeTail (threeListMem none none [none, some 20]) 1 42 = some (none, m') ∧
      listInsertNode (threeListMem none none [none, some 20]) 1 11 42 1 = some (none, m') ∧
      m'.nodes = (threeListMem none none [none, some 20]).nodes ∧
      m'.lists = (threeListMem none none [none, some 20]).lists ∧
      m'.freed = (threeListMem none none [none, some 20]).freed) ∧
    (zmalloc (threeListMem none none [some 20])).1 = some 20 ∧
    (∃ m', listInsertNode (threeListMem none none [some 20]) 1 11 42 0 = some (some 1, m')) :=
  ⟨rfl,
    (listAddNode_alloc_failure_atomic (threeListMem none none [none, some 20]) 1 11 42 1).1 rfl,
    rfl,
    ((listAddNode_alloc_failure_atomic (threeListMem none none [some 20]) 1 11 42 0).2 20
      rfl).2.2.2 [10, 11, 12] (threeListMem_WF none none _) rfl |>.2.2 (by decide)⟩

/-- Following `next` along a segment visits its nodes. -/
theorem walkNext_of_seg {m : Mem} {ps : List Ptr} {b a : Option Ptr} (hs : seg m b ps a) :
    walkNext m ps.length (firstOr ps a) = some (ps, a) := by
  induction ps generalizing b with
  | nil => rfl
  | cons x xs ih =>
    obtain ⟨⟨n, hn, _, hnx⟩, hrest⟩ := hs
    simp only [List.length_cons, firstOr_cons, walkNext, hn, Option.bind_eq_bind,
      Option.some_bind, hnx, ih hrest, Option.pure_def]

/-- In a segment that ends with NULL, the successor of a node points back at
it. -/
theorem seg_next_prev {m : Mem} {ps : List Ptr} {b : Option Ptr} (hs : seg m b ps none)
    {p q : Ptr} {n : listNode} (hp : p ∈ ps) (hn : m.nodes p = some n)
    (hq : n.next = some q) : ∃ nq, m.nodes q = some nq ∧ nq.prev = some p := by
  induction ps generalizing b with
  | nil => cases hp
  | cons x xs ih =>
    obtain ⟨⟨nx, hnx, _, hnext⟩, hrest⟩ := hs
    rcases List.mem_cons.mp hp with e | hmem
    · subst e
      rw [hn] at hnx
      cases hnx
      rw [hq] at hnext
      cases xs with
      | nil => cases hnext
      | cons y ys =>
        rw [firstOr_cons] at hnext
        cases hnext
        obtain ⟨⟨ny, hny, hyp, _⟩, _⟩ := hrest
        exact ⟨ny, hny, hyp⟩
    · exact ih hrest hmem

/-- The nodes visited by following `next`: their number and the first one. -/
theorem walkNext_shape {m : Mem} (n : Nat) :
    ∀ (start : Option Ptr) (ps : List Ptr) (a : Option Ptr),
      walkNext m n start = some (ps, a) → ps.length = n ∧ firstOr ps a = start := by
  induction n with
  | zero =>
    intro start ps a h
    simp only [walkNext, Option.some.injEq, Prod.mk.injEq] at h
    obtain ⟨h1, h2⟩ := h
    subst h1 h2
    exact ⟨rfl, rfl⟩
  | succ n ih =>
    intro start ps a h
    cases start with
    | none => simp [walkNext] at h
    | some p =>
      simp only [walkNext, Option.bind_eq_bind, Option.bind_eq_some, Option.pure_def,
        Option.some.injEq, Prod.mk.injEq] at h
      obtain ⟨nd, _, r, hr, h1, _⟩ := h
      obtain ⟨hl, _⟩ := ih nd.next r.1 r.2 hr
      rw [← h1]
      exact ⟨by simp [hl], rfl⟩

/-- The nodes visited by following `next` form a segment when the first one
points back at `b` and the successor of every node points back at it. -/
theorem seg_of_walkNext {m : Mem} (n : Nat) :
    ∀ (start b : Option Ptr) (ps : List Ptr) (a : Option Ptr),
      walkNext m n start = some (ps, a) →
      (∀ h nd, start = some h → m.nodes h = some nd → nd.prev = b) →
      (∀ p nd q, p ∈ ps → m.nodes p = some nd → nd.next = some q →
        ∃ nq, m.nodes q = some nq ∧ nq.prev = some p) →
      seg m b ps a := by
  induction n with
  | zero =>
    intro start b ps a h _ _
    simp only [walkNext, Option.some.injEq, Prod.mk.injEq] at h
    rw [← h.1]
    trivial
  | succ n ih =>
    intro start b ps a h hprev hnp
    cases start with
    | none => simp [walkNext] at h
    | some p =>
      simp only [walkNext, Option.bind_eq_bind, Option.bind_eq_some, Option.pure_def,
        Option.some.injEq, Prod.mk.injEq] at h
      obtain ⟨nd, hnd, r, hr, h1, h2⟩ := h
      subst h1 h2
      obtain ⟨_, hfirst⟩ := walkNext_shape n nd.next r.1 r.2 hr
      refine ⟨⟨nd, hnd, hprev p nd rfl hnd, hfirst.symm⟩, ?_⟩
      apply ih nd.next (some p) r.1 r.2 hr
      · intro h nh hh hnh
        obtain ⟨nq, hnq, hq⟩ := hnp p nd h (List.mem_cons_self _ _) hnd hh
        rw [hnh] at hnq
        cases hnq
        exact hq
      · intro p' nd' q hp' hnd' hq
        exact hnp p' nd' q (List.mem_cons_of_mem _ hp') hnd' hq

/-- Well-formedness in the words of the specification is well-formedness with
some node sequence. -/
theorem wellFormed_iff (m : Mem) (lp : Ptr) : wellFormed m lp ↔ ∃ ps, WF m lp ps := by
  constructor
  · rintro ⟨l, ps, hl, hwalk, htail, hprev, hnp, _⟩
    obtain ⟨hlen, hfirst⟩ := walkNext_shape l.len l.head ps none hwalk
    refine ⟨ps, l, hl, ?_, htail, hlen.symm, ?_⟩
    · rw [← hfirst, firstOr_none]
    · exact seg_of_walkNext l.len l.head none ps none hwalk hprev hnp
  · rintro ⟨ps, l, hl, hhead, htail, hlen, hseg⟩
    refine ⟨l, ps, hl, ?_, htail, ?_, ?_, ?_⟩
    · rw [hlen, hhead, ← firstOr_none]
      exact walkNext_of_seg hseg
    · intro h n hh hn
      rw [hhead] at hh
      cases ps with
      | nil => cases hh
      | cons x xs =>
        simp only [List.head?_cons, Option.some.injEq] at hh
        subst hh
        obtain ⟨⟨nx, hnx, hp, _⟩, _⟩ := hseg
        rw [hn] at hnx
        cases hnx
        exact hp
    · intro p n q hp hn hq
      exact seg_next_prev hseg hp hn hq
    · rw [hlen, hhead, htail]
      cases ps with
      | nil => simp
      | cons x xs => simp

/-- `listCreate` makes a well formed empty list when its allocation
succeeds. -/
theorem listCreate_WF {m : Mem} {lp0 : Ptr} (h : (zmalloc m).1 = some lp0) :
    (listCreate m).1 = some lp0 ∧ WF (listCreate m).2 lp0 [] := by
  simp only [listCreate, h]
  refine ⟨trivial, list.mk none none none none none 0, ?_, rfl, rfl, rfl, trivial⟩
  simp

/-- A failed allocation leaves a well formed list well formed. -/
theorem WF_zmalloc {m : Mem} {lp : Ptr} {ps : List Ptr} (hwf : WF m lp ps) :
    WF (zmalloc m).2 lp ps := by
  obtain ⟨h1, h2, _⟩ := zmalloc_frame m
  exact WF_frame hwf (by rw [h2]) (fun q _ => by rw [h1])

/-- C26: a list is well formed, in the words of the specification
(`wellFormed`), exactly when it is well formed with some node sequence
(`wellFormed_iff`).  `listCreate`, when its allocation succeeds, returns a well
formed empty list.  On a well formed list, `listAddNodeHead`, `listAddNodeTail`
and `listInsertNode` (for a node `old` of the list) return and leave a well
formed list, whether the allocation fails or gives an address that is not an
allocated node; `listDelNode`, for a node of the list, and `listRotate` return
and leave a well formed list. -/
theorem wellFormed_invariant (m : Mem) (lp : Ptr) (hwf : wellFormed m lp)
    (hfresh : ∀ p, (zmalloc m).1 = some p → m.nodes p = none) :
    (∀ lp0, (zmalloc m).1 = some lp0 →
      (listCreate m).1 = some lp0 ∧ wellFormed (listCreate m).2 lp0 ∧
      ∃ l, (listCreate m).2.lists lp0 = some l ∧ l.len = 0 ∧ l.head = none ∧ l.tail = none) ∧
    (∀ v, ∃ r m', listAddNodeHead m lp v = some (r, m') ∧ wellFormed m' lp) ∧
    (∀ v, ∃ r m', listAddNodeTail m lp v = some (r, m') ∧ wellFormed m' lp) ∧
    (∀ ps old v after, WF m lp ps → old ∈ ps →
      ∃ r m', listInsertNode m lp old v after = some (r, m') ∧ wellFormed m' lp) ∧
    (∀ ps node, WF m lp ps → node ∈ ps →
      ∃ m', listDelNode m lp node = some m' ∧ wellFormed m' lp) ∧
    (∃ m', listRotate m lp = some m' ∧ wellFormed m' lp) := by
  obtain ⟨ps, hps⟩ := (wellFormed_iff m lp).mp hwf
  refine ⟨?_, ?_, ?_, ?_, ?_, ?_⟩
  · intro lp0 h
    obtain ⟨h1, h2⟩ := listCreate_WF h
    refine ⟨h1, (wellFormed_iff _ _).mpr ⟨[], h2⟩, ?_⟩
    obtain ⟨l, hl, hh, ht, hlen, _⟩ := h2
    exact ⟨l, hl, hlen, hh, ht⟩
  · intro v
    cases hz : (zmalloc m).1 with
    | none =>
      exact ⟨none, (zmalloc m).2, listAddNodeHead_fail lp v hz,
        (wellFormed_iff _ _).mpr ⟨ps, WF_zmalloc hps⟩⟩
    | some p =>
      obtain ⟨m', h1, h2, _⟩ := listAddNodeHead_spec v hps (zmalloc_some hz) (hfresh p hz)
      exact ⟨some lp, m', h1, (wellFormed_iff _ _).mpr ⟨_, h2⟩⟩
  · intro v
    cases hz : (zmalloc m).1 with
    | none =>
      exact ⟨none, (zmalloc m).2, listAddNodeTail_fail_eq lp v hz,
        (wellFormed_iff _ _).mpr ⟨ps, WF_zmalloc hps⟩⟩
    | some p =>
      obtain ⟨m', h1, h2, _⟩ := listAddNodeTail_spec v hps (zmalloc_some hz) (hfresh p hz)
      exact ⟨some lp, m', h1, (wellFormed_iff _ _).mpr ⟨_, h2⟩⟩
  · intro qs old v after hqs hold
    cases hz : (zmalloc m).1 with
    | none =>
      exact ⟨none, (zmalloc m).2, listInsertNode_fail lp old v after hz,
        (wellFormed_iff _ _).mpr ⟨ps, WF_zmalloc hps⟩⟩
    | some p =>
      obtain ⟨pre, post, hsplit⟩ := List.append_of_mem hold
      subst hsplit
      by_cases ha : after ≠ 0
      · obtain ⟨m', h1, h2, _⟩ :=
          listInsertNode_after_spec v after ha hqs (zmalloc_some hz) (hfresh p hz)
        exact ⟨some lp, m', h1, (wellFormed_iff _ _).mpr ⟨_, h2⟩⟩
      · have ha0 : after = 0 := not_not.mp ha
        subst ha0
        obtain ⟨m', h1, h2, _⟩ :=
          listInsertNode_before_spec v hqs (zmalloc_some hz) (hfresh p hz)
        exact ⟨some lp, m', h1, (wellFormed_iff _ _).mpr ⟨_, h2⟩⟩
  · intro qs node hqs hnode
    obtain ⟨pre, post, hsplit⟩ := List.append_of_mem hnode
    subst hsplit
    obtain ⟨_, _, m', _, _, h1, h2, _⟩ := listDelNode_spec hqs
    exact ⟨m', h1, (wellFormed_iff _ _).mpr ⟨_, h2⟩⟩
  · by_cases hlen : ps.length ≤ 1
    · exact ⟨m, listRotate_short hps hlen, hwf⟩
    · rcases List.eq_nil_or_concat ps with hx | ⟨xs, t, hx⟩
      · rw [hx] at hlen
        simp at hlen
      · rw [List.concat_eq_append] at hx
        subst hx
        have hxs : xs ≠ [] := by
          intro h
          rw [h] at hlen
          simp at hlen
        obtain ⟨m', h1, h2, _⟩ := listRotate_step hps hxs
        exact ⟨m', h1, (wellFormed_iff _ _).mpr ⟨_, h2⟩⟩

theorem wellFormed_invariant_witness :
    wellFormed (threeListMem none none [some 20]) 1 ∧
    (∃ r m', listAddNodeHead (threeListMem none none [some 20]) 1 42 = some (r, m') ∧
      wellFormed m' 1) ∧
    (∃ r m', listInsertNode (threeListMem none none [some 20]) 1 11 42 1 = some (r, m') ∧
      wellFormed m' 1) ∧
    (∃ m', listDelNode (threeListMem none none [some 20]) 1 11 = some m' ∧ wellFormed m' 1) ∧
    (∃ m', listRotate (threeListMem none none [some 20]) 1 = some m' ∧ wellFormed m' 1) := by
  have hwf : wellFormed (threeListMem none none [some 20]) 1 :=
    (wellFormed_iff _ _).mpr ⟨_, threeListMem_WF none none _⟩
  obtain ⟨_, h1, _, h3, h4, h5⟩ := wellFormed_invariant (threeListMem none none [some 20]) 1 hwf
    (by
      intro p hp
      have : p = 20 := (Option.some.inj hp).symm
      subst this
      rfl)
  exact ⟨hwf, h1 42, h3 [10, 11, 12] 11 42 1 (threeListMem_WF none none _) (by decide),
    h4 [10, 11, 12] 11 (threeListMem_WF none none _) (by decide), h5⟩

end Adlist

/-! ## Properties of the slow log -/

namespace Slowlog

open Adlist

/-- One iteration of the loop of `slowlogCreateEntry` has a result when
`argv[j]` is an allocated object, and it keeps every object allocated. -/
theorem slowlogCreateArg_ok {objs : Ptr → Option robj} {argv : List Ptr} (argc slargc : Int)
    {j : Nat} (hj : j < argv.length) (hv : ∀ a ∈ argv, (objs a).isSome = true) :
    ∃ r, slowlogCreateArg objs argv argc slargc j = some r ∧
      ∀ a, (r.2 a).isSome = (objs a).isSome := by
  unfold slowlogCreateArg
  split
  · exact ⟨_, rfl, fun _ => rfl⟩
  · have hget : argv.get? j = some (argv.get ⟨j, hj⟩) := List.get?_eq_get hj
    have hmem : argv.get ⟨j, hj⟩ ∈ argv := List.get_mem argv j hj
    obtain ⟨o, ho⟩ := Option.isSome_iff_exists.mp (hv _ hmem)
    simp only [hget, ho, Option.bind_eq_bind, Option.some_bind]
    split
    · exact ⟨_, rfl, fun _ => rfl⟩
    · refine ⟨_, rfl, ?_⟩
      intro a
      dsimp only
      by_cases e : a = argv.get ⟨j, hj⟩
      · rw [e, Function.update_same, ho]
        rfl
      · rw [Function.update_noteq e]

/-- The loop of `slowlogCreateEntry` has a result when the elements of `argv`
it reads are allocated objects; it stores one element per iteration and keeps
every object allocated. -/
theorem slowlogCreateEntryLoop_ok {argv : List Ptr} (argc slargc : Int) (k : Nat) :
    ∀ (j : Nat) (objs : Ptr → Option robj), j + k ≤ argv.length →
      (∀ a ∈ argv, (objs a).isSome = true) →
      ∃ r, slowlogCreateEntryLoop argv argc slargc k j objs = some r ∧
        r.1.length = k ∧ ∀ a, (r.2 a).isSome = (objs a).isSome := by
  induction k with
  | zero =>
    intro j objs _ _
    exact ⟨_, rfl, rfl, fun _ => rfl⟩
  | succ k ih =>
    intro j objs hjk hv
    obtain ⟨r, hr, hr2⟩ := slowlogCreateArg_ok argc slargc (by omega : j < argv.length) hv
    have hv' : ∀ a ∈ argv, (r.2 a).isSome = true := by
      intro a ha
      rw [hr2]
      exact hv a ha
    obtain ⟨rest, hrest, hlen, hrest2⟩ := ih (j + 1) r.2 (by omega) hv'
    refine ⟨(r.1 :: rest.1, rest.2), ?_, by simp [hlen], ?_⟩
    · simp only [slowlogCreateEntryLoop, hr, hrest, Option.bind_eq_bind, Option.some_bind,
        Option.pure_def]
    · intro a
      rw [hrest2, hr2]

/-- Effect of `slowlogCreateEntry` when its two allocations succeed and `argv`
holds `argc` allocated objects. -/
theorem slowlogCreateEntry_ok {s : redisServer} {argv : List Ptr} {argc : Int} (duration : Int)
    (now : Int) {e b : Ptr} {rest : List (Option Ptr)}
    (halloc : s.mem.alloc = some e :: some b :: rest) (hv : validArgv s.objs argv argc) :
    ∃ s1 en, slowlogCreateEntry s argv argc duration now = some (e, s1) ∧
      s1.mem = { s.mem with alloc := rest } ∧
      s1.entries = Function.update s.entries e (some en) ∧
      en.id = s.slowlog_entry_id ∧ en.duration = duration ∧ en.time = now ∧
      (en.argc = if argc > SLOWLOG_ENTRY_MAX_ARGC then SLOWLOG_ENTRY_MAX_ARGC else argc) ∧
      (en.argv.length : Int) = en.argc ∧
      s1.slowlog_entry_id = wrapLongLong (s.slowlog_entry_id + 1) ∧
      s1.slowlog = s.slowlog ∧ s1.slowlog_log_slower_than = s.slowlog_log_slower_than ∧
      s1.slowlog_max_len = s.slowlog_max_len ∧
      (∀ a, (s1.objs a).isSome = (s.objs a).isSome) := by
  obtain ⟨hargc, hall⟩ := hv
  obtain ⟨slargc, hsl⟩ : ∃ slargc : Int,
      slargc = if argc > SLOWLOG_ENTRY_MAX_ARGC then SLOWLOG_ENTRY_MAX_ARGC else argc :=
    ⟨_, rfl⟩
  have hle : slargc.toNat ≤ argv.length := by
    rw [hsl]
    unfold SLOWLOG_ENTRY_MAX_ARGC
    split <;> omega
  have hnn : (slargc.toNat : Int) = slargc := by
    rw [hsl]
    unfold SLOWLOG_ENTRY_MAX_ARGC
    split <;> omega
  obtain ⟨r, hr, hlen, hr2⟩ :=
    slowlogCreateEntryLoop_ok argc slargc slargc.toNat 0 s.objs (by omega) hall
  obtain ⟨en, hen⟩ : ∃ en : slowlogEntry,
      en = slowlogEntry.mk r.1 slargc s.slowlog_entry_id duration now := ⟨_, rfl⟩
  obtain ⟨s1, hs1⟩ : ∃ s1 : redisServer, s1 = redisServer.mk { s.mem with alloc := rest } r.2
      (Function.update s.entries e (some en)) s.slowlog (wrapLongLong (s.slowlog_entry_id + 1))
      s.slowlog_log_slower_than s.slowlog_max_len := ⟨_, rfl⟩
  refine ⟨s1, en, ?_, by rw [hs1], by rw [hs1], by rw [hen], by rw [hen], by rw [hen],
    by rw [hen]; exact hsl, ?_, by rw [hs1], by rw [hs1], by rw [hs1], by rw [hs1],
    by rw [hs1]; exact hr2⟩
  · simp only [slowlogCreateEntry, zmalloc, halloc, Option.bind_eq_bind, Option.some_bind,
      ← hsl, hr, Option.pure_def]
    rw [hs1, hen]
    simp
  · rw [hen]
    show (r.1.length : Int) = slargc
    rw [hlen, hnn]

/-- The calls of the `free` method made when the nodes `qs` are deleted in
order. -/
theorem freed_map_congr {m m' : Mem} (fn : Nat) (qs : List Ptr)
    (h : ∀ q ∈ qs, valueAt m' q = valueAt m q) :
    qs.map (fun q => (fn, valueAt m' q)) = qs.map (fun q => (fn, valueAt m q)) := by
  apply List.map_congr_left
  intro q hq
  rw [h q hq]

/-- Effect of the trimming loop on a well formed slow log with node sequence
`ps`: the nodes after the first `slowlog_max_len` are deleted, the last one
first, and the `free` method is called on their values in that order. -/
theorem slowlogTrimLoop_spec (fuel : Nat) :
    ∀ (s : redisServer) (lp : Ptr) (ps : List Ptr), s.slowlog = some lp → WF s.mem lp ps →
      ps.length - s.slowlog_max_len < fuel →
      ∃ m', slowlogTrimLoop fuel s = some { s with mem := m' } ∧
        WF m' lp (ps.take s.slowlog_max_len) ∧
        (∀ q, q ∉ ps.drop s.slowlog_max_len → valueAt m' q = valueAt s.mem q) ∧
        (∀ q, q ∉ ps → m'.nodes q = s.mem.nodes q) ∧
        (∀ q, q ∈ ps.drop s.slowlog_max_len → m'.nodes q = none) ∧
        m'.alloc = s.mem.alloc ∧
        (∀ q, q ≠ lp → m'.lists q = s.mem.lists q) ∧
        (∃ l l', s.mem.lists lp = some l ∧ m'.lists lp = some l' ∧ l'.free = l.free ∧
          l'.dup = l.dup ∧ l'.match_ = l.match_ ∧
          m'.freed = s.mem.freed ++ (match l.free with
            | some fn => (ps.drop s.slowlog_max_len).reverse.map
                (fun q => (fn, valueAt s.mem q))
            | none => [])) := by
  induction fuel with
  | zero =>
    intro s lp ps _ _ h
    omega
  | succ fuel ih =>
    intro s lp ps hlp hwf hfuel
    have hwf0 := hwf
    obtain ⟨l, hl, hhead, htail, hlen, hseg⟩ := hwf
    by_cases hgt : l.len > s.slowlog_max_len
    · rw [hlen] at hgt
      rcases List.eq_nil_or_concat ps with hx | ⟨pre, t, hx⟩
      · rw [hx] at hgt
        simp at hgt
      rw [List.concat_eq_append] at hx
      subst hx
      have hmax : s.slowlog_max_len ≤ pre.length := by
        simp only [List.length_append, List.length_cons, List.length_nil] at hgt
        omega
      have htl : l.tail = some t := by
        rw [htail]
        simp
      have hnd := seg_nodup hseg
      have htpre : t ∉ pre := by
        intro h
        exact (List.nodup_append.mp hnd).2.2 h (List.mem_singleton.mpr rfl)
      obtain ⟨l0, n, m1, hl0, hn, hdel, hwf1, hv1, hx1, hfr1, hls1, ha1, hfd1,
        ⟨l1, hl1, _, hd1, hf1, hm1⟩, _⟩ := listDelNode_spec hwf0
      rw [hl] at hl0
      cases hl0
      rw [List.append_nil] at hwf1
      obtain ⟨m', hrun, hwf', hv', hfr', hdel', ha', hls', l1', l', hl1', hl', hf', hd', hm',
        hfd'⟩ := ih { s with mem := m1 } lp pre hlp hwf1 (by
          simp only [List.length_append, List.length_cons, List.length_nil] at hfuel hgt
          show pre.length - s.slowlog_max_len < fuel
          omega)
      have hl1e : l1' = l1 := by
        have : some l1' = some l1 := hl1'.symm.trans hl1
        exact Option.some.inj this
      subst hl1e
      have htake : (pre ++ [t]).take s.slowlog_max_len = pre.take s.slowlog_max_len :=
        List.take_append_of_le_length hmax
      have hdrop : (pre ++ [t]).drop s.slowlog_max_len =
          pre.drop s.slowlog_max_len ++ [t] :=
        List.drop_append_of_le_length hmax
      have hdropsub : ∀ q, q ∈ pre.drop s.slowlog_max_len → q ∈ pre :=
        fun q hq => List.mem_of_mem_drop hq
      refine ⟨m', ?_, ?_, ?_, ?_, ?_, ?_, ?_, l, l', hl, hl', ?_, ?_, ?_, ?_⟩
      · simp only [slowlogTrimLoop, hlp, hl, Option.bind_eq_bind, Option.some_bind, hlen,
          if_pos hgt, htl, hdel]
        simpa [hlp] using hrun
      · rw [htake]
        exact hwf'
      · intro q hq
        rw [hdrop] at hq
        have h1 : q ∉ pre.drop s.slowlog_max_len := fun h => hq (List.mem_append_left _ h)
        have h2 : q ≠ t := fun e => hq (e ▸ List.mem_append_right _ (List.mem_singleton.mpr rfl))
        rw [hv' q h1]
        exact hv1 q h2
      · intro q hq
        have h1 : q ∉ pre := fun h => hq (List.mem_append_left _ h)
        rw [hfr' q h1]
        exact hfr1 q hq
      · intro q hq
        rw [hdrop] at hq
        rcases List.mem_append.mp hq with h | h
        · exact hdel' q h
        · rw [List.mem_singleton.mp h, hfr' t htpre]
          exact hx1
      · rw [ha']
        exact ha1
      · intro q hq
        rw [hls' q hq]
        exact hls1 q hq
      · rw [hf']
        exact hf1
      · rw [hd']
        exact hd1
      · rw [hm']
        exact hm1
      · rw [hfd', hf1, hdrop]
        show m1.freed ++ _ = _
        rw [hfd1]
        have hval : n.value = valueAt s.mem t := by
          unfold valueAt
          rw [hn]
        cases l.free with
        | none => simp
        | some fn =>
          simp only [List.reverse_append, List.reverse_cons, List.reverse_nil,
            List.nil_append, List.singleton_append, List.map_cons, List.append_assoc, hval]
          congr 2
          apply freed_map_congr
          intro q hq
          have hq' : q ∈ pre := hdropsub q (List.mem_reverse.mp hq)
          exact hv1 q (fun e => htpre (e ▸ hq'))
    · have hle : ps.length ≤ s.slowlog_max_len := by
        rw [hlen] at hgt
        omega
      refine ⟨s.mem, ?_, ?_, fun _ _ => rfl, fun _ _ => rfl, ?_, rfl, fun _ _ => rfl,
        l, l, hl, hl, rfl, rfl, rfl, ?_⟩
      · simp only [slowlogTrimLoop, hlp, hl, Option.bind_eq_bind, Option.some_bind,
          if_neg hgt, Option.pure_def]
        rw [← hlp]
      · rw [List.take_of_length_le hle]
        exact hwf0
      · intro q hq
        rw [List.drop_of_length_le hle] at hq
        cases hq
      · rw [List.drop_of_length_le hle]
        cases l.free <;> simp

/-- Effect of the statement that creates and adds an entry, on a well formed
slow log with node sequence `ps`, when the duration reaches the threshold, the
three allocations (entry, argument array, list node) succeed and `argv` holds
`argc` allocated objects: the new node `p` is the head and its value is the
address `e` of the new entry. -/
theorem slowlogPushEntry_spec {s : redisServer} {lp : Ptr} {ps : List Ptr} {argv : List Ptr}
    {argc : Int} (duration : Int) (now : Int) {e b p : Ptr} {rest : List (Option Ptr)}
    (hd : duration ≥ s.slowlog_log_slower_than) (hlp : s.slowlog = some lp)
    (hwf : WF s.mem lp ps) (halloc : s.mem.alloc = some e :: some b :: some p :: rest)
    (hfresh : s.mem.nodes p = none) (hv : validArgv s.objs argv argc) :
    ∃ s1 en, slowlogPushEntry s argv argc duration now = some s1 ∧
      WF s1.mem lp (p :: ps) ∧ valueAt s1.mem p = e ∧
      (∀ q ∈ ps, valueAt s1.mem q = valueAt s.mem q) ∧
      s1.entries = Function.update s.entries e (some en) ∧
      en.id = s.slowlog_entry_id ∧ en.duration = duration ∧ en.time = now ∧
      s1.slowlog_entry_id = wrapLongLong (s.slowlog_entry_id + 1) ∧
      s1.slowlog = s.slowlog ∧ s1.slowlog_log_slower_than = s.slowlog_log_slower_than ∧
      s1.slowlog_max_len = s.slowlog_max_len ∧
      s1.mem.alloc = rest ∧ s1.mem.freed = s.mem.freed ∧
      (∀ q, q ≠ p → q ∉ ps → s1.mem.nodes q = s.mem.nodes q) ∧
      (∀ q, q ≠ lp → s1.mem.lists q = s.mem.lists q) ∧
      (∀ a, (s1.objs a).isSome = (s.objs a).isSome) ∧
      (∃ l l', s.mem.lists lp = some l ∧ s1.mem.lists lp = some l' ∧ l'.free = l.free) := by
  obtain ⟨s0, en, hce, hmem0, hent0, hid, hdu, hti, _, _, hid0, hsl0, hth0, hmx0, hobj0⟩ :=
    slowlogCreateEntry_ok duration now halloc hv
  have hwf0 : WF s0.mem lp ps := by
    rw [hmem0]
    exact WF_frame hwf rfl (fun _ _ => rfl)
  have halloc0 : s0.mem.alloc = some p :: rest := by
    rw [hmem0]
  have hfresh0 : s0.mem.nodes p = none := by
    rw [hmem0]
    exact hfresh
  obtain ⟨m', hadd, hwf', hvals, ha', hfd', hfr', hls', l, l', hl, hl', _, _, _, hf', _⟩ :=
    listAddNodeHead_spec e hwf0 halloc0 hfresh0
  have hvals' : valueAt m' p = e ∧ listValues m' ps = listValues s0.mem ps := by
    unfold listValues at hvals ⊢
    simp only [List.map_cons, List.cons.injEq] at hvals
    exact hvals
  refine ⟨{ s0 with mem := m' }, en, ?_, hwf', hvals'.1, ?_, hent0, hid, hdu, hti, hid0, hsl0,
    hth0, hmx0, ha', ?_, ?_, ?_, hobj0, l, l', ?_, hl', hf'⟩
  · simp only [slowlogPushEntry, if_pos hd, hce, Option.bind_eq_bind, Option.some_bind,
      hsl0, hlp, hadd, Option.pure_def]
  · intro q hq
    have := List.map_inj_left.mp hvals'.2 q hq
    rw [this, hmem0]
    rfl
  · show m'.freed = _
    rw [hfd', hmem0]
  · intro q h1 h2
    show m'.nodes q = _
    rw [hfr' q h1 h2, hmem0]
  · intro q hq
    show m'.lists q = _
    rw [hls' q hq, hmem0]
  · rw [← hl, hmem0]

/-- The increment of a `long long` never gives back the same number. -/
theorem wrapLongLong_succ_ne (x : Int) : wrapLongLong (x + 1) ≠ x := by
  unfold wrapLongLong
  omega

theorem wrapLongLong_succ {x : Int} (h0 : -(2 ^ 63) ≤ x) (h1 : x + 1 < 2 ^ 63) :
    wrapLongLong (x + 1) = x + 1 := by
  unfold wrapLongLong
  omega

/-- C19: on a well formed slow log, with the three allocations of a push at
hand, `slowlogPushEntryIfNeeded` returns, and it creates an entry and adds it
at the head of the log if and only if the threshold `t` is not negative and the
duration `d` is at least `t`.  In that case the entry carries the current
identifier, the duration and the time, and the identifier counter advances;
otherwise no entry is stored, no allocation is made and the counter keeps its
value.  So a negative threshold disables logging, a zero threshold logs every
duration that is not negative, and a duration equal to the threshold is
logged. -/
theorem slowlogPushEntryIfNeeded_threshold {s : redisServer} {lp : Ptr} {ps : List Ptr}
    {argv : List Ptr} {argc : Int} (fuel : Nat) (d : Int) (now : Int) {e b p : Ptr}
    {rest : List (Option Ptr)} (hlp : s.slowlog = some lp) (hwf : WF s.mem lp ps)
    (hfuel : ps.length + 1 < fuel)
    (halloc : s.mem.alloc = some e :: some b :: some p :: rest)
    (hfresh : s.mem.nodes p = none) (hv : validArgv s.objs argv argc) :
    ∃ s', slowlogPushEntryIfNeeded fuel s argv argc d now = some s' ∧
      ((0 ≤ s.slowlog_log_slower_than ∧ s.slowlog_log_slower_than ≤ d) →
        ∃ s1 en, slowlogPushEntry s argv argc d now = some s1 ∧
          WF s1.mem lp (p :: ps) ∧ entryAt s1 p = some en ∧
          en.id = s.slowlog_entry_id ∧ en.duration = d ∧ en.time = now ∧
          slowlogTrimLoop fuel s1 = some s' ∧
          s'.entries = Function.update s.entries e (some en) ∧
          s'.slowlog_entry_id = wrapLongLong (s.slowlog_entry_id + 1) ∧
          s'.mem.alloc = rest ∧
          WF s'.mem lp ((p :: ps).take s.slowlog_max_len)) ∧
      (¬ (0 ≤ s.slowlog_log_slower_than ∧ s.slowlog_log_slower_than ≤ d) →
        s'.entries = s.entries ∧ s'.objs = s.objs ∧
          s'.slowlog_entry_id = s.slowlog_entry_id ∧ s'.mem.alloc = s.mem.alloc ∧
          WF s'.mem lp
            (if s.slowlog_log_slower_than < 0 then ps else ps.take s.slowlog_max_len)) ∧
      (s'.slowlog_entry_id ≠ s.slowlog_entry_id ↔
        (0 ≤ s.slowlog_log_slower_than ∧ s.slowlog_log_slower_than ≤ d)) := by
  by_cases ht : s.slowlog_log_slower_than < 0
  · have hno : ¬ (0 ≤ s.slowlog_log_slower_than ∧ s.slowlog_log_slower_than ≤ d) :=
      fun h => absurd h.1 (by omega)
    refine ⟨s, by simp [slowlogPushEntryIfNeeded, ht], fun h => absurd h hno, ?_, ?_⟩
    · intro _
      rw [if_pos ht]
      exact ⟨rfl, rfl, rfl, rfl, hwf⟩
    · exact ⟨fun h => absurd rfl h, fun h => absurd h hno⟩
  · by_cases hd : d ≥ s.slowlog_log_slower_than
    · have hyes : 0 ≤ s.slowlog_log_slower_than ∧ s.slowlog_log_slower_than ≤ d :=
        ⟨by omega, hd⟩
      obtain ⟨s1, en, hpush, hwf1, hval1, _, hent1, hid, hdu, hti, hid1, hsl1, _, hmx1, ha1, _⟩ :=
        slowlogPushEntry_spec d now hd hlp hwf halloc hfresh hv
      obtain ⟨m', hrun, hwf', _, _, _, ha', _⟩ :=
        slowlogTrimLoop_spec fuel s1 lp (p :: ps) (hsl1.trans hlp) hwf1 (by
          simp only [List.length_cons]
          omega)
      refine ⟨{ s1 with mem := m' }, ?_, ?_, fun h => absurd hyes h, ?_⟩
      · simp only [slowlogPushEntryIfNeeded, if_neg ht, hpush, Option.bind_eq_bind,
          Option.some_bind, hrun]
      · intro _
        refine ⟨s1, en, hpush, hwf1, ?_, hid, hdu, hti, hrun, hent1, hid1, ?_, ?_⟩
        · unfold entryAt
          rw [hval1, hent1, Function.update_same]
        · show m'.alloc = rest
          rw [ha', ha1]
        · rw [← hmx1]
          exact hwf'
      · constructor
        · intro _
          exact hyes
        · intro _
          show s1.slowlog_entry_id ≠ _
          rw [hid1]
          exact wrapLongLong_succ_ne _
    · have hno : ¬ (0 ≤ s.slowlog_log_slower_than ∧ s.slowlog_log_slower_than ≤ d) :=
        fun h => hd h.2
      obtain ⟨m', hrun, hwf', _, _, _, ha', _⟩ :=
        slowlogTrimLoop_spec fuel s lp ps hlp hwf (by omega)
      refine ⟨{ s with mem := m' }, ?_, fun h => absurd h hno, ?_, ?_⟩
      · simp only [slowlogPushEntryIfNeeded, if_neg ht, slowlogPushEntry, if_neg hd,
          Option.bind_eq_bind, Option.some_bind, hrun]
      · intro _
        rw [if_neg ht]
        exact ⟨rfl, rfl, rfl, ha', hwf'⟩
      · exact ⟨fun h => absurd rfl h, fun h => absurd h hno⟩

theorem slowlogPushEntryIfNeeded_threshold_witness :
    WF (logServer 0 3 [some 30, some 31, some 20]).mem 1 [10, 11, 12] ∧
    validArgv (logServer 0 3 [some 30, some 31, some 20]).objs [] 0 ∧
    ∃ s', slowlogPushEntryIfNeeded 5 (logServer 0 3 [some 30, some 31, some 20]) [] 0 0 1003 =
        some s' ∧
      s'.slowlog_entry_id ≠ 3 ∧ WF s'.mem 1 [20, 10, 11] ∧
      ∃ en, s'.entries 30 = some en ∧ en.id = 3 ∧ en.duration = 0 ∧ en.time = 1003 := by
  have hwf : WF (logServer 0 3 [some 30, some 31, some 20]).mem 1 [10, 11, 12] :=
    threeListMem_WF none (some SLOWLOG_FREE_ENTRY) _
  have hv : validArgv (logServer 0 3 [some 30, some 31, some 20]).objs [] 0 := by decide
  obtain ⟨s', hrun, hyes, _, hiff⟩ :=
    slowlogPushEntryIfNeeded_threshold 5 0 1003 rfl hwf (by decide) rfl rfl hv
  have hcond : (0 : Int) ≤ (logServer 0 3 [some 30, some 31, some 20]).slowlog_log_slower_than ∧
      (logServer 0 3 [some 30, some 31, some 20]).slowlog_log_slower_than ≤ 0 := by decide
  obtain ⟨s1, en, _, _, _, hid, hdu, hti, _, hent, _, _, hwf'⟩ := hyes hcond
  refine ⟨hwf, hv, s', hrun, hiff.mpr hcond, hwf', en, ?_, hid, hdu, hti⟩
  rw [hent, Function.update_same]

/-- C20 (counterexample): with the threshold `-1` the function returns before
the trimming loop: a slow log of three entries is still three entries long on
return, although `slowlog_max_len` is `1`. -/
theorem slowlogPushEntryIfNeeded_disabled_no_trim :
    WF (logServer (-1) 1 []).mem 1 [10, 11, 12] ∧
    ∃ s', slowlogPushEntryIfNeeded 5 (logServer (-1) 1 []) [] 0 5 1003 = some s' ∧
      WF s'.mem 1 [10, 11, 12] ∧
      ∃ l, s'.mem.lists 1 = some l ∧ l.len = 3 ∧ s'.slowlog_max_len = 1 ∧
        ¬ (l.len ≤ s'.slowlog_max_len) :=
  ⟨threeListMem_WF none (some SLOWLOG_FREE_ENTRY) [], logServer (-1) 1 [], rfl,
    threeListMem_WF none (some SLOWLOG_FREE_ENTRY) [], _, rfl, rfl, rfl, by decide⟩

/-- C20 (amended): on a well formed slow log, with the three allocations of a
push at hand, `slowlogPushEntryIfNeeded` returns.  With a negative threshold it
returns at once and leaves the server state as it is, whatever the length of
the log.  With a threshold that is not negative, the log on return is made of
the first `slowlog_max_len` nodes of the log `qs` as it stands after the
optional push: its length is at most `slowlog_max_len`, and the nodes removed
are the last ones of `qs`, deleted from the tail, the `free` method being
called on their values in that order. -/
theorem slowlogPushEntryIfNeeded_trims {s : redisServer} {lp : Ptr} {ps : List Ptr}
    {argv : List Ptr} {argc : Int} (fuel : Nat) (d : Int) (now : Int) {e b p : Ptr}
    {rest : List (Option Ptr)} (hlp : s.slowlog = some lp) (hwf : WF s.mem lp ps)
    (hfuel : ps.length + 1 < fuel)
    (halloc : s.mem.alloc = some e :: some b :: some p :: rest)
    (hfresh : s.mem.nodes p = none) (hv : validArgv s.objs argv argc) :
    ∃ s', slowlogPushEntryIfNeeded fuel s argv argc d now = some s' ∧
      s'.slowlog_max_len = s.slowlog_max_len ∧
      (s.slowlog_log_slower_than < 0 → s' = s) ∧
      (0 ≤ s.slowlog_log_slower_than →
        ∃ s1 qs l1 l', slowlogPushEntry s argv argc d now = some s1 ∧
          qs = (if s.slowlog_log_slower_than ≤ d then p :: ps else ps) ∧
          WF s1.mem lp qs ∧ slowlogTrimLoop fuel s1 = some s' ∧
          WF s'.mem lp (qs.take s.slowlog_max_len) ∧
          s1.mem.lists lp = some l1 ∧ s'.mem.lists lp = some l' ∧
          l'.len ≤ s.slowlog_max_len ∧
          (∀ q ∈ qs.drop s.slowlog_max_len, s'.mem.nodes q = none) ∧
          (∀ q ∈ qs.take s.slowlog_max_len, valueAt s'.mem q = valueAt s1.mem q) ∧
          s'.mem.freed = s1.mem.freed ++ (match l1.free with
            | some fn => (qs.drop s.slowlog_max_len).reverse.map
                (fun q => (fn, valueAt s1.mem q))
            | none => [])) := by
  by_cases ht : s.slowlog_log_slower_than < 0
  · exact ⟨s, by simp [slowlogPushEntryIfNeeded, ht], rfl, fun _ => rfl,
      fun h => absurd h (by omega)⟩
  · have hmain : ∀ (s1 : redisServer) (qs : List Ptr),
        slowlogPushEntry s argv argc d now = some s1 → s1.slowlog = some lp →
        s1.slowlog_max_len = s.slowlog_max_len → WF s1.mem lp qs → qs.length < fuel →
        qs = (if s.slowlog_log_slower_than ≤ d then p :: ps else ps) →
        ∃ s', slowlogPushEntryIfNeeded fuel s argv argc d now = some s' ∧
          s'.slowlog_max_len = s.slowlog_max_len ∧
          (s.slowlog_log_slower_than < 0 → s' = s) ∧
          (0 ≤ s.slowlog_log_slower_than →
            ∃ s1 qs l1 l', slowlogPushEntry s argv argc d now = some s1 ∧
              qs = (if s.slowlog_log_slower_than ≤ d then p :: ps else ps) ∧
              WF s1.mem lp qs ∧ slowlogTrimLoop fuel s1 = some s' ∧
              WF s'.mem lp (qs.take s.slowlog_max_len) ∧
              s1.mem.lists lp = some l1 ∧ s'.mem.lists lp = some l' ∧
              l'.len ≤ s.slowlog_max_len ∧
              (∀ q ∈ qs.drop s.slowlog_max_len, s'.mem.nodes q = none) ∧
              (∀ q ∈ qs.take s.slowlog_max_len, valueAt s'.mem q = valueAt s1.mem q) ∧
              s'.mem.freed = s1.mem.freed ++ (match l1.free with
                | some fn => (qs.drop s.slowlog_max_len).reverse.map
                    (fun q => (fn, valueAt s1.mem q))
                | none => [])) := by
      intro s1 qs hpush hlp1 hmx1 hwf1 hlen hqs
      obtain ⟨m', hrun, hwf', hv', _, hdel', _, _, l1, l', hl1, hl', _, _, _, hfd'⟩ :=
        slowlogTrimLoop_spec fuel s1 lp qs hlp1 hwf1 (by omega)
      rw [hmx1] at hwf' hv' hdel' hfd'
      have hnd : qs.Nodup := seg_nodup hwf1.choose_spec.2.2.2.2
      have hdisj : ∀ q, q ∈ qs.take s.slowlog_max_len → q ∉ qs.drop s.slowlog_max_len := by
        intro q h1 h2
        rw [← List.take_append_drop s.slowlog_max_len qs] at hnd
        exact (List.nodup_append.mp hnd).2.2 h1 h2
      have hlen' : l'.len ≤ s.slowlog_max_len := by
        obtain ⟨l2, hl2, _, _, hlen2, _⟩ := hwf'
        have : l2 = l' := Option.some.inj (hl2.symm.trans hl')
        rw [← this, hlen2]
        exact List.length_take_le _ _
      refine ⟨{ s1 with mem := m' }, ?_, hmx1, fun h => absurd h ht, ?_⟩
      · simp only [slowlogPushEntryIfNeeded, if_neg ht, hpush, Option.bind_eq_bind,
          Option.some_bind, hrun]
      · intro _
        exact ⟨s1, qs, l1, l', hpush, hqs, hwf1, hrun, hwf', hl1, hl', hlen', hdel',
          fun q hq => hv' q (hdisj q hq), hfd'⟩
    by_cases hd : d ≥ s.slowlog_log_slower_than
    · obtain ⟨s1, en, hpush, hwf1, _, _, _, _, _, _, _, hsl1, _, hmx1, _⟩ :=
        slowlogPushEntry_spec d now hd hlp hwf halloc hfresh hv
      exact hmain s1 (p :: ps) hpush (hsl1.trans hlp) hmx1 hwf1
        (by simp only [List.length_cons]; omega) (by rw [if_pos hd])
    · exact hmain s ps (by simp [slowlogPushEntry, hd]) hlp rfl hwf (by omega)
        (by rw [if_neg hd])

theorem slowlogPushEntryIfNeeded_trims_witness :
    WF (logServer 0 2 [some 30, some 31, some 20]).mem 1 [10, 11, 12] ∧
    validArgv (logServer 0 2 [some 30, some 31, some 20]).objs [] 0 ∧
    ∃ s' l', slowlogPushEntryIfNeeded 5 (logServer 0 2 [some 30, some 31, some 20]) [] 0 5 1003 =
        some s' ∧
      WF s'.mem 1 [20, 10] ∧ s'.mem.lists 1 = some l' ∧ l'.len ≤ 2 ∧
      s'.mem.nodes 11 = none ∧ s'.mem.nodes 12 = none := by
  have hwf : WF (logServer 0 2 [some 30, some 31, some 20]).mem 1 [10, 11, 12] :=
    threeListMem_WF none (some SLOWLOG_FREE_ENTRY) _
  have hv : validArgv (logServer 0 2 [some 30, some 31, some 20]).objs [] 0 := by decide
  obtain ⟨s', hrun, _, _, hpos⟩ :=
    slowlogPushEntryIfNeeded_trims 5 5 1003 rfl hwf (by decide) rfl rfl hv
  obtain ⟨s1, qs, l1, l', _, hqs, _, _, hwf', _, hl', hlen, hdel, _⟩ := hpos (by decide)
  have hqs' : qs = [20, 10, 11, 12] := hqs
  subst hqs'
  exact ⟨hwf, hv, s', l', hrun, hwf', hl', hlen, hdel 11 (by decide), hdel 12 (by decide)⟩

/-- The validity of `argv` depends only on which objects are allocated. -/
theorem validArgv_congr {o1 o2 : Ptr → Option robj} {argv : List Ptr} {argc : Int}
    (h : ∀ a, (o1 a).isSome = (o2 a).isSome) (hv : validArgv o2 argv argc) :
    validArgv o1 argv argc :=
  ⟨hv.1, fun a ha => (h a).trans (hv.2 a ha)⟩

theorem take_cons_take {α : Type} (m : Nat) (x : α) (L : List α) :
    (x :: L.take m).take m = (x :: L).take m := by
  cases m with
  | zero => rfl
  | succ n =>
    simp only [List.take_succ_cons, List.take_take]
    rw [Nat.min_eq_left (Nat.le_succ n)]

/-- One push on a slow log that is not longer than `slowlog_max_len`, with a
threshold that the duration reaches, and a script of distinct unused
addresses: the new entry has the identifier `k` of the counter and is at the
head, the log is cut to its first `slowlog_max_len` nodes, and the rest of the
script is still unused. -/
theorem slowlogPush_step {s : redisServer} {lp : Ptr} {ps : List Ptr} {argv : List Ptr}
    {argc : Int} (fuel : Nat) (d : Int) (now : Int) {e b p : Ptr} {rem : List Ptr} (k : Nat)
    (hlp : s.slowlog = some lp) (hwf : WF s.mem lp ps)
    (hid : s.slowlog_entry_id = (k : Int)) (hk : (k : Int) + 1 < 2 ^ 63)
    (ht0 : 0 ≤ s.slowlog_log_slower_than) (hd : s.slowlog_log_slower_than ≤ d)
    (hfuel : 2 ≤ fuel) (hlen : ps.length ≤ s.slowlog_max_len)
    (halloc : s.mem.alloc = (e :: b :: p :: rem).map some) (hnd : (e :: b :: p :: rem).Nodup)
    (hfr : ∀ a ∈ e :: b :: p :: rem, s.mem.nodes a = none ∧ a ∉ listValues s.mem ps)
    (hv : validArgv s.objs argv argc) :
    ∃ s', slowlogPushEntryIfNeeded fuel s argv argc d now = some s' ∧
      s'.slowlog = some lp ∧ WF s'.mem lp ((p :: ps).take s.slowlog_max_len) ∧
      s'.slowlog_entry_id = ((k + 1 : Nat) : Int) ∧
      s'.slowlog_log_slower_than = s.slowlog_log_slower_than ∧
      s'.slowlog_max_len = s.slowlog_max_len ∧
      ((p :: ps).take s.slowlog_max_len).map (fun q => entrySummary (entryAt s' q)) =
        (some ((k : Int), d, now) ::
          ps.map (fun q => entrySummary (entryAt s q))).take s.slowlog_max_len ∧
      s'.mem.alloc = rem.map some ∧
      (∀ a ∈ rem, s'.mem.nodes a = none ∧
        a ∉ listValues s'.mem ((p :: ps).take s.slowlog_max_len)) ∧
      (∀ a, (s'.objs a).isSome = (s.objs a).isSome) := by
  have hseg := hwf.choose_spec.2.2.2.2
  have hfp := (hfr p (by simp)).1
  have hep : ∀ q ∈ ps, valueAt s.mem q ≠ e := by
    intro q hq h
    exact (hfr e (List.mem_cons_self _ _)).2 (h ▸ List.mem_map_of_mem _ hq)
  obtain ⟨s1, en, hpush, hwf1, hval1, hvals1, hent1, heid, hedu, heti, hid1, hsl1, hth1, hmx1,
    ha1, _, hfr1, _, hobj1, _⟩ :=
    slowlogPushEntry_spec d now hd hlp hwf (by simpa using halloc) hfp hv
  obtain ⟨m', hrun, hwf', hv', hfr', _, ha', _⟩ :=
    slowlogTrimLoop_spec fuel s1 lp (p :: ps) (hsl1.trans hlp) hwf1 (by
      rw [hmx1]
      simp only [List.length_cons]
      omega)
  rw [hmx1] at hwf' hv'
  have hnd1 : (p :: ps).Nodup := seg_nodup hwf1.choose_spec.2.2.2.2
  have hdisj : ∀ q, q ∈ (p :: ps).take s.slowlog_max_len →
      q ∉ (p :: ps).drop s.slowlog_max_len := by
    intro q h1 h2
    rw [← List.take_append_drop s.slowlog_max_len (p :: ps)] at hnd1
    exact (List.nodup_append.mp hnd1).2.2 h1 h2
  have hsum1 : ∀ q ∈ p :: ps, entrySummary (entryAt s1 q) =
      if q = p then some ((k : Int), d, now) else entrySummary (entryAt s q) := by
    intro q hq
    unfold entryAt
    by_cases hqp : q = p
    · rw [if_pos hqp, hqp, hval1, hent1, Function.update_same]
      show some (en.id, en.duration, en.time) = _
      rw [heid, hedu, heti, hid]
    · have hqps : q ∈ ps := (List.mem_cons.mp hq).resolve_left hqp
      rw [if_neg hqp, hvals1 q hqps, hent1, Function.update_noteq (hep q hqps)]
  have hpps : p ∉ ps := (List.nodup_cons.mp hnd1).1
  have hmapps : ps.map (fun q => if q = p then some ((k : Int), d, now)
      else entrySummary (entryAt s q)) = ps.map (fun q => entrySummary (entryAt s q)) := by
    apply List.map_congr_left
    intro q hq
    have hqp : q ≠ p := fun h => hpps (h ▸ hq)
    rw [if_neg hqp]
  refine ⟨{ s1 with mem := m' }, ?_, hsl1.trans hlp, hwf', ?_, hth1, hmx1, ?_, ?_, ?_, hobj1⟩
  · have ht : ¬ s.slowlog_log_slower_than < 0 := by omega
    simp only [slowlogPushEntryIfNeeded, if_neg ht, hpush, Option.bind_eq_bind,
      Option.some_bind, hrun]
  · show s1.slowlog_entry_id = _
    rw [hid1, hid, wrapLongLong_succ (by omega) hk]
    push_cast
    rfl
  · have h1 : ((p :: ps).take s.slowlog_max_len).map
        (fun q => entrySummary (entryAt { s1 with mem := m' } q)) =
        ((p :: ps).take s.slowlog_max_len).map (fun q => entrySummary (entryAt s1 q)) := by
      apply List.map_congr_left
      intro q hq
      unfold entryAt
      show entrySummary (s1.entries (valueAt m' q)) = _
      rw [hv' q (hdisj q hq)]
    have h2 : ((p :: ps).take s.slowlog_max_len).map (fun q => entrySummary (entryAt s1 q)) =
        ((p :: ps).take s.slowlog_max_len).map (fun q => if q = p then some ((k : Int), d, now)
          else entrySummary (entryAt s q)) := by
      apply List.map_congr_left
      intro q hq
      exact hsum1 q (List.mem_of_mem_take hq)
    rw [h1, h2, List.map_take, List.map_cons, if_pos rfl, hmapps]
  · show m'.alloc = _
    rw [ha', ha1]
  · intro a ha
    have hamem : a ∈ e :: b :: p :: rem := by simp [ha]
    have hne : a ≠ e := by
      intro h
      rw [h] at ha
      have := (List.nodup_cons.mp hnd).1
      exact this (by simp [ha])
    have hnp : a ≠ p := by
      intro h
      rw [h] at ha
      have := (List.nodup_cons.mp (List.nodup_cons.mp (List.nodup_cons.mp hnd).2).2).1
      exact this ha
    have haps : a ∉ ps := by
      intro h
      obtain ⟨n, hn⟩ := seg_allocated hseg h
      rw [(hfr a hamem).1] at hn
      cases hn
    have happs : a ∉ p :: ps := by
      intro h
      rcases List.mem_cons.mp h with h | h
      · exact hnp h
      · exact haps h
    constructor
    · show m'.nodes a = none
      rw [hfr' a happs, hfr1 a hnp haps]
      exact (hfr a hamem).1
    · intro hmem
      obtain ⟨q, hq, hqa⟩ := List.mem_map.mp hmem
      have hq' : q ∈ p :: ps := List.mem_of_mem_take hq
      have hqv : valueAt m' q = valueAt s1.mem q := hv' q (hdisj q hq)
      rw [show valueAt ({ s1 with mem := m' } : redisServer).mem q = valueAt m' q from rfl,
        hqv] at hqa
      rcases List.mem_cons.mp hq' with h | h
      · rw [h, hval1] at hqa
        exact hne hqa.symm
      · rw [hvals1 q h] at hqa
        exact (hfr a hamem).2 (hqa ▸ List.mem_map_of_mem _ h)

theorem callSummaries_length (k : Nat) (cs : List slowlogCall) :
    (callSummaries k cs).length = cs.length := by
  induction cs generalizing k with
  | nil => rfl
  | cons c cs ih => simp [callSummaries, ih]

/-- A run of pushes whose durations all reach a threshold that is not
negative, on a slow log that is not longer than `m = slowlog_max_len`, with a
script of distinct unused addresses that is long enough: the log is extended
at the head by the entries of the calls, in call order, and cut to its first
`m` nodes. -/
theorem slowlogPushAll_spec (objs0 : Ptr → Option robj) (t : Int) (m : Nat) (lp : Ptr)
    (fuel : Nat) (hfuel : 2 ≤ fuel) (ht0 : 0 ≤ t) (calls : List slowlogCall) :
    ∀ (s : redisServer) (k : Nat) (ps rem : List Ptr) (L : List (Option (Int × Int × Int))),
      s.slowlog = some lp → WF s.mem lp ps → s.slowlog_entry_id = (k : Int) →
      ((k : Int) + calls.length < 2 ^ 63) →
      s.slowlog_log_slower_than = t → s.slowlog_max_len = m →
      (∀ c ∈ calls, t ≤ c.duration ∧ validArgv objs0 c.argv c.argc) →
      (∀ a, (s.objs a).isSome = (objs0 a).isSome) →
      ps.length ≤ m → ps.map (fun q => entrySummary (entryAt s q)) = L.take m →
      s.mem.alloc = rem.map some → rem.Nodup →
      (∀ a ∈ rem, s.mem.nodes a = none ∧ a ∉ listValues s.mem ps) →
      3 * calls.length ≤ rem.length →
      ∃ s' ps', slowlogPushAll fuel s calls = some s' ∧ s'.slowlog = some lp ∧
        WF s'.mem lp ps' ∧
        ps'.map (fun q => entrySummary (entryAt s' q)) =
          ((callSummaries k calls).reverse ++ L).take m ∧
        s'.slowlog_entry_id = ((k + calls.length : Nat) : Int) ∧
        s'.slowlog_log_slower_than = t ∧ s'.slowlog_max_len = m := by
  induction calls with
  | nil =>
    intro s k ps rem L hlp hwf hid _ hth hmx _ _ _ hsum _ _ _ _
    exact ⟨s, ps, rfl, hlp, hwf, by simpa [callSummaries] using hsum, by simpa using hid,
      hth, hmx⟩
  | cons c cs ih =>
    intro s k ps rem L hlp hwf hid hk hth hmx hcalls hobj hlen hsum halloc hnd hfr hscript
    obtain ⟨hcd, hcv⟩ := hcalls c (List.mem_cons_self _ _)
    simp only [List.length_cons] at hscript hk
    push_cast at hk
    match rem, halloc, hnd, hfr, hscript with
    | [], _, _, _, h => exact absurd h (by simp only [List.length_cons, List.length_nil]; omega)
    | [_], _, _, _, h => exact absurd h (by simp only [List.length_cons, List.length_nil]; omega)
    | [_, _], _, _, _, h => exact absurd h (by simp only [List.length_cons, List.length_nil]; omega)
    | e :: b :: p :: rem', halloc, hnd, hfr, hscript =>
      obtain ⟨s1, hpush, hlp1, hwf1, hid1, hth1, hmx1, hsum1, ha1, hfr1, hobj1⟩ :=
        slowlogPush_step fuel c.duration c.now k hlp hwf hid (by omega)
          (by rw [hth]; exact ht0) (by rw [hth]; exact hcd) hfuel (by rw [hmx]; exact hlen)
          halloc hnd hfr (validArgv_congr hobj hcv)
      rw [hmx] at hwf1 hsum1 hfr1
      rw [hsum, take_cons_take] at hsum1
      obtain ⟨s', ps', hrun, hlp', hwf', hsum', hid', hth', hmx'⟩ :=
        ih s1 (k + 1) ((p :: ps).take m) rem' (some ((k : Int), c.duration, c.now) :: L)
          hlp1 hwf1 hid1 (by push_cast; omega) (hth1.trans hth) (hmx1.trans hmx)
          (fun c' hc' => hcalls c' (List.mem_cons_of_mem _ hc'))
          (fun a => (hobj1 a).trans (hobj a)) (List.length_take_le _ _) hsum1 ha1
          (List.nodup_cons.mp (List.nodup_cons.mp (List.nodup_cons.mp hnd).2).2).2 hfr1
          (by simp only [List.length_cons] at hscript; omega)
      refine ⟨s', ps', ?_, hlp', hwf', ?_, ?_, hth', hmx'⟩
      · simp only [slowlogPushAll, hpush, Option.bind_eq_bind, Option.some_bind, hrun]
      · rw [hsum']
        simp [callSummaries, callSummary]
      · rw [hid']
        simp only [List.length_cons]
        congr 1
        omega

/-- Effect of `slowlogInit` when the allocation of the list succeeds. -/
theorem slowlogInit_spec {s : redisServer} {lp : Ptr} {rest : List (Option Ptr)}
    (halloc : s.mem.alloc = some lp :: rest) :
    ∃ s1, slowlogInit s = some s1 ∧ s1.slowlog = some lp ∧ WF s1.mem lp [] ∧
      s1.slowlog_entry_id = 0 ∧ s1.slowlog_log_slower_than = s.slowlog_log_slower_than ∧
      s1.slowlog_max_len = s.slowlog_max_len ∧ s1.objs = s.objs ∧ s1.entries = s.entries ∧
      s1.mem.alloc = rest ∧ s1.mem.nodes = s.mem.nodes ∧ s1.mem.freed = s.mem.freed ∧
      (∃ l, s1.mem.lists lp = some l ∧ l.free = some SLOWLOG_FREE_ENTRY) := by
  obtain ⟨l0, hl0⟩ : ∃ l0 : list, l0 =
      { head := none, tail := none, len := 0, dup := none, free := none, match_ := none } :=
    ⟨_, rfl⟩
  obtain ⟨m1, hm1⟩ : ∃ m1 : Mem, m1 = (({ s.mem with alloc := rest } : Mem).setList lp
      l0).setList lp { l0 with free := some SLOWLOG_FREE_ENTRY } := ⟨_, rfl⟩
  have hlists : m1.lists lp = some { l0 with free := some SLOWLOG_FREE_ENTRY } := by
    rw [hm1]
    simp
  refine ⟨redisServer.mk m1 s.objs s.entries (some lp) 0 s.slowlog_log_slower_than
    s.slowlog_max_len, ?_, rfl, ?_, rfl, rfl, rfl, rfl, rfl, ?_, ?_, ?_, ?_⟩
  · simp only [slowlogInit, listCreate, zmalloc, halloc, Option.bind_eq_bind,
      Option.some_bind, setList_lists, if_true, Option.pure_def]
    rw [hm1, hl0]
  · refine ⟨_, hlists, ?_, ?_, ?_, trivial⟩ <;> rw [hl0] <;> rfl
  · show m1.alloc = rest
    rw [hm1]
    rfl
  · show m1.nodes = s.mem.nodes
    rw [hm1]
    rfl
  · show m1.freed = s.mem.freed
    rw [hm1]
    rfl
  · exact ⟨_, hlists, rfl⟩

theorem callSummaries_ids (k : Nat) (cs : List slowlogCall) :
    (callSummaries k cs).map (Option.map Prod.fst) =
      (List.range' k cs.length).map (fun i : Nat => some (i : Int)) := by
  induction cs generalizing k with
  | nil => rfl
  | cons c cs ih =>
    simp only [callSummaries, callSummary, List.map_cons, Option.map_some', List.length_cons,
      List.range'_succ, ih]

/-- C18: from `slowlogInit`, with `slowlog_max_len = m`, a threshold that is
not negative and a script of distinct unused addresses, `n` calls of
`slowlogPushEntryIfNeeded` whose durations all reach the threshold leave a well
formed log of exactly `min n m` nodes; from head to tail its entries are those
of the last `min n m` calls, the most recent first, the entry of the `k`-th
call (counted from one) carrying the identifier `k - 1`, with the duration and
the time of that call. -/
theorem slowlog_bounded {s0 : redisServer} {lp : Ptr} {script : List Ptr} (fuel : Nat)
    (calls : List slowlogCall)
    (halloc : s0.mem.alloc = (lp :: script).map some) (hnd : script.Nodup)
    (hfresh : ∀ a ∈ script, s0.mem.nodes a = none)
    (hlen : 3 * calls.length ≤ script.length) (ht : 0 ≤ s0.slowlog_log_slower_than)
    (hcalls : ∀ c ∈ calls,
      s0.slowlog_log_slower_than ≤ c.duration ∧ validArgv s0.objs c.argv c.argc)
    (hfuel : 2 ≤ fuel) (hn : (calls.length : Int) < 2 ^ 63) :
    ∃ s1 s' ps, slowlogInit s0 = some s1 ∧ slowlogPushAll fuel s1 calls = some s' ∧
      s'.slowlog = some lp ∧ WF s'.mem lp ps ∧
      ps.length = min calls.length s0.slowlog_max_len ∧
      ps.map (fun q => entrySummary (entryAt s' q)) =
        ((callSummaries 0 calls).reverse).take s0.slowlog_max_len ∧
      ps.map (fun q => (entryAt s' q).map (fun x => x.id)) =
        (((List.range' 0 calls.length).reverse).take s0.slowlog_max_len).map
          (fun i : Nat => some (i : Int)) ∧
      s'.slowlog_entry_id = (calls.length : Int) := by
  obtain ⟨s1, hinit, hlp1, hwf1, hid1, hth1, hmx1, hobj1, _, ha1, hn1, _⟩ :=
    slowlogInit_spec (by simpa using halloc : s0.mem.alloc = some lp :: script.map some)
  obtain ⟨s', ps, hrun, hlp', hwf', hsum', hid', _, _⟩ :=
    slowlogPushAll_spec s0.objs s0.slowlog_log_slower_than s0.slowlog_max_len lp fuel hfuel ht
      calls s1 0 [] script [] hlp1 hwf1 (by simpa using hid1) (by simpa using hn) hth1 hmx1
      hcalls (fun a => by rw [hobj1]) (Nat.zero_le _) (by simp) ha1 hnd
      (fun a ha => ⟨by rw [hn1]; exact hfresh a ha, by simp [listValues]⟩) hlen
  rw [List.append_nil] at hsum'
  have hlen' : ps.length = min calls.length s0.slowlog_max_len := by
    have := congrArg List.length hsum'
    simp only [List.length_map, List.length_take, List.length_reverse,
      callSummaries_length] at this
    rw [this]
    exact Nat.min_comm _ _
  refine ⟨s1, s', ps, hinit, hrun, hlp', hwf', hlen', hsum', ?_, by simpa using hid'⟩
  have h1 : ps.map (fun q => (entryAt s' q).map (fun x => x.id)) =
      (ps.map (fun q => entrySummary (entryAt s' q))).map (Option.map Prod.fst) := by
    rw [List.map_map]
    apply List.map_congr_left
    intro q _
    show _ = Option.map Prod.fst (entrySummary (entryAt s' q))
    unfold entrySummary
    cases entryAt s' q <;> rfl
  rw [h1, hsum', List.map_take, List.map_reverse, callSummaries_ids, List.map_take,
    List.map_reverse]

theorem slowlog_bounded_witness :
    ∃ s1 s' ps, slowlogInit (startServer 0 128 ((List.range' 1 391).map some)) = some s1 ∧
      slowlogPushAll 2 s1 (List.replicate 130 ⟨[], 0, 10, 1000⟩) = some s' ∧
      WF s'.mem 1 ps ∧ ps.length = 128 ∧
      ps.map (fun q => (entryAt s' q).map (fun x => x.id)) =
        (List.range' 2 128).reverse.map (fun i : Nat => some (i : Int)) ∧
      s'.slowlog_entry_id = 130 := by
  have halloc : (startServer 0 128 ((List.range' 1 391).map some)).mem.alloc =
      (1 :: List.range' 2 390).map some := rfl
  obtain ⟨s1, s', ps, h1, h2, _, h3, h4, _, h5, h6⟩ :=
    slowlog_bounded 2 (List.replicate 130 ⟨[], 0, 10, 1000⟩) halloc (List.nodup_range' 2 390)
      (fun _ _ => rfl) (by simp) (le_refl _)
      (fun c hc => by rw [List.eq_of_mem_replicate hc]; exact ⟨by decide, by decide⟩)
      (le_refl _) (by simp)
  have hlen : (List.replicate 130 (slowlogCall.mk [] 0 10 1000)).length = 130 :=
    List.length_replicate _ _
  have hids : ((List.range' 0 130).reverse).take 128 = (List.range' 2 128).reverse := by
    decide
  rw [hlen] at h4 h5 h6
  refine ⟨s1, s', ps, h1, h2, h3, h4, ?_, h6⟩
  rw [h5]
  exact congrArg _ hids

/-- The marker made by `slowlogCreateEntry` is the marker of the
specification. -/
theorem createObject_moreArguments (n : Int) :
    slowlogArg.created (createObject OBJ_STRING (moreArguments n)) = specMoreArguments n := by
  simp [createObject, moreArguments, specMoreArguments, String.toList, String.data_append]

/-- The object made by `slowlogCreateEntry` for a long string is the stored
form of the specification. -/
theorem specStoredArg_of_long {o : robj} (a : Ptr)
    (h : o.type = OBJ_STRING ∧ sdsEncodedObject o = true ∧
      o.ptr.length > SLOWLOG_ENTRY_MAX_STRING) :
    specStoredArg o a = slowlogArg.created (createObject OBJ_STRING
      (moreBytes (o.ptr.take SLOWLOG_ENTRY_MAX_STRING)
        (o.ptr.length - SLOWLOG_ENTRY_MAX_STRING))) := by
  have h2 : o.encoding = OBJ_ENCODING_RAW ∨ o.encoding = OBJ_ENCODING_EMBSTR := by
    have := h.2.1
    simpa [sdsEncodedObject] using this
  unfold specStoredArg
  rw [if_pos ⟨h.1, h2, h.2.2⟩]
  simp [createObject, moreBytes, String.toList, String.data_append]

theorem specStoredArg_of_short {o : robj} (a : Ptr)
    (h : ¬ (o.type = OBJ_STRING ∧ sdsEncodedObject o = true ∧
      o.ptr.length > SLOWLOG_ENTRY_MAX_STRING)) :
    specStoredArg o a = slowlogArg.retained a := by
  unfold specStoredArg
  rw [if_neg]
  intro h'
  apply h
  refine ⟨h'.1, ?_, h'.2.2⟩
  simpa [sdsEncodedObject] using h'.2.1

/-- The stored form of an argument does not depend on the reference count of
its object. -/
theorem specStoredArg_addRefs (k : Nat) (o : robj) (a : Ptr) :
    specStoredArg (addRefs k o) a = specStoredArg o a := rfl

theorem addRefs_addRefs (j k : Nat) (o : robj) : addRefs j (addRefs k o) = addRefs (k + j) o := by
  simp [addRefs, add_assoc]

theorem addRefs_zero (o : robj) : addRefs 0 o = o := by
  simp [addRefs]

/-- The two outcomes of one iteration of the loop of `slowlogCreateEntry`: the
marker at the last position of a shortened argument list, the stored form of
`argv[j]` elsewhere; only a retained object gets one reference more. -/
theorem slowlogCreateArg_cases {objs : Ptr → Option robj} {argv : List Ptr} {argc slargc : Int}
    {j : Nat} {r : slowlogArg × (Ptr → Option robj)}
    (h : slowlogCreateArg objs argv argc slargc j = some r) :
    (slargc ≠ argc ∧ (j : Int) = slargc - 1 ∧
      r = (specMoreArguments (argc - slargc + 1), objs)) ∨
    (¬ (slargc ≠ argc ∧ (j : Int) = slargc - 1) ∧
      ∃ a o, argv.get? j = some a ∧ objs a = some o ∧ r.1 = specStoredArg o a ∧
        ((o.type = OBJ_STRING ∧ sdsEncodedObject o = true ∧
            o.ptr.length > SLOWLOG_ENTRY_MAX_STRING) ∧ r.2 = objs ∧
            (∀ b, r.1 ≠ slowlogArg.retained b) ∨
          ¬ (o.type = OBJ_STRING ∧ sdsEncodedObject o = true ∧
            o.ptr.length > SLOWLOG_ENTRY_MAX_STRING) ∧ r.1 = slowlogArg.retained a ∧
            r.2 = Function.update objs a (some (addRefs 1 o)))) := by
  unfold slowlogCreateArg at h
  by_cases hm : slargc ≠ argc ∧ (j : Int) = slargc - 1
  · rw [if_pos hm] at h
    left
    refine ⟨hm.1, hm.2, ?_⟩
    rw [← Option.some.inj h, createObject_moreArguments]
  · rw [if_neg hm] at h
    right
    refine ⟨hm, ?_⟩
    cases ha : argv.get? j with
    | none =>
      rw [ha] at h
      cases h
    | some a =>
      rw [ha] at h
      simp only [Option.bind_eq_bind, Option.some_bind] at h
      cases ho : objs a with
      | none =>
        rw [ho] at h
        cases h
      | some o =>
        rw [ho] at h
        simp only [Option.some_bind] at h
        refine ⟨a, o, rfl, ho, ?_⟩
        by_cases hc : o.type = OBJ_STRING ∧ sdsEncodedObject o = true ∧
            o.ptr.length > SLOWLOG_ENTRY_MAX_STRING
        · rw [if_pos hc] at h
          have hr := Option.some.inj h
          rw [← hr]
          refine ⟨(specStoredArg_of_long a hc).symm, Or.inl ⟨hc, rfl, ?_⟩⟩
          intro b hb
          cases hb
        · rw [if_neg hc] at h
          have hr := Option.some.inj h
          rw [← hr]
          exact ⟨(specStoredArg_of_short a hc).symm, Or.inr ⟨hc, rfl, rfl⟩⟩

/-- The loop of `slowlogCreateEntry`, started at `j` for `k` iterations on a
heap `objs` that differs from `objs0` by reference counts only: the element
stored by iteration `j + i` is the marker at the last position of a shortened
argument list and the stored form of `argv[j + i]` elsewhere; a retained
element is the argument at its position; every object gets as many references
more as there are elements retaining it. -/
theorem slowlogCreateEntryLoop_spec (objs0 : Ptr → Option robj) {argv : List Ptr}
    {argc slargc : Int} (k : Nat) :
    ∀ (j : Nat) (objs : Ptr → Option robj) (res : List slowlogArg × (Ptr → Option robj)),
      (∀ a, ∃ n, objs a = (objs0 a).map (addRefs n)) →
      slowlogCreateEntryLoop argv argc slargc k j objs = some res →
      res.1.length = k ∧
      (∀ i, i < k →
        (slargc ≠ argc ∧ ((j + i : Nat) : Int) = slargc - 1 ∧
          res.1.get? i = some (specMoreArguments (argc - slargc + 1))) ∨
        (¬ (slargc ≠ argc ∧ ((j + i : Nat) : Int) = slargc - 1) ∧
          ∃ a o, argv.get? (j + i) = some a ∧ objs0 a = some o ∧
            res.1.get? i = some (specStoredArg o a))) ∧
      (∀ i a, res.1.get? i = some (slowlogArg.retained a) → argv.get? (j + i) = some a) ∧
      (∀ a, res.2 a = (objs a).map (addRefs (res.1.count (slowlogArg.retained a)))) := by
  induction k with
  | zero =>
    intro j objs res _ h
    simp only [slowlogCreateEntryLoop, Option.some.injEq] at h
    subst h
    refine ⟨rfl, fun i hi => absurd hi (Nat.not_lt_zero i), ?_, ?_⟩
    · intro i a hi
      simp at hi
    · intro a
      simp only [List.count_nil]
      cases objs a with
      | none => rfl
      | some o => simp [addRefs_zero]
  | succ k ih =>
    intro j objs res hR h
    simp only [slowlogCreateEntryLoop, Option.bind_eq_bind, Option.bind_eq_some,
      Option.pure_def, Option.some.injEq] at h
    obtain ⟨r, hr, rest, hrest, hres⟩ := h
    subst hres
    have hcases := slowlogCreateArg_cases hr
    -- the heap after the iteration still differs from `objs0` by reference counts only
    have hR1 : ∀ a, ∃ n, r.2 a = (objs0 a).map (addRefs n) := by
      intro a
      rcases hcases with ⟨_, _, e⟩ | ⟨_, a0, o, _, ho, _, ⟨_, e, _⟩ | ⟨_, _, e⟩⟩
      · rw [e]
        exact hR a
      · rw [e]
        exact hR a
      · rw [e]
        by_cases ha : a = a0
        · obtain ⟨n, hn⟩ := hR a0
          rw [ha, Function.update_same]
          rw [ho] at hn
          cases h0 : objs0 a0 with
          | none =>
            rw [h0] at hn
            cases hn
          | some o0 =>
            rw [h0] at hn
            simp only [Option.map_some', Option.some.injEq] at hn
            exact ⟨n + 1, by rw [hn, addRefs_addRefs]; rfl⟩
        · rw [Function.update_noteq ha]
          exact hR a
    obtain ⟨hlen, hpt, hret, hobj⟩ := ih (j + 1) r.2 rest hR1 hrest
    refine ⟨by simp [hlen], ?_, ?_, ?_⟩
    · intro i hi
      cases i with
      | zero =>
        rcases hcases with ⟨h1, h2, e⟩ | ⟨hm, a0, o, ha0, ho, e, _⟩
        · left
          refine ⟨h1, by simpa using h2, ?_⟩
          rw [e]
          rfl
        · right
          refine ⟨by simpa using hm, ?_⟩
          obtain ⟨n, hn⟩ := hR a0
          rw [ho] at hn
          cases h0 : objs0 a0 with
          | none =>
            rw [h0] at hn
            cases hn
          | some o0 =>
            rw [h0] at hn
            simp only [Option.map_some', Option.some.injEq] at hn
            refine ⟨a0, o0, by simpa using ha0, h0, ?_⟩
            show some r.1 = _
            rw [e, hn, specStoredArg_addRefs]
      | succ i =>
        have := hpt i (by omega)
        rw [show j + 1 + i = j + (i + 1) by omega] at this
        exact this
    · intro i a hi
      cases i with
      | zero =>
        have hi' : r.1 = slowlogArg.retained a := by simpa using hi
        rcases hcases with ⟨_, _, e⟩ | ⟨_, a0, o, ha0, _, _, ⟨_, _, e⟩ | ⟨_, e, _⟩⟩
        · rw [e] at hi'
          cases hi'
        · exact absurd hi' (e a)
        · rw [e] at hi'
          cases hi'
          simpa using ha0
      | succ i =>
        have := hret i a (by simpa using hi)
        rw [show j + 1 + i = j + (i + 1) by omega] at this
        exact this
    · intro a
      show rest.2 a = _
      rw [hobj a]
      rcases hcases with ⟨_, _, e⟩ | ⟨_, a0, o, _, ho, _, ⟨_, e, hne⟩ | ⟨_, e1, e⟩⟩
      · rw [e]
        simp [specMoreArguments]
      · rw [e]
        have : (r.1 == slowlogArg.retained a) = false := by
          simpa using hne a
        rw [List.count_cons, this]
        simp
      · rw [e, e1]
        by_cases ha : a = a0
        · rw [ha, Function.update_same, ho]
          simp [addRefs_addRefs, add_comm]
        · rw [Function.update_noteq ha]
          have : (slowlogArg.retained a0 == slowlogArg.retained a) = false := by
            simpa using fun h => ha h.symm
          rw [List.count_cons, this]
          simp

/-- The elements of `L` equal to `x` are not more than the elements of `M`
equal to `y`, when `M` holds `y` wherever `L` holds `x`. -/
theorem count_le_count_of_get? {α β : Type} [DecidableEq α] [DecidableEq β] (x : α) (y : β) :
    ∀ (L : List α) (M : List β) (j : Nat),
      (∀ i, L.get? i = some x → M.get? (j + i) = some y) →
      L.count x ≤ (M.drop j).count y := by
  intro L
  induction L with
  | nil =>
    intro M j _
    simp
  | cons z L ih =>
    intro M j h
    have hrec : L.count x ≤ (M.drop (j + 1)).count y := by
      apply ih M (j + 1)
      intro i hi
      have := h (i + 1) (by simpa using hi)
      rw [show j + 1 + i = j + (i + 1) by omega]
      exact this
    by_cases hz : z = x
    · have h0 := h 0 (by simp [hz])
      rw [Nat.add_zero] at h0
      have hd : M.drop j = y :: M.drop (j + 1) := by
        rw [List.get?_eq_some] at h0
        obtain ⟨hj, hy⟩ := h0
        rw [← hy]
        exact List.drop_eq_getElem_cons hj
      rw [hd, hz]
      simp only [List.count_cons_self]
      omega
    · have hc : (z :: L).count x = L.count x := List.count_cons_of_ne (Ne.symm hz) L
      rw [hc]
      refine le_trans hrec ?_
      by_cases hj : j < M.length
      · rw [List.drop_eq_getElem_cons hj]
        exact List.count_le_count_cons _ _ _
      · rw [List.drop_eq_nil_of_le (by omega : M.length ≤ j + 1),
          List.drop_eq_nil_of_le (by omega : M.length ≤ j)]

/-- Complete effect of `slowlogCreateEntry` on the stored arguments and on the
objects, when its two allocations succeed and `argv` holds `argc` allocated
objects. -/
theorem slowlogCreateEntry_spec {s : redisServer} {argv : List Ptr} {argc : Int} (duration : Int)
    (now : Int) {e b : Ptr} {rest : List (Option Ptr)} {slargc : Int}
    (hsl : slargc = if argc > SLOWLOG_ENTRY_MAX_ARGC then SLOWLOG_ENTRY_MAX_ARGC else argc)
    (halloc : s.mem.alloc = some e :: some b :: rest) (hv : validArgv s.objs argv argc) :
    ∃ s1 en, slowlogCreateEntry s argv argc duration now = some (e, s1) ∧
      s1.entries e = some en ∧ en.argc = slargc ∧ (en.argv.length : Int) = slargc ∧
      (∀ i : Nat, (i : Int) < slargc →
        (slargc ≠ argc ∧ (i : Int) = slargc - 1 ∧
          en.argv.get? i = some (specMoreArguments (argc - slargc + 1))) ∨
        (¬ (slargc ≠ argc ∧ (i : Int) = slargc - 1) ∧
          ∃ a o, argv.get? i = some a ∧ s.objs a = some o ∧
            en.argv.get? i = some (specStoredArg o a))) ∧
      (∀ i a, en.argv.get? i = some (slowlogArg.retained a) → argv.get? i = some a) ∧
      (∀ a, s1.objs a = (s.objs a).map (addRefs (en.argv.count (slowlogArg.retained a)))) := by
  obtain ⟨hargc, hall⟩ := hv
  have hle : slargc.toNat ≤ argv.length := by
    rw [hsl]
    unfold SLOWLOG_ENTRY_MAX_ARGC
    split <;> omega
  have hnn : (slargc.toNat : Int) = slargc := by
    rw [hsl]
    unfold SLOWLOG_ENTRY_MAX_ARGC
    split <;> omega
  obtain ⟨r, hr, _, _⟩ :=
    slowlogCreateEntryLoop_ok argc slargc slargc.toNat 0 s.objs (by omega) hall
  obtain ⟨hlen, hpt, hret, hobj⟩ := slowlogCreateEntryLoop_spec s.objs slargc.toNat 0 s.objs r
    (fun a => ⟨0, by cases s.objs a <;> simp [addRefs_zero]⟩) hr
  obtain ⟨en, hen⟩ : ∃ en : slowlogEntry,
      en = slowlogEntry.mk r.1 slargc s.slowlog_entry_id duration now := ⟨_, rfl⟩
  obtain ⟨s1, hs1⟩ : ∃ s1 : redisServer, s1 = redisServer.mk { s.mem with alloc := rest } r.2
      (Function.update s.entries e (some en)) s.slowlog (wrapLongLong (s.slowlog_entry_id + 1))
      s.slowlog_log_slower_than s.slowlog_max_len := ⟨_, rfl⟩
  have hargv : en.argv = r.1 := by rw [hen]
  refine ⟨s1, en, ?_, ?_, by rw [hen], ?_, ?_, ?_, ?_⟩
  · simp only [slowlogCreateEntry, zmalloc, halloc, Option.bind_eq_bind, Option.some_bind,
      ← hsl, hr, Option.pure_def]
    rw [hs1, hen]
    simp
  · rw [hs1]
    show Function.update s.entries e (some en) e = _
    rw [Function.update_same]
  · rw [hargv, hlen, hnn]
  · intro i hi
    have := hpt i (by omega)
    rw [Nat.zero_add] at this
    rw [hargv]
    exact this
  · intro i a hi
    rw [hargv] at hi
    have := hret i a hi
    rw [Nat.zero_add] at this
    exact this
  · intro a
    rw [hargv, hs1]
    exact hobj a

/-- C21: when its two allocations succeed and `argv` holds `argc` allocated
objects (so `argc` is not negative), `slowlogCreateEntry` returns an entry
with exactly `min argc SLOWLOG_ENTRY_MAX_ARGC` stored arguments.  When `argc`
is at most `SLOWLOG_ENTRY_MAX_ARGC`, stored argument `j` is the stored form of
`argv[j]` for every `j`, and there is no marker.  When `argc` is larger, the
first `SLOWLOG_ENTRY_MAX_ARGC - 1` stored arguments are the stored forms of
the first arguments of `argv`, and the last one is the string
`... (K more arguments)` with `K = argc - SLOWLOG_ENTRY_MAX_ARGC + 1`, so that
the arguments kept and `K` add up to `argc`. -/
theorem slowlogCreateEntry_argc_cap {s : redisServer} {argv : List Ptr} {argc : Int}
    (duration : Int) (now : Int) {e b : Ptr} {rest : List (Option Ptr)}
    (halloc : s.mem.alloc = some e :: some b :: rest) (hv : validArgv s.objs argv argc) :
    ∃ s1 en, slowlogCreateEntry s argv argc duration now = some (e, s1) ∧
      s1.entries e = some en ∧ 0 ≤ argc ∧
      en.argc = min argc SLOWLOG_ENTRY_MAX_ARGC ∧
      (en.argv.length : Int) = min argc SLOWLOG_ENTRY_MAX_ARGC ∧
      (argc ≤ SLOWLOG_ENTRY_MAX_ARGC →
        ∀ j : Nat, (j : Int) < argc →
          ∃ a o, argv.get? j = some a ∧ s.objs a = some o ∧
            en.argv.get? j = some (specStoredArg o a)) ∧
      (argc > SLOWLOG_ENTRY_MAX_ARGC →
        (∀ j : Nat, (j : Int) < SLOWLOG_ENTRY_MAX_ARGC - 1 →
          ∃ a o, argv.get? j = some a ∧ s.objs a = some o ∧
            en.argv.get? j = some (specStoredArg o a)) ∧
        en.argv.get? (SLOWLOG_ENTRY_MAX_ARGC - 1).toNat =
          some (specMoreArguments (argc - SLOWLOG_ENTRY_MAX_ARGC + 1)) ∧
        (SLOWLOG_ENTRY_MAX_ARGC - 1) + (argc - SLOWLOG_ENTRY_MAX_ARGC + 1) = argc) := by
  have hnn : 0 ≤ argc := by
    rw [hv.1]
    exact Int.natCast_nonneg _
  by_cases hgt : argc > SLOWLOG_ENTRY_MAX_ARGC
  · obtain ⟨s1, en, hrun, hen, hargc, hlen, hpt, _, _⟩ :=
      slowlogCreateEntry_spec duration now
        (by rw [if_pos hgt] : SLOWLOG_ENTRY_MAX_ARGC =
          if argc > SLOWLOG_ENTRY_MAX_ARGC then SLOWLOG_ENTRY_MAX_ARGC else argc) halloc hv
    have hmin : min argc SLOWLOG_ENTRY_MAX_ARGC = SLOWLOG_ENTRY_MAX_ARGC :=
      min_eq_right (le_of_lt hgt)
    refine ⟨s1, en, hrun, hen, hnn, by rw [hmin]; exact hargc, by rw [hmin]; exact hlen,
      fun h => absurd hgt (not_lt.mpr h), fun _ => ⟨?_, ?_, by omega⟩⟩
    · intro j hj
      rcases hpt j (by omega) with ⟨_, h2, _⟩ | ⟨_, h⟩
      · omega
      · exact h
    · have h31 : (((SLOWLOG_ENTRY_MAX_ARGC - 1).toNat : Nat) : Int) =
          SLOWLOG_ENTRY_MAX_ARGC - 1 := by
        unfold SLOWLOG_ENTRY_MAX_ARGC
        decide
      rcases hpt (SLOWLOG_ENTRY_MAX_ARGC - 1).toNat (by rw [h31]; omega) with
        ⟨_, _, h⟩ | ⟨hno, _⟩
      · exact h
      · exact absurd ⟨ne_of_lt hgt, h31⟩ hno
  · have hle : argc ≤ SLOWLOG_ENTRY_MAX_ARGC := not_lt.mp hgt
    obtain ⟨s1, en, hrun, hen, hargc, hlen, hpt, _, _⟩ :=
      slowlogCreateEntry_spec duration now
        (by rw [if_neg hgt] : argc =
          if argc > SLOWLOG_ENTRY_MAX_ARGC then SLOWLOG_ENTRY_MAX_ARGC else argc) halloc hv
    have hmin : min argc SLOWLOG_ENTRY_MAX_ARGC = argc := min_eq_left hle
    refine ⟨s1, en, hrun, hen, hnn, by rw [hmin]; exact hargc, by rw [hmin]; exact hlen,
      fun _ => ?_, fun h => absurd h hgt⟩
    intro j hj
    rcases hpt j hj with ⟨h1, _, _⟩ | ⟨_, h⟩
    · exact absurd rfl h1
    · exact h

theorem slowlogCreateEntry_argc_cap_witness :
    validArgv (argServer 40 [some 100, some 101]).objs (List.range 40) 40 ∧
    ∃ s1 en, slowlogCreateEntry (argServer 40 [some 100, some 101]) (List.range 40) 40 5 1000 =
        some (100, s1) ∧
      s1.entries 100 = some en ∧ en.argc = 32 ∧ (en.argv.length : Int) = 32 ∧
      en.argv.get? 0 = some (slowlogArg.retained 0) ∧
      en.argv.get? 31 = some (slowlogArg.created
        (robj.mk OBJ_STRING OBJ_ENCODING_RAW 1 "... (9 more arguments)".toList)) := by
  have hv : validArgv (argServer 40 [some 100, some 101]).objs (List.range 40) 40 := by decide
  obtain ⟨s1, en, hrun, hen, _, hargc, hlen, _, hbig⟩ :=
    slowlogCreateEntry_argc_cap 5 1000 rfl hv
  obtain ⟨hpt, hlast, _⟩ := hbig (by decide)
  obtain ⟨a, o, ha, ho, h0⟩ := hpt 0 (by decide)
  have ha' : a = 0 := by
    have : (List.range 40).get? 0 = some 0 := rfl
    rw [this] at ha
    exact (Option.some.inj ha).symm
  subst ha'
  have ho' : o = robj.mk OBJ_STRING OBJ_ENCODING_RAW 1 ['x'] := by
    have : (argServer 40 [some 100, some 101]).objs 0 =
        some (robj.mk OBJ_STRING OBJ_ENCODING_RAW 1 ['x']) := by decide
    rw [this] at ho
    exact (Option.some.inj ho).symm
  subst ho'
  exact ⟨hv, s1, en, hrun, hen, hargc.trans (by decide), hlen.trans (by decide),
    h0.trans (by decide), hlast.trans (by decide)⟩

/-- C22: one iteration of the loop of `slowlogCreateEntry` on a kept (non
marker) position `j`, where `argv[j]` is the object `o` at address `a`: when
`o` is an sds encoded string of more than `SLOWLOG_ENTRY_MAX_STRING` bytes the
element stored is a new string object made of the first
`SLOWLOG_ENTRY_MAX_STRING` bytes followed by `... (N more bytes)`, `N` being
the number of bytes left out, and no object changes; otherwise the element
stored is the object `a` itself and its reference count grows by exactly one,
nothing else changing.  For the whole call, when the two allocations succeed
and `argv` holds `argc` allocated objects: every kept stored argument is that
stored form of its argument, and every object keeps its type, encoding and
bytes and gets one reference more per stored argument retaining it. -/
theorem slowlogCreateEntry_truncates {s : redisServer} {argv : List Ptr} {argc : Int}
    (duration : Int) (now : Int) {e b : Ptr} {rest : List (Option Ptr)}
    (halloc : s.mem.alloc = some e :: some b :: rest) (hv : validArgv s.objs argv argc) :
    (∀ (objs : Ptr → Option robj) (slargc : Int) (j : Nat) (a : Ptr) (o : robj),
      ¬ (slargc ≠ argc ∧ (j : Int) = slargc - 1) → argv.get? j = some a → objs a = some o →
      ((o.type = OBJ_STRING ∧ (o.encoding = OBJ_ENCODING_RAW ∨ o.encoding = OBJ_ENCODING_EMBSTR) ∧
          SLOWLOG_ENTRY_MAX_STRING < o.ptr.length) →
        slowlogCreateArg objs argv argc slargc j =
          some (slowlogArg.created (robj.mk OBJ_STRING OBJ_ENCODING_RAW 1
            (o.ptr.take SLOWLOG_ENTRY_MAX_STRING ++
              ("... (" ++ toString (o.ptr.length - SLOWLOG_ENTRY_MAX_STRING) ++
                " more bytes)").toList)), objs)) ∧
      (¬ (o.type = OBJ_STRING ∧ (o.encoding = OBJ_ENCODING_RAW ∨ o.encoding = OBJ_ENCODING_EMBSTR) ∧
          SLOWLOG_ENTRY_MAX_STRING < o.ptr.length) →
        slowlogCreateArg objs argv argc slargc j =
          some (slowlogArg.retained a,
            Function.update objs a
              (some (robj.mk o.type o.encoding (o.refcount + 1) o.ptr))))) ∧
    ∃ s1 en, slowlogCreateEntry s argv argc duration now = some (e, s1) ∧
      s1.entries e = some en ∧
      (∀ (j : Nat) (a : Ptr) (o : robj), (j : Int) < en.argc →
        ¬ (en.argc ≠ argc ∧ (j : Int) = en.argc - 1) → argv.get? j = some a →
        s.objs a = some o → en.argv.get? j = some (specStoredArg o a)) ∧
      (∀ a o, s.objs a = some o →
        s1.objs a = some (robj.mk o.type o.encoding
          (o.refcount + en.argv.count (slowlogArg.retained a)) o.ptr) ∧
        en.argv.count (slowlogArg.retained a) ≤ argv.count a) ∧
      (∀ a, s.objs a = none → s1.objs a = none) := by
  constructor
  · intro objs slargc j a o hm ha ho
    have hsds : (o.encoding = OBJ_ENCODING_RAW ∨ o.encoding = OBJ_ENCODING_EMBSTR) ↔
        sdsEncodedObject o = true := by
      simp [sdsEncodedObject]
    constructor
    · intro hc
      have hc' : o.type = OBJ_STRING ∧ sdsEncodedObject o = true ∧
          o.ptr.length > SLOWLOG_ENTRY_MAX_STRING := ⟨hc.1, hsds.mp hc.2.1, hc.2.2⟩
      simp only [slowlogCreateArg, if_neg hm, ha, ho, Option.bind_eq_bind, Option.some_bind,
        if_pos hc']
      have := specStoredArg_of_long a hc'
      rw [← this]
      unfold specStoredArg
      rw [if_pos hc]
    · intro hc
      have hc' : ¬ (o.type = OBJ_STRING ∧ sdsEncodedObject o = true ∧
          o.ptr.length > SLOWLOG_ENTRY_MAX_STRING) :=
        fun h => hc ⟨h.1, hsds.mpr h.2.1, h.2.2⟩
      simp only [slowlogCreateArg, if_neg hm, ha, ho, Option.bind_eq_bind, Option.some_bind,
        if_neg hc']
  · obtain ⟨s1, en, hrun, hen, hargc, _, hpt, hret, hobj⟩ :=
      slowlogCreateEntry_spec duration now rfl halloc hv
    refine ⟨s1, en, hrun, hen, ?_, ?_, ?_⟩
    · intro j a o hj hm ha ho
      rw [hargc] at hj hm
      rcases hpt j hj with ⟨h1, h2, _⟩ | ⟨_, a', o', ha', ho', h⟩
      · exact absurd ⟨h1, h2⟩ hm
      · rw [ha] at ha'
        cases ha'
        rw [ho] at ho'
        cases ho'
        exact h
    · intro a o ho
      constructor
      · rw [hobj a, ho]
        rfl
      · have := count_le_count_of_get? (slowlogArg.retained a) a en.argv argv 0 (by
          intro i hi
          rw [Nat.zero_add]
          exact hret i a hi)
        simpa using this
    · intro a ha
      rw [hobj a, ha]
      rfl

set_option maxRecDepth 100000 in
theorem slowlogCreateEntry_truncates_witness :
    validArgv (argServer 200 [some 100, some 101]).objs [3, 199] 2 ∧
    ∃ s1 en, slowlogCreateEntry (argServer 200 [some 100, some 101]) [3, 199] 2 5 1000 =
        some (100, s1) ∧
      s1.entries 100 = some en ∧
      en.argv.get? 0 = some (slowlogArg.retained 3) ∧
      en.argv.get? 1 = some (slowlogArg.created (robj.mk OBJ_STRING OBJ_ENCODING_RAW 1
        (List.replicate 128 'x' ++ "... (72 more bytes)".toList))) ∧
      s1.objs 3 = some (robj.mk OBJ_STRING OBJ_ENCODING_RAW 2 (List.replicate 4 'x')) := by
  have hv : validArgv (argServer 200 [some 100, some 101]).objs [3, 199] 2 := by decide
  obtain ⟨_, s1, en, hrun, hen, hpt, hobj, _⟩ := slowlogCreateEntry_truncates 5 1000 rfl hv
  have hargc : en.argc = 2 := by
    obtain ⟨s1', en', hrun', hen', hargc', _⟩ := slowlogCreateEntry_spec 5 1000 rfl rfl hv
    rw [hrun] at hrun'
    cases hrun'
    rw [hen] at hen'
    cases hen'
    exact hargc'.trans (by decide)
  have h0 := hpt 0 3 (robj.mk OBJ_STRING OBJ_ENCODING_RAW 1 (List.replicate 4 'x'))
    (by rw [hargc]; decide) (by rw [hargc]; decide) rfl rfl
  have h1 := hpt 1 199 (robj.mk OBJ_STRING OBJ_ENCODING_RAW 1 (List.replicate 200 'x'))
    (by rw [hargc]; decide) (by rw [hargc]; decide) rfl rfl
  have h3 := hobj 3 (robj.mk OBJ_STRING OBJ_ENCODING_RAW 1 (List.replicate 4 'x')) rfl
  have hc : en.argv.count (slowlogArg.retained 3) = 1 := by
    have hle : en.argv.count (slowlogArg.retained 3) ≤ 1 := h3.2
    have hmem : slowlogArg.retained 3 ∈ en.argv := List.get?_mem (h0.trans (by decide))
    have := List.count_pos_iff.mpr hmem
    omega
  refine ⟨hv, s1, en, hrun, hen, h0.trans (by decide), h1.trans (by decide), ?_⟩
  rw [h3.1, hc]
  rfl

theorem wrapLong_pred {x : Int} (h0 : 0 < x) (h1 : x < 2 ^ 63) : wrapLong (x - 1) = x - 1 := by
  unfold wrapLong
  omega

/-- The reply calls for an entry whose `argc` is the number of its stored
arguments. -/
theorem slowlogEntryReply_of_valid {s : redisServer} {q : Ptr} {se : slowlogEntry}
    (h : entryAt s q = some se) (hargc : se.argc = (se.argv.length : Int)) :
    slowlogEntryReply se = some (nodeReply s q) := by
  unfold slowlogEntryReply nodeReply
  rw [h, if_pos (le_of_eq hargc)]
  simp [hargc]

/-- The loop of `SLOWLOG GET` over the remaining nodes `rem` of the slow log,
with a `count` that is not negative: it replies for the first `count` nodes of
`rem`, in order, and counts them in `sent`. -/
theorem slowlogGetLoop_spec (s : redisServer) (rem : List Ptr) :
    ∀ (fuel : Nat) (b : Option Ptr) (count sent : Int) (reply : List replyCall),
      seg s.mem b rem none →
      (∀ q ∈ rem, ∃ se, entryAt s q = some se ∧ se.argc = (se.argv.length : Int)) →
      rem.length < fuel → 0 ≤ count → count < 2 ^ 63 →
      slowlogGetLoop fuel s { next := rem.head?, direction := AL_START_HEAD } count sent reply =
        some (sent + ((min count.toNat rem.length : Nat) : Int),
          reply ++ (rem.take count.toNat).flatMap (nodeReply s)) := by
  induction rem with
  | nil =>
    intro fuel b count sent reply _ _ hfuel _ _
    obtain ⟨f, rfl⟩ : ∃ f, fuel = f + 1 := ⟨fuel - 1, by simp at hfuel; omega⟩
    by_cases hc : count = 0
    · simp [slowlogGetLoop, hc]
    · simp [slowlogGetLoop, hc, listNext]
  | cons x xs ih =>
    intro fuel b count sent reply hseg hent hfuel h0 h1
    obtain ⟨f, rfl⟩ : ∃ f, fuel = f + 1 := ⟨fuel - 1, by simp at hfuel; omega⟩
    by_cases hc : count = 0
    · simp [slowlogGetLoop, hc]
    · obtain ⟨⟨n, hn, _, hnx⟩, hrest⟩ := hseg
      obtain ⟨se, hse, hargc⟩ := hent x (List.mem_cons_self _ _)
      have hse' : s.entries n.value = some se := by
        unfold entryAt valueAt at hse
        rw [hn] at hse
        exact hse
      have hpos : 0 < count := by omega
      have hnx' : n.next = xs.head? := by
        rw [hnx]
        exact firstOr_none xs
      have hrec := ih f (some x) (count - 1) (sent + 1) (reply ++ nodeReply s x) hrest
        (fun q hq => hent q (List.mem_cons_of_mem _ hq))
        (by simp only [List.length_cons] at hfuel; omega) (by omega) (by omega)
      have htn : count.toNat = (count - 1).toNat + 1 := by omega
      simp only [slowlogGetLoop, if_neg hc, List.head?_cons, listNext_forward hn,
        Option.bind_eq_bind, Option.some_bind, hn, hse', slowlogEntryReply_of_valid hse hargc,
        wrapLong_pred hpos h1, hnx', hrec]
      rw [htn, List.take_succ_cons, List.flatMap_cons, List.append_assoc]
      congr 2
      simp only [List.length_cons]
      have : min ((count - 1).toNat + 1) (xs.length + 1) = min (count - 1).toNat xs.length + 1 :=
        Nat.succ_min_succ _ _
      rw [this]
      push_cast
      omega

/-- A string equal to `t` when the case is ignored is not equal to a string
`u` that differs from `t` when the case is ignored. -/
theorem strcaseEq_excl {s : sds} {t u : String} (h : strcaseEq s t = true)
    (hne : (t.toList.map Char.toLower == u.toList.map Char.toLower) = false) :
    strcaseEq s u = false := by
  unfold strcaseEq at h ⊢
  rw [eq_of_beq h]
  exact hne

/-- C23: `SLOWLOG GET` on a well formed slow log with node sequence `ps` (the
head first) whose entries are allocated, with `argc` equal to the number of
their stored arguments.  With a count `cnt` that is not negative, given as
third argument, or with the default count 10 when there is none, the command
leaves the server state as it is and makes, after the calls already recorded,
the call `addDeferredMultiBulkLength`, then for each of the first `cnt` nodes
of `ps`, in order, the calls that reply the length 4, the identifier, the time,
the duration, the number of arguments and the stored arguments of its entry,
and at last `setDeferredMultiBulkLength` with the handle of the deferred
length and the number `min cnt n` of entries sent. -/
theorem slowlogCommand_get (getLongFromObject : robj → Option Int) {s : redisServer}
    {c : client} {lp : Ptr} {ps : List Ptr} {a1 : Ptr} {o1 : robj} (fuel : Nat) (cnt : Int)
    (hlp : s.slowlog = some lp) (hwf : WF s.mem lp ps) (hfuel : ps.length < fuel)
    (hent : ∀ q ∈ ps, ∃ se, entryAt s q = some se ∧ se.argc = (se.argv.length : Int))
    (ha1 : c.argv.get? 1 = some a1) (ho1 : s.objs a1 = some o1)
    (hget : strcaseEq o1.ptr "get" = true)
    (hcount : (c.argc = 2 ∧ cnt = 10) ∨
      (c.argc = 3 ∧ ∃ a2 o2, c.argv.get? 2 = some a2 ∧ s.objs a2 = some o2 ∧
        getLongFromObject o2 = some cnt))
    (h0 : 0 ≤ cnt) (h1 : cnt < 2 ^ 63) :
    slowlogCommand getLongFromObject fuel s c =
      some (s, { c with reply := c.reply ++ [replyCall.addDeferredMultiBulkLength] ++
        (ps.take cnt.toNat).flatMap (nodeReply s) ++
        [replyCall.setDeferredMultiBulkLength c.reply.length
          ((min cnt.toNat ps.length : Nat) : Int)] }) ∧
    (ps.take cnt.toNat).length = min cnt.toNat ps.length ∧
    ((min cnt.toNat ps.length : Nat) : Int) = min cnt (ps.length : Int) := by
  obtain ⟨l, hl, hhead, _, _, hseg⟩ := hwf
  have hreset : strcaseEq o1.ptr "reset" = false := strcaseEq_excl hget (by decide)
  have hlen : strcaseEq o1.ptr "len" = false := strcaseEq_excl hget (by decide)
  have hloop := slowlogGetLoop_spec s ps fuel none cnt 0
    (c.reply ++ [replyCall.addDeferredMultiBulkLength]) hseg hent hfuel h0 h1
  have hrw : listRewind s.mem lp = some { next := ps.head?, direction := AL_START_HEAD } := by
    simp [listRewind, hl, hhead]
  refine ⟨?_, List.length_take _ _, by omega⟩
  rcases hcount with ⟨hargc, hcnt⟩ | ⟨hargc, a2, o2, ha2, ho2, hparse⟩
  · subst hcnt
    simp only [slowlogCommand, argvIs, hargc, if_true, ha1, ho1, Option.bind_eq_bind,
      Option.some_bind, Option.pure_def, hreset, hlen, hget, Bool.false_eq_true, if_false,
      true_or, hlp, hrw, hloop, show ¬ ((2 : Int) = 3) by decide]
    simp
  · simp only [slowlogCommand, argvIs, hargc, if_true, ha1, ho1, ha2, ho2, hparse,
      Option.bind_eq_bind, Option.some_bind, Option.pure_def, hget, Bool.false_eq_true,
      if_false, or_true, hlp, hrw, hloop, show ¬ ((3 : Int) = 2) by decide]
    simp

theorem slowlogCommand_get_witness :
    WF (getServer []).mem 1 [10, 11, 12] ∧
    slowlogCommand (fun _ => some 2) 4 (getServer []) { argc := 3, argv := [49, 50, 51], reply := [] } =
      some (getServer [], { argc := 3, argv := [49, 50, 51], reply :=
        [replyCall.addDeferredMultiBulkLength,
          replyCall.addReplyMultiBulkLen 4, replyCall.addReplyLongLong 2,
          replyCall.addReplyLongLong 1002, replyCall.addReplyLongLong 30,
          replyCall.addReplyMultiBulkLen 0,
          replyCall.addReplyMultiBulkLen 4, replyCall.addReplyLongLong 1,
          replyCall.addReplyLongLong 1001, replyCall.addReplyLongLong 20,
          replyCall.addReplyMultiBulkLen 0,
          replyCall.setDeferredMultiBulkLength 0 2] }) := by
  have hwf : WF (getServer []).mem 1 [10, 11, 12] :=
    threeListMem_WF none (some SLOWLOG_FREE_ENTRY) []
  have h := (slowlogCommand_get (fun _ => some 2) 4 2 rfl hwf (by decide)
    (by
      intro q hq
      simp only [List.mem_cons, List.mem_singleton, List.not_mem_nil, or_false] at hq
      rcases hq with rfl | rfl | rfl
      · exact ⟨_, rfl, rfl⟩
      · exact ⟨_, rfl, rfl⟩
      · exact ⟨_, rfl, rfl⟩)
    (rfl : ({ argc := 3, argv := [49, 50, 51], reply := [] } : client).argv.get? 1 = some 50)
    (rfl : (getServer []).objs 50 = some (robj.mk OBJ_STRING OBJ_ENCODING_RAW 1 "GET".toList))
    (by decide) (Or.inr ⟨rfl, 51, _, rfl, rfl, rfl⟩) (by decide) (by decide)).1
  exact ⟨hwf, h.trans (by rfl)⟩

end Slowlog
